import Mathlib

/-!
# TestSNAP: index tables, coupling cache, force contraction

A shallow embedding of `src/testSNAP-sycl/main.cpp`.

Conventions of the embedding.

* A C array is a total function from its index to its cell; an assignment
  `a[i] = v` is `Function.update a i v`.  The content of freshly allocated
  memory is a parameter, so that "cell never written" reads "cell equal to its
  initial content".
* A `for` loop with a fixed iteration sequence is a `List.foldl` over that
  sequence, the loop body being the step function.
* C `int` is a mathematical integer (`ℕ` for counters that only count upwards
  from a non-negative start, `ℤ` wherever the source subtracts); `/` on `int` is
  `Int.tdiv`, truncation toward zero.  Signed overflow is not modelled.
* `double` arithmetic is exact arithmetic in a field `K`.
* The index macros of `snap.h` (`IDXZ_INDEX`, `INDEX_2D`, `ULIST_INDEX`,
  `DULIST_INDEX`, `F_INDEX`) only lay a multi-dimensional array out in memory;
  an array addressed through them is a function of the macro's arguments.
-/

namespace TestSNAP

/-! ## The `(j1, j2, j)` loop nest -/

/-- Values taken by `j` in
`for (int j = abs(j1 - j2); j <= MIN(twojmax, j1 + j2); j += 2)`:
the numbers of `[abs(j1 - j2), MIN(twojmax, j1 + j2)]` at an even distance from
the start, in increasing order. -/
def jloop (twojmax j1 j2 : ℕ) : List ℕ :=
  (List.range (min twojmax (j1 + j2) + 1)).filter fun j =>
    decide (Int.natAbs ((j1 : ℤ) - (j2 : ℤ)) ≤ j ∧
      (j - Int.natAbs ((j1 : ℤ) - (j2 : ℤ))) % 2 = 0)

/-- Iterations of the nest
`for (j1 = 0; j1 <= twojmax; j1++) for (j2 = 0; j2 <= j1; j2++) for (j = ...; j += 2)`,
in execution order. -/
def triples (twojmax : ℕ) : List (ℕ × ℕ × ℕ) :=
  (List.range (twojmax + 1)).flatMap fun j1 =>
    (List.range (j1 + 1)).flatMap fun j2 =>
      (jloop twojmax j1 j2).map fun j => (j1, j2, j)

/-- Values taken by `mb` in `for (int mb = 0; 2 * mb <= j; mb++)`. -/
def mbloop (j : ℕ) : List ℕ := List.range (j / 2 + 1)

/-- Values taken by `ma` in `for (int ma = 0; ma <= j; ma++)`. -/
def maloop (j : ℕ) : List ℕ := List.range (j + 1)

/-! ## Z-list: counting loop and fill loop (main.cpp 208-289) -/

/-- Counting loop of main.cpp 210-219: `idxz_count++` once per `(j1, j2, j, mb, ma)`. -/
def idxz_max (twojmax : ℕ) : ℕ :=
  (triples twojmax).foldl
    (fun cnt t => (mbloop t.2.2).foldl
      (fun cnt _ => (maloop t.2.2).foldl (fun cnt _ => cnt + 1) cnt) cnt) 0

/-- Host tables written by the fill loop of main.cpp 229-289.
`idxz i c` is the cell `idxz[IDXZ_INDEX(i, c)]`. -/
structure ZTables (K : Type) where
  idxz_count : ℕ
  idxz : ℕ → ℕ → ℤ
  idxzbeta : ℕ → K
  idxz_block : ℕ → ℕ

/-- Assignment to one cell of a two-index array. -/
def set2 {α : Type} (a : ℕ → ℕ → α) (i c : ℕ) (v : α) : ℕ → ℕ → α :=
  fun i' c' => if i' = i ∧ c' = c then v else a i' c'

/-- Selection of `betaj`, main.cpp 240-264.  `idxb_block` is the reverse index
table (flat, `jdim = twojmax + 1`), `beta` the coefficient vector
(`beta = coeffi + 1`, hence addressed by an `int`). -/
def betaj {K : Type} [Field K] (twojmax : ℕ) (idxb_block : ℕ → ℤ) (beta : ℤ → K)
    (j1 j2 j : ℕ) : K :=
  let jdim := twojmax + 1
  if j ≥ j1 then
    let jjb := idxb_block (j1 * jdim * jdim + j2 * jdim + j)
    if j1 = j then
      if j2 = j then 3 * beta jjb
      else 2 * beta jjb
    else beta jjb
  else if j ≥ j2 then
    let jjb := idxb_block (j * jdim * jdim + j2 * jdim + j1)
    if j2 = j then 2 * beta jjb * ((j1 : K) + 1) / ((j : K) + 1)
    else beta jjb * ((j1 : K) + 1) / ((j : K) + 1)
  else
    let jjb := idxb_block (j2 * jdim * jdim + j * jdim + j1)
    beta jjb * ((j1 : K) + 1) / ((j : K) + 1)

/-- Field 3 (resp. 6) of a record: `MAX(0, (2 * ma - j - j2 + j1) / 2)`. -/
def zmin (j1 j2 j m : ℕ) : ℤ :=
  max 0 (Int.tdiv (2 * (m : ℤ) - j - j2 + j1) 2)

/-- Field 4 (resp. 7): `(2 * ma - j - (2 * ma1min - j1) + j2) / 2`. -/
def zmax (j1 j2 j m : ℕ) : ℤ :=
  Int.tdiv (2 * (m : ℤ) - j - (2 * zmin j1 j2 j m - j1) + j2) 2

/-- Field 5 (resp. 8): `MIN(j1, (2 * ma - j + j2 + j1) / 2) - ma1min + 1`. -/
def zn (j1 j2 j m : ℕ) : ℤ :=
  min (j1 : ℤ) (Int.tdiv (2 * (m : ℤ) - j + j2 + j1) 2) - zmin j1 j2 j m + 1

/-- Body of the `(mb, ma)` loops, main.cpp 267-288: nine cells of record
`idxz_count`, one cell of `idxzbeta`, then `idxz_count++`. -/
def zfill_entry {K : Type} (j1 j2 j : ℕ) (bj : K) (mb ma : ℕ) (s : ZTables K) :
    ZTables K :=
  let n := s.idxz_count
  let z0 := set2 s.idxz n 0 (j1 : ℤ)
  let z1 := set2 z0 n 1 (j2 : ℤ)
  let z2 := set2 z1 n 2 (j : ℤ)
  let ma1min := zmin j1 j2 j ma
  let z3 := set2 z2 n 3 ma1min
  let z4 := set2 z3 n 4 (Int.tdiv (2 * (ma : ℤ) - j - (2 * ma1min - j1) + j2) 2)
  let z5 := set2 z4 n 5 (min (j1 : ℤ) (Int.tdiv (2 * (ma : ℤ) - j + j2 + j1) 2) - ma1min + 1)
  let mb1min := zmin j1 j2 j mb
  let z6 := set2 z5 n 6 mb1min
  let z7 := set2 z6 n 7 (Int.tdiv (2 * (mb : ℤ) - j - (2 * mb1min - j1) + j2) 2)
  let z8 := set2 z7 n 8 (min (j1 : ℤ) (Int.tdiv (2 * (mb : ℤ) - j + j2 + j1) 2) - mb1min + 1)
  { s with idxz := z8, idxzbeta := Function.update s.idxzbeta n bj, idxz_count := n + 1 }

/-- Body of the `j` loop, main.cpp 233-288. -/
def zfill_triple {K : Type} [Field K] (twojmax : ℕ) (idxb_block : ℕ → ℤ) (beta : ℤ → K)
    (s : ZTables K) (t : ℕ × ℕ × ℕ) : ZTables K :=
  let j1 := t.1
  let j2 := t.2.1
  let j := t.2.2
  let jdim := twojmax + 1
  let s1 : ZTables K :=
    { s with idxz_block :=
        Function.update s.idxz_block (j1 * jdim * jdim + j2 * jdim + j) s.idxz_count }
  let bj := betaj twojmax idxb_block beta j1 j2 j
  (mbloop j).foldl
    (fun s mb => (maloop j).foldl (fun s ma => zfill_entry j1 j2 j bj mb ma s) s) s1

/-- Fill loop of main.cpp 229-289: `idxz_count = 0`, then the loop nest.
`mem` is the content of the three allocations before the loop. -/
def zfill {K : Type} [Field K] (twojmax : ℕ) (idxb_block : ℕ → ℤ) (beta : ℤ → K)
    (mem : ZTables K) : ZTables K :=
  (triples twojmax).foldl (zfill_triple twojmax idxb_block beta)
    { mem with idxz_count := 0 }

/-- Value of cell `c` of the record the fill loop builds for `(j1, j2, j, mb, ma)`. -/
def zfields (j1 j2 j mb ma : ℕ) (c : ℕ) : ℤ :=
  match c with
  | 0 => j1
  | 1 => j2
  | 2 => j
  | 3 => zmin j1 j2 j ma
  | 4 => zmax j1 j2 j ma
  | 5 => zn j1 j2 j ma
  | 6 => zmin j1 j2 j mb
  | 7 => zmax j1 j2 j mb
  | 8 => zn j1 j2 j mb
  | _ => 0

/-- Index tuples the specification lists: `0 ≤ j2 ≤ j1 ≤ twojmax`,
`j ∈ {|j1-j2|, |j1-j2|+2, ...}`, `j ≤ min(twojmax, j1+j2)`, `2*mb ≤ j`, `ma ≤ j`. -/
def ZTuple (twojmax j1 j2 j mb ma : ℕ) : Prop :=
  j2 ≤ j1 ∧ j1 ≤ twojmax ∧ (∃ k, j = (j1 - j2) + 2 * k) ∧
    j ≤ min twojmax (j1 + j2) ∧ 2 * mb ≤ j ∧ ma ≤ j

/-- Number of records of one `(j1, j2, j)` block of the Z-list. -/
def zsize (t : ℕ × ℕ × ℕ) : ℕ := (t.2.2 / 2 + 1) * (t.2.2 + 1)

/-- Flat key `j1*jdim*jdim + j2*jdim + j` of `idxz_block` and `idxb_block`. -/
def zkey (twojmax : ℕ) (t : ℕ × ℕ × ℕ) : ℕ :=
  t.1 * (twojmax + 1) * (twojmax + 1) + t.2.1 * (twojmax + 1) + t.2.2

/-! ## Reverse index list for beta (main.cpp 194-205) -/

/-- Counter and table of the loop of main.cpp 196-205. -/
structure BTables where
  idxb_count : ℕ
  idxb_block : ℕ → ℤ

/-- Body of the loop of main.cpp 200-205: `if (j < j1) continue;` then one cell and
`idxb_count++`. -/
def idxb_block_step (twojmax : ℕ) (s : BTables) (t : ℕ × ℕ × ℕ) : BTables :=
  let j1 := t.1
  let j2 := t.2.1
  let j := t.2.2
  let jdim := twojmax + 1
  if j < j1 then s
  else
    { idxb_block :=
        Function.update s.idxb_block (j1 * jdim * jdim + j2 * jdim + j) (s.idxb_count : ℤ)
      idxb_count := s.idxb_count + 1 }

/-- Loop of main.cpp 196-205; `mem` is the content of the allocation before it. -/
def idxb_block_fill (twojmax : ℕ) (mem : ℕ → ℤ) : BTables :=
  (triples twojmax).foldl (idxb_block_step twojmax) { idxb_count := 0, idxb_block := mem }

/-- Multiplicity as the specification words it: 3 when `j1 = j2 = j`, 2 when exactly two of
`j1, j2, j` are equal, 1 when the three are distinct. -/
def zmult_spec (j1 j2 j : ℕ) : ℕ :=
  if j1 = j2 ∧ j2 = j then 3
  else if j1 = j2 ∨ j2 = j ∨ j1 = j then 2
  else 1

/-- Multiplicity as amended: 3 when `j1 = j2 = j`, 2 when exactly one of `j1, j2`
equals `j`, 1 when neither `j1` nor `j2` equals `j`. -/
def zmult (j1 j2 j : ℕ) : ℕ :=
  if j1 = j ∧ j2 = j then 3
  else if j1 = j ∨ j2 = j then 2
  else 1

/-! ## Index list for duarray, yarray (main.cpp 155-169) -/

/-- Counter and table of the loop of main.cpp 160-169. -/
structure DUTables where
  idxdu_count : ℕ
  idxdu_block : ℕ → ℕ

/-- Body of the `j` loop of main.cpp 163-168. -/
def idxdu_step (s : DUTables) (j : ℕ) : DUTables :=
  let blk := Function.update s.idxdu_block j s.idxdu_count
  let cnt := (mbloop j).foldl
    (fun cnt _ => (maloop j).foldl (fun cnt _ => cnt + 1) cnt) s.idxdu_count
  { idxdu_count := cnt, idxdu_block := blk }

/-- Loop of main.cpp 160-169; `mem` is the content of the allocation before it.
`idxdu_max` is the final `idxdu_count`. -/
def idxdu_fill (twojmax : ℕ) (mem : ℕ → ℕ) : DUTables :=
  (List.range (twojmax + 1)).foldl idxdu_step { idxdu_count := 0, idxdu_block := mem }

/-! ## Force contraction `compute_deidrj` (main.cpp 810-866) -/

/-- The `COMPLEX` of `snap.h`: a pair of doubles `re`, `im`. -/
@[ext]
structure Cplx (K : Type) where
  re : K
  im : K

/-- Complex sum. -/
def Cplx.add {K : Type} [Field K] (z w : Cplx K) : Cplx K :=
  { re := z.re + w.re, im := z.im + w.im }

/-- Complex difference. -/
def Cplx.sub {K : Type} [Field K] (z w : Cplx K) : Cplx K :=
  { re := z.re - w.re, im := z.im - w.im }

/-- Complex product. -/
def Cplx.mul {K : Type} [Field K] (z w : Cplx K) : Cplx K :=
  { re := z.re * w.re - z.im * w.im, im := z.re * w.im + z.im * w.re }

/-- Complex conjugate. -/
def Cplx.conj {K : Type} [Field K] (z : Cplx K) : Cplx K :=
  { re := z.re, im := -z.im }

/-- Product of a real number and a complex number. -/
def Cplx.smul {K : Type} [Field K] (r : K) (z : Cplx K) : Cplx K :=
  { re := r * z.re, im := r * z.im }

/-- Values taken by `mb` in `for (int mb = 0; 2 * mb < j; mb++)`. -/
def mbloop_lt (j : ℕ) : List ℕ := List.range ((j + 1) / 2)

/-- State of one work item of `compute_deidrj`: the three cells
`dedr[ULIST_INDEX(natom, nbor, k)]` and the cursor `jjdu`. -/
structure DState (K : Type) where
  dedr : ℕ → K
  jjdu : ℕ

/-- The product `dulist[DULIST_INDEX(natom, nbor, jjdu, k)].re * ylist[..jjdu].re
+ dulist[..].im * ylist[..].im` of main.cpp 828-829, for the pair at hand;
`ylist jjdu` is `ylist[INDEX_2D(natom, jjdu)]`, `dulist jjdu k` is
`dulist[DULIST_INDEX(natom, nbor, jjdu, k)]`. -/
def dterm {K : Type} [Field K] (ylist : ℕ → Cplx K) (dulist : ℕ → ℕ → Cplx K)
    (jjdu k : ℕ) : K :=
  (dulist jjdu k).re * (ylist jjdu).re + (dulist jjdu k).im * (ylist jjdu).im

/-- Loop body of main.cpp 823-830 and 839-846: `for k < 3: dedr[k] += ...`, `jjdu++`. -/
def deidrj_full {K : Type} [Field K] (ylist : ℕ → Cplx K) (dulist : ℕ → ℕ → Cplx K)
    (s : DState K) : DState K :=
  { dedr := fun k => if k < 3 then s.dedr k + dterm ylist dulist s.jjdu k else s.dedr k
    jjdu := s.jjdu + 1 }

/-- Statement of main.cpp 849-857: `for k < 3: dedr[k] += (...) * 0.5`, `jjdu++`. -/
def deidrj_half {K : Type} [Field K] (ylist : ℕ → Cplx K) (dulist : ℕ → ℕ → Cplx K)
    (s : DState K) : DState K :=
  { dedr := fun k =>
      if k < 3 then s.dedr k + dterm ylist dulist s.jjdu k * (1 / 2) else s.dedr k
    jjdu := s.jjdu + 1 }

/-- Body of the `j` loop of main.cpp 817-861. -/
def deidrj_level {K : Type} [Field K] (idxdu_block : ℕ → ℕ) (ylist : ℕ → Cplx K)
    (dulist : ℕ → ℕ → Cplx K) (s : DState K) (j : ℕ) : DState K :=
  let s0 : DState K := { s with jjdu := idxdu_block j }
  let s1 := (mbloop_lt j).foldl
    (fun s _ => (maloop j).foldl (fun s _ => deidrj_full ylist dulist s) s) s0
  if j % 2 = 0 then
    let mb := j / 2
    let s2 := (List.range mb).foldl (fun s _ => deidrj_full ylist dulist s) s1
    deidrj_half ylist dulist s2
  else s1

/-- One work item of `compute_deidrj` (main.cpp 814-864): zero the three cells, run the
`j` loop, double the three cells.  `dedr0` is the previous content of `dedr`. -/
def compute_deidrj {K : Type} [Field K] (twojmax : ℕ) (idxdu_block : ℕ → ℕ)
    (ylist : ℕ → Cplx K) (dulist : ℕ → ℕ → Cplx K) (dedr0 : ℕ → K) : ℕ → K :=
  let s0 : DState K := { dedr := fun k => if k < 3 then 0 else dedr0 k, jjdu := 0 }
  let s1 := (List.range (twojmax + 1)).foldl (deidrj_level idxdu_block ylist dulist) s0
  fun k => if k < 3 then s1.dedr k * 2 else s1.dedr k

/-- Weight of the specification: `0.5` on the midline `2*mb = j`, `1` for `2*mb < j`. -/
def dweight_spec (K : Type) [Field K] (j mb : ℕ) : K :=
  if 2 * mb = j then 1 / 2 else 1

/-- The sum as the specification words it:
`2 * SUM_j SUM_{2*mb <= j} SUM_{ma <= j} w(j,mb) * (dU.re*Y.re + dU.im*Y.im)`,
entries taken at logical index `idxdu_block[j] + mb*(j+1) + ma`. -/
def dedr_spec {K : Type} [Field K] (twojmax : ℕ) (idxdu_block : ℕ → ℕ)
    (ylist : ℕ → Cplx K) (dulist : ℕ → ℕ → Cplx K) (k : ℕ) : K :=
  2 * ∑ j ∈ Finset.range (twojmax + 1), ∑ mb ∈ Finset.range (j / 2 + 1),
    ∑ ma ∈ Finset.range (j + 1),
      dweight_spec K j mb * dterm ylist dulist (idxdu_block j + mb * (j + 1) + ma) k

/-- Weight the kernel applies: `1` for `2*mb < j`; on the midline `2*mb = j`,
`1` for `ma < mb`, `0.5` for `ma = mb`, `0` for `ma > mb`. -/
def dweight (K : Type) [Field K] (j mb ma : ℕ) : K :=
  if 2 * mb < j then 1
  else if ma < mb then 1
  else if ma = mb then 1 / 2
  else 0

/-- The sum with the weight the kernel applies. -/
def dedr_sum {K : Type} [Field K] (twojmax : ℕ) (idxdu_block : ℕ → ℕ)
    (ylist : ℕ → Cplx K) (dulist : ℕ → ℕ → Cplx K) (k : ℕ) : K :=
  2 * ∑ j ∈ Finset.range (twojmax + 1), ∑ mb ∈ Finset.range (j / 2 + 1),
    ∑ ma ∈ Finset.range (j + 1),
      dweight K j mb ma * dterm ylist dulist (idxdu_block j + mb * (j + 1) + ma) k

/-! ## Host force accumulation (main.cpp 415-417, 880-893) -/

/-- Force reset of main.cpp 415-417: `f[j] = 0.0` for `j < ntotal * 3`, i.e. every cell
`f[F_INDEX(i, k)]` with `i < ntotal`, `k < 3`.  `f i k` is `f[F_INDEX(i, k)]`. -/
def force_reset {K : Type} [Field K] (ntotal : ℕ) (f : ℕ → ℕ → K) : ℕ → ℕ → K :=
  fun i k => if i < ntotal ∧ k < 3 then 0 else f i k

/-- Body of the neighbour loop of main.cpp 884-890: six read-modify-write statements.
`dedr natom nbor k` is `dedr[ULIST_INDEX(natom, nbor, k)]`, `jlist natom nbor` the
neighbour id `inside[INDEX_2D(natom, nbor)]`. -/
def force_pair {K : Type} [Field K] (dedr : ℕ → ℕ → ℕ → K) (jlist : ℕ → ℕ → ℕ)
    (natom : ℕ) (f : ℕ → ℕ → K) (nbor : ℕ) : ℕ → ℕ → K :=
  let j := jlist natom nbor
  let f0 := set2 f natom 0 (f natom 0 + dedr natom nbor 0)
  let f1 := set2 f0 natom 1 (f0 natom 1 + dedr natom nbor 1)
  let f2 := set2 f1 natom 2 (f1 natom 2 + dedr natom nbor 2)
  let f3 := set2 f2 j 0 (f2 j 0 - dedr natom nbor 0)
  let f4 := set2 f3 j 1 (f3 j 1 - dedr natom nbor 1)
  set2 f4 j 2 (f4 j 2 - dedr natom nbor 2)

/-- Loops of main.cpp 882-893 over `natom < num_atoms`, `nbor < num_nbor`. -/
def compute_forces {K : Type} [Field K] (num_atoms num_nbor : ℕ) (dedr : ℕ → ℕ → ℕ → K)
    (jlist : ℕ → ℕ → ℕ) (f : ℕ → ℕ → K) : ℕ → ℕ → K :=
  (List.range num_atoms).foldl
    (fun f natom => (List.range num_nbor).foldl (force_pair dedr jlist natom) f) f

/-! ## Coupling evaluator `compute_yi` (main.cpp 645-743) -/

/-- Kernel `reset_ylist` (main.cpp 650-653) seen from one atom: the cells of logical
index `0 ≤ i < idxdu_max` are set to `{0.0, 0.0}`.  `ylist i` is
`ylist[INDEX_2D(natom, i)]`. -/
def reset_ylist {K : Type} [Field K] (idxdu_max : ℕ) (ylist : ℤ → Cplx K) : ℤ → Cplx K :=
  fun i => if 0 ≤ i ∧ i < (idxdu_max : ℤ) then { re := 0, im := 0 } else ylist i

/-- Variables of the `ia` loop of main.cpp 705-728. -/
structure YInner (K : Type) where
  suma1_r : K
  suma1_i : K
  ma1 : ℤ
  ma2 : ℤ
  icga : ℤ

/-- Variables of the `ib` loop of main.cpp 692-735. -/
structure YOuter (K : Type) where
  ztmp_r : K
  ztmp_i : K
  jju1 : ℤ
  jju2 : ℤ
  icgb : ℤ

/-- Body of the `ia` loop, main.cpp 717-727. -/
def yi_inner_step {K : Type} [Field K] (cgblock : ℤ → K) (ulisttot : ℤ → Cplx K)
    (jju1 jju2 j2 : ℤ) (s : YInner K) : YInner K :=
  { suma1_r := s.suma1_r + cgblock s.icga *
      ((ulisttot (jju1 + s.ma1)).re * (ulisttot (jju2 + s.ma2)).re -
        (ulisttot (jju1 + s.ma1)).im * (ulisttot (jju2 + s.ma2)).im)
    suma1_i := s.suma1_i + cgblock s.icga *
      ((ulisttot (jju1 + s.ma1)).re * (ulisttot (jju2 + s.ma2)).im +
        (ulisttot (jju1 + s.ma1)).im * (ulisttot (jju2 + s.ma2)).re)
    ma1 := s.ma1 + 1
    ma2 := s.ma2 - 1
    icga := s.icga + j2 }

/-- Body of the `ib` loop, main.cpp 705-734; `for (ia = 0; ia < na; ia++)` runs
`na.toNat` times. -/
def yi_outer_step {K : Type} [Field K] (cgblock : ℤ → K) (ulisttot : ℤ → Cplx K)
    (j1 j2 ma1min ma2max na : ℤ) (s : YOuter K) : YOuter K :=
  let s0 : YInner K :=
    { suma1_r := 0, suma1_i := 0, ma1 := ma1min, ma2 := ma2max,
      icga := ma1min * (j2 + 1) + ma2max }
  let si := (List.range na.toNat).foldl
    (fun si _ => yi_inner_step cgblock ulisttot s.jju1 s.jju2 j2 si) s0
  { ztmp_r := s.ztmp_r + cgblock s.icgb * si.suma1_r
    ztmp_i := s.ztmp_i + cgblock s.icgb * si.suma1_i
    jju1 := s.jju1 + (j1 + 1)
    jju2 := s.jju2 - (j2 + 1)
    icgb := s.icgb + j2 }

/-- The `ib` loop of one work item, main.cpp 692-735, for a record with fields
`rec 0 .. rec 8`; the result holds `ztmp_r`, `ztmp_i`. -/
def yi_ztmp {K : Type} [Field K] (cgblock : ℤ → K) (idxu_block : ℤ → ℤ)
    (ulisttot : ℤ → Cplx K) (rec : ℕ → ℤ) : YOuter K :=
  let j1 := rec 0
  let j2 := rec 1
  let ma1min := rec 3
  let ma2max := rec 4
  let na := rec 5
  let mb1min := rec 6
  let mb2max := rec 7
  let nb := rec 8
  let s0 : YOuter K :=
    { ztmp_r := 0, ztmp_i := 0
      jju1 := idxu_block j1 + (j1 + 1) * mb1min
      jju2 := idxu_block j2 + (j2 + 1) * mb2max
      icgb := mb1min * (j2 + 1) + mb2max }
  (List.range nb.toNat).foldl
    (fun s _ => yi_outer_step cgblock ulisttot j1 j2 ma1min ma2max na s) s0

/-- Write index `jjdu` of one work item, main.cpp 688-690. -/
def yi_jjdu (idxdu_block : ℤ → ℤ) (rec : ℕ → ℤ) : ℤ :=
  let j1 := rec 0
  let j2 := rec 1
  let j := rec 2
  let ma1min := rec 3
  let ma2max := rec 4
  let mb1min := rec 6
  let mb2max := rec 7
  let mb := Int.tdiv (2 * (mb1min + mb2max) - j1 - j2 + j) 2
  let ma := Int.tdiv (2 * (ma1min + ma2max) - j1 - j2 + j) 2
  idxdu_block j + (j + 1) * mb + ma

/-- One work item `(jjz, natom)` of `compute_yi`, main.cpp 672-742, for a fixed atom.
The two `atomicAdd` of main.cpp 739-740 are executed one after the other. -/
def compute_yi_item {K : Type} [Field K] (twojmax : ℕ) (idxz : ℕ → ℕ → ℤ)
    (idxzbeta : ℕ → K) (idxcg_block idxu_block idxdu_block : ℤ → ℤ) (cglist : ℤ → K)
    (ulisttot : ℤ → Cplx K) (ylist : ℤ → Cplx K) (jjz : ℕ) : ℤ → Cplx K :=
  let jdim : ℤ := (twojmax : ℤ) + 1
  let j1 := idxz jjz 0
  let j2 := idxz jjz 1
  let j := idxz jjz 2
  let bj := idxzbeta jjz
  let cgblock : ℤ → K := fun i => cglist (idxcg_block (j1 + jdim * j2 + jdim * jdim * j) + i)
  let jjdu := yi_jjdu idxdu_block (idxz jjz)
  let z := yi_ztmp cgblock idxu_block ulisttot (idxz jjz)
  let y1 := Function.update ylist jjdu
    { re := (ylist jjdu).re + bj * z.ztmp_r, im := (ylist jjdu).im }
  Function.update y1 jjdu { re := (y1 jjdu).re, im := (y1 jjdu).im + bj * z.ztmp_i }

/-- Kernel `compute_yi` for a fixed atom, the work items `jjz = 0 .. idxz_max - 1`
executed one after the other. -/
def compute_yi {K : Type} [Field K] (twojmax idxz_max : ℕ) (idxz : ℕ → ℕ → ℤ)
    (idxzbeta : ℕ → K) (idxcg_block idxu_block idxdu_block : ℤ → ℤ) (cglist : ℤ → K)
    (ulisttot : ℤ → Cplx K) (ylist : ℤ → Cplx K) : ℤ → Cplx K :=
  (List.range idxz_max).foldl
    (compute_yi_item twojmax idxz idxzbeta idxcg_block idxu_block idxdu_block cglist
      ulisttot) ylist

/-- Real part of the double sum the specification gives for one record `rec`:
`SUM_{ib<nb} cg[(mb1min+ib)*(j2+1) + (mb2max-ib)] * SUM_{ia<na}
cg[(ma1min+ia)*(j2+1) + (ma2max-ia)] * Re(Utot_j1[mb1min+ib][ma1min+ia] *
Utot_j2[mb2max-ib][ma2max-ia])`, with `Utot_jx[row][col]` at
`idxu_block[jx] + (jx+1)*row + col`. -/
def ysum_re {K : Type} [Field K] (cg : ℤ → K) (idxu_block : ℤ → ℤ)
    (ulisttot : ℤ → Cplx K) (rec : ℕ → ℤ) : K :=
  ∑ ib ∈ Finset.range (rec 8).toNat,
    cg ((rec 6 + ib) * (rec 1 + 1) + (rec 7 - ib)) *
      ∑ ia ∈ Finset.range (rec 5).toNat,
        cg ((rec 3 + ia) * (rec 1 + 1) + (rec 4 - ia)) *
          ((ulisttot (idxu_block (rec 0) + (rec 0 + 1) * (rec 6 + ib) + (rec 3 + ia))).re *
              (ulisttot (idxu_block (rec 1) + (rec 1 + 1) * (rec 7 - ib) + (rec 4 - ia))).re -
            (ulisttot (idxu_block (rec 0) + (rec 0 + 1) * (rec 6 + ib) + (rec 3 + ia))).im *
              (ulisttot (idxu_block (rec 1) + (rec 1 + 1) * (rec 7 - ib) + (rec 4 - ia))).im)

/-- Imaginary part of the same double sum. -/
def ysum_im {K : Type} [Field K] (cg : ℤ → K) (idxu_block : ℤ → ℤ)
    (ulisttot : ℤ → Cplx K) (rec : ℕ → ℤ) : K :=
  ∑ ib ∈ Finset.range (rec 8).toNat,
    cg ((rec 6 + ib) * (rec 1 + 1) + (rec 7 - ib)) *
      ∑ ia ∈ Finset.range (rec 5).toNat,
        cg ((rec 3 + ia) * (rec 1 + 1) + (rec 4 - ia)) *
          ((ulisttot (idxu_block (rec 0) + (rec 0 + 1) * (rec 6 + ib) + (rec 3 + ia))).re *
              (ulisttot (idxu_block (rec 1) + (rec 1 + 1) * (rec 7 - ib) + (rec 4 - ia))).im +
            (ulisttot (idxu_block (rec 0) + (rec 0 + 1) * (rec 6 + ib) + (rec 3 + ia))).im *
              (ulisttot (idxu_block (rec 1) + (rec 1 + 1) * (rec 7 - ib) + (rec 4 - ia))).re)

/-- The Y stage of one step for a fixed atom, with the tables as `main` builds them:
Z-list from `zfill`, `idxdu_block` and `idxdu_max` from `idxdu_fill`, `reset_ylist`
followed by `compute_yi` over `idxz_max` work items. -/
def ystage {K : Type} [Field K] (twojmax : ℕ) (idxb_block : ℕ → ℤ) (beta : ℤ → K)
    (zmem : ZTables K) (dumem : ℕ → ℕ) (idxcg_block idxu_block : ℤ → ℤ) (cglist : ℤ → K)
    (ulisttot : ℤ → Cplx K) (ylist : ℤ → Cplx K) : ℤ → Cplx K :=
  compute_yi twojmax (idxz_max twojmax) (zfill twojmax idxb_block beta zmem).idxz
    (zfill twojmax idxb_block beta zmem).idxzbeta idxcg_block idxu_block
    (fun z => ((idxdu_fill twojmax dumem).idxdu_block z.toNat : ℤ)) cglist ulisttot
    (reset_ylist (idxdu_fill twojmax dumem).idxdu_count ylist)

/-- The Clebsch-Gordan block of `(j1, j2, j)` as `compute_yi` addresses it:
`cglist + idxcg_block[j1 + jdim*j2 + jdim*jdim*j]`. -/
def cgblock_of {K : Type} (twojmax : ℕ) (idxcg_block : ℤ → ℤ) (cglist : ℤ → K)
    (j1 j2 j : ℤ) : ℤ → K :=
  fun x => cglist (idxcg_block
    (j1 + ((twojmax : ℤ) + 1) * j2 + ((twojmax : ℤ) + 1) * ((twojmax : ℤ) + 1) * j) + x)

/-- Real part of the value the specification gives to the Y entry of `(j, mb, ma)`: the sum,
over the triples `(j1, j2, j)` of the nest with that `j`, of `betaj` times the double
sum of the record of `(j1, j2, j, mb, ma)`. -/
def yspec_re {K : Type} [Field K] (twojmax : ℕ) (idxb_block : ℕ → ℤ) (beta : ℤ → K)
    (idxcg_block idxu_block : ℤ → ℤ) (cglist : ℤ → K) (ulisttot : ℤ → Cplx K)
    (j mb ma : ℕ) : K :=
  (((triples twojmax).filter (fun t => decide (t.2.2 = j))).map (fun t =>
    betaj twojmax idxb_block beta t.1 t.2.1 t.2.2 *
      ysum_re (cgblock_of twojmax idxcg_block cglist t.1 t.2.1 t.2.2) idxu_block ulisttot
        (zfields t.1 t.2.1 t.2.2 mb ma))).sum

/-- Imaginary part of the same value. -/
def yspec_im {K : Type} [Field K] (twojmax : ℕ) (idxb_block : ℕ → ℤ) (beta : ℤ → K)
    (idxcg_block idxu_block : ℤ → ℤ) (cglist : ℤ → K) (ulisttot : ℤ → Cplx K)
    (j mb ma : ℕ) : K :=
  (((triples twojmax).filter (fun t => decide (t.2.2 = j))).map (fun t =>
    betaj twojmax idxb_block beta t.1 t.2.1 t.2.2 *
      ysum_im (cgblock_of twojmax idxcg_block cglist t.1 t.2.1 t.2.2) idxu_block ulisttot
        (zfields t.1 t.2.1 t.2.2 mb ma))).sum

/-- Offset of level `j` in a left-half array: the number of `(j', mb, ma)` with
`j' < j`, `2*mb ≤ j'`, `ma ≤ j'`. -/
def duoff (j : ℕ) : ℕ := ∑ j' ∈ Finset.range j, (j' / 2 + 1) * (j' + 1)

/-! ## Index and parity lists for uarray, square-root table (main.cpp 120-153, 305-318) -/

/-- Counter and table of the loop of main.cpp 124-133. -/
structure UTables where
  idxu_count : ℕ
  idxu_block : ℕ → ℕ

/-- Body of the `j` loop of main.cpp 127-132. -/
def idxu_step (s : UTables) (j : ℕ) : UTables :=
  let blk := Function.update s.idxu_block j s.idxu_count
  let cnt := (maloop j).foldl
    (fun cnt _ => (maloop j).foldl (fun cnt _ => cnt + 1) cnt) s.idxu_count
  { idxu_count := cnt, idxu_block := blk }

/-- Loop of main.cpp 124-133; `idxu_max` is the final `idxu_count`. -/
def idxu_fill (twojmax : ℕ) (mem : ℕ → ℕ) : UTables :=
  (List.range (twojmax + 1)).foldl idxu_step { idxu_count := 0, idxu_block := mem }

/-- Variables of the parity loop of main.cpp 141-153. -/
structure ParState where
  idxu_count : ℕ
  ulist_parity : ℕ → ℤ
  mbpar : ℤ
  mapar : ℤ

/-- Body of the `ma` loop, main.cpp 147-149. -/
def parity_ma (s : ParState) : ParState :=
  { s with ulist_parity := Function.update s.ulist_parity s.idxu_count s.mapar
           mapar := -s.mapar
           idxu_count := s.idxu_count + 1 }

/-- Body of the `mb` loop, main.cpp 145-151. -/
def parity_mb (j : ℕ) (s : ParState) : ParState :=
  let s1 := (maloop j).foldl (fun s _ => parity_ma s) { s with mapar := s.mbpar }
  { s1 with mbpar := -s1.mbpar }

/-- Body of the `j` loop, main.cpp 143-152. -/
def parity_j (s : ParState) (j : ℕ) : ParState :=
  (maloop j).foldl (fun s _ => parity_mb j s) { s with mbpar := 1 }

/-- Loop of main.cpp 141-153: the table `ulist_parity`. -/
def ulist_parity_fill (twojmax : ℕ) (mem : ℕ → ℤ) : ℕ → ℤ :=
  ((List.range (twojmax + 1)).foldl parity_j
    { idxu_count := 0, ulist_parity := mem, mbpar := 1, mapar := 1 }).ulist_parity

/-- Loop of main.cpp 316-318: `rootpqarray[ROOTPQ_INDEX(p, q)] = sqrt(p / q)` for
`1 ≤ p, q ≤ twojmax`.  `rootpqarray p q` is the cell `rootpqarray[ROOTPQ_INDEX(p, q)]`;
`sqrtK` stands for `sqrt`. -/
def rootpq_init {K : Type} [Field K] (twojmax : ℕ) (sqrtK : K → K) (mem : ℕ → ℕ → K) :
    ℕ → ℕ → K :=
  (List.range' 1 twojmax).foldl
    (fun t p => (List.range' 1 twojmax).foldl
      (fun t q => set2 t p q (sqrtK ((p : K) / (q : K)))) t) mem

/-! ## Rotation matrix builder: the `ulist` part of `update_ulisttot` (main.cpp 534-618) -/

/-- Array and cursor of the zero-initialisation loop of main.cpp 540-550. -/
structure UZero (K : Type) where
  ulist : ℕ → Cplx K
  jju : ℕ

/-- Body of the `j` loop of main.cpp 541-550. -/
def ui_zero_level {K : Type} [Field K] (s : UZero K) (j : ℕ) : UZero K :=
  let deljju := j + 1
  let s1 := (mbloop j).foldl
    (fun s _ => ({ ulist := Function.update s.ulist s.jju { re := 0, im := 0 }
                   jju := s.jju + deljju } : UZero K)) s
  let ncolhalf := deljju / 2
  { s1 with jju := s1.jju + deljju * ncolhalf }

/-- Array and cursors `jju`, `jjup` of the recursion loop of main.cpp 552-618.
`ulist i` is `ulist[ULIST_INDEX(natom, nbor, i)]` of the pair at hand. -/
structure UState (K : Type) where
  ulist : ℕ → Cplx K
  jju : ℕ
  jjup : ℕ

/-- Body of the `m_iter` loop of main.cpp 562-593 at level `j`.  Each pair of
statements on `.re` and `.im` of one cell is one assignment of the cell. -/
def ui_rec_body {K : Type} [Field K] (rootpqarray : ℕ → ℕ → K) (a_r a_i b_r b_i : K)
    (j : ℕ) (s : UState K) (m_iter : ℕ) : UState K :=
  let deljju := j + 1
  let ma_max := j
  let mb := m_iter / ma_max
  let ma := m_iter % ma_max
  let up_r := (s.ulist s.jjup).re
  let up_i := (s.ulist s.jjup).im
  let u1 := Function.update s.ulist s.jju
    { re := (s.ulist s.jju).re + rootpqarray (j - ma) (j - mb) * (a_r * up_r + a_i * up_i)
      im := (s.ulist s.jju).im + rootpqarray (j - ma) (j - mb) * (a_r * up_i - a_i * up_r) }
  let u2 := Function.update u1 (s.jju + 1)
    { re := -rootpqarray (ma + 1) (j - mb) * (b_r * up_r + b_i * up_i)
      im := -rootpqarray (ma + 1) (j - mb) * (b_r * up_i - b_i * up_r) }
  let u4 :=
    if 2 * (mb + 1) = j then
      let u3 := Function.update u2 (s.jju + deljju)
        { re := (u2 (s.jju + deljju)).re
            + rootpqarray (j - ma) (mb + 1) * (b_r * up_r - b_i * up_i)
          im := (u2 (s.jju + deljju)).im
            + rootpqarray (j - ma) (mb + 1) * (b_r * up_i + b_i * up_r) }
      Function.update u3 (s.jju + deljju + 1)
        { re := rootpqarray (ma + 1) (mb + 1) * (a_r * up_r - a_i * up_i)
          im := rootpqarray (ma + 1) (mb + 1) * (a_r * up_i + a_i * up_r) }
    else u2
  { ulist := u4
    jju := if ma = ma_max - 1 then s.jju + 1 + 1 else s.jju + 1
    jjup := s.jjup + 1 }

/-- Array and cursors `jjui`, `jjuip` of the symmetry copy of main.cpp 599-608. -/
structure USym (K : Type) where
  ulist : ℕ → Cplx K
  jjui : ℕ
  jjuip : ℕ

/-- Body of the `ma` loop of main.cpp 603-606: the `.re` statement, then the `.im`
statement, then `jjui++`, `jjuip--`. -/
def ui_sym_body {K : Type} [Field K] (ulist_parity : ℕ → ℤ) (s : USym K) : USym K :=
  let u1 := Function.update s.ulist s.jjuip
    { re := (ulist_parity s.jjui : K) * (s.ulist s.jjui).re, im := (s.ulist s.jjuip).im }
  let u2 := Function.update u1 s.jjuip
    { re := (u1 s.jjuip).re, im := (ulist_parity s.jjui : K) * -(u1 s.jjui).im }
  { ulist := u2, jjui := s.jjui + 1, jjuip := s.jjuip - 1 }

/-- Symmetry copy of level `j`, main.cpp 599-608, applied to the array `ulist`. -/
def ui_symfill {K : Type} [Field K] (idxu_block : ℕ → ℕ) (ulist_parity : ℕ → ℤ) (j : ℕ)
    (ulist : ℕ → Cplx K) : ℕ → Cplx K :=
  let jjui := idxu_block j
  let jjuip := jjui + (j + 1) * (j + 1) - 1
  ((mbloop_lt j).foldl
    (fun s _ => (maloop j).foldl (fun s _ => ui_sym_body ulist_parity s) s)
    ({ ulist := ulist, jjui := jjui, jjuip := jjuip } : USym K)).ulist

/-- Recursion loop of level `j`, main.cpp 555-593: `m_max = ma_max * mb_max`
iterations. -/
def ui_rec_level {K : Type} [Field K] (rootpqarray : ℕ → ℕ → K) (a_r a_i b_r b_i : K)
    (j : ℕ) (s : UState K) : UState K :=
  let mb_max := (j + 1) / 2
  let ma_max := j
  let m_max := ma_max * mb_max
  (List.range m_max).foldl (ui_rec_body rootpqarray a_r a_i b_r b_i j) s

/-- Body of the `j` loop of main.cpp 554-618: recursion, symmetry copy, cursor skips. -/
def ui_level {K : Type} [Field K] (idxu_block : ℕ → ℕ) (ulist_parity : ℕ → ℤ)
    (rootpqarray : ℕ → ℕ → K) (a_r a_i b_r b_i : K) (s : UState K) (j : ℕ) : UState K :=
  let deljju := j + 1
  let deljjup := j
  let s1 := ui_rec_level rootpqarray a_r a_i b_r b_i j s
  let u := ui_symfill idxu_block ulist_parity j s1.ulist
  let jju := if j % 2 = 0 then s1.jju + deljju else s1.jju
  let ncolhalf := deljju / 2
  let ncolhalfp := deljjup / 2
  { ulist := u, jju := jju + deljju * ncolhalf, jjup := s1.jjup + deljjup * ncolhalfp }

/-- The `ulist` array of one pair after main.cpp 536-618: first entry, zero
initialisation, then the `j` loop.  `ulist0` is the previous content of the array. -/
def compute_ulist {K : Type} [Field K] (twojmax : ℕ) (idxu_block : ℕ → ℕ)
    (ulist_parity : ℕ → ℤ) (rootpqarray : ℕ → ℕ → K) (a_r a_i b_r b_i : K)
    (ulist0 : ℕ → Cplx K) : ℕ → Cplx K :=
  let u0 := Function.update ulist0 0 { re := 1, im := 0 }
  let z := (List.range' 1 twojmax).foldl ui_zero_level ({ ulist := u0, jju := 1 } : UZero K)
  ((List.range' 1 twojmax).foldl
    (ui_level idxu_block ulist_parity rootpqarray a_r a_i b_r b_i)
    ({ ulist := z.ulist, jju := 1, jjup := 0 } : UState K)).ulist

/-- Term added to column `i` of left row `mb` at level `j`:
`rootpq(j-i, j-mb) * conj(a) * up`. -/
def ui_termA {K : Type} [Field K] (rt : ℕ → ℕ → K) (a : Cplx K) (j mb i : ℕ)
    (up : Cplx K) : Cplx K :=
  Cplx.smul (rt (j - i) (j - mb)) (Cplx.mul (Cplx.conj a) up)

/-- Value assigned to column `i + 1` of left row `mb` at level `j`:
`-rootpq(i+1, j-mb) * conj(b) * up`. -/
def ui_termB {K : Type} [Field K] (rt : ℕ → ℕ → K) (b : Cplx K) (j mb i : ℕ)
    (up : Cplx K) : Cplx K :=
  Cplx.smul (-rt (i + 1) (j - mb)) (Cplx.mul (Cplx.conj b) up)

/-- Term added to column `i` of the middle row `mb + 1`: `rootpq(j-i, mb+1) * b * up`. -/
def ui_termMB {K : Type} [Field K] (rt : ℕ → ℕ → K) (b : Cplx K) (j mb i : ℕ)
    (up : Cplx K) : Cplx K :=
  Cplx.smul (rt (j - i) (mb + 1)) (Cplx.mul b up)

/-- Value assigned to column `i + 1` of the middle row `mb + 1`:
`rootpq(i+1, mb+1) * a * up`. -/
def ui_termMA {K : Type} [Field K] (rt : ℕ → ℕ → K) (a : Cplx K) (mb i : ℕ)
    (up : Cplx K) : Cplx K :=
  Cplx.smul (rt (i + 1) (mb + 1)) (Cplx.mul a up)

/-- Offset of level `j` in a full array: the number of `(j', mb, ma)` with `j' < j`,
`mb ≤ j'`, `ma ≤ j'`. -/
def uoff (j : ℕ) : ℕ := ∑ j' ∈ Finset.range j, (j' + 1) * (j' + 1)

/-- Right-hand side of the recursion for a left row (`2*mb < j`), read in the array
`U`: the cell of column `ma` is `termB` of column `ma - 1` of the previous level (absent
for `ma = 0`) plus `termA` of column `ma` of the previous level (absent for `ma = j`). -/
def ui_left_rhs {K : Type} [Field K] (rt : ℕ → ℕ → K) (a b : Cplx K) (U : ℕ → Cplx K)
    (j mb ma : ℕ) : Cplx K :=
  if ma < j then
    Cplx.add
      (if ma = 0 then { re := 0, im := 0 }
        else ui_termB rt b j mb (ma - 1) (U (uoff (j - 1) + mb * j + (ma - 1))))
      (ui_termA rt a j mb ma (U (uoff (j - 1) + mb * j + ma)))
  else ui_termB rt b j mb (j - 1) (U (uoff (j - 1) + mb * j + (j - 1)))

/-- Right-hand side of the recursion for the middle row `r + 1` (`2*(r+1) = j`). -/
def ui_mid_rhs {K : Type} [Field K] (rt : ℕ → ℕ → K) (a b : Cplx K) (U : ℕ → Cplx K)
    (j r ma : ℕ) : Cplx K :=
  if ma < j then
    Cplx.add
      (if ma = 0 then { re := 0, im := 0 }
        else ui_termMA rt a r (ma - 1) (U (uoff (j - 1) + r * j + (ma - 1))))
      (ui_termMB rt b j r ma (U (uoff (j - 1) + r * j + ma)))
  else ui_termMA rt a r (j - 1) (U (uoff (j - 1) + r * j + (j - 1)))

/-- The `ulist` array of one pair with the tables as `main` builds them: `idxu_block`
from `idxu_fill`, `ulist_parity` from `ulist_parity_fill`, `rootpqarray` from
`rootpq_init`. -/
def ulist_main {K : Type} [Field K] (twojmax : ℕ) (umem : ℕ → ℕ) (pmem : ℕ → ℤ)
    (rmem : ℕ → ℕ → K) (sqrtK : K → K) (a_r a_i b_r b_i : K) (ulist0 : ℕ → Cplx K) :
    ℕ → Cplx K :=
  compute_ulist twojmax (idxu_fill twojmax umem).idxu_block (ulist_parity_fill twojmax pmem)
    (rootpq_init twojmax sqrtK rmem) a_r a_i b_r b_i ulist0

/-- The entry `u_{j-1}[mb][col]` of the specification: the cell at logical index
`idxu_block[j-1] + mb*j + col`, taken as `0` when the column index is `-1` or `j`
(outside `0 .. j-1`). -/
def uprev {K : Type} [Field K] (U : ℕ → Cplx K) (idxu_block : ℕ → ℕ) (j mb : ℕ) (col : ℤ) :
    Cplx K :=
  if 0 ≤ col ∧ col < (j : ℤ) then U (idxu_block (j - 1) + mb * j + col.toNat)
  else { re := 0, im := 0 }

/-! ## Clebsch-Gordan index list and table (main.cpp 105-118, 320-370) -/

/-- Counter and table of the loop of main.cpp 107-118. -/
structure CGTables where
  idxcg_count : ℕ
  idxcg_block : ℕ → ℕ

/-- Body of the `j` loop of main.cpp 112-117: the cell
`idxcg_block[j1 + j2*jdim + jdim*jdim*j]`, then `idxcg_count++` once per `(m1, m2)`. -/
def idxcg_step (twojmax : ℕ) (s : CGTables) (t : ℕ × ℕ × ℕ) : CGTables :=
  let j1 := t.1
  let j2 := t.2.1
  let j := t.2.2
  let jdim := twojmax + 1
  let blk := Function.update s.idxcg_block (j1 + j2 * jdim + jdim * jdim * j) s.idxcg_count
  let cnt := (maloop j1).foldl
    (fun cnt _ => (maloop j2).foldl (fun cnt _ => cnt + 1) cnt) s.idxcg_count
  { idxcg_count := cnt, idxcg_block := blk }

/-- Loop of main.cpp 107-118; `idxcg_max` is the final `idxcg_count`. -/
def idxcg_fill (twojmax : ℕ) (mem : ℕ → ℕ) : CGTables :=
  (triples twojmax).foldl (idxcg_step twojmax) { idxcg_count := 0, idxcg_block := mem }

/-- The value `m = (aa2 + bb2 + j) / 2` of main.cpp 337, with `aa2 = 2*m1 - j1`,
`bb2 = 2*m2 - j2`. -/
def cg_m (j1 j2 j m1 m2 : ℕ) : ℤ :=
  Int.tdiv ((2 * (m1 : ℤ) - j1) + (2 * (m2 : ℤ) - j2) + j) 2

/-- Lower bound of the `z` loop, main.cpp 347:
`MAX(0, MAX(-(j - j2 + aa2) / 2, -(j - j1 - bb2) / 2))`. -/
def cg_zlo (j1 j2 j m1 m2 : ℕ) : ℤ :=
  max 0 (max (Int.tdiv (-((j : ℤ) - j2 + (2 * (m1 : ℤ) - j1))) 2)
    (Int.tdiv (-((j : ℤ) - j1 - (2 * (m2 : ℤ) - j2))) 2))

/-- Upper bound of the `z` loop, main.cpp 349:
`MIN((j1 + j2 - j) / 2, MIN((j1 - aa2) / 2, (j2 + bb2) / 2))`. -/
def cg_zhi (j1 j2 j m1 m2 : ℕ) : ℤ :=
  min (Int.tdiv ((j1 : ℤ) + j2 - j) 2)
    (min (Int.tdiv ((j1 : ℤ) - (2 * (m1 : ℤ) - j1)) 2)
      (Int.tdiv ((j2 : ℤ) + (2 * (m2 : ℤ) - j2)) 2))

/-- Values taken by `z` in `for (int z = lo; z <= hi; z++)`. -/
def zloop (lo hi : ℤ) : List ℤ :=
  (List.range (hi + 1 - lo).toNat).map fun (i : ℕ) => lo + (i : ℤ)

/-- The six factorial arguments of one term of the sum, main.cpp 352-356, in source
order. -/
def cg_sum_args (j1 j2 j m1 m2 : ℕ) (z : ℤ) : List ℤ :=
  [z,
   Int.tdiv ((j1 : ℤ) + j2 - j) 2 - z,
   Int.tdiv ((j1 : ℤ) - (2 * (m1 : ℤ) - j1)) 2 - z,
   Int.tdiv ((j2 : ℤ) + (2 * (m2 : ℤ) - j2)) 2 - z,
   Int.tdiv ((j : ℤ) - j2 + (2 * (m1 : ℤ) - j1)) 2 + z,
   Int.tdiv ((j : ℤ) - j1 - (2 * (m2 : ℤ) - j2)) 2 + z]

/-- The six factorial arguments of `sfaccg`, main.cpp 362-364, in source order;
`cc2 = 2*m - j`. -/
def cg_sfac_args (j1 j2 j m1 m2 : ℕ) : List ℤ :=
  [Int.tdiv ((j1 : ℤ) + (2 * (m1 : ℤ) - j1)) 2,
   Int.tdiv ((j1 : ℤ) - (2 * (m1 : ℤ) - j1)) 2,
   Int.tdiv ((j2 : ℤ) + (2 * (m2 : ℤ) - j2)) 2,
   Int.tdiv ((j2 : ℤ) - (2 * (m2 : ℤ) - j2)) 2,
   Int.tdiv ((j : ℤ) + (2 * cg_m j1 j2 j m1 m2 - j)) 2,
   Int.tdiv ((j : ℤ) - (2 * cg_m j1 j2 j m1 m2 - j)) 2]

/-- Every numerator divided by 2 in main.cpp 337-364. -/
def cg_numerators (j1 j2 j m1 m2 : ℕ) : List ℤ :=
  [(2 * (m1 : ℤ) - j1) + (2 * (m2 : ℤ) - j2) + j,
   -((j : ℤ) - j2 + (2 * (m1 : ℤ) - j1)),
   -((j : ℤ) - j1 - (2 * (m2 : ℤ) - j2)),
   (j1 : ℤ) + j2 - j,
   (j1 : ℤ) - (2 * (m1 : ℤ) - j1),
   (j2 : ℤ) + (2 * (m2 : ℤ) - j2),
   (j : ℤ) - j2 + (2 * (m1 : ℤ) - j1),
   (j : ℤ) - j1 - (2 * (m2 : ℤ) - j2),
   (j1 : ℤ) + (2 * (m1 : ℤ) - j1),
   (j2 : ℤ) - (2 * (m2 : ℤ) - j2),
   (j : ℤ) + (2 * cg_m j1 j2 j m1 m2 - j),
   (j : ℤ) - (2 * cg_m j1 j2 j m1 m2 - j)]

/-- Body of the `z` loop, main.cpp 351-356: `ifac = z % 2 ? -1 : 1` and
`sum += ifac / (factorial(..) * ... * factorial(..))`.  `factorial` is the function of
`snap.h`, a parameter here. -/
def cg_term {K : Type} [Field K] (factorial : ℤ → K) (j1 j2 j m1 m2 : ℕ) (sum : K) (z : ℤ) :
    K :=
  let ifac : K := if Int.tmod z 2 ≠ 0 then -1 else 1
  sum + ifac /
    (factorial z * factorial (Int.tdiv ((j1 : ℤ) + j2 - j) 2 - z) *
      factorial (Int.tdiv ((j1 : ℤ) - (2 * (m1 : ℤ) - j1)) 2 - z) *
      factorial (Int.tdiv ((j2 : ℤ) + (2 * (m2 : ℤ) - j2)) 2 - z) *
      factorial (Int.tdiv ((j : ℤ) - j2 + (2 * (m1 : ℤ) - j1)) 2 + z) *
      factorial (Int.tdiv ((j : ℤ) - j1 - (2 * (m2 : ℤ) - j2)) 2 + z))

/-- The value stored for `(j1, j2, j, m1, m2)`, main.cpp 330-366: `0.0` when `m < 0` or
`m > j`, else `sum * dcg * sfaccg`.  `factorial`, `deltacg` (of `snap.h`) and `sqrt` are
parameters. -/
def cg_entry {K : Type} [Field K] (factorial : ℤ → K) (deltacg : ℕ → ℕ → ℕ → K)
    (sqrtK : K → K) (j1 j2 j m1 m2 : ℕ) : K :=
  let aa2 : ℤ := 2 * (m1 : ℤ) - j1
  let bb2 : ℤ := 2 * (m2 : ℤ) - j2
  let m := cg_m j1 j2 j m1 m2
  if m < 0 ∨ m > (j : ℤ) then 0
  else
    let sum := (zloop (cg_zlo j1 j2 j m1 m2) (cg_zhi j1 j2 j m1 m2)).foldl
      (cg_term factorial j1 j2 j m1 m2) 0
    let cc2 := 2 * m - j
    let dcg := deltacg j1 j2 j
    let sfaccg := sqrtK
      (factorial (Int.tdiv ((j1 : ℤ) + aa2) 2) * factorial (Int.tdiv ((j1 : ℤ) - aa2) 2) *
        factorial (Int.tdiv ((j2 : ℤ) + bb2) 2) * factorial (Int.tdiv ((j2 : ℤ) - bb2) 2) *
        factorial (Int.tdiv ((j : ℤ) + cc2) 2) * factorial (Int.tdiv ((j : ℤ) - cc2) 2) *
        ((j : K) + 1))
    sum * dcg * sfaccg

/-- Counter and table of the fill loop of main.cpp 325-370. -/
structure CGFill (K : Type) where
  idxcg_count : ℕ
  cglist : ℕ → K

/-- Body of the `m2` loop, main.cpp 332-368: one cell of `cglist`, then
`idxcg_count++` (also on the `continue` path). -/
def cg_push {K : Type} (v : K) (s : CGFill K) : CGFill K :=
  { cglist := Function.update s.cglist s.idxcg_count v, idxcg_count := s.idxcg_count + 1 }

/-- Body of the `j` loop of main.cpp 328-370. -/
def cg_fill_triple {K : Type} [Field K] (factorial : ℤ → K) (deltacg : ℕ → ℕ → ℕ → K)
    (sqrtK : K → K) (s : CGFill K) (t : ℕ × ℕ × ℕ) : CGFill K :=
  (maloop t.1).foldl
    (fun s m1 => (maloop t.2.1).foldl
      (fun s m2 => cg_push (cg_entry factorial deltacg sqrtK t.1 t.2.1 t.2.2 m1 m2) s) s) s

/-- Fill loop of main.cpp 325-370: `idxcg_count = 0`, then the loop nest; `mem` is the
content of `cglist` before the loop. -/
def cg_fill {K : Type} [Field K] (factorial : ℤ → K) (deltacg : ℕ → ℕ → ℕ → K)
    (sqrtK : K → K) (twojmax : ℕ) (mem : ℕ → K) : CGFill K :=
  (triples twojmax).foldl (cg_fill_triple factorial deltacg sqrtK)
    { idxcg_count := 0, cglist := mem }

/-- Number of cells of the block of `(j1, j2, j)`: `(j1+1)*(j2+1)`. -/
def cgsize (t : ℕ × ℕ × ℕ) : ℕ := (t.1 + 1) * (t.2.1 + 1)

/-- Flat key `j1 + j2*jdim + jdim*jdim*j` of `idxcg_block`. -/
def cgkey (twojmax : ℕ) (t : ℕ × ℕ × ℕ) : ℕ :=
  t.1 + t.2.1 * (twojmax + 1) + (twojmax + 1) * (twojmax + 1) * t.2.2

/-- Admissible triples as the specification lists them: `0 ≤ j2 ≤ j1 ≤ twojmax`,
`|j1-j2| ≤ j ≤ min(twojmax, j1+j2)`, `j` stepping by 2 from `|j1-j2|`. -/
def CGTriple (twojmax j1 j2 j : ℕ) : Prop :=
  j2 ≤ j1 ∧ j1 ≤ twojmax ∧ (∃ k, j = (j1 - j2) + 2 * k) ∧ j ≤ min twojmax (j1 + j2)

/-- Index the specification gives to the entry of `(j1, j2, j, m1, m2)`:
`idxcg_block[j1 + j2*jdim + jdim*jdim*j] + m1*(j2+1) + m2`. -/
def cgpos (twojmax : ℕ) (idxcg_block : ℕ → ℕ) (j1 j2 j m1 m2 : ℕ) : ℕ :=
  idxcg_block (j1 + j2 * (twojmax + 1) + (twojmax + 1) * (twojmax + 1) * j)
    + m1 * (j2 + 1) + m2

/-- Position the specification gives to the record of `(j1, j2, j, mb, ma)`:
`idxz_block[j1*jdim*jdim + j2*jdim + j] + mb*(j+1) + ma`, read in the tables `s`. -/
def zpos {K : Type} (twojmax : ℕ) (s : ZTables K) (j1 j2 j mb ma : ℕ) : ℕ :=
  s.idxz_block (j1 * (twojmax + 1) * (twojmax + 1) + j2 * (twojmax + 1) + j)
    + mb * (j + 1) + ma

/-- Sum of the sizes `sz t` of the items of a list (a block offset). -/
def sizeSum {α : Type} (sz : α → ℕ) (l : List α) : ℕ := (l.map sz).sum

/-! ## Index list for beta and B (main.cpp 171-192) -/

/-- Counting loop of main.cpp 173-178: `idxb_count++` for every `(j1, j2, j)` of the nest
with `j >= j1`; `idxb_max` is the final count. -/
def idxb_max (twojmax : ℕ) : ℕ :=
  (triples twojmax).foldl (fun cnt t => if t.2.2 ≥ t.1 then cnt + 1 else cnt) 0

/-- Counter and records of the loop of main.cpp 183-192; `idxb i` is the record
`idxb[i]` of type `SNA_BINDICES`, its fields `(j1, j2, j)`. -/
structure BList where
  idxb_count : ℕ
  idxb : ℕ → ℤ × ℤ × ℤ

/-- Body of the loop of main.cpp 186-191: for `j >= j1` the three fields of record
`idxb_count`, then `idxb_count++`. -/
def idxb_step (s : BList) (t : ℕ × ℕ × ℕ) : BList :=
  if t.2.2 ≥ t.1 then
    { idxb := Function.update s.idxb s.idxb_count ((t.1 : ℤ), (t.2.1 : ℤ), (t.2.2 : ℤ))
      idxb_count := s.idxb_count + 1 }
  else s

/-- Loop of main.cpp 183-192; `mem` is the content of the allocation before it. -/
def idxb_fill (twojmax : ℕ) (mem : ℕ → ℤ × ℤ × ℤ) : BList :=
  (triples twojmax).foldl idxb_step { idxb_count := 0, idxb := mem }

/-! ## Utot initialisation: `reset_ulisttot`, `set_ulisttot` (main.cpp 446-481) -/

/-- Kernel `reset_ulisttot` (main.cpp 461-464) seen from one atom: the cells of logical
index `i < idxu_max` are set to `{0.0, 0.0}`.  `ulisttot i` is
`ulisttot[INDEX_2D(natom, i)]`. -/
def reset_ulisttot {K : Type} [Field K] (idxu_max : ℕ) (ulisttot : ℕ → Cplx K) :
    ℕ → Cplx K :=
  fun i => if i < idxu_max then { re := 0, im := 0 } else ulisttot i

/-- The constant `wself = 1.0` of main.cpp 88. -/
def wself (K : Type) [Field K] : K := 1

/-- Array and cursor `jju` of the `ma` loop of `set_ulisttot` (main.cpp 475-480). -/
structure USet (K : Type) where
  ulisttot : ℕ → Cplx K
  jju : ℕ

/-- Body of the `ma` loop, main.cpp 477-478: `ulisttot[jju] = { wself, 0.0 }`,
`jju += j + 2`. -/
def set_ulisttot_body {K : Type} [Field K] (j : ℕ) (s : USet K) : USet K :=
  { ulisttot := Function.update s.ulisttot s.jju { re := wself K, im := 0 }
    jju := s.jju + (j + 2) }

/-- Level `j` of `set_ulisttot` after the first `n` iterations of
`for (int ma = 0; ma <= j; ma++)`, started with `jju = idxu_block[j]`; its cursor is the
index the iteration `ma = n` writes. -/
def set_ulisttot_iter {K : Type} [Field K] (idxu_block : ℕ → ℕ) (ulisttot : ℕ → Cplx K)
    (j n : ℕ) : USet K :=
  (List.range n).foldl (fun s _ => set_ulisttot_body j s)
    { ulisttot := ulisttot, jju := idxu_block j }

/-- Body of the `j` loop of `set_ulisttot`, main.cpp 474-480: the `j + 1` iterations
`ma = 0 .. j`. -/
def set_ulisttot_level {K : Type} [Field K] (idxu_block : ℕ → ℕ) (ulisttot : ℕ → Cplx K)
    (j : ℕ) : ℕ → Cplx K :=
  (set_ulisttot_iter idxu_block ulisttot j (j + 1)).ulisttot

/-- Kernel `set_ulisttot` (main.cpp 471-481) seen from one atom. -/
def set_ulisttot {K : Type} [Field K] (twojmax : ℕ) (idxu_block : ℕ → ℕ)
    (ulisttot : ℕ → Cplx K) : ℕ → Cplx K :=
  (List.range (twojmax + 1)).foldl (set_ulisttot_level idxu_block) ulisttot

/-- Utot of one atom after `reset_ulisttot` and `set_ulisttot`, with `idxu_block` and
`idxu_max` as `main` builds them. -/
def init_ulisttot {K : Type} [Field K] (twojmax : ℕ) (umem : ℕ → ℕ)
    (ulisttot : ℕ → Cplx K) : ℕ → Cplx K :=
  set_ulisttot twojmax (idxu_fill twojmax umem).idxu_block
    (reset_ulisttot (idxu_fill twojmax umem).idxu_count ulisttot)

/-! ## Loop variables of `compute_yi` at a given iteration -/

/-- Variables of the `ib` loop of a work item with record `rec` when iteration `ib`
starts (main.cpp 684-735): initial values of main.cpp 684-689, then `ib` times the loop
body. -/
def yi_outer_at {K : Type} [Field K] (cgblock : ℤ → K) (idxu_block : ℤ → ℤ)
    (ulisttot : ℤ → Cplx K) (rec : ℕ → ℤ) (ib : ℕ) : YOuter K :=
  (List.range ib).foldl
    (fun s _ => yi_outer_step cgblock ulisttot (rec 0) (rec 1) (rec 3) (rec 4) (rec 5) s)
    { ztmp_r := 0, ztmp_i := 0
      jju1 := idxu_block (rec 0) + (rec 0 + 1) * rec 6
      jju2 := idxu_block (rec 1) + (rec 1 + 1) * rec 7
      icgb := rec 6 * (rec 1 + 1) + rec 7 }

/-- Variables of the `ia` loop when iteration `ia` starts (main.cpp 697-728), inside an
iteration of the `ib` loop with cursors `jju1`, `jju2`. -/
def yi_inner_at {K : Type} [Field K] (cgblock : ℤ → K) (ulisttot : ℤ → Cplx K)
    (jju1 jju2 : ℤ) (rec : ℕ → ℤ) (ia : ℕ) : YInner K :=
  (List.range ia).foldl
    (fun si _ => yi_inner_step cgblock ulisttot jju1 jju2 (rec 1) si)
    { suma1_r := 0, suma1_i := 0, ma1 := rec 3, ma2 := rec 4
      icga := rec 3 * (rec 1 + 1) + rec 4 }

/-- The table `idxu_block` of `main` as a kernel reads it, at an `int` index. -/
def idxu_block_int (twojmax : ℕ) (umem : ℕ → ℕ) : ℤ → ℤ :=
  fun z => ((idxu_fill twojmax umem).idxu_block z.toNat : ℤ)

/-- The table `idxdu_block` of `main` as a kernel reads it, at an `int` index. -/
def idxdu_block_int (twojmax : ℕ) (dumem : ℕ → ℕ) : ℤ → ℤ :=
  fun z => ((idxdu_fill twojmax dumem).idxdu_block z.toNat : ℤ)

/-- The table `idxcg_block` of `main` as a kernel reads it, at an `int` index. -/
def idxcg_block_int (twojmax : ℕ) (cgmem : ℕ → ℕ) : ℤ → ℤ :=
  fun z => ((idxcg_fill twojmax cgmem).idxcg_block z.toNat : ℤ)

/-- Record `jjz` of the Z-list of `main`, as a work item of `compute_yi` reads it. -/
def zrec {K : Type} [Field K] (twojmax : ℕ) (idxb_block : ℕ → ℤ) (beta : ℤ → K)
    (zmem : ZTables K) (jjz : ℕ) : ℕ → ℤ :=
  (zfill twojmax idxb_block beta zmem).idxz jjz

/-- Index `jju1 + ma1` of the Utot cell of level `j1` read at iteration `(ib, ia)`,
main.cpp 718-724. -/
def yi_read1 {K : Type} [Field K] (cgblock : ℤ → K) (idxu_block : ℤ → ℤ)
    (ulisttot : ℤ → Cplx K) (rec : ℕ → ℤ) (ib ia : ℕ) : ℤ :=
  (yi_outer_at cgblock idxu_block ulisttot rec ib).jju1 +
    (yi_inner_at cgblock ulisttot (yi_outer_at cgblock idxu_block ulisttot rec ib).jju1
      (yi_outer_at cgblock idxu_block ulisttot rec ib).jju2 rec ia).ma1

/-- Index `jju2 + ma2` of the Utot cell of level `j2` read at iteration `(ib, ia)`. -/
def yi_read2 {K : Type} [Field K] (cgblock : ℤ → K) (idxu_block : ℤ → ℤ)
    (ulisttot : ℤ → Cplx K) (rec : ℕ → ℤ) (ib ia : ℕ) : ℤ :=
  (yi_outer_at cgblock idxu_block ulisttot rec ib).jju2 +
    (yi_inner_at cgblock ulisttot (yi_outer_at cgblock idxu_block ulisttot rec ib).jju1
      (yi_outer_at cgblock idxu_block ulisttot rec ib).jju2 rec ia).ma2

/-- Offset `icga` into `cgblock` at iteration `(ib, ia)`. -/
def yi_icga {K : Type} [Field K] (cgblock : ℤ → K) (idxu_block : ℤ → ℤ)
    (ulisttot : ℤ → Cplx K) (rec : ℕ → ℤ) (ib ia : ℕ) : ℤ :=
  (yi_inner_at cgblock ulisttot (yi_outer_at cgblock idxu_block ulisttot rec ib).jju1
    (yi_outer_at cgblock idxu_block ulisttot rec ib).jju2 rec ia).icga

/-- Offset `icgb` into `cgblock` at iteration `ib`. -/
def yi_icgb {K : Type} [Field K] (cgblock : ℤ → K) (idxu_block : ℤ → ℤ)
    (ulisttot : ℤ → Cplx K) (rec : ℕ → ℤ) (ib : ℕ) : ℤ :=
  (yi_outer_at cgblock idxu_block ulisttot rec ib).icgb

/-! ## The kernel `update_ulisttot` (main.cpp 483-633) -/

/-- Functions and constants a work item of `update_ulisttot` takes from `<cmath>` and
`snap.h`: parameters. -/
structure SnapEnv (K : Type) where
  sqrt : K → K
  tan : K → K
  rmin0 : K
  rfac0 : K
  MY_PI : K
  compute_sfac : K → K → ℤ → K

/-- Cayley-Klein parameters and switching factor of one pair. -/
structure PairGeom (K : Type) where
  a_r : K
  a_i : K
  b_r : K
  b_i : K
  sfac : K

/-- The constant `switch_flag = 1` of main.cpp 74. -/
def switch_flag : ℤ := 1

/-- Scalars of one work item, main.cpp 500-521 and 620-621; `x, y, z` are the three
cells `rij[ULIST_INDEX(natom, nbor, k)]`, `rcut` is `rcutij[INDEX_2D(natom, nbor)]`, `wj`
is `wj[INDEX_2D(natom, nbor)]`. -/
def pair_geom {K : Type} [Field K] (env : SnapEnv K) (x y z rcut wj : K) : PairGeom K :=
  let rsq := x * x + y * y + z * z
  let r := env.sqrt rsq
  let theta0 := (r - env.rmin0) * env.rfac0 * env.MY_PI / (rcut - env.rmin0)
  let z0 := r / env.tan theta0
  let r0inv := 1 / env.sqrt (r * r + z0 * z0)
  { a_r := r0inv * z0
    a_i := -r0inv * z
    b_r := r0inv * y
    b_i := -r0inv * x
    sfac := env.compute_sfac r rcut switch_flag * wj }

/-- Array and cursor `jju` of the accumulation loop of main.cpp 623-631. -/
structure UAcc (K : Type) where
  ulisttot : ℕ → Cplx K
  jju : ℕ

/-- Body of the `ma` loop of main.cpp 626-630: `atomicAdd` on `.re`, `atomicAdd` on `.im`
(each leaves the cell at its value plus the operand), then `jju++`. -/
def add_ulisttot_body {K : Type} [Field K] (sfac : K) (ulist : ℕ → Cplx K) (s : UAcc K) :
    UAcc K :=
  let u1 := Function.update s.ulisttot s.jju
    { re := (s.ulisttot s.jju).re + sfac * (ulist s.jju).re, im := (s.ulisttot s.jju).im }
  let u2 := Function.update u1 s.jju
    { re := (u1 s.jju).re, im := (u1 s.jju).im + sfac * (ulist s.jju).im }
  { ulisttot := u2, jju := s.jju + 1 }

/-- Body of the `j` loop of main.cpp 623-631. -/
def add_ulisttot_level {K : Type} [Field K] (idxu_block : ℕ → ℕ) (sfac : K)
    (ulist : ℕ → Cplx K) (ulisttot : ℕ → Cplx K) (j : ℕ) : ℕ → Cplx K :=
  ((maloop j).foldl
    (fun s _ => (maloop j).foldl (fun s _ => add_ulisttot_body sfac ulist s) s)
    ({ ulisttot := ulisttot, jju := idxu_block j } : UAcc K)).ulisttot

/-- Accumulation loop of main.cpp 623-631 of one work item. -/
def add_ulisttot {K : Type} [Field K] (twojmax : ℕ) (idxu_block : ℕ → ℕ) (sfac : K)
    (ulist : ℕ → Cplx K) (ulisttot : ℕ → Cplx K) : ℕ → Cplx K :=
  (List.range (twojmax + 1)).foldl (add_ulisttot_level idxu_block sfac ulist) ulisttot

/-- Arrays of one atom in the `compute_ui` stage: `ulist nbor i` is
`ulist[ULIST_INDEX(natom, nbor, i)]`, `ulisttot i` is `ulisttot[INDEX_2D(natom, i)]`. -/
structure UiState (K : Type) where
  ulist : ℕ → ℕ → Cplx K
  ulisttot : ℕ → Cplx K

/-- The constant tables a work item of `update_ulisttot` reads. -/
structure UiTables (K : Type) where
  twojmax : ℕ
  idxu_block : ℕ → ℕ
  ulist_parity : ℕ → ℤ
  rootpqarray : ℕ → ℕ → K

/-- The `ulist` array the work item `(natom, nbor)` computes, main.cpp 500-618, from the
geometry of the pair and the previous content `ulist0` of the array. -/
def ui_pair_ulist {K : Type} [Field K] (env : SnapEnv K) (tb : UiTables K)
    (rij : ℕ → ℕ → K) (rcutij wj : ℕ → K) (nbor : ℕ) (ulist0 : ℕ → Cplx K) : ℕ → Cplx K :=
  let g := pair_geom env (rij nbor 0) (rij nbor 1) (rij nbor 2) (rcutij nbor) (wj nbor)
  compute_ulist tb.twojmax tb.idxu_block tb.ulist_parity tb.rootpqarray
    g.a_r g.a_i g.b_r g.b_i ulist0

/-- Factor `sfac` of the work item `(natom, nbor)`, main.cpp 620-621:
`compute_sfac(r, rcut, switch_flag) * wj`. -/
def ui_pair_sfac {K : Type} [Field K] (env : SnapEnv K) (rij : ℕ → ℕ → K)
    (rcutij wj : ℕ → K) (nbor : ℕ) : K :=
  (pair_geom env (rij nbor 0) (rij nbor 1) (rij nbor 2) (rcutij nbor) (wj nbor)).sfac

/-- One work item `(natom, nbor)` of `update_ulisttot`, main.cpp 498-632, for a fixed
atom: the `ulist` array of the pair, then the accumulation into `ulisttot`.  `rij nbor k`,
`rcutij nbor`, `wj nbor` are the cells of the atom at hand. -/
def update_ulisttot_item {K : Type} [Field K] (env : SnapEnv K) (tb : UiTables K)
    (rij : ℕ → ℕ → K) (rcutij wj : ℕ → K) (s : UiState K) (nbor : ℕ) : UiState K :=
  let u := ui_pair_ulist env tb rij rcutij wj nbor (s.ulist nbor)
  { ulist := Function.update s.ulist nbor u
    ulisttot := add_ulisttot tb.twojmax tb.idxu_block (ui_pair_sfac env rij rcutij wj nbor)
      u s.ulisttot }

/-- The `compute_ui` stage of one atom (main.cpp 456-633): `reset_ulisttot`,
`set_ulisttot`, then the work items of `update_ulisttot` for the neighbours of the atom,
executed one after the other in the order `order`. -/
def compute_ui_atom {K : Type} [Field K] (env : SnapEnv K) (tb : UiTables K)
    (idxu_max : ℕ) (rij : ℕ → ℕ → K) (rcutij wj : ℕ → K) (order : List ℕ)
    (s : UiState K) : UiState K :=
  order.foldl (update_ulisttot_item env tb rij rcutij wj)
    { s with ulisttot :=
        set_ulisttot tb.twojmax tb.idxu_block (reset_ulisttot idxu_max s.ulisttot) }

/-- The tables of `update_ulisttot` as `main` builds them. -/
def ui_tables {K : Type} [Field K] (env : SnapEnv K) (twojmax : ℕ) (umem : ℕ → ℕ)
    (pmem : ℕ → ℤ) (rmem : ℕ → ℕ → K) : UiTables K :=
  { twojmax := twojmax
    idxu_block := (idxu_fill twojmax umem).idxu_block
    ulist_parity := ulist_parity_fill twojmax pmem
    rootpqarray := rootpq_init twojmax env.sqrt rmem }

/-- The value the specification gives to a Utot cell before the accumulation: `1` when
`idx` is a diagonal index, the cell `(ma, ma)` of a level `j ≤ twojmax`, else `0`. -/
def udiag (K : Type) [Field K] (twojmax : ℕ) (idxu_block : ℕ → ℕ) (idx : ℕ) : K :=
  if ∃ j, j < twojmax + 1 ∧ ∃ ma, ma < j + 1 ∧ idx = idxu_block j + ma * (j + 1) + ma
  then 1 else 0

/-! ## One step of the force evaluation (main.cpp 409-893) -/

/-- Scratch buffers of a step: `ulist natom nbor i` is
`ulist[ULIST_INDEX(natom, nbor, i)]`, `ulisttot natom i` is `ulisttot[INDEX_2D(natom, i)]`,
`ylist natom i` is `ylist[INDEX_2D(natom, i)]`, `dedr natom nbor k` is
`dedr[ULIST_INDEX(natom, nbor, k)]`, `f i k` is `f[F_INDEX(i, k)]`. -/
structure Scratch (K : Type) where
  ulist : ℕ → ℕ → ℕ → Cplx K
  ulisttot : ℕ → ℕ → Cplx K
  ylist : ℕ → ℤ → Cplx K
  dedr : ℕ → ℕ → ℕ → K
  f : ℕ → ℕ → K

/-- Inputs of a step: the library functions, the sizes, the coefficients, the geometry
(`rij natom nbor k`, `rcutij natom nbor`, `wj natom nbor`, the neighbour ids
`jlist natom nbor`), the values `dulist natom nbor jjdu k` delivered by `compute_duarray`
(a function of `snap.h`), and the content of the table allocations before `main` fills
them. -/
structure StepIn (K : Type) where
  env : SnapEnv K
  factorial : ℤ → K
  deltacg : ℕ → ℕ → ℕ → K
  twojmax : ℕ
  num_atoms : ℕ
  num_nbor : ℕ
  ntotal : ℕ
  beta : ℤ → K
  rij : ℕ → ℕ → ℕ → K
  rcutij : ℕ → ℕ → K
  wj : ℕ → ℕ → K
  jlist : ℕ → ℕ → ℕ
  dulist : ℕ → ℕ → ℕ → ℕ → Cplx K
  umem : ℕ → ℕ
  dumem : ℕ → ℕ
  cgmem : ℕ → ℕ
  pmem : ℕ → ℤ
  rmem : ℕ → ℕ → K
  bmem : ℕ → ℤ
  zmem : ZTables K
  cmem : ℕ → K

/-- The `compute_ui` stage of atom `natom` (kernels `reset_ulisttot`, `set_ulisttot`,
`update_ulisttot`), the work items of its neighbours taken in the order
`0 .. num_nbor - 1`. -/
def step_ui {K : Type} [Field K] (inp : StepIn K) (s : Scratch K) (natom : ℕ) : UiState K :=
  compute_ui_atom inp.env (ui_tables inp.env inp.twojmax inp.umem inp.pmem inp.rmem)
    (idxu_fill inp.twojmax inp.umem).idxu_count (inp.rij natom) (inp.rcutij natom)
    (inp.wj natom) (List.range inp.num_nbor)
    { ulist := s.ulist natom, ulisttot := s.ulisttot natom }

/-- The Y stage of one atom (kernels `reset_ylist`, `compute_yi`) with the tables of
`main`; the kernel reads `ulisttot` and `cglist` at `int` indices. -/
def step_ylist {K : Type} [Field K] (inp : StepIn K) (ulisttot : ℕ → Cplx K)
    (ylist : ℤ → Cplx K) : ℤ → Cplx K :=
  ystage inp.twojmax (idxb_block_fill inp.twojmax inp.bmem).idxb_block inp.beta inp.zmem
    inp.dumem (idxcg_block_int inp.twojmax inp.cgmem) (idxu_block_int inp.twojmax inp.umem)
    (fun i => (cg_fill inp.factorial inp.deltacg inp.env.sqrt inp.twojmax inp.cmem).cglist
      i.toNat)
    (fun i => ulisttot i.toNat) ylist

/-- One step, main.cpp 413-893: force reset, `compute_ui`, `compute_yi`, `compute_deidrj`
on the `dulist` delivered by `compute_duidrj`, force accumulation.  A kernel leaves the
cells of atoms `natom >= num_atoms` and of neighbours `nbor >= num_nbor` alone. -/
def step {K : Type} [Field K] (inp : StepIn K) (s : Scratch K) : Scratch K :=
  let ulist := fun natom =>
    if natom < inp.num_atoms then (step_ui inp s natom).ulist else s.ulist natom
  let ulisttot := fun natom =>
    if natom < inp.num_atoms then (step_ui inp s natom).ulisttot else s.ulisttot natom
  let ylist := fun natom =>
    if natom < inp.num_atoms then step_ylist inp (ulisttot natom) (s.ylist natom)
    else s.ylist natom
  let dedr := fun natom nbor =>
    if natom < inp.num_atoms ∧ nbor < inp.num_nbor then
      compute_deidrj inp.twojmax (idxdu_fill inp.twojmax inp.dumem).idxdu_block
        (fun i => ylist natom (i : ℤ)) (inp.dulist natom nbor) (s.dedr natom nbor)
    else s.dedr natom nbor
  { ulist := ulist
    ulisttot := ulisttot
    ylist := ylist
    dedr := dedr
    f := compute_forces inp.num_atoms inp.num_nbor dedr inp.jlist
      (force_reset inp.ntotal s.f) }

/-! ## Host setup up to the consistency check (main.cpp 229-296) -/

/-- The index `jjb` at which the selection of `betaj` reads `beta[jjb]`, main.cpp
241-263: one read on each of the three paths. -/
def betaj_jjb (twojmax : ℕ) (idxb_block : ℕ → ℤ) (j1 j2 j : ℕ) : ℤ :=
  let jdim := twojmax + 1
  if j ≥ j1 then idxb_block (j1 * jdim * jdim + j2 * jdim + j)
  else if j ≥ j2 then idxb_block (j * jdim * jdim + j2 * jdim + j1)
  else idxb_block (j2 * jdim * jdim + j * jdim + j1)

/-- The indices of `beta` the fill loop of main.cpp 229-289 reads, in execution order:
one read per iteration of the `(j1, j2, j)` nest. -/
def zfill_beta_reads (twojmax : ℕ) (idxb_block : ℕ → ℤ) : List ℤ :=
  (triples twojmax).map fun t => betaj_jjb twojmax idxb_block t.1 t.2.1 t.2.2

/-- What `main` has done when it reaches the statement after main.cpp 293-296:
`beta_reads` are the indices of `beta` read so far, `tables` the Z-list built from them,
`check_ok` is false when the program has printed the error and called `exit(1)`. -/
structure HostSetup (K : Type) where
  beta_reads : List ℤ
  tables : ZTables K
  check_ok : Bool

/-- `main` from the reverse index list to the consistency check, main.cpp 194-296: the
fill loop of the Z-list, which reads `beta`, then `compute_ncoeff(twojmax) != ncoeff`.
`compute_ncoeff` is a function of `snap.h`, a parameter. -/
def host_setup {K : Type} [Field K] (compute_ncoeff : ℕ → ℤ) (twojmax : ℕ) (ncoeff : ℤ)
    (beta : ℤ → K) (bmem : ℕ → ℤ) (zmem : ZTables K) : HostSetup K :=
  { beta_reads := zfill_beta_reads twojmax (idxb_block_fill twojmax bmem).idxb_block
    tables := zfill twojmax (idxb_block_fill twojmax bmem).idxb_block beta zmem
    check_ok := decide (compute_ncoeff twojmax = ncoeff) }

/-! ## Decoding, multiplicity table, cursors and lookups: definitions for the index claims -/

/-- Row `mb` a work item of `compute_yi` reconstructs from its record, main.cpp 684:
`(2 * (mb1min + mb2max) - j1 - j2 + j) / 2`. -/
def yi_mb (rec : ℕ → ℤ) : ℤ :=
  Int.tdiv (2 * (rec 6 + rec 7) - rec 0 - rec 1 + rec 2) 2

/-- Column `ma` a work item of `compute_yi` reconstructs from its record, main.cpp 685:
`(2 * (ma1min + ma2max) - j1 - j2 + j) / 2`. -/
def yi_ma (rec : ℕ → ℤ) : ℤ :=
  Int.tdiv (2 * (rec 3 + rec 4) - rec 0 - rec 1 + rec 2) 2

/-- Ratio of the multiplicity table as the specification words it: `(j1+1)/(j+1)` if
`j < j1`, `1` if `j >= j1`. -/
def zratio_spec (K : Type) [Field K] (j1 j : ℕ) : K :=
  if j < j1 then ((j1 : K) + 1) / ((j : K) + 1) else 1

/-- The sum as the specification words what `compute_deidrj` adds up:
`2 * SUM_j [ SUM_{2*mb < j} SUM_{ma <= j} T(j,mb,ma) + (j even) ( SUM_{ma < j/2}
T(j,j/2,ma) + 0.5 * T(j,j/2,j/2) ) ]`, with `T(j,mb,ma) = dU.re*Y.re + dU.im*Y.im` at
logical index `idxdu_block[j] + mb*(j+1) + ma`. -/
def dedr_rows_spec {K : Type} [Field K] (twojmax : ℕ) (idxdu_block : ℕ → ℕ)
    (ylist : ℕ → Cplx K) (dulist : ℕ → ℕ → Cplx K) (k : ℕ) : K :=
  2 * ∑ j ∈ Finset.range (twojmax + 1),
    ((∑ mb ∈ (Finset.range (j + 1)).filter (fun mb => 2 * mb < j),
        ∑ ma ∈ Finset.range (j + 1),
          dterm ylist dulist (idxdu_block j + mb * (j + 1) + ma) k)
      + (if j % 2 = 0 then
          (∑ ma ∈ Finset.range (j / 2),
              dterm ylist dulist (idxdu_block j + j / 2 * (j + 1) + ma) k)
            + (1 / 2) * dterm ylist dulist (idxdu_block j + j / 2 * (j + 1) + j / 2) k
        else 0))

/-- Arguments `(p, q)` of the lookups `rootpqarray[ROOTPQ_INDEX(p, q)]` made by iteration
`m_iter` of the recursion loop at level `j`, main.cpp 569-586, in the order of the
statements: `(j - ma, j - mb)`, `(ma + 1, j - mb)`, and when `2 * (mb + 1) == j` also
`(j - ma, mb + 1)`, `(ma + 1, mb + 1)`. -/
def ui_rootpq_args (j m_iter : ℕ) : List (ℤ × ℤ) :=
  let ma_max := j
  let mb := m_iter / ma_max
  let ma := m_iter % ma_max
  [((j : ℤ) - ma, (j : ℤ) - mb), ((ma : ℤ) + 1, (j : ℤ) - mb)] ++
    (if 2 * (mb + 1) = j then [((j : ℤ) - ma, (mb : ℤ) + 1), ((ma : ℤ) + 1, (mb : ℤ) + 1)]
      else [])

/-- Logical indices of `ulist` that iteration `m_iter` of the recursion loop of level `j`
(main.cpp 562-593) touches at cursors `jju`, `jjup`: `jjup` is read, `jju` updated,
`jju+1` assigned, and when `2 * (mb + 1) == j`, `jju+deljju` is updated and
`jju+deljju+1` assigned. -/
def ui_rec_indices (j jju jjup m_iter : ℕ) : List ℕ :=
  let deljju := j + 1
  let ma_max := j
  let mb := m_iter / ma_max
  [jjup, jju, jju + 1] ++ (if 2 * (mb + 1) = j then [jju + deljju, jju + deljju + 1] else [])

/-- State of the zero-initialisation loop of main.cpp 540-550, started on the array `u`,
when the levels `1 .. n` are done. -/
def ui_zero_after {K : Type} [Field K] (n : ℕ) (u : ℕ → Cplx K) : UZero K :=
  (List.range' 1 n).foldl ui_zero_level ({ ulist := u, jju := 1 } : UZero K)

/-- State of the `j` loop of main.cpp 552-618, started on the array `Z`, when the levels
`1 .. n` are done. -/
def ui_after {K : Type} [Field K] (idxu_block : ℕ → ℕ) (ulist_parity : ℕ → ℤ)
    (rootpqarray : ℕ → ℕ → K) (a_r a_i b_r b_i : K) (Z : ℕ → Cplx K) (n : ℕ) : UState K :=
  (List.range' 1 n).foldl (ui_level idxu_block ulist_parity rootpqarray a_r a_i b_r b_i)
    ({ ulist := Z, jju := 1, jjup := 0 } : UState K)

/-- State of the recursion loop of level `j` when iteration `m_iter` begins. -/
def ui_at {K : Type} [Field K] (idxu_block : ℕ → ℕ) (ulist_parity : ℕ → ℤ)
    (rootpqarray : ℕ → ℕ → K) (a_r a_i b_r b_i : K) (Z : ℕ → Cplx K) (j m_iter : ℕ) :
    UState K :=
  (List.range m_iter).foldl (ui_rec_body rootpqarray a_r a_i b_r b_i j)
    (ui_after idxu_block ulist_parity rootpqarray a_r a_i b_r b_i Z (j - 1))

/-- State of the symmetry copy of level `j` (main.cpp 599-608), started on the array `u`,
when iteration `(mb, ma)` begins: `mb` rows and `ma` further cells are done. -/
def ui_sym_at {K : Type} [Field K] (idxu_block : ℕ → ℕ) (ulist_parity : ℕ → ℤ)
    (u : ℕ → Cplx K) (j mb ma : ℕ) : USym K :=
  (List.range ma).foldl (fun s _ => ui_sym_body ulist_parity s)
    ((List.range mb).foldl
      (fun s _ => (maloop j).foldl (fun s _ => ui_sym_body ulist_parity s) s)
      ({ ulist := u, jjui := idxu_block j
         jjuip := idxu_block j + (j + 1) * (j + 1) - 1 } : USym K))

end TestSNAP

namespace Jaccard

/-!
# Jaccard weights

A shallow embedding of `src/jaccard-sycl/main.cpp`, with the conventions of the first
part: arrays are total functions, `int` is a mathematical integer, the element type `T`
is a field `K` with exact arithmetic.  A kernel is the sequence of its work items, each
running its strided loops; the work items of one kernel partition the iterations
`(row, j, i)` of the loop nest, which are executed here in increasing order.  The kernel
`jaccard_row_sum` calls group functions of SYCL on its sub-groups: there the lanes of a
sub-group are run in lock step, and the two group functions are parameters.
-/

/-- Kernel `fill_weights<weighted>` (main.cpp 227-238): `w[j] = weighted ? (T)(j+1)/e :
value` for `j < e`. -/
def fill_weights {K : Type} [Field K] (weighted : Bool) (e : ℕ) (value : K) (w : ℕ → K) :
    ℕ → K :=
  fun j => if j < e then (if weighted then ((j : K) + 1) / (e : K) else value) else w j

/-- The SYCL group functions used by `parallel_prefix_sum`, which are library functions
and not part of the repository: `select_from_group x id l` is the value the call
`sycl::select_from_group(sg, x, id)` returns to lane `l` of the sub-group when lane `m`
passes `x m`, and `shift_group_right x delta l` is the value
`sycl::shift_group_right(sg, x, delta)` returns to lane `l`. -/
structure SubGroupOps (K : Type) where
  select_from_group : (ℕ → K) → ℕ → ℕ → K
  shift_group_right : (ℕ → K) → ℕ → ℕ → K

/-- The sub-group size of the kernel `jaccard_row_sum`,
`[[sycl::reqd_sub_group_size(32)]]` (main.cpp 101). -/
def sub_group_size : ℕ := 32

/-- The value of `blockDim_x = item.get_local_range(2)` in `parallel_prefix_sum`: the
local range of `jaccard_row_sum` is `(1, y, 64/y)` with `y = 4` (main.cpp 91-93). -/
def blockDim_x : ℕ := 16

/-- What SYCL 2020 specifies of the two group functions on a sub-group of
`sub_group_size` lanes: `select_from_group` returns the value of lane `id`, and
`shift_group_right` returns to lane `l` the value of lane `l - delta` when `delta ≤ l`
(the value is unspecified for `l < delta`). -/
def SyclGroupFunctions {K : Type} (sg : SubGroupOps K) : Prop :=
  (∀ (x : ℕ → K) (id l : ℕ), id < sub_group_size → l < sub_group_size →
    sg.select_from_group x id l = x id) ∧
  (∀ (x : ℕ → K) (delta l : ℕ), delta ≤ l → l < sub_group_size →
    sg.shift_group_right x delta l = x (l - delta))

/-- The bound `mn = ((n+blockDim_x-1)/blockDim_x*blockDim_x)` of main.cpp 61, with the
truncating division of C. -/
def pps_mn (n : ℤ) : ℤ :=
  Int.tdiv (n + blockDim_x - 1) blockDim_x * blockDim_x

/-- The value of `i` in round `t` of the loop `for (i=threadIdx; i<mn; i+=blockDim_x)`
(main.cpp 63) for lane `l`, whose `threadIdx = item.get_local_id(2)` is
`l % blockDim_x`. -/
def pps_i (l t : ℕ) : ℕ :=
  l % blockDim_x + t * blockDim_x

/-- The values of `j` in the loop `for (int j=1; j<blockDim_x; j*=2)` of main.cpp 68. -/
def scan_offsets : List ℕ :=
  (List.iterate (fun j => j * 2) 1 blockDim_x).takeWhile (fun j => decide (j < blockDim_x))

/-- Body of the loop on `j`, main.cpp 69-70, for the lanes of a sub-group in round `t`:
`v = shift_group_right(sg, sum, j); if (threadIdx >= j) sum += v`.  A lane whose loop
on `i` has ended keeps its `sum`. -/
def pps_scan_step {K : Type} [Field K] (sg : SubGroupOps K) (n : ℕ → ℤ) (t : ℕ)
    (sum : ℕ → K) (j : ℕ) : ℕ → K :=
  fun l =>
    if (pps_i l t : ℤ) < pps_mn (n l) ∧ j ≤ l % blockDim_x then
      sum l + sg.shift_group_right sum j l
    else sum l

/-- Round `t` of the loop on `i`, main.cpp 63-73, for the lanes of a sub-group, lane `l`
having been called with the length `n l` and the index array `ind l`:
`last = select_from_group(sg, sum, blockDim_x-1)`, `sum = valid ? w[ind[i]] : 0`, the
scan, `sum += last`.  A lane whose loop has ended (`i >= mn`) keeps its `sum`. -/
def pps_round {K : Type} [Field K] (sg : SubGroupOps K) (n : ℕ → ℤ) (ind : ℕ → ℕ → ℕ)
    (w : ℕ → K) (sum : ℕ → K) (t : ℕ) : ℕ → K :=
  let last := sg.select_from_group sum (blockDim_x - 1)
  let sum0 : ℕ → K := fun l =>
    if (pps_i l t : ℤ) < pps_mn (n l) then
      (if (pps_i l t : ℤ) < n l then w (ind l (pps_i l t)) else 0)
    else sum l
  let sum1 := scan_offsets.foldl (pps_scan_step sg n t) sum0
  fun l => if (pps_i l t : ℤ) < pps_mn (n l) then sum1 l + last l else sum1 l

/-- Number of rounds after which every lane of the sub-group has left the loop on `i`. -/
def pps_rounds (n : ℕ → ℤ) : ℕ :=
  (Finset.range sub_group_size).sup (fun l => (pps_mn (n l) / blockDim_x).toNat)

/-- Function `parallel_prefix_sum` (main.cpp 52-77) run by the lanes of one sub-group in
lock step: lane `l` is called with the length `n l` and the index array `ind l`, all
lanes with the same `w`; the result is the value returned to each lane,
`select_from_group(sg, sum, blockDim_x-1)` after the loop.  Where the lanes of the
sub-group do not run the same number of rounds the group functions are called in
diverged control flow, to which SYCL gives no meaning; here a lane that has left the loop
keeps its `sum`. -/
def parallel_prefix_sum {K : Type} [Field K] (sg : SubGroupOps K) (n : ℕ → ℤ)
    (ind : ℕ → ℕ → ℕ) (w : ℕ → K) : ℕ → K :=
  let sum := (List.range (pps_rounds n)).foldl (pps_round sg n ind w) (fun _ => 0)
  sg.select_from_group sum (blockDim_x - 1)

/-- Kernel `jaccard_row_sum<weighted>` (main.cpp 80-113): `work[row]` for `row < n` is
`(T)length` in the unweighted case; in the weighted case it is the value
`parallel_prefix_sum(item, length, csrInd + start, w)` returns to the work item of the
row with `get_local_id(2) == 0`.  The range is `(1, (n+3)/4*4, 16)` with work-groups
`(1, 4, 16)`, so a work item has `row = get_global_id(1)` and runs the loop on `row` at
most once (its stride is the number of rows of the range).  With local ids linearised as
`get_local_id(1)*16 + get_local_id(2)` and sub-groups of 32 consecutive work items, the
rows `2p` and `2p+1` share a sub-group: lane `l` has `threadIdx = l % 16` and runs the row
`row - row % 2 + l / 16`; a lane whose row is not below `n` makes no call and is given
the length `0`. -/
def jaccard_row_sum {K : Type} [Field K] (weighted : Bool) (sg : SubGroupOps K) (n : ℕ)
    (csrPtr csrInd : ℕ → ℕ) (w : ℕ → K) (work : ℕ → K) : ℕ → K :=
  fun row =>
    if row < n then
      let start := csrPtr row
      let length : ℤ := (csrPtr (row + 1) : ℤ) - (start : ℤ)
      if weighted then
        let lane_row : ℕ → ℕ := fun l => row - row % 2 + l / blockDim_x
        parallel_prefix_sum sg
          (fun l =>
            if lane_row l < n then (csrPtr (lane_row l + 1) : ℤ) - (csrPtr (lane_row l) : ℤ)
            else 0)
          (fun l i => csrInd (csrPtr (lane_row l) + i)) w (row % 2 * blockDim_x)
      else (length : K)
    else work row

/-- Binary search of main.cpp 170-183 in `csrInd[left .. right]` for `ref_col`: the value
of `match` when the loop ends, `-1` when no element is found.  `(left+right)>>1` is the
floor of the half. -/
def bsearch (csrInd : ℕ → ℕ) (ref_col : ℕ) (left right : ℤ) : ℤ :=
  if left ≤ right then
    let middle := (left + right) / 2
    let cur_col := csrInd middle.toNat
    if cur_col > ref_col then bsearch csrInd ref_col left (middle - 1)
    else if cur_col < ref_col then bsearch csrInd ref_col (middle + 1) right
    else middle
  else -1
termination_by (right + 1 - left).toNat
decreasing_by
  all_goals simp_wf
  all_goals omega

/-- The arrays `weight_i`, `weight_s` written by `jaccard_is`. -/
structure IsState (K : Type) where
  weight_i : ℕ → K
  weight_s : ℕ → K

/-- Body of the innermost loop of `jaccard_is`, main.cpp 163-189, for the entry `j` and
the element `i` of the reference row: `atomicAdd(weight_i[j], ref_val)` when the binary
search in row `cur` finds `csrInd[i]`. -/
def is_search {K : Type} [Field K] (weighted : Bool) (csrPtr csrInd : ℕ → ℕ) (v : ℕ → K)
    (cur j : ℕ) (weight_i : ℕ → K) (i : ℕ) : ℕ → K :=
  let ref_col := csrInd i
  let ref_val : K := if weighted then v ref_col else 1
  let m := bsearch csrInd ref_col (csrPtr cur) ((csrPtr (cur + 1) : ℤ) - 1)
  if m ≠ -1 then Function.update weight_i j (weight_i j + ref_val) else weight_i

/-- Body of the `j` loop of `jaccard_is`, main.cpp 150-190, for an entry `j` of row
`row`. -/
def is_entry {K : Type} [Field K] (weighted : Bool) (csrPtr csrInd : ℕ → ℕ)
    (v work : ℕ → K) (row : ℕ) (s : IsState K) (j : ℕ) : IsState K :=
  let col := csrInd j
  let Ni : ℤ := (csrPtr (row + 1) : ℤ) - csrPtr row
  let Nj : ℤ := (csrPtr (col + 1) : ℤ) - csrPtr col
  let ref := if Ni < Nj then row else col
  let cur := if Ni < Nj then col else row
  { weight_s := Function.update s.weight_s j (work row + work col)
    weight_i := (List.range' (csrPtr ref) (csrPtr (ref + 1) - csrPtr ref)).foldl
      (is_search weighted csrPtr csrInd v cur j) s.weight_i }

/-- Kernel `jaccard_is<weighted>` (main.cpp 117-193): rows `0 .. n-1`, entries
`csrPtr[row] .. csrPtr[row+1]-1` of each row. -/
def jaccard_is {K : Type} [Field K] (weighted : Bool) (n : ℕ) (csrPtr csrInd : ℕ → ℕ)
    (v work : ℕ → K) (s : IsState K) : IsState K :=
  (List.range n).foldl
    (fun s row => (List.range' (csrPtr row) (csrPtr (row + 1) - csrPtr row)).foldl
      (is_entry weighted csrPtr csrInd v work row) s) s

/-- Kernel `jaccard_jw` (main.cpp 196-225): `weight_j[j] = (gamma*csrVal[j]) *
(Wi/(Ws-Wi))` for `j < e`. -/
def jaccard_jw {K : Type} [Field K] (e : ℕ) (csrVal : ℕ → K) (gamma : K)
    (weight_i weight_s weight_j : ℕ → K) : ℕ → K :=
  fun j =>
    if j < e then (gamma * csrVal j) * (weight_i j / (weight_s j - weight_i j))
    else weight_j j

/-- The device buffers of `jaccard_weight`. -/
structure JState (K : Type) where
  weight_j : ℕ → K
  weight_i : ℕ → K
  weight_s : ℕ → K
  work : ℕ → K

/-- The constant `gamma = (T)0.46` of main.cpp 245. -/
def gamma (K : Type) [Field K] : K := 46 / 100

/-- One iteration of the loop of `jaccard_weight`, main.cpp 268-302. -/
def jaccard_iter {K : Type} [Field K] (weighted : Bool)
    (sg : SubGroupOps K) (n e : ℕ) (csrPtr csrInd : ℕ → ℕ) (csrVal : ℕ → K)
    (s : JState K) : JState K :=
  let w := fill_weights weighted e 1 s.weight_j
  let wi0 := fill_weights false e 0 s.weight_i
  let work := jaccard_row_sum weighted sg n csrPtr csrInd w s.work
  let r := jaccard_is weighted n csrPtr csrInd w work { weight_i := wi0, weight_s := s.weight_s }
  { weight_j := jaccard_jw e csrVal (gamma K) r.weight_i r.weight_s w
    weight_i := r.weight_i
    weight_s := r.weight_s
    work := work }

/-- The array `weight_j` after `jaccard_weight<weighted>` (main.cpp 240-339) has run its
loop `iteration` times on buffers of initial content `s`. -/
def jaccard_weight {K : Type} [Field K] (weighted : Bool)
    (sg : SubGroupOps K) (iteration n e : ℕ) (csrPtr csrInd : ℕ → ℕ)
    (csrVal : ℕ → K) (s : JState K) : ℕ → K :=
  ((jaccard_iter weighted sg n e csrPtr csrInd csrVal)^[iteration] s).weight_j

/-- Columns stored in row `r`. -/
def cols (csrPtr csrInd : ℕ → ℕ) (r : ℕ) : Finset ℕ :=
  (Finset.Ico (csrPtr r) (csrPtr (r + 1))).image csrInd

/-- A CSR matrix with `n` rows and `e` stored entries, column indices strictly increasing
within each row and smaller than `n`. -/
def CSR (n e : ℕ) (csrPtr csrInd : ℕ → ℕ) : Prop :=
  csrPtr 0 = 0 ∧ csrPtr n = e ∧ (∀ r, r < n → csrPtr r ≤ csrPtr (r + 1)) ∧
    (∀ r, r < n → ∀ i i', csrPtr r ≤ i → i < i' → i' < csrPtr (r + 1) →
      csrInd i < csrInd i') ∧
    (∀ j, j < e → csrInd j < n)

/-- Vertex weight of the specification: `1` in the unweighted run, `(c+1)/e` in the
weighted run. -/
def wspec (K : Type) [Field K] (weighted : Bool) (e c : ℕ) : K :=
  if weighted then ((c : K) + 1) / (e : K) else 1

/-- Volume of the intersection of the specification for weights `w`: the sum of `w[c]`
over the columns present in both rows. -/
def Wi_spec {K : Type} [Field K] (csrPtr csrInd : ℕ → ℕ) (w : ℕ → K) (row col : ℕ) : K :=
  ∑ c ∈ cols csrPtr csrInd row ∩ cols csrPtr csrInd col, w c

/-- Sum of volumes of the specification for weights `w`. -/
def Ws_spec {K : Type} [Field K] (csrPtr csrInd : ℕ → ℕ) (w : ℕ → K) (row col : ℕ) : K :=
  (∑ c ∈ cols csrPtr csrInd row, w c) + ∑ c ∈ cols csrPtr csrInd col, w c

/-- The vectors `csr_val`, `csr_ptr`, `csr_ind` and the counter `nnz` of `main`
(main.cpp 401-404). -/
structure CsrVec (K : Type) where
  csr_val : List K
  csr_ptr : List ℕ
  csr_ind : List ℕ
  nnz : ℕ

/-- Body of the loop on `j` of main.cpp 407-413 for the row `Mi` of the matrix. -/
def csr_push {K : Type} [Field K] [DecidableEq K] (Mi : List K) (st : CsrVec K) (j : ℕ) :
    CsrVec K :=
  if Mi.getD j 0 ≠ 0 then
    { st with
      csr_val := st.csr_val ++ [Mi.getD j 0]
      csr_ind := st.csr_ind ++ [j]
      nnz := st.nnz + 1 }
  else st

/-- Body of the loop on `i` of main.cpp 406-415. -/
def csr_row {K : Type} [Field K] [DecidableEq K] (col : ℕ) (st : CsrVec K) (Mi : List K) :
    CsrVec K :=
  let st1 := (List.range col).foldl (csr_push Mi) st
  { st1 with csr_ptr := st1.csr_ptr ++ [st1.nnz] }

/-- Conversion of the dense matrix `M` to CSR, main.cpp 398-415, with `row = M.size()` and
`col = M[0].size()`. -/
def dense_to_csr {K : Type} [Field K] [DecidableEq K] (M : List (List K)) : CsrVec K :=
  M.foldl (csr_row (M.headD []).length)
    { csr_val := [], csr_ptr := [0], csr_ind := [], nnz := 0 }

/-- Call `jaccard_weight<weighted, vtype>(q, iteration, row, nnz, csr_ptr.data(),
csr_ind.data(), csr_val.data())` of main.cpp 433-434 for the matrix `M`. -/
def jaccard_main {K : Type} [Field K] [DecidableEq K] (weighted : Bool)
    (sg : SubGroupOps K) (iteration : ℕ) (M : List (List K)) (s : JState K) :
    ℕ → K :=
  jaccard_weight weighted sg iteration M.length (dense_to_csr M).nnz
    (fun i => (dense_to_csr M).csr_ptr.getD i 0) (fun i => (dense_to_csr M).csr_ind.getD i 0)
    (fun i => (dense_to_csr M).csr_val.getD i 0) s

/-- The matrix `M` of the `DEBUG` build, main.cpp 379-384. -/
def debug_matrix : List (List ℚ) :=
  [[0, 0, 0, 1], [5, 8, 0, 0], [0, 0, 3, 0], [0, 6, 0, 1]]

/-- The value `error` of the `DEBUG` check, main.cpp 312-330, in exact arithmetic. -/
def debug_error (weighted : Bool) (weight_j : ℕ → ℚ) : ℚ :=
  if weighted then
    |weight_j 0 - 306667 / 1000000| + |weight_j 1 - 0| + |weight_j 2 - 368 / 100| +
      |weight_j 3 - 138 / 100| + |weight_j 4 - 788571 / 1000000| + |weight_j 5 - 46 / 100|
  else
    |weight_j 0 - 23 / 100| + |weight_j 1 - 0| + |weight_j 2 - 368 / 100| +
      |weight_j 3 - 138 / 100| + |weight_j 4 - 92 / 100| + |weight_j 5 - 46 / 100|

/-- Indices of `csrPtr` read for the stored entry `j` of row `row` in `jaccard_is`,
main.cpp 149-183, in program order: `row+1`, `row` for `Ni`; `col+1`, `col` for `Nj`
(`col = csrInd[j]` used as a row index); `ref`, `ref+1` for the bounds of the loop over
the reference row; `cur`, `cur+1` for `left` and `right` in each of its iterations. -/
def is_entry_ptr_reads (csrPtr csrInd : ℕ → ℕ) (row j : ℕ) : List ℕ :=
  let col := csrInd j
  let Ni : ℤ := (csrPtr (row + 1) : ℤ) - csrPtr row
  let Nj : ℤ := (csrPtr (col + 1) : ℤ) - csrPtr col
  let ref := if Ni < Nj then row else col
  let cur := if Ni < Nj then col else row
  [row + 1, row, col + 1, col, ref, ref + 1] ++
    (List.range' (csrPtr ref) (csrPtr (ref + 1) - csrPtr ref)).flatMap (fun _ => [cur, cur + 1])

/-- Indices of `work` read for the stored entry `j` of row `row`, main.cpp 157:
`work[row] + work[col]`. -/
def is_entry_work_reads (csrInd : ℕ → ℕ) (row j : ℕ) : List ℕ :=
  [row, csrInd j]

/-- Indices of `csrPtr` the kernel `jaccard_is` reads, main.cpp 144-183: for each row
`row < n` the bounds `csrPtr[row]`, `csrPtr[row+1]` of the loop on `j`, then the reads of
each entry. -/
def jaccard_is_ptr_reads (n : ℕ) (csrPtr csrInd : ℕ → ℕ) : List ℕ :=
  (List.range n).flatMap (fun row => [row, row + 1] ++
    (List.range' (csrPtr row) (csrPtr (row + 1) - csrPtr row)).flatMap
      (is_entry_ptr_reads csrPtr csrInd row))

/-- Indices of `work` the kernel `jaccard_is` reads. -/
def jaccard_is_work_reads (n : ℕ) (csrPtr csrInd : ℕ → ℕ) : List ℕ :=
  (List.range n).flatMap (fun row =>
    (List.range' (csrPtr row) (csrPtr (row + 1) - csrPtr row)).flatMap
      (is_entry_work_reads csrInd row))

/-- The columns `j < col` with `M[i][j] != 0` of the row `Mi`, in increasing order. -/
def nonzero_cols {K : Type} [Field K] [DecidableEq K] (col : ℕ) (Mi : List K) : List ℕ :=
  (List.range col).filter (fun j => decide (Mi.getD j 0 ≠ 0))

end Jaccard

namespace Cbsfil

/-!
# cbsfil: thread counts

A shallow embedding of `PowTwoDivider` and of the thread counts of `main` in
`src/cbsfil-omp/main.cpp`.  An `int` is a mathematical integer of `[-2^31, 2^31)`; a shift
whose result leaves that range is reported as an overflow.
-/

/-- Outcome of a run: `ret d` for `return d`, `overflow` when `divider <<= 1` leaves the
range of `int`, `unfinished` when the loop has not ended within the given number of
evaluations of its condition. -/
inductive Outcome where
  | ret (d : ℤ)
  | overflow
  | unfinished
  deriving DecidableEq

/-- The loop and the `return` of main.cpp 13-14, `while ((n & divider) == 0)
divider <<= 1; return divider;`, with at most `fuel` evaluations of the condition. -/
def PowTwoDivider_loop : ℕ → ℤ → ℤ → Outcome
  | 0, _, _ => Outcome.unfinished
  | fuel + 1, n, divider =>
    if Int.land n divider = 0 then
      if -(2 ^ 31) ≤ 2 * divider ∧ 2 * divider < 2 ^ 31 then
        PowTwoDivider_loop fuel n (2 * divider)
      else Outcome.overflow
    else Outcome.ret divider

/-- Function `PowTwoDivider` of main.cpp 9-15. -/
def PowTwoDivider (fuel : ℕ) (n : ℤ) : Outcome :=
  if n = 0 then Outcome.ret 0 else PowTwoDivider_loop fuel n 1

/-- Thread count `std::min(PowTwoDivider(h), 64)` of main.cpp 46-47. -/
def numThreads (fuel : ℕ) (h : ℤ) : Outcome :=
  match PowTwoDivider fuel h with
  | Outcome.ret d => Outcome.ret (min d 64)
  | Outcome.overflow => Outcome.overflow
  | Outcome.unfinished => Outcome.unfinished

end Cbsfil

namespace TestSNAP

/-! ## Generic facts on the loop nest -/

theorem mem_jloop {twojmax j1 j2 j : ℕ} :
    j ∈ jloop twojmax j1 j2 ↔
      j ≤ min twojmax (j1 + j2) ∧ Int.natAbs ((j1 : ℤ) - (j2 : ℤ)) ≤ j ∧
        (j - Int.natAbs ((j1 : ℤ) - (j2 : ℤ))) % 2 = 0 := by
  unfold jloop
  rw [List.mem_filter, List.mem_range]
  simp only [decide_eq_true_eq]
  omega

theorem mem_triples {twojmax j1 j2 j : ℕ} :
    (j1, j2, j) ∈ triples twojmax ↔
      j1 ≤ twojmax ∧ j2 ≤ j1 ∧ j ∈ jloop twojmax j1 j2 := by
  unfold triples
  simp only [List.mem_flatMap, List.mem_range, List.mem_map, Prod.mk.injEq]
  constructor
  · rintro ⟨a, ha, b, hb, c, hc, rfl, rfl, rfl⟩
    exact ⟨by omega, by omega, hc⟩
  · rintro ⟨h1, h2, h3⟩
    exact ⟨j1, by omega, j2, by omega, j, h3, rfl, rfl, rfl⟩

theorem nodup_triples (twojmax : ℕ) : (triples twojmax).Nodup := by
  unfold triples
  rw [List.nodup_flatMap]
  refine ⟨?_, ?_⟩
  · intro j1 _
    rw [List.nodup_flatMap]
    refine ⟨?_, ?_⟩
    · intro j2 _
      refine List.Nodup.map ?_ (List.Nodup.filter _ (List.nodup_range _))
      intro a b h
      simpa using h
    · refine List.Pairwise.imp_of_mem ?_ (List.nodup_range (j1 + 1))
      intro a b _ _ hab
      simp only [Function.onFun, List.Disjoint]
      intro x hx hy
      simp only [List.mem_map] at hx hy
      obtain ⟨_, _, rfl⟩ := hx
      obtain ⟨_, _, h⟩ := hy
      simp only [Prod.mk.injEq] at h
      exact hab h.2.1.symm
  · refine List.Pairwise.imp_of_mem ?_ (List.nodup_range (twojmax + 1))
    intro a b _ _ hab
    simp only [Function.onFun, List.Disjoint]
    intro x hx hy
    simp only [List.mem_flatMap, List.mem_map] at hx hy
    obtain ⟨_, _, _, _, rfl⟩ := hx
    obtain ⟨_, _, _, _, h⟩ := hy
    simp only [Prod.mk.injEq] at h
    exact hab h.1.symm

theorem sizeSum_append {α : Type} (sz : α → ℕ) (l l' : List α) :
    sizeSum sz (l ++ l') = sizeSum sz l + sizeSum sz l' := by
  simp [sizeSum]

theorem sizeSum_cons {α : Type} (sz : α → ℕ) (a : α) (l : List α) :
    sizeSum sz (a :: l) = sz a + sizeSum sz l := by
  simp [sizeSum]

theorem sizeSum_cover {α : Type} (sz : α → ℕ) (l : List α) (p : ℕ)
    (hp : p < sizeSum sz l) :
    ∃ pre t post, l = pre ++ t :: post ∧ sizeSum sz pre ≤ p ∧ p < sizeSum sz pre + sz t := by
  induction l generalizing p with
  | nil => simp [sizeSum] at hp
  | cons a l ih =>
    by_cases h : p < sz a
    · exact ⟨[], a, l, rfl, by simp [sizeSum], by simpa [sizeSum] using h⟩
    · rw [sizeSum_cons] at hp
      obtain ⟨pre, t, post, rfl, h1, h2⟩ := ih (p - sz a) (by omega)
      refine ⟨a :: pre, t, post, rfl, ?_, ?_⟩
      · rw [sizeSum_cons]; omega
      · rw [sizeSum_cons]; omega

theorem foldl_count_const {ι : Type} (l : List ι) (c : ℕ) :
    l.foldl (fun cnt _ => cnt + 1) c = c + l.length := by
  induction l generalizing c with
  | nil => rfl
  | cons a l ih => simp [List.foldl_cons, ih]; omega

theorem foldl_count_sizes {ι : Type} (sz : ι → ℕ) (body : ℕ → ι → ℕ)
    (hbody : ∀ c t, body c t = c + sz t) (l : List ι) (c : ℕ) :
    l.foldl body c = c + sizeSum sz l := by
  induction l generalizing c with
  | nil => simp [sizeSum]
  | cons a l ih => rw [List.foldl_cons, ih, hbody, sizeSum_cons]; omega

theorem idxz_max_eq (twojmax : ℕ) : idxz_max twojmax = sizeSum zsize (triples twojmax) := by
  unfold idxz_max
  rw [foldl_count_sizes zsize]
  · simp
  · intro c t
    have h : ∀ (n : ℕ) (c : ℕ),
        (List.range n).foldl (fun cnt _ => (maloop t.2.2).foldl (fun cnt _ => cnt + 1) cnt) c
          = c + n * (t.2.2 + 1) := by
      intro n
      induction n with
      | zero => intro c; simp
      | succ n ih =>
        intro c
        rw [List.range_succ, List.foldl_append, ih]
        simp only [List.foldl_cons, List.foldl_nil, foldl_count_const, maloop, List.length_range]
        ring
    simp only [mbloop, zsize]
    exact h _ _

theorem digits_eq (d x c x' c' : ℕ) (hc : c < d) (hc' : c' < d)
    (h : x * d + c = x' * d + c') : x = x' ∧ c = c' := by
  have hd : 0 < d := by omega
  have h1 : (x * d + c) / d = x ∧ (x * d + c) % d = c :=
    (Nat.div_mod_unique hd).2 ⟨by ring, hc⟩
  have h2 : (x' * d + c') / d = x' ∧ (x' * d + c') % d = c' :=
    (Nat.div_mod_unique hd).2 ⟨by ring, hc'⟩
  rw [h] at h1
  exact ⟨h1.1.symm.trans h2.1, h1.2.symm.trans h2.2⟩

theorem zkey_inj (twojmax : ℕ) (t t' : ℕ × ℕ × ℕ)
    (h2 : t.2.1 ≤ twojmax) (h3 : t.2.2 ≤ twojmax)
    (h2' : t'.2.1 ≤ twojmax) (h3' : t'.2.2 ≤ twojmax)
    (h : zkey twojmax t = zkey twojmax t') : t = t' := by
  obtain ⟨a, b, c⟩ := t
  obtain ⟨a', b', c'⟩ := t'
  simp only [zkey] at h h2 h3 h2' h3'
  have e1 : (a * (twojmax + 1) + b) * (twojmax + 1) + c
      = (a' * (twojmax + 1) + b') * (twojmax + 1) + c' := by
    rw [add_mul, add_mul]; exact h
  obtain ⟨e2, hc⟩ := digits_eq _ _ _ _ _ (by omega) (by omega) e1
  obtain ⟨ha, hb⟩ := digits_eq _ _ _ _ _ (by omega) (by omega) e2
  rw [ha, hb, hc]

section ZFill
variable {K : Type}

theorem zfill_entry_count (j1 j2 j : ℕ) (bj : K) (mb ma : ℕ) (s : ZTables K) :
    (zfill_entry j1 j2 j bj mb ma s).idxz_count = s.idxz_count + 1 := rfl

theorem zfill_entry_block (j1 j2 j : ℕ) (bj : K) (mb ma : ℕ) (s : ZTables K) :
    (zfill_entry j1 j2 j bj mb ma s).idxz_block = s.idxz_block := rfl

theorem zfill_entry_beta (j1 j2 j : ℕ) (bj : K) (mb ma : ℕ) (s : ZTables K) (p : ℕ) :
    (zfill_entry j1 j2 j bj mb ma s).idxzbeta p
      = if p = s.idxz_count then bj else s.idxzbeta p := by
  simp only [zfill_entry, Function.update_apply]

theorem zfill_entry_idxz (j1 j2 j : ℕ) (bj : K) (mb ma : ℕ) (s : ZTables K) (p c : ℕ) :
    (zfill_entry j1 j2 j bj mb ma s).idxz p c
      = if p = s.idxz_count ∧ c < 9 then zfields j1 j2 j mb ma c else s.idxz p c := by
  by_cases hp : p = s.idxz_count
  · by_cases hc : c < 9
    · subst hp
      interval_cases c <;> simp [zfill_entry, set2, zfields, zmax, zn]
    · have h0 : c ≠ 0 := by omega
      have h1 : c ≠ 1 := by omega
      have h2 : c ≠ 2 := by omega
      have h3 : c ≠ 3 := by omega
      have h4 : c ≠ 4 := by omega
      have h5 : c ≠ 5 := by omega
      have h6 : c ≠ 6 := by omega
      have h7 : c ≠ 7 := by omega
      have h8 : c ≠ 8 := by omega
      simp [zfill_entry, set2, hc, h0, h1, h2, h3, h4, h5, h6, h7, h8]
  · simp [zfill_entry, set2, hp]

/-- One row of a block: the `ma` loop run for `n` iterations. -/
theorem zfill_row (j1 j2 j : ℕ) (bj : K) (mb : ℕ) (n : ℕ) (s : ZTables K) :
    let s' := (List.range n).foldl (fun s ma => zfill_entry j1 j2 j bj mb ma s) s
    s'.idxz_count = s.idxz_count + n ∧ s'.idxz_block = s.idxz_block ∧
    (∀ p c, s'.idxz p c =
      if s.idxz_count ≤ p ∧ p < s.idxz_count + n ∧ c < 9
      then zfields j1 j2 j mb (p - s.idxz_count) c else s.idxz p c) ∧
    (∀ p, s'.idxzbeta p =
      if s.idxz_count ≤ p ∧ p < s.idxz_count + n then bj else s.idxzbeta p) := by
  induction n with
  | zero =>
    refine ⟨rfl, rfl, ?_, ?_⟩
    · intro p c
      have : ¬ (s.idxz_count ≤ p ∧ p < s.idxz_count + 0 ∧ c < 9) := by omega
      exact (if_neg this).symm
    · intro p
      have : ¬ (s.idxz_count ≤ p ∧ p < s.idxz_count + 0) := by omega
      exact (if_neg this).symm
  | succ n ih =>
    obtain ⟨h1, h2, h3, h4⟩ := ih
    simp only [List.range_succ, List.foldl_append, List.foldl_cons, List.foldl_nil]
    refine ⟨?_, ?_, ?_, ?_⟩
    · rw [zfill_entry_count, h1]; omega
    · rw [zfill_entry_block, h2]
    · intro p c
      rw [zfill_entry_idxz, h1, h3]
      by_cases hc : c < 9
      · by_cases hp : p = s.idxz_count + n
        · subst hp
          simp [hc]
        · by_cases hq : s.idxz_count ≤ p ∧ p < s.idxz_count + n
          · have : s.idxz_count ≤ p ∧ p < s.idxz_count + (n + 1) := by omega
            simp [hp, hq, hc, this]
          · have : ¬ (s.idxz_count ≤ p ∧ p < s.idxz_count + (n + 1)) := by omega
            have hq' : ¬ (s.idxz_count ≤ p ∧ p < s.idxz_count + n ∧ c < 9) := by tauto
            have this' : ¬ (s.idxz_count ≤ p ∧ p < s.idxz_count + (n + 1) ∧ c < 9) := by tauto
            simp only [hp, false_and, if_false, hq', this']
      · have a1 : ¬ (p = s.idxz_count + n ∧ c < 9) := by tauto
        have a2 : ¬ (s.idxz_count ≤ p ∧ p < s.idxz_count + n ∧ c < 9) := by tauto
        have a3 : ¬ (s.idxz_count ≤ p ∧ p < s.idxz_count + (n + 1) ∧ c < 9) := by tauto
        simp only [a1, a2, a3, if_false]
    · intro p
      rw [zfill_entry_beta, h1, h4]
      by_cases hp : p = s.idxz_count + n
      · subst hp; simp
      · by_cases hq : s.idxz_count ≤ p ∧ p < s.idxz_count + n
        · have : s.idxz_count ≤ p ∧ p < s.idxz_count + (n + 1) := by omega
          simp only [hp, if_false, hq, this, and_self, if_true]
        · have : ¬ (s.idxz_count ≤ p ∧ p < s.idxz_count + (n + 1)) := by omega
          simp only [hp, if_false, hq, this]

/-- The first `m` rows of a block. -/
theorem zfill_rows (j1 j2 j : ℕ) (bj : K) (m : ℕ) (s : ZTables K) :
    let s' := (List.range m).foldl
      (fun s mb => (maloop j).foldl (fun s ma => zfill_entry j1 j2 j bj mb ma s) s) s
    s'.idxz_count = s.idxz_count + m * (j + 1) ∧ s'.idxz_block = s.idxz_block ∧
    (∀ p c, s'.idxz p c =
      if s.idxz_count ≤ p ∧ p < s.idxz_count + m * (j + 1) ∧ c < 9
      then zfields j1 j2 j ((p - s.idxz_count) / (j + 1)) ((p - s.idxz_count) % (j + 1)) c
      else s.idxz p c) ∧
    (∀ p, s'.idxzbeta p =
      if s.idxz_count ≤ p ∧ p < s.idxz_count + m * (j + 1) then bj else s.idxzbeta p) := by
  induction m with
  | zero =>
    refine ⟨by simp, rfl, ?_, ?_⟩
    · intro p c
      have : ¬ (s.idxz_count ≤ p ∧ p < s.idxz_count + 0 * (j + 1) ∧ c < 9) := by omega
      exact (if_neg this).symm
    · intro p
      have : ¬ (s.idxz_count ≤ p ∧ p < s.idxz_count + 0 * (j + 1)) := by omega
      exact (if_neg this).symm
  | succ m ih =>
    obtain ⟨h1, h2, h3, h4⟩ := ih
    simp only [List.range_succ, List.foldl_append, List.foldl_cons, List.foldl_nil]
    set sm := (List.range m).foldl
      (fun s mb => (maloop j).foldl (fun s ma => zfill_entry j1 j2 j bj mb ma s) s) s with hsm
    obtain ⟨r1, r2, r3, r4⟩ := zfill_row j1 j2 j bj m (j + 1) sm
    have hmul : (m + 1) * (j + 1) = m * (j + 1) + (j + 1) := by ring
    simp only [maloop]
    refine ⟨?_, ?_, ?_, ?_⟩
    · rw [r1, h1, hmul]; omega
    · rw [r2, h2]
    · intro p c
      rw [r3, h1, h3, hmul]
      by_cases hc : c < 9
      · by_cases hnew : s.idxz_count + m * (j + 1) ≤ p ∧
            p < s.idxz_count + m * (j + 1) + (j + 1)
        · have c1 : s.idxz_count ≤ p ∧ p < s.idxz_count + (m * (j + 1) + (j + 1)) ∧ c < 9 := by
            omega
          have hdm : (p - s.idxz_count) / (j + 1) = m ∧
              (p - s.idxz_count) % (j + 1) = p - (s.idxz_count + m * (j + 1)) :=
            (Nat.div_mod_unique (by omega : 0 < j + 1)).2
              ⟨by rw [Nat.mul_comm (j + 1) m]; omega, by omega⟩
          rw [if_pos ⟨hnew.1, hnew.2, hc⟩, if_pos c1, hdm.1, hdm.2]
        · have c0 : ¬ (s.idxz_count + m * (j + 1) ≤ p ∧
              p < s.idxz_count + m * (j + 1) + (j + 1) ∧ c < 9) := by tauto
          rw [if_neg c0]
          by_cases hold : s.idxz_count ≤ p ∧ p < s.idxz_count + m * (j + 1)
          · rw [if_pos ⟨hold.1, hold.2, hc⟩, if_pos ⟨hold.1, by omega, hc⟩]
          · have d1 : ¬ (s.idxz_count ≤ p ∧ p < s.idxz_count + m * (j + 1) ∧ c < 9) := by tauto
            have d2 : ¬ (s.idxz_count ≤ p ∧
                p < s.idxz_count + (m * (j + 1) + (j + 1)) ∧ c < 9) := by omega
            rw [if_neg d1, if_neg d2]
      · have a1 : ¬ (s.idxz_count + m * (j + 1) ≤ p ∧
            p < s.idxz_count + m * (j + 1) + (j + 1) ∧ c < 9) := by tauto
        have a2 : ¬ (s.idxz_count ≤ p ∧ p < s.idxz_count + m * (j + 1) ∧ c < 9) := by tauto
        have a3 : ¬ (s.idxz_count ≤ p ∧
            p < s.idxz_count + (m * (j + 1) + (j + 1)) ∧ c < 9) := by tauto
        rw [if_neg a1, if_neg a2, if_neg a3]
    · intro p
      rw [r4, h1, h4, hmul]
      by_cases hnew : s.idxz_count + m * (j + 1) ≤ p ∧
          p < s.idxz_count + m * (j + 1) + (j + 1)
      · rw [if_pos hnew, if_pos (by omega)]
      · rw [if_neg hnew]
        by_cases hold : s.idxz_count ≤ p ∧ p < s.idxz_count + m * (j + 1)
        · rw [if_pos hold, if_pos (by omega)]
        · rw [if_neg hold, if_neg (by omega)]

variable [Field K]

theorem zfill_triple_spec (twojmax : ℕ) (idxb_block : ℕ → ℤ) (beta : ℤ → K)
    (s : ZTables K) (t : ℕ × ℕ × ℕ) :
    let s' := zfill_triple twojmax idxb_block beta s t
    s'.idxz_count = s.idxz_count + zsize t ∧
    s'.idxz_block = Function.update s.idxz_block (zkey twojmax t) s.idxz_count ∧
    (∀ p c, s'.idxz p c =
      if s.idxz_count ≤ p ∧ p < s.idxz_count + zsize t ∧ c < 9
      then zfields t.1 t.2.1 t.2.2 ((p - s.idxz_count) / (t.2.2 + 1))
        ((p - s.idxz_count) % (t.2.2 + 1)) c
      else s.idxz p c) ∧
    (∀ p, s'.idxzbeta p =
      if s.idxz_count ≤ p ∧ p < s.idxz_count + zsize t
      then betaj twojmax idxb_block beta t.1 t.2.1 t.2.2 else s.idxzbeta p) := by
  obtain ⟨h1, h2, h3, h4⟩ := zfill_rows t.1 t.2.1 t.2.2
    (betaj twojmax idxb_block beta t.1 t.2.1 t.2.2) (t.2.2 / 2 + 1)
    { s with idxz_block :=
        Function.update s.idxz_block (zkey twojmax t) s.idxz_count }
  exact ⟨h1, h2, h3, h4⟩

theorem zfill_list (twojmax : ℕ) (idxb_block : ℕ → ℤ) (beta : ℤ → K)
    (T : List (ℕ × ℕ × ℕ)) (s : ZTables K) :
    let s' := T.foldl (zfill_triple twojmax idxb_block beta) s
    s'.idxz_count = s.idxz_count + sizeSum zsize T ∧
    (∀ p c, (p < s.idxz_count ∨ s.idxz_count + sizeSum zsize T ≤ p ∨ 9 ≤ c) →
      s'.idxz p c = s.idxz p c) ∧
    (∀ p, (p < s.idxz_count ∨ s.idxz_count + sizeSum zsize T ≤ p) →
      s'.idxzbeta p = s.idxzbeta p) ∧
    (∀ k, k ∉ T.map (zkey twojmax) → s'.idxz_block k = s.idxz_block k) := by
  induction T generalizing s with
  | nil =>
    exact ⟨by simp [sizeSum], fun _ _ _ => rfl, fun _ _ => rfl, fun _ _ => rfl⟩
  | cons t T ih =>
    obtain ⟨a1, a2, a3, a4⟩ := zfill_triple_spec twojmax idxb_block beta s t
    obtain ⟨b1, b2, b3, b4⟩ := ih (zfill_triple twojmax idxb_block beta s t)
    simp only [List.foldl_cons]
    refine ⟨?_, ?_, ?_, ?_⟩
    · rw [b1, a1, sizeSum_cons]; omega
    · intro p c h
      rw [sizeSum_cons] at h
      rw [b2 p c (by rw [a1]; omega), a3, if_neg (by omega)]
    · intro p h
      rw [sizeSum_cons] at h
      rw [b3 p (by rw [a1]; omega), a4, if_neg (by omega)]
    · intro k hk
      simp only [List.map_cons, List.mem_cons, not_or] at hk
      rw [b4 k hk.2, a2, Function.update_noteq hk.1]

theorem zfill_split (twojmax : ℕ) (idxb_block : ℕ → ℤ) (beta : ℤ → K)
    (pre post : List (ℕ × ℕ × ℕ)) (t : ℕ × ℕ × ℕ) (s : ZTables K)
    (hk : zkey twojmax t ∉ post.map (zkey twojmax)) :
    let s' := (pre ++ t :: post).foldl (zfill_triple twojmax idxb_block beta) s
    s'.idxz_block (zkey twojmax t) = s.idxz_count + sizeSum zsize pre ∧
    ∀ q, q < zsize t →
      (∀ c, c < 9 → s'.idxz (s.idxz_count + sizeSum zsize pre + q) c =
        zfields t.1 t.2.1 t.2.2 (q / (t.2.2 + 1)) (q % (t.2.2 + 1)) c) ∧
      s'.idxzbeta (s.idxz_count + sizeSum zsize pre + q) =
        betaj twojmax idxb_block beta t.1 t.2.1 t.2.2 := by
  simp only [List.foldl_append, List.foldl_cons]
  obtain ⟨a1, _, _, _⟩ := zfill_list twojmax idxb_block beta pre s
  set s1 := pre.foldl (zfill_triple twojmax idxb_block beta) s with hs1
  obtain ⟨b1, b2, b3, b4⟩ := zfill_triple_spec twojmax idxb_block beta s1 t
  obtain ⟨c1, c2, c3, c4⟩ := zfill_list twojmax idxb_block beta post
    (zfill_triple twojmax idxb_block beta s1 t)
  refine ⟨?_, ?_⟩
  · rw [c4 _ hk, b2, Function.update_same, a1]
  · intro q hq
    refine ⟨?_, ?_⟩
    · intro c hc
      rw [c2 _ _ (Or.inl (by rw [b1, a1]; omega)), b3, a1,
        if_pos ⟨by omega, by omega, hc⟩]
      have : s.idxz_count + sizeSum zsize pre + q - (s.idxz_count + sizeSum zsize pre) = q := by
        omega
      rw [this]
    · rw [c3 _ (Or.inl (by rw [b1, a1]; omega)), b4, a1, if_pos ⟨by omega, by omega⟩]

end ZFill

theorem mem_triples_bounds {twojmax : ℕ} {t : ℕ × ℕ × ℕ} (h : t ∈ triples twojmax) :
    t.1 ≤ twojmax ∧ t.2.1 ≤ t.1 ∧ t.2.2 ≤ twojmax ∧ t.2.2 ≤ t.1 + t.2.1 ∧
      t.1 - t.2.1 ≤ t.2.2 ∧ (t.2.2 - (t.1 - t.2.1)) % 2 = 0 := by
  obtain ⟨j1, j2, j⟩ := t
  rw [mem_triples, mem_jloop] at h
  simp only
  omega

theorem ztuple_iff {twojmax j1 j2 j mb ma : ℕ} :
    ZTuple twojmax j1 j2 j mb ma ↔
      (j1, j2, j) ∈ triples twojmax ∧ 2 * mb ≤ j ∧ ma ≤ j := by
  unfold ZTuple
  rw [mem_triples, mem_jloop]
  constructor
  · rintro ⟨h1, h2, ⟨k, hk⟩, h3, h4, h5⟩
    omega
  · rintro ⟨⟨h1, h2, h3, h4, h5⟩, h6, h7⟩
    refine ⟨h2, h1, ⟨(j - (j1 - j2)) / 2, ?_⟩, h3, h6, h7⟩
    omega

theorem nodup_zkeys (twojmax : ℕ) : ((triples twojmax).map (zkey twojmax)).Nodup := by
  refine List.Nodup.map_on ?_ (nodup_triples twojmax)
  intro x hx y hy h
  have bx := mem_triples_bounds hx
  have b := mem_triples_bounds hy
  exact zkey_inj twojmax x y (by omega) (by omega) (by omega) (by omega) h

theorem zkey_not_mem_post (twojmax : ℕ) (pre post : List (ℕ × ℕ × ℕ)) (t : ℕ × ℕ × ℕ)
    (h : triples twojmax = pre ++ t :: post) :
    zkey twojmax t ∉ post.map (zkey twojmax) := by
  have hn := nodup_zkeys twojmax
  rw [h, List.map_append, List.map_cons] at hn
  exact (List.nodup_cons.1 (List.nodup_append.1 hn).2.1).1

theorem zpos_lt (j mb ma : ℕ) (hmb : 2 * mb ≤ j) (hma : ma ≤ j) :
    mb * (j + 1) + ma < (j / 2 + 1) * (j + 1) := by
  have h1 : mb + 1 ≤ j / 2 + 1 := by omega
  have h2 : (mb + 1) * (j + 1) ≤ (j / 2 + 1) * (j + 1) := Nat.mul_le_mul_right _ h1
  have h3 : (mb + 1) * (j + 1) = mb * (j + 1) + (j + 1) := by ring
  omega

theorem zpos_divmod (j mb ma : ℕ) (hma : ma ≤ j) :
    (mb * (j + 1) + ma) / (j + 1) = mb ∧ (mb * (j + 1) + ma) % (j + 1) = ma :=
  (Nat.div_mod_unique (by omega : 0 < j + 1)).2 ⟨by ring, by omega⟩

section ZFillMain
variable {K : Type} [Field K]

/-- Content of the tables after the fill loop, at the position of a tuple. -/
theorem zfill_at (twojmax : ℕ) (idxb_block : ℕ → ℤ) (beta : ℤ → K) (mem : ZTables K)
    (j1 j2 j mb ma : ℕ) (ht : (j1, j2, j) ∈ triples twojmax)
    (hmb : 2 * mb ≤ j) (hma : ma ≤ j) :
    let s := zfill twojmax idxb_block beta mem
    let p := s.idxz_block (zkey twojmax (j1, j2, j)) + mb * (j + 1) + ma
    p < idxz_max twojmax ∧
    (∀ c, c < 9 → s.idxz p c = zfields j1 j2 j mb ma c) ∧
    s.idxzbeta p = betaj twojmax idxb_block beta j1 j2 j := by
  obtain ⟨pre, post, hsplit⟩ := List.append_of_mem ht
  have hk := zkey_not_mem_post twojmax pre post _ hsplit
  obtain ⟨e1, e2⟩ := zfill_split twojmax idxb_block beta pre post (j1, j2, j)
    { mem with idxz_count := 0 } hk
  have hq := zpos_lt j mb ma hmb hma
  obtain ⟨f1, f2⟩ := e2 (mb * (j + 1) + ma) hq
  obtain ⟨d1, d2⟩ := zpos_divmod j mb ma hma
  simp only [zfill, hsplit]
  simp only [d1, d2] at f1
  simp only [Nat.zero_add] at e1 f1 f2
  rw [e1, Nat.add_assoc]
  refine ⟨?_, f1, f2⟩
  rw [idxz_max_eq, hsplit, sizeSum_append, sizeSum_cons]
  simp only [zsize] at hq ⊢
  omega

/-- Positions below `idxz_max` are positions of tuples; cells from `idxz_max` on
keep their initial content. -/
theorem zfill_cover (twojmax : ℕ) (idxb_block : ℕ → ℤ) (beta : ℤ → K) (mem : ZTables K)
    (p : ℕ) (hp : p < idxz_max twojmax) :
    ∃ j1 j2 j mb ma, (j1, j2, j) ∈ triples twojmax ∧ 2 * mb ≤ j ∧ ma ≤ j ∧
      p = (zfill twojmax idxb_block beta mem).idxz_block (zkey twojmax (j1, j2, j))
            + mb * (j + 1) + ma := by
  rw [idxz_max_eq] at hp
  obtain ⟨pre, t, post, hsplit, h1, h2⟩ := sizeSum_cover zsize _ p hp
  have hk := zkey_not_mem_post twojmax pre post _ hsplit
  obtain ⟨e1, _⟩ := zfill_split twojmax idxb_block beta pre post t
    { mem with idxz_count := 0 } hk
  obtain ⟨j1, j2, j⟩ := t
  have hmem : (j1, j2, j) ∈ triples twojmax := by rw [hsplit]; simp
  simp only [zsize] at h2
  have hdlt : (p - sizeSum zsize pre) / (j + 1) < j / 2 + 1 := by
    rw [Nat.div_lt_iff_lt_mul (by omega)]; omega
  have hmlt : (p - sizeSum zsize pre) % (j + 1) < j + 1 := Nat.mod_lt _ (by omega)
  refine ⟨j1, j2, j, (p - sizeSum zsize pre) / (j + 1), (p - sizeSum zsize pre) % (j + 1),
    hmem, by omega, by omega, ?_⟩
  simp only [zfill, hsplit]
  simp only [Nat.zero_add] at e1
  rw [e1, Nat.add_assoc, Nat.div_add_mod']
  omega

theorem zfill_count (twojmax : ℕ) (idxb_block : ℕ → ℤ) (beta : ℤ → K) (mem : ZTables K) :
    (zfill twojmax idxb_block beta mem).idxz_count = idxz_max twojmax := by
  obtain ⟨h, _⟩ := zfill_list twojmax idxb_block beta (triples twojmax)
    { mem with idxz_count := 0 }
  rw [idxz_max_eq]
  simpa [zfill] using h

theorem zfill_untouched (twojmax : ℕ) (idxb_block : ℕ → ℤ) (beta : ℤ → K) (mem : ZTables K)
    (p c : ℕ) (h : idxz_max twojmax ≤ p ∨ 9 ≤ c) :
    (zfill twojmax idxb_block beta mem).idxz p c = mem.idxz p c := by
  obtain ⟨_, h2, _⟩ := zfill_list twojmax idxb_block beta (triples twojmax)
    { mem with idxz_count := 0 }
  rw [idxz_max_eq] at h
  exact h2 p c (by simp only [Nat.zero_add]; omega)

end ZFillMain

section C1
variable {K : Type} [Field K]

/-- C1. For every `twojmax`, the Z-list fill loop ends with `idxz_count` equal to the
`idxz_max` of the counting loop; every tuple `(j1, j2, j, mb, ma)` of the specified index
set has its record at position `idxz_block[j1,j2,j] + mb*(j+1) + ma`, that position is
below `idxz_max`, and fields 0..2 of the record are `(j1, j2, j)`; every position below
`idxz_max` is the position of exactly one such tuple; and no cell of a record at a
position from `idxz_max` on is written. -/
theorem zlist_fill_exact (twojmax : ℕ) (idxb_block : ℕ → ℤ) (beta : ℤ → K)
    (mem : ZTables K) :
    (zfill twojmax idxb_block beta mem).idxz_count = idxz_max twojmax ∧
    (∀ j1 j2 j mb ma, ZTuple twojmax j1 j2 j mb ma →
      zpos twojmax (zfill twojmax idxb_block beta mem) j1 j2 j mb ma < idxz_max twojmax ∧
      (zfill twojmax idxb_block beta mem).idxz
        (zpos twojmax (zfill twojmax idxb_block beta mem) j1 j2 j mb ma) 0 = j1 ∧
      (zfill twojmax idxb_block beta mem).idxz
        (zpos twojmax (zfill twojmax idxb_block beta mem) j1 j2 j mb ma) 1 = j2 ∧
      (zfill twojmax idxb_block beta mem).idxz
        (zpos twojmax (zfill twojmax idxb_block beta mem) j1 j2 j mb ma) 2 = j) ∧
    (∀ p, p < idxz_max twojmax →
      ∃ j1 j2 j mb ma, ZTuple twojmax j1 j2 j mb ma ∧
        zpos twojmax (zfill twojmax idxb_block beta mem) j1 j2 j mb ma = p ∧
        ∀ j1' j2' j' mb' ma', ZTuple twojmax j1' j2' j' mb' ma' →
          zpos twojmax (zfill twojmax idxb_block beta mem) j1' j2' j' mb' ma' = p →
          j1' = j1 ∧ j2' = j2 ∧ j' = j ∧ mb' = mb ∧ ma' = ma) ∧
    (∀ p c, idxz_max twojmax ≤ p →
      (zfill twojmax idxb_block beta mem).idxz p c = mem.idxz p c) := by
  refine ⟨zfill_count twojmax idxb_block beta mem, ?_, ?_, ?_⟩
  · intro j1 j2 j mb ma ht
    rw [ztuple_iff] at ht
    obtain ⟨h1, h2, _⟩ := zfill_at twojmax idxb_block beta mem j1 j2 j mb ma ht.1 ht.2.1 ht.2.2
    exact ⟨h1, h2 0 (by omega), h2 1 (by omega), h2 2 (by omega)⟩
  · intro p hp
    obtain ⟨j1, j2, j, mb, ma, ht, hmb, hma, hpos⟩ :=
      zfill_cover twojmax idxb_block beta mem p hp
    refine ⟨j1, j2, j, mb, ma, ztuple_iff.2 ⟨ht, hmb, hma⟩, hpos.symm, ?_⟩
    intro j1' j2' j' mb' ma' ht' hpos'
    rw [ztuple_iff] at ht'
    obtain ⟨_, a, _⟩ := zfill_at twojmax idxb_block beta mem j1 j2 j mb ma ht hmb hma
    obtain ⟨_, a', _⟩ :=
      zfill_at twojmax idxb_block beta mem j1' j2' j' mb' ma' ht'.1 ht'.2.1 ht'.2.2
    have e : (zfill twojmax idxb_block beta mem).idxz_block (zkey twojmax (j1', j2', j'))
        + mb' * (j' + 1) + ma' = p := hpos'
    rw [e] at a'
    rw [← hpos] at a
    have e1 : j1' = j1 := by
      have := (a' 0 (by omega)).symm.trans (a 0 (by omega))
      simpa [zfields] using this
    have e2 : j2' = j2 := by
      have := (a' 1 (by omega)).symm.trans (a 1 (by omega))
      simpa [zfields] using this
    have e3 : j' = j := by
      have := (a' 2 (by omega)).symm.trans (a 2 (by omega))
      simpa [zfields] using this
    subst e1 e2 e3
    have e4 : mb' * (j' + 1) + ma' = mb * (j' + 1) + ma := by omega
    obtain ⟨e5, e6⟩ := digits_eq _ _ _ _ _ (by omega) (by omega) e4
    exact ⟨rfl, rfl, rfl, e5, e6⟩
  · intro p c h
    exact zfill_untouched twojmax idxb_block beta mem p c (Or.inl h)

end C1

theorem zlist_fill_exact_witness :
    ZTuple 2 1 1 2 1 2 ∧
    (zfill 2 (fun _ => 0) (fun _ => (1 : ℚ)) ⟨0, fun _ _ => 0, fun _ => 0, fun _ => 0⟩).idxz
      (zpos 2 (zfill 2 (fun _ => 0) (fun _ => (1 : ℚ))
        ⟨0, fun _ _ => 0, fun _ => 0, fun _ => 0⟩) 1 1 2 1 2) 2 = ((2 : ℕ) : ℤ) :=
  ⟨⟨by decide, by decide, ⟨1, rfl⟩, by decide, by decide, by decide⟩,
    ((zlist_fill_exact 2 (fun _ => 0) (fun _ => (1 : ℚ))
      ⟨0, fun _ _ => 0, fun _ => 0, fun _ => 0⟩).2.1 1 1 2 1 2
      ⟨by decide, by decide, ⟨1, rfl⟩, by decide, by decide, by decide⟩).2.2.2⟩

section C2
variable {K : Type} [Field K]

theorem betaj_mult (twojmax : ℕ) (idxb_block : ℕ → ℤ) (beta : ℤ → K) (j1 j2 j : ℕ)
    (h21 : j2 ≤ j1) :
    ∃ (r : K) (jjb : ℤ),
      (r = 1 ∨ r = ((j1 : K) + 1) / ((j : K) + 1)) ∧
      (jjb = idxb_block (zkey twojmax (j1, j2, j)) ∨
        jjb = idxb_block (zkey twojmax (j, j2, j1)) ∨
        jjb = idxb_block (zkey twojmax (j2, j, j1))) ∧
      betaj twojmax idxb_block beta j1 j2 j = (zmult j1 j2 j : K) * r * beta jjb := by
  unfold betaj
  by_cases h1 : j ≥ j1
  · refine ⟨1, idxb_block (zkey twojmax (j1, j2, j)), Or.inl rfl, Or.inl rfl, ?_⟩
    simp only [h1, if_true]
    by_cases h2 : j1 = j
    · by_cases h3 : j2 = j
      · simp [zmult, zkey, h2, h3]
      · simp [zmult, zkey, h2, h3]
    · have h3 : j2 ≠ j := by omega
      simp [zmult, zkey, h2, h3]
  · by_cases h2 : j ≥ j2
    · refine ⟨((j1 : K) + 1) / ((j : K) + 1), idxb_block (zkey twojmax (j, j2, j1)),
        Or.inr rfl, Or.inr (Or.inl rfl), ?_⟩
      have h1' : j1 ≠ j := by omega
      simp only [h1, h2, if_true, if_false]
      by_cases h3 : j2 = j
      · simp only [zmult, zkey, h1', h3, if_true, false_and, if_false, false_or]
        push_cast
        ring
      · simp only [zmult, zkey, h1', h3, if_false, false_and, false_or]
        push_cast
        ring
    · refine ⟨((j1 : K) + 1) / ((j : K) + 1), idxb_block (zkey twojmax (j2, j, j1)),
        Or.inr rfl, Or.inr (Or.inr rfl), ?_⟩
      have h1' : j1 ≠ j := by omega
      have h3 : j2 ≠ j := by omega
      simp only [zmult, zkey, h1, h2, h1', h3, if_false, false_and, false_or]
      push_cast
      ring

/-- C2 (amended). For every tuple of the Z-list, the folded coefficient stored at the
tuple's position is `m * r * beta[jjb]`, where `r` is `1` or `(j1+1)/(j+1)`, `jjb` is the
`idxb_block` cell of the triple in one of the three orders the code looks up, and the
multiplicity `m` is 3 when `j1 = j2 = j`, 2 when exactly one of `j1, j2` equals `j`, and
1 when neither `j1` nor `j2` equals `j`. -/
theorem zlist_beta_multiplicity (twojmax : ℕ) (idxb_block : ℕ → ℤ) (beta : ℤ → K)
    (mem : ZTables K) (j1 j2 j mb ma : ℕ) (ht : ZTuple twojmax j1 j2 j mb ma) :
    ∃ (r : K) (jjb : ℤ),
      (r = 1 ∨ r = ((j1 : K) + 1) / ((j : K) + 1)) ∧
      (jjb = idxb_block (zkey twojmax (j1, j2, j)) ∨
        jjb = idxb_block (zkey twojmax (j, j2, j1)) ∨
        jjb = idxb_block (zkey twojmax (j2, j, j1))) ∧
      (zfill twojmax idxb_block beta mem).idxzbeta
          (zpos twojmax (zfill twojmax idxb_block beta mem) j1 j2 j mb ma)
        = (zmult j1 j2 j : K) * r * beta jjb := by
  have ht' := ztuple_iff.1 ht
  obtain ⟨_, _, hb⟩ :=
    zfill_at twojmax idxb_block beta mem j1 j2 j mb ma ht'.1 ht'.2.1 ht'.2.2
  obtain ⟨r, jjb, hr, hj, he⟩ := betaj_mult twojmax idxb_block beta j1 j2 j ht.1
  exact ⟨r, jjb, hr, hj, hb.trans he⟩

end C2

theorem zlist_beta_multiplicity_witness :
    ZTuple 2 2 1 1 0 1 ∧
    ∃ (r : ℚ) (jjb : ℤ),
      (r = 1 ∨ r = (((2 : ℕ) : ℚ) + 1) / (((1 : ℕ) : ℚ) + 1)) ∧
      (jjb = (idxb_block_fill 2 (fun _ => 0)).idxb_block (zkey 2 (2, 1, 1)) ∨
        jjb = (idxb_block_fill 2 (fun _ => 0)).idxb_block (zkey 2 (1, 1, 2)) ∨
        jjb = (idxb_block_fill 2 (fun _ => 0)).idxb_block (zkey 2 (1, 1, 2))) ∧
      (zfill 2 (idxb_block_fill 2 (fun _ => 0)).idxb_block (fun _ => (1 : ℚ))
          ⟨0, fun _ _ => 0, fun _ => 0, fun _ => 0⟩).idxzbeta
          (zpos 2 (zfill 2 (idxb_block_fill 2 (fun _ => 0)).idxb_block (fun _ => (1 : ℚ))
            ⟨0, fun _ _ => 0, fun _ => 0, fun _ => 0⟩) 2 1 1 0 1)
        = ((zmult 2 1 1 : ℕ) : ℚ) * r * (fun _ => (1 : ℚ)) jjb :=
  ⟨⟨by decide, by decide, ⟨0, rfl⟩, by decide, by decide, by decide⟩,
    zlist_beta_multiplicity 2 (idxb_block_fill 2 (fun _ => 0)).idxb_block (fun _ => (1 : ℚ))
      ⟨0, fun _ _ => 0, fun _ => 0, fun _ => 0⟩ 2 1 1 0 1
      ⟨by decide, by decide, ⟨0, rfl⟩, by decide, by decide, by decide⟩⟩

/-- C2 (as stated) fails at `twojmax = 2`, triple `(j1, j2, j) = (1, 1, 2)`, with every
coefficient equal to 1: exactly two of `j1, j2, j` are equal, so the specified
multiplicity is 2, but the stored coefficient is `beta[jjb] = 1`, which is `2 * r` for
neither admitted `r`. -/
theorem zlist_beta_multiplicity_counterexample :
    ZTuple 2 1 1 2 0 0 ∧ zmult_spec 1 1 2 = 2 ∧
    ¬ ∃ (r : ℚ) (jjb : ℤ),
      (r = 1 ∨ r = (((1 : ℕ) : ℚ) + 1) / (((2 : ℕ) : ℚ) + 1)) ∧
      (zfill 2 (idxb_block_fill 2 (fun _ => 0)).idxb_block (fun _ => (1 : ℚ))
          ⟨0, fun _ _ => 0, fun _ => 0, fun _ => 0⟩).idxzbeta
          (zpos 2 (zfill 2 (idxb_block_fill 2 (fun _ => 0)).idxb_block (fun _ => (1 : ℚ))
            ⟨0, fun _ _ => 0, fun _ => 0, fun _ => 0⟩) 1 1 2 0 0)
        = ((zmult_spec 1 1 2 : ℕ) : ℚ) * r * (fun _ => (1 : ℚ)) jjb := by
  have ht : ZTuple 2 1 1 2 0 0 :=
    ⟨by decide, by decide, ⟨1, rfl⟩, by decide, by decide, by decide⟩
  refine ⟨ht, by decide, ?_⟩
  have ht' := ztuple_iff.1 ht
  obtain ⟨_, _, hb⟩ :=
    zfill_at 2 (idxb_block_fill 2 (fun _ => 0)).idxb_block (fun _ => (1 : ℚ))
      ⟨0, fun _ _ => 0, fun _ => 0, fun _ => 0⟩ 1 1 2 0 0 ht'.1 ht'.2.1 ht'.2.2
  rintro ⟨r, jjb, hr, he⟩
  have hz : zpos 2 (zfill 2 (idxb_block_fill 2 (fun _ => 0)).idxb_block (fun _ => (1 : ℚ))
      ⟨0, fun _ _ => 0, fun _ => 0, fun _ => 0⟩) 1 1 2 0 0
      = (zfill 2 (idxb_block_fill 2 (fun _ => 0)).idxb_block (fun _ => (1 : ℚ))
          ⟨0, fun _ _ => 0, fun _ => 0, fun _ => 0⟩).idxz_block (zkey 2 (1, 1, 2))
        + 0 * (2 + 1) + 0 := rfl
  rw [hz, hb] at he
  have hm : zmult_spec 1 1 2 = 2 := by decide
  rw [hm] at he
  simp only [betaj] at he
  norm_num at he
  rcases hr with h | h
  · rw [h] at he; norm_num at he
  · rw [h] at he; norm_num at he

section C3
variable {K : Type} [Field K]

theorem deidrj_full_jjdu (ylist : ℕ → Cplx K) (dulist : ℕ → ℕ → Cplx K) (s : DState K) :
    (deidrj_full ylist dulist s).jjdu = s.jjdu + 1 := rfl

theorem deidrj_full_dedr (ylist : ℕ → Cplx K) (dulist : ℕ → ℕ → Cplx K) (s : DState K)
    (k : ℕ) :
    (deidrj_full ylist dulist s).dedr k =
      if k < 3 then s.dedr k + dterm ylist dulist s.jjdu k else s.dedr k := rfl

theorem deidrj_row (ylist : ℕ → Cplx K) (dulist : ℕ → ℕ → Cplx K) {ι : Type}
    (l : List ι) (s : DState K) :
    (l.foldl (fun s _ => deidrj_full ylist dulist s) s).jjdu = s.jjdu + l.length ∧
    ∀ k, (l.foldl (fun s _ => deidrj_full ylist dulist s) s).dedr k =
      if k < 3 then s.dedr k + ∑ i ∈ Finset.range l.length, dterm ylist dulist (s.jjdu + i) k
      else s.dedr k := by
  induction l using List.reverseRecOn with
  | nil =>
    refine ⟨rfl, ?_⟩
    intro k
    simp
  | append_singleton l a ih =>
    obtain ⟨h1, h2⟩ := ih
    simp only [List.foldl_append, List.foldl_cons, List.foldl_nil, List.length_append,
      List.length_singleton]
    refine ⟨?_, ?_⟩
    · rw [deidrj_full_jjdu, h1]; omega
    · intro k
      rw [deidrj_full_dedr, h1, h2]
      by_cases hk : k < 3
      · simp only [hk, if_true, Finset.sum_range_succ]
        ring
      · simp only [hk, if_false]

/-- The first `m` full rows of level `j`, starting at cursor `s.jjdu`. -/
theorem deidrj_rows (ylist : ℕ → Cplx K) (dulist : ℕ → ℕ → Cplx K) (j m : ℕ)
    (s : DState K) :
    ((List.range m).foldl
      (fun s _ => (maloop j).foldl (fun s _ => deidrj_full ylist dulist s) s) s).jjdu
        = s.jjdu + m * (j + 1) ∧
    ∀ k, ((List.range m).foldl
      (fun s _ => (maloop j).foldl (fun s _ => deidrj_full ylist dulist s) s) s).dedr k =
      if k < 3 then
        s.dedr k + ∑ mb ∈ Finset.range m, ∑ ma ∈ Finset.range (j + 1),
          dterm ylist dulist (s.jjdu + mb * (j + 1) + ma) k
      else s.dedr k := by
  induction m with
  | zero =>
    refine ⟨by simp, ?_⟩
    intro k
    simp
  | succ m ih =>
    obtain ⟨h1, h2⟩ := ih
    simp only [List.range_succ, List.foldl_append, List.foldl_cons, List.foldl_nil]
    obtain ⟨r1, r2⟩ := deidrj_row ylist dulist (maloop j)
      ((List.range m).foldl
        (fun s _ => (maloop j).foldl (fun s _ => deidrj_full ylist dulist s) s) s)
    have hlen : (maloop j).length = j + 1 := by simp [maloop]
    refine ⟨?_, ?_⟩
    · rw [r1, h1, hlen]; ring
    · intro k
      rw [r2, h1, h2, hlen]
      by_cases hk : k < 3
      · simp only [hk, if_true, Finset.sum_range_succ]
        ring
      · simp only [hk, if_false]

theorem dweight_mid_sum (f : ℕ → K) (j mb : ℕ) (h : 2 * mb = j) :
    ∑ ma ∈ Finset.range (j + 1), dweight K j mb ma * f ma
      = ∑ ma ∈ Finset.range mb, f ma + f mb * (1 / 2) := by
  have hsplit : j + 1 = (mb + 1) + mb := by omega
  rw [hsplit, Finset.sum_range_add, Finset.sum_range_succ]
  have h1 : ∑ ma ∈ Finset.range mb, dweight K j mb ma * f ma = ∑ ma ∈ Finset.range mb, f ma := by
    refine Finset.sum_congr rfl ?_
    intro ma hma
    rw [Finset.mem_range] at hma
    have a : ¬ 2 * mb < j := by omega
    simp [dweight, a, hma]
  have h2 : dweight K j mb mb * f mb = f mb * (1 / 2) := by
    have a : ¬ 2 * mb < j := by omega
    simp [dweight, a]
    ring
  have h3 : ∑ x ∈ Finset.range mb, dweight K j mb (mb + 1 + x) * f (mb + 1 + x) = 0 := by
    refine Finset.sum_eq_zero ?_
    intro x _
    have a : ¬ 2 * mb < j := by omega
    have b : ¬ mb + 1 + x < mb := by omega
    have c : ¬ mb + 1 + x = mb := by omega
    simp [dweight, a, b, c]
  rw [h1, h2, h3, add_zero]

theorem dweight_left_sum (f : ℕ → K) (j mb : ℕ) (h : 2 * mb < j) :
    ∑ ma ∈ Finset.range (j + 1), dweight K j mb ma * f ma
      = ∑ ma ∈ Finset.range (j + 1), f ma := by
  refine Finset.sum_congr rfl ?_
  intro ma _
  simp [dweight, h]

/-- One level of the `j` loop adds the weighted sum of that level. -/
theorem deidrj_level_spec (idxdu_block : ℕ → ℕ) (ylist : ℕ → Cplx K)
    (dulist : ℕ → ℕ → Cplx K) (s : DState K) (j k : ℕ) :
    (deidrj_level idxdu_block ylist dulist s j).dedr k =
      if k < 3 then
        s.dedr k + ∑ mb ∈ Finset.range (j / 2 + 1), ∑ ma ∈ Finset.range (j + 1),
          dweight K j mb ma * dterm ylist dulist (idxdu_block j + mb * (j + 1) + ma) k
      else s.dedr k := by
  obtain ⟨r1, r2⟩ := deidrj_rows ylist dulist j ((j + 1) / 2)
    ({ s with jjdu := idxdu_block j } : DState K)
  have hleft : ∀ m, m ≤ (j + 1) / 2 →
      ∑ mb ∈ Finset.range m, ∑ ma ∈ Finset.range (j + 1),
        dweight K j mb ma * dterm ylist dulist (idxdu_block j + mb * (j + 1) + ma) k
      = ∑ mb ∈ Finset.range m, ∑ ma ∈ Finset.range (j + 1),
        dterm ylist dulist (idxdu_block j + mb * (j + 1) + ma) k := by
    intro m hm
    refine Finset.sum_congr rfl ?_
    intro mb hmb
    rw [Finset.mem_range] at hmb
    exact dweight_left_sum
      (fun ma => dterm ylist dulist (idxdu_block j + mb * (j + 1) + ma) k) j mb (by omega)
  unfold deidrj_level
  by_cases hj : j % 2 = 0
  · simp only [hj, if_true, mbloop_lt]
    obtain ⟨q1, q2⟩ := deidrj_row ylist dulist (List.range (j / 2))
      ((List.range ((j + 1) / 2)).foldl
        (fun s _ => (maloop j).foldl (fun s _ => deidrj_full ylist dulist s) s)
        ({ s with jjdu := idxdu_block j } : DState K))
    simp only [deidrj_half, q1, q2, r1, r2, List.length_range]
    by_cases hk : k < 3
    · simp only [hk, if_true]
      have e1 : (j + 1) / 2 = j / 2 := by omega
      rw [Finset.sum_range_succ, hleft (j / 2) (by omega),
        dweight_mid_sum
          (fun ma => dterm ylist dulist (idxdu_block j + j / 2 * (j + 1) + ma) k) j (j / 2)
          (by omega), e1]
      ring
    · simp only [hk, if_false]
  · simp only [hj, if_false, mbloop_lt]
    rw [r2]
    by_cases hk : k < 3
    · simp only [hk, if_true]
      have e1 : (j + 1) / 2 = j / 2 + 1 := by omega
      rw [hleft (j / 2 + 1) (by omega), e1]
    · simp only [hk, if_false]

theorem deidrj_levels (idxdu_block : ℕ → ℕ) (ylist : ℕ → Cplx K)
    (dulist : ℕ → ℕ → Cplx K) (n : ℕ) (s : DState K) (k : ℕ) :
    ((List.range n).foldl (deidrj_level idxdu_block ylist dulist) s).dedr k =
      if k < 3 then
        s.dedr k + ∑ j ∈ Finset.range n, ∑ mb ∈ Finset.range (j / 2 + 1),
          ∑ ma ∈ Finset.range (j + 1),
            dweight K j mb ma * dterm ylist dulist (idxdu_block j + mb * (j + 1) + ma) k
      else s.dedr k := by
  induction n with
  | zero => simp
  | succ n ih =>
    rw [List.range_succ, List.foldl_append, List.foldl_cons, List.foldl_nil,
      deidrj_level_spec, ih]
    by_cases hk : k < 3
    · simp only [hk, if_true, Finset.sum_range_succ]
      ring
    · simp only [hk, if_false]

/-- For arbitrary arrays and `k < 3`, `compute_deidrj` produces the sum with the weight
the kernel applies: `w = 1` for `2*mb < j`, and on the midline `2*mb = j`: `w = 1` for
`ma < mb`, `w = 0.5` for `ma = mb`, `w = 0` for `ma > mb`. -/
theorem compute_deidrj_sum (twojmax : ℕ) (idxdu_block : ℕ → ℕ) (ylist : ℕ → Cplx K)
    (dulist : ℕ → ℕ → Cplx K) (dedr0 : ℕ → K) (k : ℕ) (hk : k < 3) :
    compute_deidrj twojmax idxdu_block ylist dulist dedr0 k
      = dedr_sum twojmax idxdu_block ylist dulist k := by
  unfold compute_deidrj dedr_sum
  simp only [hk, if_true]
  rw [deidrj_levels]
  simp only [hk, if_true, zero_add]
  ring

/-- On the midline `2*mb = j`, for terms that agree at `ma` and `j - ma`, the row with
weight `0.5` everywhere has the sum the kernel forms: `ma < mb` at full weight and
`ma = mb` at half weight. -/
theorem dweight_spec_mid_sum (f : ℕ → K) (j mb : ℕ) (h : 2 * mb = j) (h2 : (2 : K) ≠ 0)
    (hsym : ∀ ma, ma ≤ j → f ma = f (j - ma)) :
    ∑ ma ∈ Finset.range (j + 1), dweight_spec K j mb * f ma
      = ∑ ma ∈ Finset.range (j + 1), dweight K j mb ma * f ma := by
  rw [dweight_mid_sum f j mb h, ← Finset.mul_sum]
  have hsplit : j + 1 = (mb + 1) + mb := by omega
  have hr : ∑ x ∈ Finset.range mb, f (mb + 1 + x) = ∑ x ∈ Finset.range mb, f x := by
    rw [← Finset.sum_range_reflect (fun x => f x) mb]
    refine Finset.sum_congr rfl ?_
    intro x hx
    rw [Finset.mem_range] at hx
    rw [hsym (mb + 1 + x) (by omega)]
    congr 1
    omega
  rw [hsplit, Finset.sum_range_add, Finset.sum_range_succ, hr]
  simp only [dweight_spec, h, if_true]
  field_simp
  ring

/-- Two entries that are conjugate up to a common sign `s = ±1`, in `dulist` and in
`ylist`, give the same product `dU.re*Y.re + dU.im*Y.im`. -/
theorem dterm_mirror (ylist : ℕ → Cplx K) (dulist : ℕ → ℕ → Cplx K) (a b k : ℕ) (s : K)
    (hs : s * s = 1)
    (hu : (dulist b k).re = s * (dulist a k).re ∧ (dulist b k).im = -(s * (dulist a k).im))
    (hy : (ylist b).re = s * (ylist a).re ∧ (ylist b).im = -(s * (ylist a).im)) :
    dterm ylist dulist a k = dterm ylist dulist b k := by
  unfold dterm
  rw [hu.1, hu.2, hy.1, hy.2]
  have e : s * (dulist a k).re * (s * (ylist a).re) + -(s * (dulist a k).im) * -(s * (ylist a).im)
      = (s * s) * ((dulist a k).re * (ylist a).re + (dulist a k).im * (ylist a).im) := by ring
  rw [e, hs, one_mul]

/-- C3. For every pair and component `k < 3`, in exact arithmetic of a field where
`2 ≠ 0`, on arrays whose products `dU.re*Y.re + dU.im*Y.im` on the midline `2*mb = j`
agree at `ma` and at the mirrored `j - ma` (the conjugate partners of the midline),
`compute_deidrj` produces
`dedr[k] = 2 * SUM_j SUM_{2*mb <= j} SUM_{ma <= j} w(j,mb) * (dU.re*Y.re + dU.im*Y.im)`
at logical index `idxdu_block[j] + mb*(j+1) + ma`, with `w = 0.5` for every entry on the
midline and `w = 1` for every entry with `2*mb < j`. -/
theorem compute_deidrj_spec_sum (twojmax : ℕ) (idxdu_block : ℕ → ℕ) (ylist : ℕ → Cplx K)
    (dulist : ℕ → ℕ → Cplx K) (dedr0 : ℕ → K) (k : ℕ) (hk : k < 3) (h2 : (2 : K) ≠ 0)
    (hsym : ∀ j, j ≤ twojmax → j % 2 = 0 → ∀ ma, ma ≤ j →
      dterm ylist dulist (idxdu_block j + j / 2 * (j + 1) + ma) k
        = dterm ylist dulist (idxdu_block j + j / 2 * (j + 1) + (j - ma)) k) :
    compute_deidrj twojmax idxdu_block ylist dulist dedr0 k
      = dedr_spec twojmax idxdu_block ylist dulist k := by
  unfold compute_deidrj dedr_spec
  simp only [hk, if_true]
  rw [deidrj_levels]
  simp only [hk, if_true, zero_add]
  rw [mul_comm]
  congr 1
  refine Finset.sum_congr rfl ?_
  intro j hj
  rw [Finset.mem_range] at hj
  refine Finset.sum_congr rfl ?_
  intro mb hmb
  rw [Finset.mem_range] at hmb
  by_cases hm : 2 * mb = j
  · have hmb2 : mb = j / 2 := by omega
    have hev : j % 2 = 0 := by omega
    symm
    refine dweight_spec_mid_sum
      (fun ma => dterm ylist dulist (idxdu_block j + mb * (j + 1) + ma) k) j mb hm h2 ?_
    intro ma hma
    show dterm ylist dulist (idxdu_block j + mb * (j + 1) + ma) k
      = dterm ylist dulist (idxdu_block j + mb * (j + 1) + (j - ma)) k
    rw [hmb2]
    exact hsym j (by omega) hev ma hma
  · have hlt : 2 * mb < j := by omega
    rw [dweight_left_sum
      (fun ma => dterm ylist dulist (idxdu_block j + mb * (j + 1) + ma) k) j mb hlt]
    refine Finset.sum_congr rfl ?_
    intro ma _
    simp [dweight_spec, hm]

end C3

theorem compute_deidrj_spec_sum_witness :
    (0 : ℕ) < 3 ∧ (2 : ℚ) ≠ 0 ∧
    (∀ j, j ≤ 2 → j % 2 = 0 → ∀ ma, ma ≤ j →
      dterm (fun _ => (⟨1, 0⟩ : Cplx ℚ))
          (fun jjdu _ => if jjdu = 6 ∨ jjdu = 8 then (⟨1, 0⟩ : Cplx ℚ) else ⟨0, 0⟩)
          ((idxdu_fill 2 (fun _ => 0)).idxdu_block j + j / 2 * (j + 1) + ma) 0
        = dterm (fun _ => (⟨1, 0⟩ : Cplx ℚ))
          (fun jjdu _ => if jjdu = 6 ∨ jjdu = 8 then (⟨1, 0⟩ : Cplx ℚ) else ⟨0, 0⟩)
          ((idxdu_fill 2 (fun _ => 0)).idxdu_block j + j / 2 * (j + 1) + (j - ma)) 0) ∧
    compute_deidrj 2 (idxdu_fill 2 (fun _ => 0)).idxdu_block
        (fun _ => (⟨1, 0⟩ : Cplx ℚ))
        (fun jjdu _ => if jjdu = 6 ∨ jjdu = 8 then (⟨1, 0⟩ : Cplx ℚ) else ⟨0, 0⟩)
        (fun _ => 0) 0
      = dedr_spec 2 (idxdu_fill 2 (fun _ => 0)).idxdu_block
        (fun _ => (⟨1, 0⟩ : Cplx ℚ))
        (fun jjdu _ => if jjdu = 6 ∨ jjdu = 8 then (⟨1, 0⟩ : Cplx ℚ) else ⟨0, 0⟩) 0 ∧
    dedr_spec 2 (idxdu_fill 2 (fun _ => 0)).idxdu_block
        (fun _ => (⟨1, 0⟩ : Cplx ℚ))
        (fun jjdu _ => if jjdu = 6 ∨ jjdu = 8 then (⟨1, 0⟩ : Cplx ℚ) else ⟨0, 0⟩) 0 = 2 := by
  have hval : dedr_spec 2 (idxdu_fill 2 (fun _ => 0)).idxdu_block
        (fun _ => (⟨1, 0⟩ : Cplx ℚ))
        (fun jjdu _ => if jjdu = 6 ∨ jjdu = 8 then (⟨1, 0⟩ : Cplx ℚ) else ⟨0, 0⟩) 0 = 2 := by
    have h0 : (idxdu_fill 2 (fun _ => 0)).idxdu_block 0 = 0 := by decide
    have h1 : (idxdu_fill 2 (fun _ => 0)).idxdu_block 1 = 1 := by decide
    have h2 : (idxdu_fill 2 (fun _ => 0)).idxdu_block 2 = 3 := by decide
    simp only [dedr_spec, Finset.sum_range_succ, Finset.sum_range_zero, h0, h1, h2, dterm,
      dweight_spec]
    norm_num
  have hsym : ∀ j, j ≤ 2 → j % 2 = 0 → ∀ ma, ma ≤ j →
      dterm (fun _ => (⟨1, 0⟩ : Cplx ℚ))
          (fun jjdu _ => if jjdu = 6 ∨ jjdu = 8 then (⟨1, 0⟩ : Cplx ℚ) else ⟨0, 0⟩)
          ((idxdu_fill 2 (fun _ => 0)).idxdu_block j + j / 2 * (j + 1) + ma) 0
        = dterm (fun _ => (⟨1, 0⟩ : Cplx ℚ))
          (fun jjdu _ => if jjdu = 6 ∨ jjdu = 8 then (⟨1, 0⟩ : Cplx ℚ) else ⟨0, 0⟩)
          ((idxdu_fill 2 (fun _ => 0)).idxdu_block j + j / 2 * (j + 1) + (j - ma)) 0 := by
    have h0 : (idxdu_fill 2 (fun _ => 0)).idxdu_block 0 = 0 := by decide
    have h2 : (idxdu_fill 2 (fun _ => 0)).idxdu_block 2 = 3 := by decide
    intro j hj hev ma hma
    interval_cases j
    · interval_cases ma
      rfl
    · omega
    · interval_cases ma <;> simp [dterm, h2]
  exact ⟨by decide, by norm_num, hsym,
    compute_deidrj_spec_sum 2 (idxdu_fill 2 (fun _ => 0)).idxdu_block
      (fun _ => (⟨1, 0⟩ : Cplx ℚ))
      (fun jjdu _ => if jjdu = 6 ∨ jjdu = 8 then (⟨1, 0⟩ : Cplx ℚ) else ⟨0, 0⟩)
      (fun _ => 0) 0 (by decide) (by norm_num) hsym, hval⟩

section Forces
variable {K : Type} [Field K]

theorem force_pair_apply (dedr : ℕ → ℕ → ℕ → K) (jlist : ℕ → ℕ → ℕ) (natom nbor : ℕ)
    (f : ℕ → ℕ → K) (i k : ℕ) (hk : k < 3) :
    force_pair dedr jlist natom f nbor i k =
      f i k + (if i = natom then dedr natom nbor k else 0)
        - (if jlist natom nbor = i then dedr natom nbor k else 0) := by
  unfold force_pair
  generalize jlist natom nbor = j
  by_cases h1 : i = natom
  · subst h1
    by_cases h2 : j = i
    · subst h2
      interval_cases k <;> simp [set2]
    · have h2' : ¬ i = j := fun h => h2 h.symm
      interval_cases k <;> simp [set2, h2, h2']
  · by_cases h2 : j = i
    · subst h2
      have h1' : ¬ natom = j := fun h => h1 h.symm
      interval_cases k <;> simp [set2, h1, h1']
    · have h2' : ¬ i = j := fun h => h2 h.symm
      interval_cases k <;> simp [set2, h1, h2, h2']

theorem force_row (dedr : ℕ → ℕ → ℕ → K) (jlist : ℕ → ℕ → ℕ) (natom n : ℕ)
    (f : ℕ → ℕ → K) (i k : ℕ) (hk : k < 3) :
    (List.range n).foldl (force_pair dedr jlist natom) f i k =
      f i k + (if i = natom then ∑ nbor ∈ Finset.range n, dedr natom nbor k else 0)
        - ∑ nbor ∈ Finset.range n, (if jlist natom nbor = i then dedr natom nbor k else 0) := by
  induction n with
  | zero => simp
  | succ n ih =>
    rw [List.range_succ, List.foldl_append, List.foldl_cons, List.foldl_nil,
      force_pair_apply _ _ _ _ _ _ _ hk, ih, Finset.sum_range_succ, Finset.sum_range_succ]
    by_cases h : i = natom
    · simp only [h, if_true]; ring
    · simp only [h, if_false]; ring

/-- Closed form of the cells of `f` after the accumulation loops. -/
theorem compute_forces_apply (num_nbor : ℕ) (dedr : ℕ → ℕ → ℕ → K) (jlist : ℕ → ℕ → ℕ)
    (m : ℕ) (f : ℕ → ℕ → K) (i k : ℕ) (hk : k < 3) :
    compute_forces m num_nbor dedr jlist f i k =
      f i k + (if i < m then ∑ nbor ∈ Finset.range num_nbor, dedr i nbor k else 0)
        - ∑ a ∈ Finset.range m, ∑ nbor ∈ Finset.range num_nbor,
            (if jlist a nbor = i then dedr a nbor k else 0) := by
  unfold compute_forces
  induction m with
  | zero => simp
  | succ m ih =>
    rw [List.range_succ, List.foldl_append, List.foldl_cons, List.foldl_nil,
      force_row _ _ _ _ _ _ _ hk, ih, Finset.sum_range_succ]
    by_cases h : i = m
    · subst h
      simp
      ring
    · by_cases h' : i < m
      · have h'' : i < m + 1 := by omega
        simp only [h, h', h'', if_true, if_false]; ring
      · have h'' : ¬ i < m + 1 := by omega
        simp only [h, h', h'', if_false]; ring

end Forces

section C4C5
variable {K : Type} [Field K]

theorem force_reset_apply (ntotal : ℕ) (f : ℕ → ℕ → K) (i k : ℕ) (hi : i < ntotal)
    (hk : k < 3) : force_reset ntotal f i k = 0 := by
  simp [force_reset, hi, hk]

/-- C5. After the reset and the accumulation loops of one step, for every atom
`i < ntotal` and component `k < 3`: `f[i][k]` is the sum over `nbor` of
`dedr[i][nbor][k]` (counted only when `i < nlocal`) minus the sum of `dedr[a][nbor][k]`
over all `(a, nbor)` with `a < nlocal` and `jlist[a][nbor] = i`; a ghost atom receives
only the negative terms; an atom that is nobody's neighbour receives exactly the sum of
its own pair terms. -/
theorem compute_forces_cell (nlocal nghost ninside : ℕ) (dedr : ℕ → ℕ → ℕ → K)
    (jlist : ℕ → ℕ → ℕ) (f0 : ℕ → ℕ → K) (i k : ℕ) (hi : i < nlocal + nghost)
    (hk : k < 3) :
    (compute_forces nlocal ninside dedr jlist (force_reset (nlocal + nghost) f0) i k =
      (if i < nlocal then ∑ nbor ∈ Finset.range ninside, dedr i nbor k else 0)
        - ∑ a ∈ Finset.range nlocal, ∑ nbor ∈ Finset.range ninside,
            (if jlist a nbor = i then dedr a nbor k else 0)) ∧
    (nlocal ≤ i →
      compute_forces nlocal ninside dedr jlist (force_reset (nlocal + nghost) f0) i k =
        - ∑ a ∈ Finset.range nlocal, ∑ nbor ∈ Finset.range ninside,
            (if jlist a nbor = i then dedr a nbor k else 0)) ∧
    ((∀ a nbor, a < nlocal → nbor < ninside → jlist a nbor ≠ i) →
      compute_forces nlocal ninside dedr jlist (force_reset (nlocal + nghost) f0) i k =
        if i < nlocal then ∑ nbor ∈ Finset.range ninside, dedr i nbor k else 0) := by
  have main := compute_forces_apply ninside dedr jlist nlocal
    (force_reset (nlocal + nghost) f0) i k hk
  rw [force_reset_apply _ _ _ _ hi hk, zero_add] at main
  refine ⟨main, ?_, ?_⟩
  · intro h
    rw [main, if_neg (by omega), zero_sub]
  · intro h
    rw [main]
    have : ∑ a ∈ Finset.range nlocal, ∑ nbor ∈ Finset.range ninside,
        (if jlist a nbor = i then dedr a nbor k else 0) = 0 := by
      refine Finset.sum_eq_zero ?_
      intro a ha
      refine Finset.sum_eq_zero ?_
      intro nbor hn
      rw [Finset.mem_range] at ha hn
      rw [if_neg (h a nbor ha hn)]
    rw [this, sub_zero]

theorem compute_forces_cell_witness :
    (3 : ℕ) < 2 + 2 ∧ (1 : ℕ) < 3 ∧
    compute_forces 2 1 (fun a _ k => ((a + k + 1 : ℕ) : ℚ)) (fun a _ => a + 2)
        (force_reset (2 + 2) (fun _ _ => 5)) 3 1 =
      (if 3 < 2 then ∑ nbor ∈ Finset.range 1, (fun a _ k => ((a + k + 1 : ℕ) : ℚ)) 3 nbor 1
        else 0)
        - ∑ a ∈ Finset.range 2, ∑ nbor ∈ Finset.range 1,
            (if (fun a _ => a + 2) a nbor = 3
              then (fun a _ k => ((a + k + 1 : ℕ) : ℚ)) a nbor 1 else 0) :=
  ⟨by decide, by decide,
    (compute_forces_cell 2 2 1 (fun a _ k => ((a + k + 1 : ℕ) : ℚ)) (fun a _ => a + 2)
      (fun _ _ => 5) 3 1 (by decide) (by decide)).1⟩

/-- C4. After the reset and the accumulation loops of one step, for each component
`k < 3` the sum of `f[i][k]` over all `ntotal = nlocal + nghost` atoms is zero, for every
`dedr` and every neighbour list with entries in `[0, ntotal)` (a neighbour id equal to
the atom itself included). -/
theorem compute_forces_sum_zero (nlocal nghost ninside : ℕ) (dedr : ℕ → ℕ → ℕ → K)
    (jlist : ℕ → ℕ → ℕ) (f0 : ℕ → ℕ → K) (k : ℕ) (hk : k < 3)
    (hj : ∀ a nbor, a < nlocal → nbor < ninside → jlist a nbor < nlocal + nghost) :
    ∑ i ∈ Finset.range (nlocal + nghost),
      compute_forces nlocal ninside dedr jlist (force_reset (nlocal + nghost) f0) i k = 0 := by
  have hcell : ∀ i ∈ Finset.range (nlocal + nghost),
      compute_forces nlocal ninside dedr jlist (force_reset (nlocal + nghost) f0) i k =
        (if i < nlocal then ∑ nbor ∈ Finset.range ninside, dedr i nbor k else 0)
          - ∑ a ∈ Finset.range nlocal, ∑ nbor ∈ Finset.range ninside,
              (if jlist a nbor = i then dedr a nbor k else 0) := by
    intro i hi
    rw [Finset.mem_range] at hi
    rw [compute_forces_apply _ _ _ _ _ _ _ hk, force_reset_apply _ _ _ _ hi hk, zero_add]
  rw [Finset.sum_congr rfl hcell, Finset.sum_sub_distrib]
  have h1 : ∑ i ∈ Finset.range (nlocal + nghost),
      (if i < nlocal then ∑ nbor ∈ Finset.range ninside, dedr i nbor k else 0)
      = ∑ i ∈ Finset.range nlocal, ∑ nbor ∈ Finset.range ninside, dedr i nbor k := by
    rw [Finset.sum_range_add]
    have a : ∑ x ∈ Finset.range nghost,
        (if nlocal + x < nlocal then ∑ nbor ∈ Finset.range ninside, dedr (nlocal + x) nbor k
          else 0) = 0 := by
      refine Finset.sum_eq_zero ?_
      intro x _
      rw [if_neg (by omega)]
    rw [a, add_zero]
    refine Finset.sum_congr rfl ?_
    intro i hi
    rw [Finset.mem_range] at hi
    rw [if_pos hi]
  have h2 : ∑ i ∈ Finset.range (nlocal + nghost),
      ∑ a ∈ Finset.range nlocal, ∑ nbor ∈ Finset.range ninside,
        (if jlist a nbor = i then dedr a nbor k else 0)
      = ∑ a ∈ Finset.range nlocal, ∑ nbor ∈ Finset.range ninside, dedr a nbor k := by
    rw [Finset.sum_comm]
    refine Finset.sum_congr rfl ?_
    intro a ha
    rw [Finset.sum_comm]
    refine Finset.sum_congr rfl ?_
    intro nbor hn
    rw [Finset.mem_range] at ha hn
    rw [Finset.sum_ite_eq]
    rw [if_pos (Finset.mem_range.2 (hj a nbor ha hn))]
  rw [h1, h2, sub_self]

theorem compute_forces_sum_zero_witness :
    (1 : ℕ) < 3 ∧
    (∀ a nbor : ℕ, a < 2 → nbor < 2 → (fun a nbor => (a + nbor) % 3) a nbor < 2 + 1) ∧
    ∑ i ∈ Finset.range (2 + 1),
      compute_forces 2 2 (fun a nbor k => ((a + 2 * nbor + k + 1 : ℕ) : ℚ))
        (fun a nbor => (a + nbor) % 3) (force_reset (2 + 1) (fun _ _ => 5)) i 1 = 0 :=
  ⟨by decide, fun a nbor _ _ => Nat.mod_lt _ (by decide),
    compute_forces_sum_zero 2 1 2 (fun a nbor k => ((a + 2 * nbor + k + 1 : ℕ) : ℚ))
      (fun a nbor => (a + nbor) % 3) (fun _ _ => 5) 1 (by decide)
      (fun a nbor _ _ => Nat.mod_lt _ (by decide))⟩

end C4C5

section YLoops
variable {K : Type} [Field K]

theorem yi_inner_loop (cgblock : ℤ → K) (ulisttot : ℤ → Cplx K) (jju1 jju2 j2 : ℤ)
    (n : ℕ) (s : YInner K) :
    let s' := (List.range n).foldl
      (fun si _ => yi_inner_step cgblock ulisttot jju1 jju2 j2 si) s
    s'.ma1 = s.ma1 + n ∧ s'.ma2 = s.ma2 - n ∧ s'.icga = s.icga + n * j2 ∧
    s'.suma1_r = s.suma1_r + ∑ ia ∈ Finset.range n, cgblock (s.icga + ia * j2) *
      ((ulisttot (jju1 + (s.ma1 + ia))).re * (ulisttot (jju2 + (s.ma2 - ia))).re -
        (ulisttot (jju1 + (s.ma1 + ia))).im * (ulisttot (jju2 + (s.ma2 - ia))).im) ∧
    s'.suma1_i = s.suma1_i + ∑ ia ∈ Finset.range n, cgblock (s.icga + ia * j2) *
      ((ulisttot (jju1 + (s.ma1 + ia))).re * (ulisttot (jju2 + (s.ma2 - ia))).im +
        (ulisttot (jju1 + (s.ma1 + ia))).im * (ulisttot (jju2 + (s.ma2 - ia))).re) := by
  induction n with
  | zero => simp
  | succ n ih =>
    obtain ⟨h1, h2, h3, h4, h5⟩ := ih
    simp only [List.range_succ, List.foldl_append, List.foldl_cons, List.foldl_nil]
    generalize (List.range n).foldl
      (fun si _ => yi_inner_step cgblock ulisttot jju1 jju2 j2 si) s = sn at h1 h2 h3 h4 h5 ⊢
    simp only [yi_inner_step, h1, h2, h3, h4, h5, Finset.sum_range_succ]
    refine ⟨?_, ?_, ?_, ?_, ?_⟩
    · push_cast; ring
    · push_cast; ring
    · push_cast; ring
    · ring
    · ring

theorem yi_outer_loop (cgblock : ℤ → K) (ulisttot : ℤ → Cplx K)
    (j1 j2 ma1min ma2max na : ℤ) (n : ℕ) (s : YOuter K) :
    let s' := (List.range n).foldl
      (fun s _ => yi_outer_step cgblock ulisttot j1 j2 ma1min ma2max na s) s
    s'.jju1 = s.jju1 + n * (j1 + 1) ∧ s'.jju2 = s.jju2 - n * (j2 + 1) ∧
    s'.icgb = s.icgb + n * j2 ∧
    s'.ztmp_r = s.ztmp_r + ∑ ib ∈ Finset.range n, cgblock (s.icgb + ib * j2) *
      ∑ ia ∈ Finset.range na.toNat, cgblock (ma1min * (j2 + 1) + ma2max + ia * j2) *
        ((ulisttot (s.jju1 + ib * (j1 + 1) + (ma1min + ia))).re *
            (ulisttot (s.jju2 - ib * (j2 + 1) + (ma2max - ia))).re -
          (ulisttot (s.jju1 + ib * (j1 + 1) + (ma1min + ia))).im *
            (ulisttot (s.jju2 - ib * (j2 + 1) + (ma2max - ia))).im) ∧
    s'.ztmp_i = s.ztmp_i + ∑ ib ∈ Finset.range n, cgblock (s.icgb + ib * j2) *
      ∑ ia ∈ Finset.range na.toNat, cgblock (ma1min * (j2 + 1) + ma2max + ia * j2) *
        ((ulisttot (s.jju1 + ib * (j1 + 1) + (ma1min + ia))).re *
            (ulisttot (s.jju2 - ib * (j2 + 1) + (ma2max - ia))).im +
          (ulisttot (s.jju1 + ib * (j1 + 1) + (ma1min + ia))).im *
            (ulisttot (s.jju2 - ib * (j2 + 1) + (ma2max - ia))).re) := by
  induction n with
  | zero => simp
  | succ n ih =>
    obtain ⟨h1, h2, h3, h4, h5⟩ := ih
    simp only [List.range_succ, List.foldl_append, List.foldl_cons, List.foldl_nil]
    generalize (List.range n).foldl
      (fun s _ => yi_outer_step cgblock ulisttot j1 j2 ma1min ma2max na s) s = sn
      at h1 h2 h3 h4 h5 ⊢
    obtain ⟨_, _, _, i4, i5⟩ := yi_inner_loop cgblock ulisttot sn.jju1 sn.jju2 j2 na.toNat
      { suma1_r := 0, suma1_i := 0, ma1 := ma1min, ma2 := ma2max,
        icga := ma1min * (j2 + 1) + ma2max }
    simp only [zero_add] at i4 i5
    simp only [yi_outer_step, i4, i5]
    simp only [h1, h2, h3, h4, h5, Finset.sum_range_succ]
    refine ⟨?_, ?_, ?_, ?_, ?_⟩
    · push_cast; ring
    · push_cast; ring
    · push_cast; ring
    · ring
    · ring

theorem yi_ztmp_eq (cg : ℤ → K) (idxu_block : ℤ → ℤ) (ulisttot : ℤ → Cplx K)
    (rec : ℕ → ℤ) :
    (yi_ztmp cg idxu_block ulisttot rec).ztmp_r = ysum_re cg idxu_block ulisttot rec ∧
    (yi_ztmp cg idxu_block ulisttot rec).ztmp_i = ysum_im cg idxu_block ulisttot rec := by
  obtain ⟨_, _, _, h4, h5⟩ := yi_outer_loop cg ulisttot (rec 0) (rec 1) (rec 3) (rec 4)
    (rec 5) (rec 8).toNat
    { ztmp_r := 0, ztmp_i := 0
      jju1 := idxu_block (rec 0) + (rec 0 + 1) * rec 6
      jju2 := idxu_block (rec 1) + (rec 1 + 1) * rec 7
      icgb := rec 6 * (rec 1 + 1) + rec 7 }
  simp only [zero_add] at h4 h5
  have e1 : ∀ ib : ℕ, rec 6 * (rec 1 + 1) + rec 7 + (ib : ℤ) * rec 1
      = (rec 6 + ib) * (rec 1 + 1) + (rec 7 - ib) := by intro ib; ring
  have e2 : ∀ ia : ℕ, rec 3 * (rec 1 + 1) + rec 4 + (ia : ℤ) * rec 1
      = (rec 3 + ia) * (rec 1 + 1) + (rec 4 - ia) := by intro ia; ring
  have e3 : ∀ ib ia : ℕ, idxu_block (rec 0) + (rec 0 + 1) * rec 6 + (ib : ℤ) * (rec 0 + 1)
      + (rec 3 + ia) = idxu_block (rec 0) + (rec 0 + 1) * (rec 6 + ib) + (rec 3 + ia) := by
    intro ib ia; ring
  have e4 : ∀ ib ia : ℕ, idxu_block (rec 1) + (rec 1 + 1) * rec 7 - (ib : ℤ) * (rec 1 + 1)
      + (rec 4 - ia) = idxu_block (rec 1) + (rec 1 + 1) * (rec 7 - ib) + (rec 4 - ia) := by
    intro ib ia; ring
  simp only [e1, e2, e3, e4] at h4 h5
  exact ⟨h4, h5⟩

end YLoops

section YStage
variable {K : Type} [Field K]

theorem compute_yi_item_apply (twojmax : ℕ) (idxz : ℕ → ℕ → ℤ) (idxzbeta : ℕ → K)
    (idxcg_block idxu_block idxdu_block : ℤ → ℤ) (cglist : ℤ → K)
    (ulisttot : ℤ → Cplx K) (ylist : ℤ → Cplx K) (jjz : ℕ) (i : ℤ) :
    ((compute_yi_item twojmax idxz idxzbeta idxcg_block idxu_block idxdu_block cglist
        ulisttot ylist jjz) i).re =
      (ylist i).re + (if yi_jjdu idxdu_block (idxz jjz) = i then
        idxzbeta jjz * ysum_re (fun x => cglist (idxcg_block
          (idxz jjz 0 + ((twojmax : ℤ) + 1) * idxz jjz 1
            + ((twojmax : ℤ) + 1) * ((twojmax : ℤ) + 1) * idxz jjz 2) + x))
          idxu_block ulisttot (idxz jjz) else 0) ∧
    ((compute_yi_item twojmax idxz idxzbeta idxcg_block idxu_block idxdu_block cglist
        ulisttot ylist jjz) i).im =
      (ylist i).im + (if yi_jjdu idxdu_block (idxz jjz) = i then
        idxzbeta jjz * ysum_im (fun x => cglist (idxcg_block
          (idxz jjz 0 + ((twojmax : ℤ) + 1) * idxz jjz 1
            + ((twojmax : ℤ) + 1) * ((twojmax : ℤ) + 1) * idxz jjz 2) + x))
          idxu_block ulisttot (idxz jjz) else 0) := by
  obtain ⟨hr, hi⟩ := yi_ztmp_eq (fun x => cglist (idxcg_block
      (idxz jjz 0 + ((twojmax : ℤ) + 1) * idxz jjz 1
        + ((twojmax : ℤ) + 1) * ((twojmax : ℤ) + 1) * idxz jjz 2) + x))
    idxu_block ulisttot (idxz jjz)
  unfold compute_yi_item
  simp only [hr, hi]
  by_cases h : yi_jjdu idxdu_block (idxz jjz) = i
  · subst h
    simp
  · have h' : i ≠ yi_jjdu idxdu_block (idxz jjz) := fun e => h e.symm
    simp [Function.update_noteq h', h]

theorem compute_yi_apply (twojmax : ℕ) (idxz : ℕ → ℕ → ℤ) (idxzbeta : ℕ → K)
    (idxcg_block idxu_block idxdu_block : ℤ → ℤ) (cglist : ℤ → K)
    (ulisttot : ℤ → Cplx K) (ylist : ℤ → Cplx K) (n : ℕ) (i : ℤ) :
    ((compute_yi twojmax n idxz idxzbeta idxcg_block idxu_block idxdu_block cglist
        ulisttot ylist) i).re =
      (ylist i).re + ∑ p ∈ Finset.range n, (if yi_jjdu idxdu_block (idxz p) = i then
        idxzbeta p * ysum_re (fun x => cglist (idxcg_block
          (idxz p 0 + ((twojmax : ℤ) + 1) * idxz p 1
            + ((twojmax : ℤ) + 1) * ((twojmax : ℤ) + 1) * idxz p 2) + x))
          idxu_block ulisttot (idxz p) else 0) ∧
    ((compute_yi twojmax n idxz idxzbeta idxcg_block idxu_block idxdu_block cglist
        ulisttot ylist) i).im =
      (ylist i).im + ∑ p ∈ Finset.range n, (if yi_jjdu idxdu_block (idxz p) = i then
        idxzbeta p * ysum_im (fun x => cglist (idxcg_block
          (idxz p 0 + ((twojmax : ℤ) + 1) * idxz p 1
            + ((twojmax : ℤ) + 1) * ((twojmax : ℤ) + 1) * idxz p 2) + x))
          idxu_block ulisttot (idxz p) else 0) := by
  unfold compute_yi
  induction n with
  | zero => simp
  | succ n ih =>
    obtain ⟨h1, h2⟩ := ih
    rw [List.range_succ, List.foldl_append, List.foldl_cons, List.foldl_nil]
    obtain ⟨a1, a2⟩ := compute_yi_item_apply twojmax idxz idxzbeta idxcg_block idxu_block
      idxdu_block cglist ulisttot
      ((List.range n).foldl (compute_yi_item twojmax idxz idxzbeta idxcg_block idxu_block
        idxdu_block cglist ulisttot) ylist) n i
    rw [a1, a2, h1, h2, Finset.sum_range_succ, Finset.sum_range_succ]
    exact ⟨by ring, by ring⟩

end YStage

theorem blocks_sum_aux {α M : Type} [AddCommMonoid M] (sz : α → ℕ) (F : ℕ → M)
    (H : α → ℕ → M) (rest pre : List α)
    (hH : ∀ pre' t post, pre ++ rest = pre' ++ t :: post → ∀ q, q < sz t →
      F (sizeSum sz pre' + q) = H t q) :
    ∑ p ∈ Finset.range (sizeSum sz rest), F (sizeSum sz pre + p)
      = (rest.map (fun t => ∑ q ∈ Finset.range (sz t), H t q)).sum := by
  induction rest generalizing pre with
  | nil => simp [sizeSum]
  | cons t rest ih =>
    rw [sizeSum_cons, Finset.sum_range_add, List.map_cons, List.sum_cons]
    congr 1
    · refine Finset.sum_congr rfl ?_
      intro q hq
      rw [Finset.mem_range] at hq
      exact hH pre t rest rfl q hq
    · have := ih (pre ++ [t]) (by
        intro pre' t' post h q hq
        exact hH pre' t' post (by rw [← h]; simp) q hq)
      rw [sizeSum_append, sizeSum_cons] at this
      simp only [sizeSum, List.map_nil, List.sum_nil, add_zero] at this ⊢
      rw [← this]
      refine Finset.sum_congr rfl ?_
      intro x _
      rw [Nat.add_assoc]

/-- A sum over the positions of a sequence of blocks is the sum, over the blocks, of
the sums over each block. -/
theorem blocks_sum {α M : Type} [AddCommMonoid M] (sz : α → ℕ) (F : ℕ → M)
    (H : α → ℕ → M) (T : List α)
    (hH : ∀ pre t post, T = pre ++ t :: post → ∀ q, q < sz t →
      F (sizeSum sz pre + q) = H t q) :
    ∑ p ∈ Finset.range (sizeSum sz T), F p
      = (T.map (fun t => ∑ q ∈ Finset.range (sz t), H t q)).sum := by
  have := blocks_sum_aux sz F H T [] (by simpa using hH)
  simpa [sizeSum] using this

theorem sum_map_ite_filter {α M : Type} [AddCommMonoid M] (P : α → Prop) [DecidablePred P]
    (c : α → M) (T : List α) :
    (T.map (fun t => if P t then c t else 0)).sum = ((T.filter (fun t => decide (P t))).map c).sum := by
  induction T with
  | nil => simp
  | cons t T ih =>
    by_cases h : P t
    · simp [List.filter_cons, h, ih]
    · simp [List.filter_cons, h, ih]

theorem count_rows (j m c : ℕ) :
    (List.range m).foldl (fun cnt _ => (maloop j).foldl (fun cnt _ => cnt + 1) cnt) c
      = c + m * (j + 1) := by
  induction m generalizing c with
  | zero => simp
  | succ m ih =>
    rw [List.range_succ, List.foldl_append, ih]
    simp only [List.foldl_cons, List.foldl_nil, foldl_count_const, maloop, List.length_range]
    ring

theorem duoff_succ (j : ℕ) : duoff (j + 1) = duoff j + (j / 2 + 1) * (j + 1) := by
  simp [duoff, Finset.sum_range_succ]

theorem duoff_mono {a b : ℕ} (h : a ≤ b) : duoff a ≤ duoff b := by
  induction b with
  | zero =>
    have : a = 0 := by omega
    rw [this]
  | succ b ih =>
    by_cases hab : a = b + 1
    · rw [hab]
    · have := ih (by omega)
      rw [duoff_succ]
      omega

theorem idxdu_fill_aux (n : ℕ) (mem : ℕ → ℕ) :
    ((List.range n).foldl idxdu_step { idxdu_count := 0, idxdu_block := mem }).idxdu_count
      = duoff n ∧
    ∀ j, ((List.range n).foldl idxdu_step
        { idxdu_count := 0, idxdu_block := mem }).idxdu_block j
      = if j < n then duoff j else mem j := by
  induction n with
  | zero =>
    refine ⟨by simp [duoff], ?_⟩
    intro j
    simp
  | succ n ih =>
    obtain ⟨h1, h2⟩ := ih
    rw [List.range_succ, List.foldl_append, List.foldl_cons, List.foldl_nil]
    generalize (List.range n).foldl idxdu_step { idxdu_count := 0, idxdu_block := mem } = sn
      at h1 h2 ⊢
    refine ⟨?_, ?_⟩
    · simp only [idxdu_step, mbloop, count_rows, h1, duoff_succ]
    · intro j
      simp only [idxdu_step, Function.update_apply, h1, h2]
      by_cases hj : j = n
      · subst hj; simp
      · by_cases hj' : j < n
        · have : j < n + 1 := by omega
          simp [hj, hj', this]
        · have : ¬ j < n + 1 := by omega
          simp [hj, hj', this]

theorem idxdu_fill_block (twojmax : ℕ) (mem : ℕ → ℕ) (j : ℕ) (hj : j ≤ twojmax) :
    (idxdu_fill twojmax mem).idxdu_block j = duoff j := by
  have := (idxdu_fill_aux (twojmax + 1) mem).2 j
  rw [if_pos (by omega)] at this
  exact this

theorem idxdu_fill_count (twojmax : ℕ) (mem : ℕ → ℕ) :
    (idxdu_fill twojmax mem).idxdu_count = duoff (twojmax + 1) :=
  (idxdu_fill_aux (twojmax + 1) mem).1

/-- Distinct `(j, q)` with `q` inside the block of level `j` have distinct indices. -/
theorem duoff_inj (j j' q q' : ℕ) (hq : q < (j / 2 + 1) * (j + 1))
    (hq' : q' < (j' / 2 + 1) * (j' + 1)) (h : duoff j + q = duoff j' + q') :
    j = j' ∧ q = q' := by
  rcases Nat.lt_trichotomy j j' with hlt | heq | hgt
  · have := duoff_mono (show j + 1 ≤ j' by omega)
    rw [duoff_succ] at this
    omega
  · subst heq
    exact ⟨rfl, by omega⟩
  · have := duoff_mono (show j' + 1 ≤ j by omega)
    rw [duoff_succ] at this
    omega

/-- Parity of an admissible triple: `j1 + j2 - j` is even and non-negative. -/
theorem triple_parity {twojmax j1 j2 j : ℕ} (h : (j1, j2, j) ∈ triples twojmax) :
    ∃ k : ℕ, j1 + j2 = j + 2 * k := by
  have b := mem_triples_bounds h
  simp only at b
  exact ⟨(j1 + j2 - j) / 2, by omega⟩

theorem tdiv_two_mul (x : ℤ) : Int.tdiv (2 * x) 2 = x :=
  Int.mul_tdiv_cancel_left x (by decide)

theorem zmin_eq (j1 j2 j m k : ℕ) (hk : j1 + j2 = j + 2 * k) :
    zmin j1 j2 j m = max 0 ((m : ℤ) + k - j2) := by
  unfold zmin
  have : 2 * (m : ℤ) - j - j2 + j1 = 2 * ((m : ℤ) + k - j2) := by
    have : (j1 : ℤ) + j2 = j + 2 * k := by exact_mod_cast hk
    omega
  rw [this, tdiv_two_mul]

theorem zmax_eq (j1 j2 j m k : ℕ) (hk : j1 + j2 = j + 2 * k) :
    zmax j1 j2 j m = (m : ℤ) + k - zmin j1 j2 j m := by
  unfold zmax
  have : 2 * (m : ℤ) - j - (2 * zmin j1 j2 j m - j1) + j2
      = 2 * ((m : ℤ) + k - zmin j1 j2 j m) := by
    have : (j1 : ℤ) + j2 = j + 2 * k := by exact_mod_cast hk
    omega
  rw [this, tdiv_two_mul]

theorem zdecode (j1 j2 j m k : ℕ) (hk : j1 + j2 = j + 2 * k) :
    Int.tdiv (2 * (zmin j1 j2 j m + zmax j1 j2 j m) - j1 - j2 + j) 2 = m := by
  rw [zmax_eq j1 j2 j m k hk]
  have : 2 * (zmin j1 j2 j m + ((m : ℤ) + k - zmin j1 j2 j m)) - j1 - j2 + j = 2 * (m : ℤ) := by
    have : (j1 : ℤ) + j2 = j + 2 * k := by exact_mod_cast hk
    omega
  rw [this, tdiv_two_mul]

theorem yi_jjdu_zfields (idxdu_block : ℤ → ℤ) (j1 j2 j mb ma k : ℕ)
    (hk : j1 + j2 = j + 2 * k) :
    yi_jjdu idxdu_block (zfields j1 j2 j mb ma)
      = idxdu_block j + ((j : ℤ) + 1) * mb + ma := by
  simp only [yi_jjdu, zfields]
  rw [zdecode j1 j2 j mb k hk, zdecode j1 j2 j ma k hk]

section C6
variable {K : Type} [Field K]

theorem ysum_congr (cg : ℤ → K) (idxu_block : ℤ → ℤ) (ulisttot : ℤ → Cplx K)
    (rec rec' : ℕ → ℤ) (h : ∀ c, c < 9 → rec c = rec' c) :
    ysum_re cg idxu_block ulisttot rec = ysum_re cg idxu_block ulisttot rec' ∧
    ysum_im cg idxu_block ulisttot rec = ysum_im cg idxu_block ulisttot rec' := by
  constructor
  · simp only [ysum_re, h 0 (by omega), h 1 (by omega), h 3 (by omega),
      h 4 (by omega), h 5 (by omega), h 6 (by omega), h 7 (by omega), h 8 (by omega)]
  · simp only [ysum_im, h 0 (by omega), h 1 (by omega), h 3 (by omega),
      h 4 (by omega), h 5 (by omega), h 6 (by omega), h 7 (by omega), h 8 (by omega)]

theorem du_index_cast (d d' j' j a b mb ma : ℕ) :
    ((d' : ℤ) + ((j' : ℤ) + 1) * (a : ℤ) + (b : ℤ) = (d : ℤ) + ((j : ℤ) + 1) * mb + ma)
      ↔ d' + (a * (j' + 1) + b) = d + (mb * (j + 1) + ma) := by
  have e1 : (d' : ℤ) + ((j' : ℤ) + 1) * (a : ℤ) + (b : ℤ)
      = ((d' + (a * (j' + 1) + b) : ℕ) : ℤ) := by
    push_cast; ring
  have e2 : (d : ℤ) + ((j : ℤ) + 1) * mb + ma = ((d + (mb * (j + 1) + ma) : ℕ) : ℤ) := by
    push_cast; ring
  rw [e1, e2]
  exact Int.ofNat_inj

theorem yi_jjdu_congr (idxdu_block : ℤ → ℤ) (rec rec' : ℕ → ℤ)
    (h : ∀ c, c < 9 → rec c = rec' c) :
    yi_jjdu idxdu_block rec = yi_jjdu idxdu_block rec' := by
  simp only [yi_jjdu, h 0 (by omega), h 1 (by omega), h 2 (by omega), h 3 (by omega),
    h 4 (by omega), h 6 (by omega), h 7 (by omega)]

/-- Both parts of the Y stage reduce to sums over the triples with the given `j`. -/
theorem ystage_sum (twojmax : ℕ) (idxb_block : ℕ → ℤ) (beta : ℤ → K)
    (zmem : ZTables K) (dumem : ℕ → ℕ) (idxcg_block : ℤ → ℤ) (cglist : ℤ → K)
    (c : (ℕ → ℤ) → (ℤ → K) → K)
    (hc : ∀ cg rec rec', (∀ x, x < 9 → rec x = rec' x) → c rec cg = c rec' cg)
    (j mb ma : ℕ) (hj : j ≤ twojmax) (hmb : 2 * mb ≤ j) (hma : ma ≤ j) :
    ∑ p ∈ Finset.range (idxz_max twojmax),
      (if yi_jjdu (fun z => ((idxdu_fill twojmax dumem).idxdu_block z.toNat : ℤ))
            ((zfill twojmax idxb_block beta zmem).idxz p)
          = ((idxdu_fill twojmax dumem).idxdu_block j : ℤ) + ((j : ℤ) + 1) * mb + ma
        then (zfill twojmax idxb_block beta zmem).idxzbeta p *
          c ((zfill twojmax idxb_block beta zmem).idxz p)
            (cgblock_of twojmax idxcg_block cglist
              ((zfill twojmax idxb_block beta zmem).idxz p 0)
              ((zfill twojmax idxb_block beta zmem).idxz p 1)
              ((zfill twojmax idxb_block beta zmem).idxz p 2))
        else 0)
    = (((triples twojmax).filter (fun t => decide (t.2.2 = j))).map (fun t =>
        betaj twojmax idxb_block beta t.1 t.2.1 t.2.2 *
          c (zfields t.1 t.2.1 t.2.2 mb ma)
            (cgblock_of twojmax idxcg_block cglist t.1 t.2.1 t.2.2))).sum := by
  rw [idxz_max_eq]
  rw [blocks_sum zsize _ (fun t q =>
    if duoff t.2.2 + q = duoff j + (mb * (j + 1) + ma) then
      betaj twojmax idxb_block beta t.1 t.2.1 t.2.2 *
        c (zfields t.1 t.2.1 t.2.2 (q / (t.2.2 + 1)) (q % (t.2.2 + 1)))
          (cgblock_of twojmax idxcg_block cglist t.1 t.2.1 t.2.2)
    else 0)]
  · rw [← sum_map_ite_filter]
    refine congrArg List.sum (List.map_congr_left ?_)
    intro t ht
    obtain ⟨j1, j2, j'⟩ := t
    simp only
    by_cases hjj : j' = j
    · subst hjj
      rw [if_pos rfl]
      have hq0 : mb * (j' + 1) + ma < zsize (j1, j2, j') := zpos_lt j' mb ma hmb hma
      rw [Finset.sum_eq_single (mb * (j' + 1) + ma)]
      · obtain ⟨d1, d2⟩ := zpos_divmod j' mb ma hma
        rw [if_pos rfl, d1, d2]
      · intro q _ hne
        rw [if_neg (by omega)]
      · intro h
        exact absurd (Finset.mem_range.2 hq0) h
    · rw [if_neg hjj]
      refine Finset.sum_eq_zero ?_
      intro q hq
      rw [Finset.mem_range] at hq
      have hq0 : mb * (j + 1) + ma < (j / 2 + 1) * (j + 1) := zpos_lt j mb ma hmb hma
      rw [if_neg]
      intro h
      exact hjj (duoff_inj j' j q _ hq hq0 h).1
  · intro pre t post hsplit q hq
    have hk := zkey_not_mem_post twojmax pre post _ hsplit
    obtain ⟨_, e2⟩ := zfill_split twojmax idxb_block beta pre post t
      { zmem with idxz_count := 0 } hk
    obtain ⟨f1, f2⟩ := e2 q hq
    simp only [Nat.zero_add] at f1 f2
    have hmem : t ∈ triples twojmax := by rw [hsplit]; simp
    obtain ⟨j1, j2, j'⟩ := t
    obtain ⟨k, hk'⟩ := triple_parity hmem
    have hb := mem_triples_bounds hmem
    simp only at hb f1 f2 ⊢
    have hZ : (zfill twojmax idxb_block beta zmem)
        = (pre ++ (j1, j2, j') :: post).foldl (zfill_triple twojmax idxb_block beta)
          { zmem with idxz_count := 0 } := by
      simp only [zfill, hsplit]
    rw [hZ]
    rw [f2, yi_jjdu_congr _ _ _ f1, yi_jjdu_zfields _ _ _ _ _ _ k hk',
      hc _ _ _ f1, f1 0 (by omega), f1 1 (by omega), f1 2 (by omega)]
    have hdu : (idxdu_fill twojmax dumem).idxdu_block ((j' : ℤ)).toNat = duoff j' := by
      rw [Int.toNat_natCast]
      exact idxdu_fill_block twojmax dumem j' (by omega)
    have hdu' : (idxdu_fill twojmax dumem).idxdu_block j = duoff j :=
      idxdu_fill_block twojmax dumem j hj
    have hqd : q / (j' + 1) * (j' + 1) + q % (j' + 1) = q := Nat.div_add_mod' q (j' + 1)
    have hcond := du_index_cast (duoff j) (duoff j') j' j (q / (j' + 1)) (q % (j' + 1)) mb ma
    rw [hqd] at hcond
    simp only [zfields, hdu, hdu', hcond]

/-- C6. For every atom, after `reset_ylist` and `compute_yi` (work items executed one
after the other, exact arithmetic), the Y entry at logical index
`idxdu_block[j] + (j+1)*mb + ma` is the sum, over the Z-list records of the triples
`(j1, j2, j)` with that `j` (one record per admissible `(j1, j2)`), of
`betaj * SUM_{ib<nb} cg[(mb1min+ib)*(j2+1) + (mb2max-ib)] * SUM_{ia<na}
cg[(ma1min+ia)*(j2+1) + (ma2max-ia)] * (Utot_j1[mb1min+ib][ma1min+ia] *
Utot_j2[mb2max-ib][ma2max-ia])`, real and imaginary part. -/
theorem ystage_entry (twojmax : ℕ) (idxb_block : ℕ → ℤ) (beta : ℤ → K)
    (zmem : ZTables K) (dumem : ℕ → ℕ) (idxcg_block idxu_block : ℤ → ℤ) (cglist : ℤ → K)
    (ulisttot : ℤ → Cplx K) (ylist : ℤ → Cplx K)
    (j mb ma : ℕ) (hj : j ≤ twojmax) (hmb : 2 * mb ≤ j) (hma : ma ≤ j) :
    (ystage twojmax idxb_block beta zmem dumem idxcg_block idxu_block cglist ulisttot ylist
        (((idxdu_fill twojmax dumem).idxdu_block j : ℤ) + ((j : ℤ) + 1) * mb + ma)).re
      = yspec_re twojmax idxb_block beta idxcg_block idxu_block cglist ulisttot j mb ma ∧
    (ystage twojmax idxb_block beta zmem dumem idxcg_block idxu_block cglist ulisttot ylist
        (((idxdu_fill twojmax dumem).idxdu_block j : ℤ) + ((j : ℤ) + 1) * mb + ma)).im
      = yspec_im twojmax idxb_block beta idxcg_block idxu_block cglist ulisttot j mb ma := by
  obtain ⟨a1, a2⟩ := compute_yi_apply twojmax (zfill twojmax idxb_block beta zmem).idxz
    (zfill twojmax idxb_block beta zmem).idxzbeta idxcg_block idxu_block
    (fun z => ((idxdu_fill twojmax dumem).idxdu_block z.toNat : ℤ)) cglist ulisttot
    (reset_ylist (idxdu_fill twojmax dumem).idxdu_count ylist) (idxz_max twojmax)
    (((idxdu_fill twojmax dumem).idxdu_block j : ℤ) + ((j : ℤ) + 1) * mb + ma)
  have hreset : reset_ylist (idxdu_fill twojmax dumem).idxdu_count ylist
      (((idxdu_fill twojmax dumem).idxdu_block j : ℤ) + ((j : ℤ) + 1) * mb + ma)
      = { re := 0, im := 0 } := by
    have hq0 : mb * (j + 1) + ma < (j / 2 + 1) * (j + 1) := zpos_lt j mb ma hmb hma
    have hm := duoff_mono (show j + 1 ≤ twojmax + 1 by omega)
    rw [duoff_succ] at hm
    have e : ((idxdu_fill twojmax dumem).idxdu_block j : ℤ) + ((j : ℤ) + 1) * mb + ma
        = ((duoff j + (mb * (j + 1) + ma) : ℕ) : ℤ) := by
      rw [idxdu_fill_block twojmax dumem j hj]; push_cast; ring
    rw [e, reset_ylist, idxdu_fill_count]
    have c1 : (0 : ℤ) ≤ ((duoff j + (mb * (j + 1) + ma) : ℕ) : ℤ) := Int.natCast_nonneg _
    have c2 : ((duoff j + (mb * (j + 1) + ma) : ℕ) : ℤ) < ((duoff (twojmax + 1) : ℕ) : ℤ) := by
      exact_mod_cast (by omega : duoff j + (mb * (j + 1) + ma) < duoff (twojmax + 1))
    rw [if_pos ⟨c1, c2⟩]
  have s1 := ystage_sum twojmax idxb_block beta zmem dumem idxcg_block cglist
    (fun rec cg => ysum_re cg idxu_block ulisttot rec)
    (fun cg rec rec' h => (ysum_congr cg idxu_block ulisttot rec rec' h).1) j mb ma hj hmb hma
  have s2 := ystage_sum twojmax idxb_block beta zmem dumem idxcg_block cglist
    (fun rec cg => ysum_im cg idxu_block ulisttot rec)
    (fun cg rec rec' h => (ysum_congr cg idxu_block ulisttot rec rec' h).2) j mb ma hj hmb hma
  unfold ystage yspec_re yspec_im
  rw [a1, a2, hreset]
  simp only [zero_add]
  exact ⟨s1, s2⟩

end C6

theorem ystage_entry_witness :
    (2 : ℕ) ≤ 2 ∧ 2 * 1 ≤ 2 ∧ (0 : ℕ) ≤ 2 ∧
    (ystage 2 (idxb_block_fill 2 (fun _ => 0)).idxb_block (fun _ => (1 : ℚ))
        ⟨0, fun _ _ => 0, fun _ => 0, fun _ => 0⟩ (fun _ => 0) (fun _ => 0) (fun _ => 0)
        (fun _ => 1) (fun _ => ⟨1, 0⟩) (fun _ => ⟨7, 7⟩)
        (((idxdu_fill 2 (fun _ => 0)).idxdu_block 2 : ℤ) + (((2 : ℕ) : ℤ) + 1) * ((1 : ℕ) : ℤ)
          + ((0 : ℕ) : ℤ))).re
      = yspec_re 2 (idxb_block_fill 2 (fun _ => 0)).idxb_block (fun _ => (1 : ℚ))
        (fun _ => 0) (fun _ => 0) (fun _ => 1) (fun _ => ⟨1, 0⟩) 2 1 0 :=
  ⟨by decide, by decide, by decide,
    (ystage_entry 2 (idxb_block_fill 2 (fun _ => 0)).idxb_block (fun _ => (1 : ℚ))
      ⟨0, fun _ _ => 0, fun _ => 0, fun _ => 0⟩ (fun _ => 0) (fun _ => 0) (fun _ => 0)
      (fun _ => 1) (fun _ => ⟨1, 0⟩) (fun _ => ⟨7, 7⟩) 2 1 0
      (by decide) (by decide) (by decide)).1⟩

theorem foldl_const_iterate {σ ι : Type} (f : σ → σ) (l : List ι) (s : σ) :
    l.foldl (fun s _ => f s) s = f^[l.length] s := by
  induction l generalizing s with
  | nil => rfl
  | cons a l ih => simp [List.foldl_cons, ih, Function.iterate_succ_apply]

theorem uoff_succ (j : ℕ) : uoff (j + 1) = uoff j + (j + 1) * (j + 1) := by
  simp [uoff, Finset.sum_range_succ]

theorem uoff_mono {a b : ℕ} (h : a ≤ b) : uoff a ≤ uoff b := by
  induction b with
  | zero =>
    have : a = 0 := by omega
    rw [this]
  | succ b ih =>
    by_cases hab : a = b + 1
    · rw [hab]
    · have := ih (by omega)
      rw [uoff_succ]
      omega

theorem idxu_fill_aux (n : ℕ) (mem : ℕ → ℕ) :
    ((List.range n).foldl idxu_step { idxu_count := 0, idxu_block := mem }).idxu_count
      = uoff n ∧
    ∀ j, ((List.range n).foldl idxu_step
        { idxu_count := 0, idxu_block := mem }).idxu_block j
      = if j < n then uoff j else mem j := by
  induction n with
  | zero =>
    refine ⟨by simp [uoff], ?_⟩
    intro j
    simp
  | succ n ih =>
    obtain ⟨h1, h2⟩ := ih
    rw [List.range_succ, List.foldl_append, List.foldl_cons, List.foldl_nil]
    generalize (List.range n).foldl idxu_step { idxu_count := 0, idxu_block := mem } = sn
      at h1 h2 ⊢
    refine ⟨?_, ?_⟩
    · simp only [idxu_step, h1, uoff_succ]
      have := count_rows n (n + 1) (uoff n)
      simp only [maloop] at this ⊢
      exact this
    · intro j
      simp only [idxu_step, Function.update_apply, h1, h2]
      by_cases hj : j = n
      · subst hj; simp
      · by_cases hj' : j < n
        · have : j < n + 1 := by omega
          simp [hj, hj', this]
        · have : ¬ j < n + 1 := by omega
          simp [hj, hj', this]

theorem idxu_fill_block (twojmax : ℕ) (mem : ℕ → ℕ) (j : ℕ) (hj : j ≤ twojmax) :
    (idxu_fill twojmax mem).idxu_block j = uoff j := by
  have := (idxu_fill_aux (twojmax + 1) mem).2 j
  rw [if_pos (by omega)] at this
  exact this

theorem idxu_fill_count (twojmax : ℕ) (mem : ℕ → ℕ) :
    (idxu_fill twojmax mem).idxu_count = uoff (twojmax + 1) :=
  (idxu_fill_aux (twojmax + 1) mem).1

/-! ### Parity table -/

theorem parity_row (n : ℕ) (s : ParState) :
    (parity_ma^[n] s).idxu_count = s.idxu_count + n ∧
    (parity_ma^[n] s).mbpar = s.mbpar ∧
    (parity_ma^[n] s).mapar = (-1) ^ n * s.mapar ∧
    (∀ i, i < n → (parity_ma^[n] s).ulist_parity (s.idxu_count + i) = (-1) ^ i * s.mapar) ∧
    (∀ x, x < s.idxu_count ∨ s.idxu_count + n ≤ x →
      (parity_ma^[n] s).ulist_parity x = s.ulist_parity x) := by
  induction n with
  | zero => simp
  | succ n ih =>
    obtain ⟨h1, h2, h3, h4, h5⟩ := ih
    rw [Function.iterate_succ_apply']
    generalize parity_ma^[n] s = sn at h1 h2 h3 h4 h5 ⊢
    refine ⟨?_, ?_, ?_, ?_, ?_⟩
    · simp only [parity_ma, h1]; omega
    · simp only [parity_ma, h2]
    · simp only [parity_ma, h3]; ring
    · intro i hi
      simp only [parity_ma, h1, h3, Function.update_apply]
      by_cases hin : i = n
      · subst hin; simp
      · rw [if_neg (by omega)]
        exact h4 i (by omega)
    · intro x hx
      simp only [parity_ma, h1, Function.update_apply]
      rw [if_neg (by omega)]
      exact h5 x (by omega)

theorem parity_mb_spec (j : ℕ) (s : ParState) :
    (parity_mb j s).idxu_count = s.idxu_count + (j + 1) ∧
    (parity_mb j s).mbpar = -s.mbpar ∧
    (∀ i, i ≤ j → (parity_mb j s).ulist_parity (s.idxu_count + i) = (-1) ^ i * s.mbpar) ∧
    (∀ x, x < s.idxu_count ∨ s.idxu_count + (j + 1) ≤ x →
      (parity_mb j s).ulist_parity x = s.ulist_parity x) := by
  obtain ⟨h1, h2, _, h4, h5⟩ := parity_row (j + 1) { s with mapar := s.mbpar }
  simp only [parity_mb, foldl_const_iterate, maloop, List.length_range]
  exact ⟨h1, by rw [h2], fun i hi => h4 i (by omega), h5⟩

theorem parity_rows (j m : ℕ) (s : ParState) :
    ((parity_mb j)^[m] s).idxu_count = s.idxu_count + m * (j + 1) ∧
    ((parity_mb j)^[m] s).mbpar = (-1) ^ m * s.mbpar ∧
    (∀ r i, r < m → i ≤ j →
      ((parity_mb j)^[m] s).ulist_parity (s.idxu_count + r * (j + 1) + i)
        = (-1) ^ (r + i) * s.mbpar) ∧
    (∀ x, x < s.idxu_count ∨ s.idxu_count + m * (j + 1) ≤ x →
      ((parity_mb j)^[m] s).ulist_parity x = s.ulist_parity x) := by
  induction m with
  | zero => simp
  | succ m ih =>
    obtain ⟨h1, h2, h3, h4⟩ := ih
    rw [Function.iterate_succ_apply']
    generalize (parity_mb j)^[m] s = sm at h1 h2 h3 h4 ⊢
    obtain ⟨a1, a2, a3, a4⟩ := parity_mb_spec j sm
    have hmul : (m + 1) * (j + 1) = m * (j + 1) + (j + 1) := by ring
    refine ⟨?_, ?_, ?_, ?_⟩
    · rw [a1, h1, hmul]; omega
    · rw [a2, h2]; ring
    · intro r i hr hi
      by_cases hrm : r = m
      · subst hrm
        have := a3 i hi
        rw [h1, h2] at this
        rw [this]; ring
      · have hlt : r * (j + 1) + i < m * (j + 1) := by
          have : (r + 1) * (j + 1) ≤ m * (j + 1) := Nat.mul_le_mul_right _ (by omega)
          have e : (r + 1) * (j + 1) = r * (j + 1) + (j + 1) := by ring
          omega
        rw [a4 _ (Or.inl (by rw [h1]; omega))]
        exact h3 r i (by omega) hi
    · intro x hx
      rw [hmul] at hx
      rw [a4 x (by rw [h1]; omega)]
      exact h4 x (by omega)

theorem parity_j_spec (j : ℕ) (s : ParState) :
    (parity_j s j).idxu_count = s.idxu_count + (j + 1) * (j + 1) ∧
    (∀ r i, r ≤ j → i ≤ j →
      (parity_j s j).ulist_parity (s.idxu_count + r * (j + 1) + i) = (-1) ^ (r + i)) ∧
    (∀ x, x < s.idxu_count ∨ s.idxu_count + (j + 1) * (j + 1) ≤ x →
      (parity_j s j).ulist_parity x = s.ulist_parity x) := by
  obtain ⟨h1, _, h3, h4⟩ := parity_rows j (j + 1) { s with mbpar := 1 }
  simp only [parity_j, foldl_const_iterate, maloop, List.length_range]
  refine ⟨h1, ?_, h4⟩
  intro r i hr hi
  have := h3 r i (by omega) hi
  simpa using this

theorem parity_levels (n : ℕ) (mem : ℕ → ℤ) :
    ((List.range n).foldl parity_j
      { idxu_count := 0, ulist_parity := mem, mbpar := 1, mapar := 1 }).idxu_count = uoff n ∧
    (∀ j r i, j < n → r ≤ j → i ≤ j →
      ((List.range n).foldl parity_j
        { idxu_count := 0, ulist_parity := mem, mbpar := 1, mapar := 1 }).ulist_parity
          (uoff j + r * (j + 1) + i) = (-1) ^ (r + i)) := by
  induction n with
  | zero => simp [uoff]
  | succ n ih =>
    obtain ⟨h1, h2⟩ := ih
    rw [List.range_succ, List.foldl_append, List.foldl_cons, List.foldl_nil]
    generalize (List.range n).foldl parity_j
      { idxu_count := 0, ulist_parity := mem, mbpar := 1, mapar := 1 } = sn at h1 h2 ⊢
    obtain ⟨a1, a2, a3⟩ := parity_j_spec n sn
    refine ⟨?_, ?_⟩
    · rw [a1, h1, uoff_succ]
    · intro j r i hj hr hi
      by_cases hjn : j = n
      · subst hjn
        have := a2 r i hr hi
        rw [h1] at this
        exact this
      · have hm := uoff_mono (show j + 1 ≤ n by omega)
        rw [uoff_succ] at hm
        have hlt : r * (j + 1) + i < (j + 1) * (j + 1) := by
          have : (r + 1) * (j + 1) ≤ (j + 1) * (j + 1) := Nat.mul_le_mul_right _ (by omega)
          have e : (r + 1) * (j + 1) = r * (j + 1) + (j + 1) := by ring
          omega
        rw [a3 _ (Or.inl (by rw [h1]; omega))]
        exact h2 j r i (by omega) hr hi

theorem ulist_parity_fill_at (twojmax : ℕ) (mem : ℕ → ℤ) (j r i : ℕ) (hj : j ≤ twojmax)
    (hr : r ≤ j) (hi : i ≤ j) :
    ulist_parity_fill twojmax mem (uoff j + r * (j + 1) + i) = (-1) ^ (r + i) :=
  (parity_levels (twojmax + 1) mem).2 j r i (by omega) hr hi

section C8
variable {K : Type} [Field K]

theorem ui_sym_body_apply (ulist_parity : ℕ → ℤ) (s : USym K) (h : s.jjui ≠ s.jjuip)
    (x : ℕ) :
    (ui_sym_body ulist_parity s).ulist x =
      if x = s.jjuip then
        Cplx.smul (ulist_parity s.jjui : K) (Cplx.conj (s.ulist s.jjui))
      else s.ulist x := by
  simp only [ui_sym_body, Function.update_apply]
  by_cases hx : x = s.jjuip
  · simp [hx, h, Cplx.smul, Cplx.conj]
  · simp [hx]

theorem ui_sym_iterate (ulist_parity : ℕ → ℤ) (n : ℕ) (s : USym K)
    (h : s.jjui + 2 * n ≤ s.jjuip + 1) :
    ((ui_sym_body ulist_parity)^[n] s).jjui = s.jjui + n ∧
    ((ui_sym_body ulist_parity)^[n] s).jjuip = s.jjuip - n ∧
    (∀ t, t < n → ((ui_sym_body ulist_parity)^[n] s).ulist (s.jjuip - t) =
      Cplx.smul (ulist_parity (s.jjui + t) : K) (Cplx.conj (s.ulist (s.jjui + t)))) ∧
    (∀ x, x + n ≤ s.jjuip ∨ s.jjuip < x →
      ((ui_sym_body ulist_parity)^[n] s).ulist x = s.ulist x) := by
  induction n with
  | zero => simp
  | succ n ih =>
    obtain ⟨h1, h2, h3, h4⟩ := ih (by omega)
    rw [Function.iterate_succ_apply']
    generalize (ui_sym_body ulist_parity)^[n] s = sn at h1 h2 h3 h4 ⊢
    have hne : sn.jjui ≠ sn.jjuip := by omega
    refine ⟨?_, ?_, ?_, ?_⟩
    · simp only [ui_sym_body, h1]; omega
    · simp only [ui_sym_body, h2]; omega
    · intro t ht
      rw [ui_sym_body_apply _ _ hne]
      by_cases htn : t = n
      · subst htn
        rw [if_pos h2.symm, h1, h4 _ (Or.inl (by omega))]
      · rw [if_neg (by omega)]
        exact h3 t (by omega)
    · intro x hx
      rw [ui_sym_body_apply _ _ hne, if_neg (by omega)]
      exact h4 x (by omega)

theorem ui_symfill_eq (idxu_block : ℕ → ℕ) (ulist_parity : ℕ → ℤ) (j : ℕ)
    (ulist : ℕ → Cplx K) :
    ui_symfill idxu_block ulist_parity j ulist =
      ((ui_sym_body ulist_parity)^[(j + 1) / 2 * (j + 1)]
        ({ ulist := ulist, jjui := idxu_block j
           jjuip := idxu_block j + (j + 1) * (j + 1) - 1 } : USym K)).ulist := by
  unfold ui_symfill
  simp only [foldl_const_iterate, mbloop_lt, maloop, List.length_range]
  rw [← Function.iterate_mul, Nat.mul_comm]

theorem half_rows_le (j : ℕ) : 2 * ((j + 1) / 2 * (j + 1)) ≤ (j + 1) * (j + 1) := by
  have : 2 * ((j + 1) / 2) ≤ j + 1 := by omega
  calc 2 * ((j + 1) / 2 * (j + 1)) = (2 * ((j + 1) / 2)) * (j + 1) := by ring
    _ ≤ (j + 1) * (j + 1) := Nat.mul_le_mul_right _ this

theorem half_rows_split (j : ℕ) :
    (j + 1) / 2 * (j + 1) + (j / 2 + 1) * (j + 1) = (j + 1) * (j + 1) := by
  have : (j + 1) / 2 + (j / 2 + 1) = j + 1 := by omega
  calc (j + 1) / 2 * (j + 1) + (j / 2 + 1) * (j + 1)
      = ((j + 1) / 2 + (j / 2 + 1)) * (j + 1) := by ring
    _ = (j + 1) * (j + 1) := by rw [this]

theorem mirror_index (j mb ma : ℕ) (hmb : mb ≤ j) (hma : ma ≤ j) :
    (j - mb) * (j + 1) + (j - ma) + (mb * (j + 1) + ma) + 1 = (j + 1) * (j + 1) := by
  obtain ⟨a, rfl⟩ : ∃ a, j = mb + a := ⟨j - mb, by omega⟩
  obtain ⟨b, hb⟩ : ∃ b, mb + a = ma + b := ⟨mb + a - ma, by omega⟩
  have e1 : mb + a - mb = a := by omega
  have e2 : mb + a - ma = b := by omega
  rw [e1, e2]
  have : b = mb + a - ma := by omega
  zify at hb ⊢
  have hb' : (b : ℤ) = mb + a - ma := by omega
  rw [hb']
  ring

theorem left_lt_half (j mb ma : ℕ) (hmb : 2 * mb < j) (hma : ma ≤ j) :
    mb * (j + 1) + ma < (j + 1) / 2 * (j + 1) := by
  have h1 : mb + 1 ≤ (j + 1) / 2 := by omega
  have h2 : (mb + 1) * (j + 1) ≤ (j + 1) / 2 * (j + 1) := Nat.mul_le_mul_right _ h1
  have h3 : (mb + 1) * (j + 1) = mb * (j + 1) + (j + 1) := by ring
  omega

/-- Effect of the symmetry copy of level `j` on an array, for any base offset. -/
theorem ui_symfill_spec (idxu_block : ℕ → ℕ) (ulist_parity : ℕ → ℤ) (j : ℕ)
    (ulist : ℕ → Cplx K) :
    (∀ mb ma, 2 * mb < j → ma ≤ j →
      ui_symfill idxu_block ulist_parity j ulist
          (idxu_block j + (j - mb) * (j + 1) + (j - ma))
        = Cplx.smul (ulist_parity (idxu_block j + mb * (j + 1) + ma) : K)
            (Cplx.conj (ulist (idxu_block j + mb * (j + 1) + ma)))) ∧
    (∀ x, x < idxu_block j + (j / 2 + 1) * (j + 1) ∨
        idxu_block j + (j + 1) * (j + 1) ≤ x →
      ui_symfill idxu_block ulist_parity j ulist x = ulist x) := by
  have hL := half_rows_le j
  have hS := half_rows_split j
  obtain ⟨_, _, h3, h4⟩ := ui_sym_iterate ulist_parity ((j + 1) / 2 * (j + 1))
    ({ ulist := ulist, jjui := idxu_block j
       jjuip := idxu_block j + (j + 1) * (j + 1) - 1 } : USym K)
    (by simp only; omega)
  simp only at h3 h4
  rw [ui_symfill_eq]
  refine ⟨?_, ?_⟩
  · intro mb ma hmb hma
    have ht := left_lt_half j mb ma hmb hma
    have hm := mirror_index j mb ma (by omega) hma
    have := h3 (mb * (j + 1) + ma) ht
    have e : idxu_block j + (j + 1) * (j + 1) - 1 - (mb * (j + 1) + ma)
        = idxu_block j + (j - mb) * (j + 1) + (j - ma) := by omega
    rw [e] at this
    rw [this, Nat.add_assoc (idxu_block j)]
  · intro x hx
    exact h4 x (by omega)

theorem neg_one_zpow_sub (ma mb : ℕ) :
    (-1 : K) ^ ((ma : ℤ) - (mb : ℤ)) = (-1 : K) ^ (mb + ma) := by
  have h2 : ((-1 : K) ^ mb) * ((-1 : K) ^ mb) = 1 := by
    rw [← mul_pow]; simp
  have hne : ((-1 : K) ^ mb) ≠ 0 := pow_ne_zero _ (by simp)
  rw [zpow_sub₀ (by simp : (-1 : K) ≠ 0), zpow_natCast, zpow_natCast, div_eq_iff hne,
    pow_add, mul_comm ((-1 : K) ^ mb) ((-1 : K) ^ ma), mul_assoc, h2, mul_one]

/-- C8. For every level `j ≤ twojmax` and every array the symmetry copy of that level is
applied to: the parity table holds `(-1)^(ma+mb)` at the left index
`idxu_block[j] + mb*(j+1) + ma`, which is the sign `(-1)^(ma-mb)`; after the copy, for
every left row `2*mb < j` and every `ma ≤ j` the entry at
`idxu_block[j] + (j-mb)*(j+1) + (j-ma)` is that sign times the complex conjugate of the
entry at the left index; and no entry of a row `mb'` with `2*mb' ≤ j` is overwritten. -/
theorem ui_symfill_mirror (twojmax : ℕ) (umem : ℕ → ℕ) (pmem : ℕ → ℤ) (j : ℕ)
    (hj : j ≤ twojmax) (ulist : ℕ → Cplx K) :
    (∀ mb ma, 2 * mb < j → ma ≤ j →
      ulist_parity_fill twojmax pmem
          ((idxu_fill twojmax umem).idxu_block j + mb * (j + 1) + ma) = (-1) ^ (ma + mb) ∧
      (-1 : K) ^ ((ma : ℤ) - (mb : ℤ)) =
        ((ulist_parity_fill twojmax pmem
          ((idxu_fill twojmax umem).idxu_block j + mb * (j + 1) + ma) : ℤ) : K) ∧
      ui_symfill (idxu_fill twojmax umem).idxu_block (ulist_parity_fill twojmax pmem) j ulist
          ((idxu_fill twojmax umem).idxu_block j + (j - mb) * (j + 1) + (j - ma))
        = Cplx.smul ((-1 : K) ^ ((ma : ℤ) - (mb : ℤ)))
            (Cplx.conj (ui_symfill (idxu_fill twojmax umem).idxu_block
              (ulist_parity_fill twojmax pmem) j ulist
              ((idxu_fill twojmax umem).idxu_block j + mb * (j + 1) + ma)))) ∧
    (∀ mb' ma', 2 * mb' ≤ j → ma' ≤ j →
      ui_symfill (idxu_fill twojmax umem).idxu_block (ulist_parity_fill twojmax pmem) j ulist
          ((idxu_fill twojmax umem).idxu_block j + mb' * (j + 1) + ma')
        = ulist ((idxu_fill twojmax umem).idxu_block j + mb' * (j + 1) + ma')) := by
  obtain ⟨h1, h2⟩ := ui_symfill_spec (K := K) (idxu_fill twojmax umem).idxu_block
    (ulist_parity_fill twojmax pmem) j ulist
  have hframe : ∀ mb' ma', 2 * mb' ≤ j → ma' ≤ j →
      ui_symfill (idxu_fill twojmax umem).idxu_block (ulist_parity_fill twojmax pmem) j ulist
          ((idxu_fill twojmax umem).idxu_block j + mb' * (j + 1) + ma')
        = ulist ((idxu_fill twojmax umem).idxu_block j + mb' * (j + 1) + ma') := by
    intro mb' ma' hmb' hma'
    have := zpos_lt j mb' ma' hmb' hma'
    exact h2 _ (Or.inl (by omega))
  refine ⟨?_, hframe⟩
  intro mb ma hmb hma
  have hpar : ulist_parity_fill twojmax pmem
      ((idxu_fill twojmax umem).idxu_block j + mb * (j + 1) + ma) = (-1) ^ (ma + mb) := by
    rw [idxu_fill_block twojmax umem j hj, ulist_parity_fill_at twojmax pmem j mb ma hj
      (by omega) hma, Nat.add_comm]
  have hsign : (-1 : K) ^ ((ma : ℤ) - (mb : ℤ)) =
      ((ulist_parity_fill twojmax pmem
        ((idxu_fill twojmax umem).idxu_block j + mb * (j + 1) + ma) : ℤ) : K) := by
    rw [hpar, neg_one_zpow_sub, Nat.add_comm]
    push_cast
    rfl
  refine ⟨hpar, hsign, ?_⟩
  rw [h1 mb ma hmb hma, hframe mb ma (by omega) hma, hsign]

end C8

theorem ui_symfill_mirror_witness :
    (2 : ℕ) ≤ 3 ∧ 2 * 0 < 2 ∧ (1 : ℕ) ≤ 2 ∧
    ui_symfill (idxu_fill 3 (fun _ => 0)).idxu_block (ulist_parity_fill 3 (fun _ => 0)) 2
        (fun i => (⟨(i : ℚ), 1⟩ : Cplx ℚ))
        ((idxu_fill 3 (fun _ => 0)).idxu_block 2 + (2 - 0) * (2 + 1) + (2 - 1))
      = Cplx.smul ((-1 : ℚ) ^ (((1 : ℕ) : ℤ) - ((0 : ℕ) : ℤ)))
          (Cplx.conj (ui_symfill (idxu_fill 3 (fun _ => 0)).idxu_block
            (ulist_parity_fill 3 (fun _ => 0)) 2 (fun i => (⟨(i : ℚ), 1⟩ : Cplx ℚ))
            ((idxu_fill 3 (fun _ => 0)).idxu_block 2 + 0 * (2 + 1) + 1))) :=
  ⟨by decide, by decide, by decide,
    ((ui_symfill_mirror 3 (fun _ => 0) (fun _ => 0) 2 (by decide)
      (fun i => (⟨(i : ℚ), 1⟩ : Cplx ℚ))).1 0 1 (by decide) (by decide)).2.2⟩

section URec
variable {K : Type} [Field K]

theorem ui_rec_body_cursors (rt : ℕ → ℕ → K) (a_r a_i b_r b_i : K) (j : ℕ) (s : UState K)
    (m_iter : ℕ) :
    (ui_rec_body rt a_r a_i b_r b_i j s m_iter).jju
      = (if m_iter % j = j - 1 then s.jju + 1 + 1 else s.jju + 1) ∧
    (ui_rec_body rt a_r a_i b_r b_i j s m_iter).jjup = s.jjup + 1 := ⟨rfl, rfl⟩

/-- Cell by cell effect of one iteration of the recursion loop. -/
theorem ui_rec_body_apply (rt : ℕ → ℕ → K) (a_r a_i b_r b_i : K) (j : ℕ) (hj : 1 ≤ j)
    (s : UState K) (m_iter : ℕ) (x : ℕ) :
    (ui_rec_body rt a_r a_i b_r b_i j s m_iter).ulist x =
      if 2 * (m_iter / j + 1) = j ∧ x = s.jju + (j + 1) + 1 then
        ui_termMA rt ⟨a_r, a_i⟩ (m_iter / j) (m_iter % j) (s.ulist s.jjup)
      else if 2 * (m_iter / j + 1) = j ∧ x = s.jju + (j + 1) then
        Cplx.add (s.ulist x) (ui_termMB rt ⟨b_r, b_i⟩ j (m_iter / j) (m_iter % j)
          (s.ulist s.jjup))
      else if x = s.jju + 1 then
        ui_termB rt ⟨b_r, b_i⟩ j (m_iter / j) (m_iter % j) (s.ulist s.jjup)
      else if x = s.jju then
        Cplx.add (s.ulist x) (ui_termA rt ⟨a_r, a_i⟩ j (m_iter / j) (m_iter % j)
          (s.ulist s.jjup))
      else s.ulist x := by
  unfold ui_rec_body
  by_cases hflag : 2 * (m_iter / j + 1) = j
  · simp only [hflag, if_true, true_and, Function.update_apply]
    by_cases h1 : x = s.jju + (j + 1) + 1
    · rw [if_pos h1, if_pos h1]
      ext <;> simp only [ui_termMA, Cplx.smul, Cplx.mul]
    · rw [if_neg h1, if_neg h1]
      by_cases h2 : x = s.jju + (j + 1)
      · rw [if_pos h2, if_pos h2]
        have e1 : ¬ s.jju + (j + 1) = s.jju + 1 := by omega
        have e2 : ¬ s.jju + (j + 1) = s.jju := by omega
        subst h2
        ext <;> simp only [ui_termMB, Cplx.smul, Cplx.mul, Cplx.add, e1, e2, if_false]
      · rw [if_neg h2, if_neg h2]
        by_cases h3 : x = s.jju + 1
        · rw [if_pos h3, if_pos h3]
          ext <;> simp only [ui_termB, Cplx.smul, Cplx.mul, Cplx.conj] <;> ring
        · rw [if_neg h3, if_neg h3]
          by_cases h4 : x = s.jju
          · rw [if_pos h4, if_pos h4]
            subst h4
            ext <;> simp only [ui_termA, Cplx.smul, Cplx.mul, Cplx.conj, Cplx.add] <;> ring
          · rw [if_neg h4, if_neg h4]
  · simp only [hflag, if_false, false_and, Function.update_apply]
    by_cases h3 : x = s.jju + 1
    · rw [if_pos h3, if_pos h3]
      ext <;> simp only [ui_termB, Cplx.smul, Cplx.mul, Cplx.conj] <;> ring
    · rw [if_neg h3, if_neg h3]
      by_cases h4 : x = s.jju
      · rw [if_pos h4, if_pos h4]
        subst h4
        ext <;> simp only [ui_termA, Cplx.smul, Cplx.mul, Cplx.conj, Cplx.add] <;> ring
      · rw [if_neg h4, if_neg h4]

theorem row_index_divmod (j mb k : ℕ) (hk : k < j) :
    (mb * j + k) / j = mb ∧ (mb * j + k) % j = k :=
  (Nat.div_mod_unique (by omega : 0 < j)).2 ⟨by ring, hk⟩

/-- State after the first `k` iterations of row `mb` of the recursion loop of level `j`,
started with cursors `jju = c`, `jjup = p` on the array `s.ulist`. -/
theorem ui_row_pass (rt : ℕ → ℕ → K) (a_r a_i b_r b_i : K) (j mb : ℕ) (hj : 1 ≤ j)
    (s : UState K) (hP : s.jjup + j ≤ s.jju) (k : ℕ) (hk : k ≤ j) :
    (((List.range k).map (fun ma => mb * j + ma)).foldl
        (ui_rec_body rt a_r a_i b_r b_i j) s).jju
      = (if k = j then s.jju + k + 1 else s.jju + k) ∧
    (((List.range k).map (fun ma => mb * j + ma)).foldl
        (ui_rec_body rt a_r a_i b_r b_i j) s).jjup = s.jjup + k ∧
    (∀ i, i < k →
      (((List.range k).map (fun ma => mb * j + ma)).foldl
        (ui_rec_body rt a_r a_i b_r b_i j) s).ulist (s.jju + i)
      = Cplx.add
          (if i = 0 then s.ulist s.jju
            else ui_termB rt ⟨b_r, b_i⟩ j mb (i - 1) (s.ulist (s.jjup + (i - 1))))
          (ui_termA rt ⟨a_r, a_i⟩ j mb i (s.ulist (s.jjup + i)))) ∧
    (0 < k →
      (((List.range k).map (fun ma => mb * j + ma)).foldl
        (ui_rec_body rt a_r a_i b_r b_i j) s).ulist (s.jju + k)
      = ui_termB rt ⟨b_r, b_i⟩ j mb (k - 1) (s.ulist (s.jjup + (k - 1)))) ∧
    (2 * (mb + 1) = j → ∀ i, i < k →
      (((List.range k).map (fun ma => mb * j + ma)).foldl
        (ui_rec_body rt a_r a_i b_r b_i j) s).ulist (s.jju + (j + 1) + i)
      = Cplx.add
          (if i = 0 then s.ulist (s.jju + (j + 1))
            else ui_termMA rt ⟨a_r, a_i⟩ mb (i - 1) (s.ulist (s.jjup + (i - 1))))
          (ui_termMB rt ⟨b_r, b_i⟩ j mb i (s.ulist (s.jjup + i)))) ∧
    (2 * (mb + 1) = j → 0 < k →
      (((List.range k).map (fun ma => mb * j + ma)).foldl
        (ui_rec_body rt a_r a_i b_r b_i j) s).ulist (s.jju + (j + 1) + k)
      = ui_termMA rt ⟨a_r, a_i⟩ mb (k - 1) (s.ulist (s.jjup + (k - 1)))) ∧
    (∀ x, (x < s.jju ∨ s.jju + k < x ∨ k = 0) →
      (¬ 2 * (mb + 1) = j ∨ x < s.jju + (j + 1) ∨ s.jju + (j + 1) + k < x ∨ k = 0) →
      (((List.range k).map (fun ma => mb * j + ma)).foldl
        (ui_rec_body rt a_r a_i b_r b_i j) s).ulist x = s.ulist x) := by
  induction k with
  | zero =>
    refine ⟨?_, rfl, ?_, ?_, ?_, ?_, ?_⟩
    · have : ¬ 0 = j := by omega
      simp [this]
    · intro i hi; omega
    · intro h; omega
    · intro _ i hi; omega
    · intro _ h; omega
    · intro x _ _; rfl
  | succ k ih =>
    obtain ⟨h1, h2, h3, h4, h5, h6, h7⟩ := ih (by omega)
    rw [List.range_succ, List.map_append, List.foldl_append, List.map_cons, List.map_nil,
      List.foldl_cons, List.foldl_nil]
    generalize ((List.range k).map (fun ma => mb * j + ma)).foldl
      (ui_rec_body rt a_r a_i b_r b_i j) s = sk at h1 h2 h3 h4 h5 h6 h7 ⊢
    obtain ⟨d1, d2⟩ := row_index_divmod j mb k (by omega)
    rw [if_neg (by omega)] at h1
    have hup : sk.ulist sk.jjup = s.ulist (s.jjup + k) := by
      rw [h2]
      exact h7 _ (Or.inl (by omega)) (Or.inr (Or.inl (by omega)))
    obtain ⟨c1, c2⟩ := ui_rec_body_cursors rt a_r a_i b_r b_i j sk (mb * j + k)
    have happ := ui_rec_body_apply rt a_r a_i b_r b_i j hj sk (mb * j + k)
    simp only [d1, d2, h1, hup] at c1 happ
    refine ⟨?_, ?_, ?_, ?_, ?_, ?_, ?_⟩
    · rw [c1]
      by_cases hkj : k + 1 = j
      · rw [if_pos (by omega), if_pos hkj]; omega
      · rw [if_neg (by omega), if_neg hkj]; omega
    · rw [c2, h2]; omega
    · intro i hi
      rw [happ]
      rw [if_neg (by omega), if_neg (by omega), if_neg (by omega)]
      by_cases hik : i = k
      · subst hik
        rw [if_pos rfl]
        by_cases hi0 : i = 0
        · subst hi0
          rw [h7 _ (Or.inr (Or.inr rfl)) (Or.inr (Or.inr (Or.inr rfl)))]
          simp
        · rw [h4 (by omega), if_neg hi0]
      · rw [if_neg (by omega)]
        exact h3 i (by omega)
    · intro _
      rw [happ]
      rw [if_neg (by omega), if_neg (by omega), if_pos (by omega)]
      simp
    · intro hflag i hi
      rw [happ]
      rw [if_neg (by omega)]
      by_cases hik : i = k
      · subst hik
        rw [if_pos ⟨hflag, by omega⟩]
        by_cases hi0 : i = 0
        · subst hi0
          rw [h7 _ (Or.inr (Or.inr rfl)) (Or.inr (Or.inr (Or.inr rfl)))]
          simp
        · rw [h6 hflag (by omega), if_neg hi0]
      · rw [if_neg (by omega), if_neg (by omega), if_neg (by omega)]
        exact h5 hflag i (by omega)
    · intro hflag _
      rw [happ]
      rw [if_pos ⟨hflag, by omega⟩]
      simp
    · intro x hx1 hx2
      rw [happ]
      have n1 : ¬ (2 * (mb + 1) = j ∧ x = s.jju + k + (j + 1) + 1) := by omega
      have n2 : ¬ (2 * (mb + 1) = j ∧ x = s.jju + k + (j + 1)) := by omega
      rw [if_neg n1, if_neg n2, if_neg (by omega), if_neg (by omega)]
      exact h7 x (by omega) (by omega)

end URec

theorem foldl_range_rows {σ : Type} (f : σ → ℕ → σ) (n m : ℕ) (s : σ) :
    (List.range (n * m)).foldl f s
      = (List.range m).foldl
          (fun s x => ((List.range n).map (fun y => x * n + y)).foldl f s) s := by
  induction m with
  | zero => simp
  | succ m ih =>
    have e : n * (m + 1) = n * m + n := by ring
    rw [e, List.range_add, List.foldl_append, ih, List.range_succ, List.foldl_append,
      List.foldl_cons, List.foldl_nil]
    congr 1
    refine List.map_congr_left ?_
    intro y _
    ring

section ULevel
variable {K : Type} [Field K]

/-- State after the first `m` rows of the recursion loop of level `j`, started with
cursors `jju = J0`, `jjup = P0`. -/
theorem ui_rows_pass (rt : ℕ → ℕ → K) (a_r a_i b_r b_i : K) (j : ℕ) (hj : 1 ≤ j)
    (s : UState K) (hP : s.jjup + (j + 1) / 2 * j ≤ s.jju) (m : ℕ)
    (hm : m ≤ (j + 1) / 2) :
    ((List.range m).foldl (fun s x => ((List.range j).map (fun y => x * j + y)).foldl
        (ui_rec_body rt a_r a_i b_r b_i j) s) s).jju = s.jju + m * (j + 1) ∧
    ((List.range m).foldl (fun s x => ((List.range j).map (fun y => x * j + y)).foldl
        (ui_rec_body rt a_r a_i b_r b_i j) s) s).jjup = s.jjup + m * j ∧
    (∀ r i, r < m → i ≤ j →
      ((List.range m).foldl (fun s x => ((List.range j).map (fun y => x * j + y)).foldl
        (ui_rec_body rt a_r a_i b_r b_i j) s) s).ulist (s.jju + r * (j + 1) + i)
      = if i < j then
          Cplx.add
            (if i = 0 then s.ulist (s.jju + r * (j + 1))
              else ui_termB rt ⟨b_r, b_i⟩ j r (i - 1) (s.ulist (s.jjup + r * j + (i - 1))))
            (ui_termA rt ⟨a_r, a_i⟩ j r i (s.ulist (s.jjup + r * j + i)))
        else ui_termB rt ⟨b_r, b_i⟩ j r (j - 1) (s.ulist (s.jjup + r * j + (j - 1)))) ∧
    (∀ r i, r < m → 2 * (r + 1) = j → i ≤ j →
      ((List.range m).foldl (fun s x => ((List.range j).map (fun y => x * j + y)).foldl
        (ui_rec_body rt a_r a_i b_r b_i j) s) s).ulist (s.jju + (r + 1) * (j + 1) + i)
      = if i < j then
          Cplx.add
            (if i = 0 then s.ulist (s.jju + (r + 1) * (j + 1))
              else ui_termMA rt ⟨a_r, a_i⟩ r (i - 1) (s.ulist (s.jjup + r * j + (i - 1))))
            (ui_termMB rt ⟨b_r, b_i⟩ j r i (s.ulist (s.jjup + r * j + i)))
        else ui_termMA rt ⟨a_r, a_i⟩ r (j - 1) (s.ulist (s.jjup + r * j + (j - 1)))) ∧
    (∀ x, (x < s.jju ∨ (s.jju + m * (j + 1) ≤ x ∧
        (2 * m ≠ j ∨ m = 0 ∨ s.jju + (m + 1) * (j + 1) ≤ x))) →
      ((List.range m).foldl (fun s x => ((List.range j).map (fun y => x * j + y)).foldl
        (ui_rec_body rt a_r a_i b_r b_i j) s) s).ulist x = s.ulist x) := by
  induction m with
  | zero =>
    refine ⟨by simp, by simp, ?_, ?_, ?_⟩
    · intro r i hr; omega
    · intro r i hr; omega
    · intro x _; rfl
  | succ m ih =>
    obtain ⟨h1, h2, h3, h4, h5⟩ := ih (by omega)
    rw [List.range_succ, List.foldl_append, List.foldl_cons, List.foldl_nil]
    generalize (List.range m).foldl (fun s x => ((List.range j).map (fun y => x * j + y)).foldl
        (ui_rec_body rt a_r a_i b_r b_i j) s) s = sm at h1 h2 h3 h4 h5 ⊢
    have e1 : (m + 1) * (j + 1) = m * (j + 1) + (j + 1) := by ring
    have e2 : (m + 1 + 1) * (j + 1) = m * (j + 1) + (j + 1) + (j + 1) := by ring
    have e3 : (m + 1) * j = m * j + j := by ring
    have hrows : (m + 1) * j ≤ (j + 1) / 2 * j := Nat.mul_le_mul_right _ hm
    have hPm : sm.jjup + j ≤ sm.jju := by rw [h1, h2]; omega
    obtain ⟨r1, r2, r3, r4, r5, r6, r7⟩ :=
      ui_row_pass rt a_r a_i b_r b_i j m hj sm hPm j (le_refl j)
    rw [if_pos rfl] at r1
    have hbase : sm.ulist (s.jju + m * (j + 1)) = s.ulist (s.jju + m * (j + 1)) :=
      h5 (s.jju + m * (j + 1)) (Or.inr ⟨by omega, Or.inl (by omega)⟩)
    have hmid : sm.ulist (s.jju + (m + 1) * (j + 1)) = s.ulist (s.jju + (m + 1) * (j + 1)) :=
      h5 (s.jju + (m + 1) * (j + 1)) (Or.inr ⟨by omega, Or.inl (by omega)⟩)
    have hups : ∀ i, i < j → sm.ulist (sm.jjup + i) = s.ulist (s.jjup + m * j + i) := by
      intro i hi
      rw [h2]; exact h5 (s.jjup + m * j + i) (Or.inl (by omega))
    refine ⟨?_, ?_, ?_, ?_, ?_⟩
    · rw [r1, h1, e1]; omega
    · rw [r2, h2, e3]; omega
    · intro r i hr hi
      by_cases hrm : r = m
      · rw [hrm]
        by_cases hij : i < j
        · rw [if_pos hij]
          have := r3 i hij
          rw [h1] at this
          rw [this]
          by_cases hi0 : i = 0
          · rw [if_pos hi0, if_pos hi0, hups i hij, hbase]
          · rw [if_neg hi0, if_neg hi0, hups i hij, hups (i - 1) (by omega)]
        · rw [if_neg hij]
          have hij' : i = j := by omega
          rw [hij']
          have := r4 (by omega)
          rw [h1] at this
          rw [this, hups (j - 1) (by omega)]
      · have hlt : r * (j + 1) + i < m * (j + 1) := by
          have : (r + 1) * (j + 1) ≤ m * (j + 1) := Nat.mul_le_mul_right _ (by omega)
          have e : (r + 1) * (j + 1) = r * (j + 1) + (j + 1) := by ring
          omega
        rw [r7 (s.jju + r * (j + 1) + i) (Or.inl (by rw [h1]; omega))
          (Or.inr (Or.inl (by rw [h1]; omega)))]
        exact h3 r i (by omega) hi
    · intro r i hr hflag hi
      have hrm : r = m := by omega
      rw [hrm] at hflag ⊢
      by_cases hij : i < j
      · rw [if_pos hij]
        have := r5 hflag i hij
        rw [h1, Nat.add_assoc s.jju, ← e1] at this
        rw [this]
        by_cases hi0 : i = 0
        · rw [if_pos hi0, if_pos hi0, hups i hij, hmid]
        · rw [if_neg hi0, if_neg hi0, hups i hij, hups (i - 1) (by omega)]
      · rw [if_neg hij]
        have hij' : i = j := by omega
        rw [hij']
        have := r6 hflag (by omega)
        rw [h1, Nat.add_assoc s.jju, ← e1] at this
        rw [this, hups (j - 1) (by omega)]
    · intro x hx
      rw [e1, e2] at hx
      have g1 : x < sm.jju ∨ sm.jju + j < x ∨ j = 0 := by rw [h1]; omega
      have g2 : ¬ 2 * (m + 1) = j ∨ x < sm.jju + (j + 1) ∨ sm.jju + (j + 1) + j < x ∨ j = 0 := by
        rw [h1]; omega
      rw [r7 x g1 g2]
      exact h5 x (by omega)

end ULevel

section ULevelSpec
variable {K : Type} [Field K]

theorem uoff_cell_lt (j mb ma : ℕ) (hmb : mb ≤ j) (hma : ma ≤ j) :
    uoff j + mb * (j + 1) + ma < uoff (j + 1) := by
  rw [uoff_succ]
  have : (mb + 1) * (j + 1) ≤ (j + 1) * (j + 1) := Nat.mul_le_mul_right _ (by omega)
  have e : (mb + 1) * (j + 1) = mb * (j + 1) + (j + 1) := by ring
  omega

theorem half_sum_mul (j : ℕ) : (j + 1) / 2 * j + j * (j / 2) = j * j := by
  have : (j + 1) / 2 + j / 2 = j := by omega
  calc (j + 1) / 2 * j + j * (j / 2) = ((j + 1) / 2 + j / 2) * j := by ring
    _ = j * j := by rw [this]

theorem level_skip (j : ℕ) :
    (if j % 2 = 0 then (j + 1) / 2 * (j + 1) + (j + 1) else (j + 1) / 2 * (j + 1))
      + (j + 1) * ((j + 1) / 2) = (j + 1) * (j + 1) := by
  have hs := half_rows_split j
  by_cases h : j % 2 = 0
  · rw [if_pos h]
    have e : (j + 1) / 2 = j / 2 := by omega
    have e2 : (j / 2 + 1) * (j + 1) = j / 2 * (j + 1) + (j + 1) := by ring
    rw [e] at hs ⊢
    rw [Nat.mul_comm (j + 1) (j / 2)]
    omega
  · rw [if_neg h]
    have e : (j + 1) / 2 = j / 2 + 1 := by omega
    rw [e] at hs ⊢
    rw [Nat.mul_comm (j + 1) (j / 2 + 1)]
    omega

/-- Effect of one level of the `j` loop, started with `jju = idxu_block[j]` and
`jjup + j*j = jju`. -/
theorem ui_level_spec (idxu_block : ℕ → ℕ) (ulist_parity : ℕ → ℤ) (rt : ℕ → ℕ → K)
    (a_r a_i b_r b_i : K) (j : ℕ) (hj : 1 ≤ j) (s : UState K)
    (hblk : idxu_block j = s.jju) (hP : s.jjup + j * j = s.jju) :
    (ui_level idxu_block ulist_parity rt a_r a_i b_r b_i s j).jju
      = s.jju + (j + 1) * (j + 1) ∧
    (ui_level idxu_block ulist_parity rt a_r a_i b_r b_i s j).jjup = s.jju ∧
    (∀ mb ma, 2 * mb < j → ma ≤ j →
      (ui_level idxu_block ulist_parity rt a_r a_i b_r b_i s j).ulist
          (s.jju + mb * (j + 1) + ma)
      = if ma < j then
          Cplx.add
            (if ma = 0 then s.ulist (s.jju + mb * (j + 1))
              else ui_termB rt ⟨b_r, b_i⟩ j mb (ma - 1) (s.ulist (s.jjup + mb * j + (ma - 1))))
            (ui_termA rt ⟨a_r, a_i⟩ j mb ma (s.ulist (s.jjup + mb * j + ma)))
        else ui_termB rt ⟨b_r, b_i⟩ j mb (j - 1) (s.ulist (s.jjup + mb * j + (j - 1)))) ∧
    (∀ r ma, 2 * (r + 1) = j → ma ≤ j →
      (ui_level idxu_block ulist_parity rt a_r a_i b_r b_i s j).ulist
          (s.jju + (r + 1) * (j + 1) + ma)
      = if ma < j then
          Cplx.add
            (if ma = 0 then s.ulist (s.jju + (r + 1) * (j + 1))
              else ui_termMA rt ⟨a_r, a_i⟩ r (ma - 1) (s.ulist (s.jjup + r * j + (ma - 1))))
            (ui_termMB rt ⟨b_r, b_i⟩ j r ma (s.ulist (s.jjup + r * j + ma)))
        else ui_termMA rt ⟨a_r, a_i⟩ r (j - 1) (s.ulist (s.jjup + r * j + (j - 1)))) ∧
    (∀ x, (x < s.jju ∨ s.jju + (j + 1) * (j + 1) ≤ x) →
      (ui_level idxu_block ulist_parity rt a_r a_i b_r b_i s j).ulist x = s.ulist x) := by
  have hle : (j + 1) / 2 * j ≤ j * j := Nat.mul_le_mul_right _ (by omega)
  obtain ⟨h1, h2, h3, h4, h5⟩ := ui_rows_pass rt a_r a_i b_r b_i j hj s (by omega)
    ((j + 1) / 2) (le_refl _)
  obtain ⟨g1, g2⟩ := ui_symfill_spec (K := K) idxu_block ulist_parity j
    (ui_rec_level rt a_r a_i b_r b_i j s).ulist
  have hrec : ui_rec_level rt a_r a_i b_r b_i j s
      = (List.range ((j + 1) / 2)).foldl
          (fun s x => ((List.range j).map (fun y => x * j + y)).foldl
            (ui_rec_body rt a_r a_i b_r b_i j) s) s := by
    unfold ui_rec_level
    exact foldl_range_rows _ j ((j + 1) / 2) s
  rw [← hrec] at h1 h2 h3 h4 h5
  have hsplit := half_rows_split j
  have hskip := level_skip j
  have hhalf := half_sum_mul j
  unfold ui_level
  simp only
  refine ⟨?_, ?_, ?_, ?_, ?_⟩
  · rw [h1]
    by_cases h : j % 2 = 0
    · rw [if_pos h] at hskip ⊢; omega
    · rw [if_neg h] at hskip ⊢; omega
  · rw [h2]; omega
  · intro mb ma hmb hma
    have hlt := zpos_lt j mb ma (by omega) hma
    rw [g2 _ (Or.inl (by rw [hblk]; omega))]
    exact h3 mb ma (by omega) hma
  · intro r ma hflag hma
    have hr : r + 1 = j / 2 := by omega
    have hlt := zpos_lt j (r + 1) ma (by omega) hma
    rw [g2 _ (Or.inl (by rw [hblk]; omega))]
    exact h4 r ma (by omega) hflag hma
  · intro x hx
    rw [g2 x (by rw [hblk]; omega)]
    refine h5 x ?_
    rcases hx with hx | hx
    · exact Or.inl hx
    · refine Or.inr ⟨by omega, Or.inr (Or.inr ?_)⟩
      have : ((j + 1) / 2 + 1) * (j + 1) ≤ (j + 1) * (j + 1) :=
        Nat.mul_le_mul_right _ (by omega)
      omega

end ULevelSpec

theorem rootpq_inner {K : Type} (n p : ℕ) (f : ℕ → ℕ → K) (t : ℕ → ℕ → K) :
    ∀ x y, (List.range' 1 n).foldl (fun t q => set2 t p q (f p q)) t x y
      = if x = p ∧ 1 ≤ y ∧ y ≤ n then f p y else t x y := by
  induction n with
  | zero =>
    intro x y
    have : ¬ (x = p ∧ 1 ≤ y ∧ y ≤ 0) := by omega
    rw [if_neg this]
    rfl
  | succ n ih =>
    intro x y
    rw [List.range'_concat, List.foldl_append, List.foldl_cons, List.foldl_nil]
    simp only [set2, ih]
    by_cases h : x = p ∧ y = 1 + 1 * n
    · rw [if_pos h, if_pos ⟨h.1, by omega, by omega⟩, h.2]
    · rw [if_neg h]
      by_cases h' : x = p ∧ 1 ≤ y ∧ y ≤ n
      · rw [if_pos h', if_pos ⟨h'.1, h'.2.1, by omega⟩]
      · rw [if_neg h', if_neg (by omega)]

theorem rootpq_outer {K : Type} (n m : ℕ) (f : ℕ → ℕ → K) (t : ℕ → ℕ → K) :
    ∀ x y, (List.range' 1 m).foldl
        (fun t p => (List.range' 1 n).foldl (fun t q => set2 t p q (f p q)) t) t x y
      = if 1 ≤ x ∧ x ≤ m ∧ 1 ≤ y ∧ y ≤ n then f x y else t x y := by
  induction m with
  | zero =>
    intro x y
    have : ¬ (1 ≤ x ∧ x ≤ 0 ∧ 1 ≤ y ∧ y ≤ n) := by omega
    rw [if_neg this]
    rfl
  | succ m ih =>
    intro x y
    rw [List.range'_concat, List.foldl_append, List.foldl_cons, List.foldl_nil, rootpq_inner,
      ih]
    by_cases h : x = 1 + 1 * m ∧ 1 ≤ y ∧ y ≤ n
    · rw [if_pos h, if_pos ⟨by omega, by omega, h.2.1, h.2.2⟩, h.1]
    · rw [if_neg h]
      by_cases h' : 1 ≤ x ∧ x ≤ m ∧ 1 ≤ y ∧ y ≤ n
      · rw [if_pos h', if_pos ⟨h'.1, by omega, h'.2.2.1, h'.2.2.2⟩]
      · rw [if_neg h', if_neg (by omega)]

section UZeroPhase
variable {K : Type} [Field K]

theorem ui_zero_rows (d m : ℕ) (hd : 0 < d) (s : UZero K) :
    ((List.range m).foldl
        (fun s _ => ({ ulist := Function.update s.ulist s.jju { re := 0, im := 0 }
                       jju := s.jju + d } : UZero K)) s).jju = s.jju + m * d ∧
    (∀ r, r < m →
      ((List.range m).foldl
        (fun s _ => ({ ulist := Function.update s.ulist s.jju { re := 0, im := 0 }
                       jju := s.jju + d } : UZero K)) s).ulist (s.jju + r * d)
        = { re := 0, im := 0 }) ∧
    (∀ x, x < s.jju →
      ((List.range m).foldl
        (fun s _ => ({ ulist := Function.update s.ulist s.jju { re := 0, im := 0 }
                       jju := s.jju + d } : UZero K)) s).ulist x = s.ulist x) := by
  induction m with
  | zero =>
    refine ⟨by simp, ?_, ?_⟩
    · intro r hr; omega
    · intro x _; rfl
  | succ m ih =>
    obtain ⟨h1, h2, h3⟩ := ih
    rw [List.range_succ, List.foldl_append, List.foldl_cons, List.foldl_nil]
    generalize (List.range m).foldl
        (fun s _ => ({ ulist := Function.update s.ulist s.jju { re := 0, im := 0 }
                       jju := s.jju + d } : UZero K)) s = sm at h1 h2 h3 ⊢
    have e : (m + 1) * d = m * d + d := by ring
    refine ⟨?_, ?_, ?_⟩
    · simp only [h1, e]; omega
    · intro r hr
      simp only [h1, Function.update_apply]
      by_cases hrm : r = m
      · rw [hrm, if_pos rfl]
      · have : r * d + d ≤ m * d := by
          have : (r + 1) * d ≤ m * d := Nat.mul_le_mul_right _ (by omega)
          have e' : (r + 1) * d = r * d + d := by ring
          omega
        rw [if_neg (by omega)]
        exact h2 r (by omega)
    · intro x hx
      simp only [h1, Function.update_apply]
      rw [if_neg (by omega)]
      exact h3 x hx

theorem ui_zero_level_spec (s : UZero K) (j : ℕ) :
    (ui_zero_level s j).jju = s.jju + (j + 1) * (j + 1) ∧
    (∀ mb, 2 * mb ≤ j → (ui_zero_level s j).ulist (s.jju + mb * (j + 1)) = { re := 0, im := 0 }) ∧
    (∀ x, x < s.jju → (ui_zero_level s j).ulist x = s.ulist x) := by
  obtain ⟨h1, h2, h3⟩ := ui_zero_rows (K := K) (j + 1) (j / 2 + 1) (by omega) s
  have hs := half_rows_split j
  unfold ui_zero_level
  simp only [mbloop]
  refine ⟨?_, ?_, h3⟩
  · rw [h1, Nat.mul_comm (j + 1) ((j + 1) / 2)]; omega
  · intro mb hmb
    exact h2 mb (by omega)

theorem ui_zero_phase (n : ℕ) (u0 : ℕ → Cplx K) :
    ((List.range' 1 n).foldl ui_zero_level ({ ulist := u0, jju := 1 } : UZero K)).jju
      = uoff (n + 1) ∧
    (∀ j mb, 1 ≤ j → j ≤ n → 2 * mb ≤ j →
      ((List.range' 1 n).foldl ui_zero_level ({ ulist := u0, jju := 1 } : UZero K)).ulist
        (uoff j + mb * (j + 1)) = { re := 0, im := 0 }) ∧
    ((List.range' 1 n).foldl ui_zero_level ({ ulist := u0, jju := 1 } : UZero K)).ulist 0
      = u0 0 := by
  induction n with
  | zero =>
    refine ⟨by simp [uoff], ?_, rfl⟩
    intro j mb h1 h2; omega
  | succ n ih =>
    obtain ⟨h1, h2, h3⟩ := ih
    rw [List.range'_concat, List.foldl_append, List.foldl_cons, List.foldl_nil]
    generalize (List.range' 1 n).foldl ui_zero_level ({ ulist := u0, jju := 1 } : UZero K) = sn
      at h1 h2 h3 ⊢
    obtain ⟨a1, a2, a3⟩ := ui_zero_level_spec sn (1 + 1 * n)
    have e : 1 + 1 * n = n + 1 := by omega
    rw [e] at a1 a2 a3 ⊢
    have hpos : 0 < uoff (n + 1) := by
      have := uoff_mono (show 1 ≤ n + 1 by omega)
      have e1 : uoff 1 = 1 := by simp [uoff]
      omega
    refine ⟨?_, ?_, ?_⟩
    · rw [a1, h1, uoff_succ (n + 1)]
    · intro j mb hj1 hj hmb
      by_cases hjn : j = n + 1
      · rw [hjn] at hmb ⊢
        have := a2 mb hmb
        rw [h1] at this
        exact this
      · have hlt := uoff_cell_lt j mb 0 (by omega) (by omega)
        have hm := uoff_mono (show j + 1 ≤ n + 1 by omega)
        rw [a3 _ (by rw [h1]; omega)]
        exact h2 j mb hj1 (by omega) hmb
    · rw [a3 0 (by rw [h1]; exact hpos)]
      exact h3

theorem rootpq_init_at (twojmax : ℕ) (sqrtK : K → K) (mem : ℕ → ℕ → K) (p q : ℕ)
    (hp1 : 1 ≤ p) (hp : p ≤ twojmax) (hq1 : 1 ≤ q) (hq : q ≤ twojmax) :
    rootpq_init twojmax sqrtK mem p q = sqrtK ((p : K) / (q : K)) := by
  unfold rootpq_init
  rw [rootpq_outer twojmax twojmax (fun p q => sqrtK ((p : K) / (q : K))) mem p q,
    if_pos ⟨hp1, hp, hq1, hq⟩]

end UZeroPhase

section ULevels
variable {K : Type} [Field K]

theorem prev_cell_lt (j mb i : ℕ) (hj : 1 ≤ j) (hmb : mb < j) (hi : i < j) :
    uoff (j - 1) + mb * j + i < uoff j := by
  have e : uoff j = uoff (j - 1) + j * j := by
    have := uoff_succ (j - 1)
    have e1 : j - 1 + 1 = j := by omega
    rw [e1] at this
    exact this
  have h1 : (mb + 1) * j ≤ j * j := Nat.mul_le_mul_right _ (by omega)
  have h2 : (mb + 1) * j = mb * j + j := by ring
  omega

theorem ui_left_rhs_congr (rt : ℕ → ℕ → K) (a b : Cplx K) (U U' : ℕ → Cplx K)
    (j mb ma : ℕ) (hj : 1 ≤ j) (hmb : mb < j) (h : ∀ x, x < uoff j → U x = U' x) :
    ui_left_rhs rt a b U j mb ma = ui_left_rhs rt a b U' j mb ma := by
  unfold ui_left_rhs
  by_cases h1 : ma < j
  · rw [if_pos h1, if_pos h1, h _ (prev_cell_lt j mb ma hj hmb h1)]
    by_cases h0 : ma = 0
    · rw [if_pos h0, if_pos h0]
    · rw [if_neg h0, if_neg h0, h _ (prev_cell_lt j mb (ma - 1) hj hmb (by omega))]
  · rw [if_neg h1, if_neg h1, h _ (prev_cell_lt j mb (j - 1) hj hmb (by omega))]

theorem ui_mid_rhs_congr (rt : ℕ → ℕ → K) (a b : Cplx K) (U U' : ℕ → Cplx K)
    (j r ma : ℕ) (hj : 1 ≤ j) (hr : r < j) (h : ∀ x, x < uoff j → U x = U' x) :
    ui_mid_rhs rt a b U j r ma = ui_mid_rhs rt a b U' j r ma := by
  unfold ui_mid_rhs
  by_cases h1 : ma < j
  · rw [if_pos h1, if_pos h1, h _ (prev_cell_lt j r ma hj hr h1)]
    by_cases h0 : ma = 0
    · rw [if_pos h0, if_pos h0]
    · rw [if_neg h0, if_neg h0, h _ (prev_cell_lt j r (ma - 1) hj hr (by omega))]
  · rw [if_neg h1, if_neg h1, h _ (prev_cell_lt j r (j - 1) hj hr (by omega))]

/-- State after the levels `1 .. n` of the `j` loop, started on an array `Z` whose
first-column cells of the rows `2*mb ≤ j` are zero. -/
theorem ui_levels (twojmax : ℕ) (idxu_block : ℕ → ℕ) (ulist_parity : ℕ → ℤ)
    (rt : ℕ → ℕ → K) (a_r a_i b_r b_i : K) (Z : ℕ → Cplx K)
    (hblk : ∀ j, j ≤ twojmax → idxu_block j = uoff j)
    (hz : ∀ j mb, 1 ≤ j → j ≤ twojmax → 2 * mb ≤ j →
      Z (uoff j + mb * (j + 1)) = { re := 0, im := 0 })
    (n : ℕ) (hn : n ≤ twojmax) :
    ((List.range' 1 n).foldl (ui_level idxu_block ulist_parity rt a_r a_i b_r b_i)
        ({ ulist := Z, jju := 1, jjup := 0 } : UState K)).jju = uoff (n + 1) ∧
    ((List.range' 1 n).foldl (ui_level idxu_block ulist_parity rt a_r a_i b_r b_i)
        ({ ulist := Z, jju := 1, jjup := 0 } : UState K)).jjup = uoff n ∧
    (∀ x, (x < 1 ∨ uoff (n + 1) ≤ x) →
      ((List.range' 1 n).foldl (ui_level idxu_block ulist_parity rt a_r a_i b_r b_i)
        ({ ulist := Z, jju := 1, jjup := 0 } : UState K)).ulist x = Z x) ∧
    (∀ j mb ma, 1 ≤ j → j ≤ n → 2 * mb < j → ma ≤ j →
      ((List.range' 1 n).foldl (ui_level idxu_block ulist_parity rt a_r a_i b_r b_i)
        ({ ulist := Z, jju := 1, jjup := 0 } : UState K)).ulist (uoff j + mb * (j + 1) + ma)
      = ui_left_rhs rt ⟨a_r, a_i⟩ ⟨b_r, b_i⟩
          ((List.range' 1 n).foldl (ui_level idxu_block ulist_parity rt a_r a_i b_r b_i)
            ({ ulist := Z, jju := 1, jjup := 0 } : UState K)).ulist j mb ma) ∧
    (∀ j r ma, 1 ≤ j → j ≤ n → 2 * (r + 1) = j → ma ≤ j →
      ((List.range' 1 n).foldl (ui_level idxu_block ulist_parity rt a_r a_i b_r b_i)
        ({ ulist := Z, jju := 1, jjup := 0 } : UState K)).ulist
          (uoff j + (r + 1) * (j + 1) + ma)
      = ui_mid_rhs rt ⟨a_r, a_i⟩ ⟨b_r, b_i⟩
          ((List.range' 1 n).foldl (ui_level idxu_block ulist_parity rt a_r a_i b_r b_i)
            ({ ulist := Z, jju := 1, jjup := 0 } : UState K)).ulist j r ma) := by
  induction n with
  | zero =>
    refine ⟨by simp [uoff], by simp [uoff], fun _ _ => rfl, ?_, ?_⟩
    · intro j mb ma h1 h2; omega
    · intro j r ma h1 h2; omega
  | succ n ih =>
    obtain ⟨h1, h2, h3, h4, h5⟩ := ih (by omega)
    rw [List.range'_concat, List.foldl_append, List.foldl_cons, List.foldl_nil]
    generalize (List.range' 1 n).foldl (ui_level idxu_block ulist_parity rt a_r a_i b_r b_i)
        ({ ulist := Z, jju := 1, jjup := 0 } : UState K) = sn at h1 h2 h3 h4 h5 ⊢
    have e : 1 + 1 * n = n + 1 := by omega
    rw [e]
    have hsucc := uoff_succ n
    obtain ⟨a1, a2, a3, a4, a5⟩ := ui_level_spec idxu_block ulist_parity rt a_r a_i b_r b_i
      (n + 1) (by omega) sn (by rw [h1]; exact hblk (n + 1) hn) (by rw [h1, h2, hsucc])
    rw [h1] at a1 a2 a3 a4 a5
    rw [h2] at a3 a4
    have hfr : ∀ x, x < uoff (n + 1) →
        (ui_level idxu_block ulist_parity rt a_r a_i b_r b_i sn (n + 1)).ulist x
          = sn.ulist x := fun x hx => a5 x (Or.inl hx)
    have hpos : 1 ≤ uoff (n + 1) := by
      have := uoff_mono (show 1 ≤ n + 1 by omega)
      have e1 : uoff 1 = 1 := by simp [uoff]
      omega
    refine ⟨?_, ?_, ?_, ?_, ?_⟩
    · rw [a1, uoff_succ (n + 1)]
    · exact a2
    · intro x hx
      rw [uoff_succ (n + 1)] at hx
      rw [a5 x (by omega)]
      exact h3 x (by omega)
    · intro j mb ma hj1 hj hmb hma
      by_cases hjn : j = n + 1
      · rw [hjn] at hmb hma ⊢
        rw [a3 mb ma hmb hma]
        unfold ui_left_rhs
        have e1 : n + 1 - 1 = n := by omega
        rw [e1]
        have hbase : sn.ulist (uoff (n + 1) + mb * (n + 1 + 1)) = { re := 0, im := 0 } := by
          have hc := uoff_cell_lt (n + 1) mb 0 (by omega) (by omega)
          rw [h3 _ (Or.inr (by omega))]
          exact hz (n + 1) mb (by omega) hn (by omega)
        have hup : ∀ i, i < n + 1 →
            (ui_level idxu_block ulist_parity rt a_r a_i b_r b_i sn (n + 1)).ulist
              (uoff n + mb * (n + 1) + i) = sn.ulist (uoff n + mb * (n + 1) + i) := by
          intro i hi
          have := prev_cell_lt (n + 1) mb i (by omega) (by omega) hi
          rw [e1] at this
          exact hfr _ this
        by_cases hm : ma < n + 1
        · rw [if_pos hm, if_pos hm, hup ma hm]
          by_cases h0 : ma = 0
          · rw [if_pos h0, if_pos h0, hbase]
          · rw [if_neg h0, if_neg h0, hup (ma - 1) (by omega)]
        · rw [if_neg hm, if_neg hm, hup n (by omega)]
      · have hc := uoff_cell_lt j mb ma (by omega) hma
        have hm := uoff_mono (show j + 1 ≤ n + 1 by omega)
        rw [hfr _ (by omega), h4 j mb ma hj1 (by omega) hmb hma]
        refine ui_left_rhs_congr rt _ _ _ _ j mb ma hj1 (by omega) ?_
        intro x hx
        have := uoff_mono (show j ≤ n + 1 by omega)
        exact (hfr x (by omega)).symm
    · intro j r ma hj1 hj hflag hma
      by_cases hjn : j = n + 1
      · rw [hjn] at hflag hma ⊢
        rw [a4 r ma hflag hma]
        unfold ui_mid_rhs
        have e1 : n + 1 - 1 = n := by omega
        rw [e1]
        have hbase : sn.ulist (uoff (n + 1) + (r + 1) * (n + 1 + 1)) = { re := 0, im := 0 } := by
          have hc := uoff_cell_lt (n + 1) (r + 1) 0 (by omega) (by omega)
          rw [h3 _ (Or.inr (by omega))]
          exact hz (n + 1) (r + 1) (by omega) hn (by omega)
        have hup : ∀ i, i < n + 1 →
            (ui_level idxu_block ulist_parity rt a_r a_i b_r b_i sn (n + 1)).ulist
              (uoff n + r * (n + 1) + i) = sn.ulist (uoff n + r * (n + 1) + i) := by
          intro i hi
          have := prev_cell_lt (n + 1) r i (by omega) (by omega) hi
          rw [e1] at this
          exact hfr _ this
        by_cases hm : ma < n + 1
        · rw [if_pos hm, if_pos hm, hup ma hm]
          by_cases h0 : ma = 0
          · rw [if_pos h0, if_pos h0, hbase]
          · rw [if_neg h0, if_neg h0, hup (ma - 1) (by omega)]
        · rw [if_neg hm, if_neg hm, hup n (by omega)]
      · have hc := uoff_cell_lt j (r + 1) ma (by omega) hma
        have hm := uoff_mono (show j + 1 ≤ n + 1 by omega)
        rw [hfr _ (by omega), h5 j r ma hj1 (by omega) hflag hma]
        refine ui_mid_rhs_congr rt _ _ _ _ j r ma hj1 (by omega) ?_
        intro x hx
        have := uoff_mono (show j ≤ n + 1 by omega)
        exact (hfr x (by omega)).symm

end ULevels

section C7
variable {K : Type} [Field K]

theorem uprev_col (U : ℕ → Cplx K) (idxu_block : ℕ → ℕ) (j mb ma : ℕ) :
    uprev U idxu_block j mb (ma : ℤ)
      = if ma < j then U (idxu_block (j - 1) + mb * j + ma) else { re := 0, im := 0 } := by
  unfold uprev
  by_cases h : ma < j
  · rw [if_pos ⟨by omega, by omega⟩, if_pos h, Int.toNat_natCast]
  · rw [if_neg (by omega), if_neg h]

theorem uprev_col_pred (U : ℕ → Cplx K) (idxu_block : ℕ → ℕ) (j mb ma : ℕ) (hma : ma ≤ j) :
    uprev U idxu_block j mb ((ma : ℤ) - 1)
      = if 0 < ma then U (idxu_block (j - 1) + mb * j + (ma - 1))
        else { re := 0, im := 0 } := by
  unfold uprev
  by_cases h : 0 < ma
  · have e : ((ma : ℤ) - 1).toNat = ma - 1 := by omega
    rw [if_pos ⟨by omega, by omega⟩, if_pos h, e]
  · rw [if_neg (by omega), if_neg h]

/-- C7. The `ulist` array built by the cursor loops, with `rootpqarray[p, q] =
sqrt(p / q)`: the entry of level 0 is `1 + 0i`; for every level `1 ≤ j ≤ twojmax`, row
`2*mb < j` and column `ma ≤ j`,
`u_j[mb][ma] = sqrt((j-ma)/(j-mb)) * conj(a) * u_{j-1}[mb][ma]
  - sqrt(ma/(j-mb)) * conj(b) * u_{j-1}[mb][ma-1]`;
for even `j` the middle row `mb = j/2` satisfies
`u_j[mb][ma] = sqrt((j-ma)/mb) * b * u_{j-1}[mb-1][ma] + sqrt(ma/mb) * a * u_{j-1}[mb-1][ma-1]`;
entries of level `j-1` with column index `-1` or `j` are taken as 0, and `u_j[mb][ma]`
is the cell at logical index `idxu_block[j] + mb*(j+1) + ma`. -/
theorem ulist_recursion (twojmax : ℕ) (umem : ℕ → ℕ) (pmem : ℕ → ℤ) (rmem : ℕ → ℕ → K)
    (sqrtK : K → K) (a_r a_i b_r b_i : K) (ulist0 : ℕ → Cplx K) :
    ulist_main twojmax umem pmem rmem sqrtK a_r a_i b_r b_i ulist0
        ((idxu_fill twojmax umem).idxu_block 0) = { re := 1, im := 0 } ∧
    (∀ j mb ma, 1 ≤ j → j ≤ twojmax → 2 * mb < j → ma ≤ j →
      ulist_main twojmax umem pmem rmem sqrtK a_r a_i b_r b_i ulist0
          ((idxu_fill twojmax umem).idxu_block j + mb * (j + 1) + ma)
      = Cplx.sub
          (Cplx.smul (sqrtK (((j - ma : ℕ) : K) / ((j - mb : ℕ) : K)))
            (Cplx.mul (Cplx.conj ⟨a_r, a_i⟩)
              (uprev (ulist_main twojmax umem pmem rmem sqrtK a_r a_i b_r b_i ulist0)
                (idxu_fill twojmax umem).idxu_block j mb (ma : ℤ))))
          (Cplx.smul (sqrtK ((ma : K) / ((j - mb : ℕ) : K)))
            (Cplx.mul (Cplx.conj ⟨b_r, b_i⟩)
              (uprev (ulist_main twojmax umem pmem rmem sqrtK a_r a_i b_r b_i ulist0)
                (idxu_fill twojmax umem).idxu_block j mb ((ma : ℤ) - 1))))) ∧
    (∀ j ma, 1 ≤ j → j ≤ twojmax → j % 2 = 0 → ma ≤ j →
      ulist_main twojmax umem pmem rmem sqrtK a_r a_i b_r b_i ulist0
          ((idxu_fill twojmax umem).idxu_block j + j / 2 * (j + 1) + ma)
      = Cplx.add
          (Cplx.smul (sqrtK (((j - ma : ℕ) : K) / ((j / 2 : ℕ) : K)))
            (Cplx.mul ⟨b_r, b_i⟩
              (uprev (ulist_main twojmax umem pmem rmem sqrtK a_r a_i b_r b_i ulist0)
                (idxu_fill twojmax umem).idxu_block j (j / 2 - 1) (ma : ℤ))))
          (Cplx.smul (sqrtK ((ma : K) / ((j / 2 : ℕ) : K)))
            (Cplx.mul ⟨a_r, a_i⟩
              (uprev (ulist_main twojmax umem pmem rmem sqrtK a_r a_i b_r b_i ulist0)
                (idxu_fill twojmax umem).idxu_block j (j / 2 - 1) ((ma : ℤ) - 1))))) := by
  have hblk : ∀ j, j ≤ twojmax → (idxu_fill twojmax umem).idxu_block j = uoff j :=
    fun j hj => idxu_fill_block twojmax umem j hj
  obtain ⟨_, z2, z3⟩ := ui_zero_phase (K := K) twojmax
    (Function.update ulist0 0 { re := 1, im := 0 })
  obtain ⟨_, _, l3, l4, l5⟩ := ui_levels twojmax (idxu_fill twojmax umem).idxu_block
    (ulist_parity_fill twojmax pmem) (rootpq_init twojmax sqrtK rmem) a_r a_i b_r b_i
    ((List.range' 1 twojmax).foldl ui_zero_level
      ({ ulist := Function.update ulist0 0 { re := 1, im := 0 }, jju := 1 } : UZero K)).ulist
    hblk (fun j mb h1 h2 h3 => z2 j mb h1 h2 h3) twojmax (le_refl _)
  have hU : ulist_main twojmax umem pmem rmem sqrtK a_r a_i b_r b_i ulist0
      = ((List.range' 1 twojmax).foldl
          (ui_level (idxu_fill twojmax umem).idxu_block (ulist_parity_fill twojmax pmem)
            (rootpq_init twojmax sqrtK rmem) a_r a_i b_r b_i)
          ({ ulist := ((List.range' 1 twojmax).foldl ui_zero_level
              ({ ulist := Function.update ulist0 0 { re := 1, im := 0 }, jju := 1 } :
                UZero K)).ulist, jju := 1, jjup := 0 } : UState K)).ulist := rfl
  rw [← hU] at l3 l4 l5
  refine ⟨?_, ?_, ?_⟩
  · rw [hblk 0 (by omega)]
    have e0 : uoff 0 = 0 := by simp [uoff]
    rw [e0, l3 0 (Or.inl (by omega)), z3, Function.update_same]
  · intro j mb ma hj1 hj hmb hma
    rw [hblk j hj, l4 j mb ma hj1 hj hmb hma, uprev_col, uprev_col_pred _ _ _ _ _ hma,
      hblk (j - 1) (by omega)]
    unfold ui_left_rhs
    by_cases hm : ma < j
    · rw [if_pos hm, if_pos hm]
      by_cases h0 : ma = 0
      · rw [if_pos h0, if_neg (by omega)]
        simp only [ui_termA]
        rw [rootpq_init_at twojmax sqrtK rmem (j - ma) (j - mb) (by omega) (by omega)
          (by omega) (by omega)]
        ext <;> simp [Cplx.add, Cplx.sub, Cplx.smul, Cplx.mul, Cplx.conj]
      · rw [if_neg h0, if_pos (by omega)]
        simp only [ui_termA, ui_termB]
        have e1 : ma - 1 + 1 = ma := by omega
        rw [e1, rootpq_init_at twojmax sqrtK rmem (j - ma) (j - mb) (by omega) (by omega)
          (by omega) (by omega),
          rootpq_init_at twojmax sqrtK rmem ma (j - mb) (by omega) (by omega)
          (by omega) (by omega)]
        ext <;> simp only [Cplx.add, Cplx.sub, Cplx.smul, Cplx.mul, Cplx.conj] <;> ring
    · rw [if_neg hm, if_neg hm, if_pos (by omega)]
      have hmj : ma = j := by omega
      simp only [ui_termB]
      have e1 : j - 1 + 1 = j := by omega
      rw [e1, rootpq_init_at twojmax sqrtK rmem j (j - mb) (by omega) (by omega)
        (by omega) (by omega), hmj]
      ext <;> simp [Cplx.sub, Cplx.smul, Cplx.mul, Cplx.conj]
  · intro j ma hj1 hj hev hma
    have hr : j / 2 - 1 + 1 = j / 2 := by omega
    have key := l5 j (j / 2 - 1) ma hj1 hj (by omega) hma
    rw [hr] at key
    rw [hblk j hj, key, uprev_col, uprev_col_pred _ _ _ _ _ hma, hblk (j - 1) (by omega)]
    unfold ui_mid_rhs
    by_cases hm : ma < j
    · rw [if_pos hm, if_pos hm]
      by_cases h0 : ma = 0
      · rw [if_pos h0, if_neg (by omega)]
        simp only [ui_termMB, hr]
        rw [rootpq_init_at twojmax sqrtK rmem (j - ma) (j / 2) (by omega) (by omega)
          (by omega) (by omega)]
        ext <;> simp [Cplx.add, Cplx.smul, Cplx.mul]
      · rw [if_neg h0, if_pos (by omega)]
        simp only [ui_termMA, ui_termMB, hr]
        have e1 : ma - 1 + 1 = ma := by omega
        rw [e1, rootpq_init_at twojmax sqrtK rmem (j - ma) (j / 2) (by omega) (by omega)
          (by omega) (by omega),
          rootpq_init_at twojmax sqrtK rmem ma (j / 2) (by omega) (by omega)
          (by omega) (by omega)]
        ext <;> simp only [Cplx.add, Cplx.smul, Cplx.mul] <;> ring
    · rw [if_neg hm, if_neg hm, if_pos (by omega)]
      have hmj : ma = j := by omega
      simp only [ui_termMA, hr]
      have e1 : j - 1 + 1 = j := by omega
      rw [e1, rootpq_init_at twojmax sqrtK rmem j (j / 2) (by omega) (by omega)
        (by omega) (by omega), hmj]
      ext <;> simp [Cplx.add, Cplx.smul, Cplx.mul]

end C7

theorem ulist_recursion_witness :
    (1 : ℕ) ≤ 2 ∧ (2 : ℕ) ≤ 2 ∧ 2 * 0 < 2 ∧ (1 : ℕ) ≤ 2 ∧
    ulist_main 2 (fun _ => 0) (fun _ => 0) (fun _ _ => 0) (fun x => x) (1 : ℚ) 2 3 5
        (fun _ => ⟨7, 7⟩) ((idxu_fill 2 (fun _ => 0)).idxu_block 2 + 0 * (2 + 1) + 1)
      = Cplx.sub
          (Cplx.smul ((fun x => x) (((2 - 1 : ℕ) : ℚ) / ((2 - 0 : ℕ) : ℚ)))
            (Cplx.mul (Cplx.conj ⟨1, 2⟩)
              (uprev (ulist_main 2 (fun _ => 0) (fun _ => 0) (fun _ _ => 0) (fun x => x)
                  (1 : ℚ) 2 3 5 (fun _ => ⟨7, 7⟩))
                (idxu_fill 2 (fun _ => 0)).idxu_block 2 0 ((1 : ℕ) : ℤ))))
          (Cplx.smul ((fun x => x) (((1 : ℕ) : ℚ) / ((2 - 0 : ℕ) : ℚ)))
            (Cplx.mul (Cplx.conj ⟨3, 5⟩)
              (uprev (ulist_main 2 (fun _ => 0) (fun _ => 0) (fun _ _ => 0) (fun x => x)
                  (1 : ℚ) 2 3 5 (fun _ => ⟨7, 7⟩))
                (idxu_fill 2 (fun _ => 0)).idxu_block 2 0 (((1 : ℕ) : ℤ) - 1)))) :=
  ⟨by decide, by decide, by decide, by decide,
    (ulist_recursion 2 (fun _ => 0) (fun _ => 0) (fun _ _ => 0) (fun x => x) (1 : ℚ) 2 3 5
      (fun _ => ⟨7, 7⟩)).2.1 2 0 1 (by decide) (by decide) (by decide) (by decide)⟩

section CGFillLemmas
variable {K : Type}

theorem cg_push_row (g : ℕ → K) (n : ℕ) (s : CGFill K) :
    ((List.range n).foldl (fun s y => cg_push (g y) s) s).idxcg_count = s.idxcg_count + n ∧
    (∀ y, y < n →
      ((List.range n).foldl (fun s y => cg_push (g y) s) s).cglist (s.idxcg_count + y) = g y) ∧
    (∀ x, x < s.idxcg_count ∨ s.idxcg_count + n ≤ x →
      ((List.range n).foldl (fun s y => cg_push (g y) s) s).cglist x = s.cglist x) := by
  induction n with
  | zero =>
    refine ⟨rfl, ?_, fun _ _ => rfl⟩
    intro y hy; omega
  | succ n ih =>
    obtain ⟨h1, h2, h3⟩ := ih
    rw [List.range_succ, List.foldl_append, List.foldl_cons, List.foldl_nil]
    generalize (List.range n).foldl (fun s y => cg_push (g y) s) s = sn at h1 h2 h3 ⊢
    refine ⟨?_, ?_, ?_⟩
    · simp only [cg_push, h1]; omega
    · intro y hy
      simp only [cg_push, h1, Function.update_apply]
      by_cases hyn : y = n
      · rw [hyn, if_pos rfl]
      · rw [if_neg (by omega)]
        exact h2 y (by omega)
    · intro x hx
      simp only [cg_push, h1, Function.update_apply]
      rw [if_neg (by omega)]
      exact h3 x (by omega)

theorem cg_push_rows (g : ℕ → ℕ → K) (b m : ℕ) (s : CGFill K) :
    ((List.range m).foldl
        (fun s x => (List.range b).foldl (fun s y => cg_push (g x y) s) s) s).idxcg_count
      = s.idxcg_count + m * b ∧
    (∀ x y, x < m → y < b →
      ((List.range m).foldl
        (fun s x => (List.range b).foldl (fun s y => cg_push (g x y) s) s) s).cglist
          (s.idxcg_count + x * b + y) = g x y) ∧
    (∀ p, p < s.idxcg_count ∨ s.idxcg_count + m * b ≤ p →
      ((List.range m).foldl
        (fun s x => (List.range b).foldl (fun s y => cg_push (g x y) s) s) s).cglist p
        = s.cglist p) := by
  induction m with
  | zero =>
    refine ⟨by simp, ?_, fun _ _ => rfl⟩
    intro x y hx; omega
  | succ m ih =>
    obtain ⟨h1, h2, h3⟩ := ih
    rw [List.range_succ, List.foldl_append, List.foldl_cons, List.foldl_nil]
    generalize (List.range m).foldl
        (fun s x => (List.range b).foldl (fun s y => cg_push (g x y) s) s) s = sm
      at h1 h2 h3 ⊢
    obtain ⟨r1, r2, r3⟩ := cg_push_row (g m) b sm
    have e : (m + 1) * b = m * b + b := by ring
    refine ⟨?_, ?_, ?_⟩
    · rw [r1, h1, e]; omega
    · intro x y hx hy
      by_cases hxm : x = m
      · rw [hxm]
        have := r2 y hy
        rw [h1] at this
        exact this
      · have hlt : x * b + b ≤ m * b := by
          have : (x + 1) * b ≤ m * b := Nat.mul_le_mul_right _ (by omega)
          have e' : (x + 1) * b = x * b + b := by ring
          omega
        rw [r3 _ (Or.inl (by rw [h1]; omega))]
        exact h2 x y (by omega) hy
    · intro p hp
      rw [e] at hp
      rw [r3 p (by rw [h1]; omega)]
      exact h3 p (by omega)

variable [Field K]

theorem cg_fill_triple_spec (factorial : ℤ → K) (deltacg : ℕ → ℕ → ℕ → K) (sqrtK : K → K)
    (s : CGFill K) (t : ℕ × ℕ × ℕ) :
    (cg_fill_triple factorial deltacg sqrtK s t).idxcg_count = s.idxcg_count + cgsize t ∧
    (∀ m1 m2, m1 ≤ t.1 → m2 ≤ t.2.1 →
      (cg_fill_triple factorial deltacg sqrtK s t).cglist
          (s.idxcg_count + m1 * (t.2.1 + 1) + m2)
        = cg_entry factorial deltacg sqrtK t.1 t.2.1 t.2.2 m1 m2) ∧
    (∀ p, p < s.idxcg_count ∨ s.idxcg_count + cgsize t ≤ p →
      (cg_fill_triple factorial deltacg sqrtK s t).cglist p = s.cglist p) := by
  obtain ⟨h1, h2, h3⟩ := cg_push_rows
    (fun m1 m2 => cg_entry factorial deltacg sqrtK t.1 t.2.1 t.2.2 m1 m2)
    (t.2.1 + 1) (t.1 + 1) s
  exact ⟨h1, fun m1 m2 a b => h2 m1 m2 (by omega) (by omega), h3⟩

theorem cg_fill_list (factorial : ℤ → K) (deltacg : ℕ → ℕ → ℕ → K) (sqrtK : K → K)
    (T : List (ℕ × ℕ × ℕ)) (s : CGFill K) :
    (T.foldl (cg_fill_triple factorial deltacg sqrtK) s).idxcg_count
      = s.idxcg_count + sizeSum cgsize T ∧
    (∀ p, p < s.idxcg_count ∨ s.idxcg_count + sizeSum cgsize T ≤ p →
      (T.foldl (cg_fill_triple factorial deltacg sqrtK) s).cglist p = s.cglist p) := by
  induction T generalizing s with
  | nil => exact ⟨by simp [sizeSum], fun _ _ => rfl⟩
  | cons t T ih =>
    obtain ⟨a1, _, a3⟩ := cg_fill_triple_spec factorial deltacg sqrtK s t
    obtain ⟨b1, b2⟩ := ih (cg_fill_triple factorial deltacg sqrtK s t)
    simp only [List.foldl_cons]
    refine ⟨?_, ?_⟩
    · rw [b1, a1, sizeSum_cons]; omega
    · intro p hp
      rw [sizeSum_cons] at hp
      rw [b2 p (by rw [a1]; omega), a3 p (by omega)]

theorem cg_fill_split (factorial : ℤ → K) (deltacg : ℕ → ℕ → ℕ → K) (sqrtK : K → K)
    (pre post : List (ℕ × ℕ × ℕ)) (t : ℕ × ℕ × ℕ) (s : CGFill K)
    (m1 m2 : ℕ) (h1 : m1 ≤ t.1) (h2 : m2 ≤ t.2.1) :
    ((pre ++ t :: post).foldl (cg_fill_triple factorial deltacg sqrtK) s).cglist
        (s.idxcg_count + sizeSum cgsize pre + m1 * (t.2.1 + 1) + m2)
      = cg_entry factorial deltacg sqrtK t.1 t.2.1 t.2.2 m1 m2 := by
  simp only [List.foldl_append, List.foldl_cons]
  obtain ⟨a1, _⟩ := cg_fill_list factorial deltacg sqrtK pre s
  generalize pre.foldl (cg_fill_triple factorial deltacg sqrtK) s = s1 at a1 ⊢
  obtain ⟨b1, b2, _⟩ := cg_fill_triple_spec factorial deltacg sqrtK s1 t
  obtain ⟨_, c2⟩ := cg_fill_list factorial deltacg sqrtK post
    (cg_fill_triple factorial deltacg sqrtK s1 t)
  have hlt : m1 * (t.2.1 + 1) + m2 < cgsize t := by
    have : (m1 + 1) * (t.2.1 + 1) ≤ (t.1 + 1) * (t.2.1 + 1) :=
      Nat.mul_le_mul_right _ (by omega)
    have e : (m1 + 1) * (t.2.1 + 1) = m1 * (t.2.1 + 1) + (t.2.1 + 1) := by ring
    simp only [cgsize]
    omega
  rw [c2 _ (Or.inl (by rw [b1, a1]; omega)), ← a1]
  exact b2 m1 m2 h1 h2

end CGFillLemmas

theorem idxcg_step_spec (twojmax : ℕ) (s : CGTables) (t : ℕ × ℕ × ℕ) :
    (idxcg_step twojmax s t).idxcg_count = s.idxcg_count + cgsize t ∧
    (idxcg_step twojmax s t).idxcg_block
      = Function.update s.idxcg_block (cgkey twojmax t) s.idxcg_count := by
  refine ⟨?_, rfl⟩
  simp only [idxcg_step, cgsize]
  have := count_rows t.2.1 (t.1 + 1) s.idxcg_count
  simp only [maloop] at this ⊢
  exact this

theorem idxcg_list (twojmax : ℕ) (T : List (ℕ × ℕ × ℕ)) (s : CGTables) :
    (T.foldl (idxcg_step twojmax) s).idxcg_count = s.idxcg_count + sizeSum cgsize T ∧
    (∀ k, k ∉ T.map (cgkey twojmax) →
      (T.foldl (idxcg_step twojmax) s).idxcg_block k = s.idxcg_block k) := by
  induction T generalizing s with
  | nil => exact ⟨by simp [sizeSum], fun _ _ => rfl⟩
  | cons t T ih =>
    obtain ⟨a1, a2⟩ := idxcg_step_spec twojmax s t
    obtain ⟨b1, b2⟩ := ih (idxcg_step twojmax s t)
    simp only [List.foldl_cons]
    refine ⟨?_, ?_⟩
    · rw [b1, a1, sizeSum_cons]; omega
    · intro k hk
      simp only [List.map_cons, List.mem_cons, not_or] at hk
      rw [b2 k hk.2, a2, Function.update_noteq hk.1]

theorem idxcg_split (twojmax : ℕ) (pre post : List (ℕ × ℕ × ℕ)) (t : ℕ × ℕ × ℕ)
    (s : CGTables) (hk : cgkey twojmax t ∉ post.map (cgkey twojmax)) :
    ((pre ++ t :: post).foldl (idxcg_step twojmax) s).idxcg_block (cgkey twojmax t)
      = s.idxcg_count + sizeSum cgsize pre := by
  simp only [List.foldl_append, List.foldl_cons]
  obtain ⟨a1, _⟩ := idxcg_list twojmax pre s
  generalize pre.foldl (idxcg_step twojmax) s = s1 at a1 ⊢
  obtain ⟨_, b2⟩ := idxcg_step_spec twojmax s1 t
  obtain ⟨_, c2⟩ := idxcg_list twojmax post (idxcg_step twojmax s1 t)
  rw [c2 _ hk, b2, Function.update_same, a1]

theorem cgkey_inj (twojmax : ℕ) (t t' : ℕ × ℕ × ℕ)
    (h1 : t.1 ≤ twojmax) (h2 : t.2.1 ≤ twojmax)
    (h1' : t'.1 ≤ twojmax) (h2' : t'.2.1 ≤ twojmax)
    (h : cgkey twojmax t = cgkey twojmax t') : t = t' := by
  obtain ⟨a, b, c⟩ := t
  obtain ⟨a', b', c'⟩ := t'
  simp only [cgkey] at h h1 h2 h1' h2'
  have e1 : (c * (twojmax + 1) + b) * (twojmax + 1) + a
      = (c' * (twojmax + 1) + b') * (twojmax + 1) + a' := by
    have l : (c * (twojmax + 1) + b) * (twojmax + 1) + a
        = a + b * (twojmax + 1) + (twojmax + 1) * (twojmax + 1) * c := by ring
    have r : (c' * (twojmax + 1) + b') * (twojmax + 1) + a'
        = a' + b' * (twojmax + 1) + (twojmax + 1) * (twojmax + 1) * c' := by ring
    rw [l, r]; exact h
  obtain ⟨e2, ha⟩ := digits_eq _ _ _ _ _ (by omega) (by omega) e1
  obtain ⟨hc, hb⟩ := digits_eq _ _ _ _ _ (by omega) (by omega) e2
  rw [ha, hb, hc]

theorem nodup_cgkeys (twojmax : ℕ) : ((triples twojmax).map (cgkey twojmax)).Nodup := by
  refine List.Nodup.map_on ?_ (nodup_triples twojmax)
  intro x hx y hy h
  have bx := mem_triples_bounds hx
  have b := mem_triples_bounds hy
  exact cgkey_inj twojmax x y (by omega) (by omega) (by omega) (by omega) h

theorem cgkey_not_mem_post (twojmax : ℕ) (pre post : List (ℕ × ℕ × ℕ)) (t : ℕ × ℕ × ℕ)
    (h : triples twojmax = pre ++ t :: post) :
    cgkey twojmax t ∉ post.map (cgkey twojmax) := by
  have hn := nodup_cgkeys twojmax
  rw [h, List.map_append, List.map_cons] at hn
  exact (List.nodup_cons.1 (List.nodup_append.1 hn).2.1).1

theorem cgtriple_iff {twojmax j1 j2 j : ℕ} :
    CGTriple twojmax j1 j2 j ↔ (j1, j2, j) ∈ triples twojmax := by
  unfold CGTriple
  rw [mem_triples, mem_jloop]
  constructor
  · rintro ⟨h1, h2, ⟨k, hk⟩, h3⟩
    omega
  · rintro ⟨h1, h2, h3, h4, h5⟩
    refine ⟨h2, h1, ⟨(j - (j1 - j2)) / 2, ?_⟩, h3⟩
    omega

theorem blocks_disjoint {α : Type} (sz : α → ℕ) (l pre post pre' post' : List α) (t t' : α)
    (h : l = pre ++ t :: post) (h' : l = pre' ++ t' :: post') (q q' : ℕ)
    (hq : q < sz t) (hq' : q' < sz t')
    (he : sizeSum sz pre + q = sizeSum sz pre' + q') : t = t' ∧ q = q' := by
  induction l generalizing pre pre' with
  | nil => simp at h
  | cons x l ih =>
    cases pre with
    | nil =>
      cases pre' with
      | nil =>
        simp only [List.nil_append, List.cons.injEq] at h h'
        refine ⟨h.1.symm.trans h'.1, ?_⟩
        simpa [sizeSum] using he
      | cons y p' =>
        simp only [List.nil_append, List.cons_append, List.cons.injEq] at h h'
        rw [sizeSum_cons] at he
        have : sz y = sz t := by rw [← h'.1, h.1]
        simp only [sizeSum, List.map_nil, List.sum_nil] at he
        omega
    | cons y p =>
      cases pre' with
      | nil =>
        simp only [List.nil_append, List.cons_append, List.cons.injEq] at h h'
        rw [sizeSum_cons] at he
        have : sz y = sz t' := by rw [← h.1, h'.1]
        simp only [sizeSum, List.map_nil, List.sum_nil] at he
        omega
      | cons y' p' =>
        simp only [List.cons_append, List.cons.injEq] at h h'
        rw [sizeSum_cons, sizeSum_cons] at he
        have : sz y = sz y' := by rw [← h.1, h'.1]
        exact ih p p' h.2 h'.2 (by omega)

section C9
variable {K : Type} [Field K]

theorem cg_at (factorial : ℤ → K) (deltacg : ℕ → ℕ → ℕ → K) (sqrtK : K → K)
    (twojmax : ℕ) (bmem : ℕ → ℕ) (cmem : ℕ → K) (j1 j2 j m1 m2 : ℕ)
    (ht : (j1, j2, j) ∈ triples twojmax) (h1 : m1 ≤ j1) (h2 : m2 ≤ j2) :
    cgpos twojmax (idxcg_fill twojmax bmem).idxcg_block j1 j2 j m1 m2
        < (idxcg_fill twojmax bmem).idxcg_count ∧
    (cg_fill factorial deltacg sqrtK twojmax cmem).cglist
        (cgpos twojmax (idxcg_fill twojmax bmem).idxcg_block j1 j2 j m1 m2)
      = cg_entry factorial deltacg sqrtK j1 j2 j m1 m2 := by
  obtain ⟨pre, post, hsplit⟩ := List.append_of_mem ht
  have hk := cgkey_not_mem_post twojmax pre post _ hsplit
  have hb := idxcg_split twojmax pre post (j1, j2, j)
    { idxcg_count := 0, idxcg_block := bmem } hk
  have hc := cg_fill_split factorial deltacg sqrtK pre post (j1, j2, j)
    { idxcg_count := 0, cglist := cmem } m1 m2 h1 h2
  obtain ⟨hcount, _⟩ := idxcg_list twojmax (triples twojmax)
    { idxcg_count := 0, idxcg_block := bmem }
  simp only [Nat.zero_add] at hb hc hcount
  have hpos : cgpos twojmax (idxcg_fill twojmax bmem).idxcg_block j1 j2 j m1 m2
      = sizeSum cgsize pre + m1 * (j2 + 1) + m2 := by
    simp only [cgpos, idxcg_fill, hsplit]
    have := hb
    simp only [cgkey] at this
    rw [this]
  have hlt : m1 * (j2 + 1) + m2 < (j1 + 1) * (j2 + 1) := by
    have : (m1 + 1) * (j2 + 1) ≤ (j1 + 1) * (j2 + 1) := Nat.mul_le_mul_right _ (by omega)
    have e : (m1 + 1) * (j2 + 1) = m1 * (j2 + 1) + (j2 + 1) := by ring
    omega
  refine ⟨?_, ?_⟩
  · rw [hpos]
    simp only [idxcg_fill]
    rw [hcount, hsplit, sizeSum_append, sizeSum_cons]
    simp only [cgsize]
    omega
  · rw [hpos]
    simp only [cg_fill, hsplit]
    exact hc

theorem cg_cover (twojmax : ℕ) (bmem : ℕ → ℕ) (p : ℕ)
    (hp : p < (idxcg_fill twojmax bmem).idxcg_count) :
    ∃ j1 j2 j m1 m2, (j1, j2, j) ∈ triples twojmax ∧ m1 ≤ j1 ∧ m2 ≤ j2 ∧
      cgpos twojmax (idxcg_fill twojmax bmem).idxcg_block j1 j2 j m1 m2 = p := by
  obtain ⟨hcount, _⟩ := idxcg_list twojmax (triples twojmax)
    { idxcg_count := 0, idxcg_block := bmem }
  simp only [Nat.zero_add] at hcount
  have hp' : p < sizeSum cgsize (triples twojmax) := by
    rw [← hcount]; exact hp
  obtain ⟨pre, t, post, hsplit, h1, h2⟩ := sizeSum_cover cgsize _ p hp'
  have hk := cgkey_not_mem_post twojmax pre post _ hsplit
  have hb := idxcg_split twojmax pre post t { idxcg_count := 0, idxcg_block := bmem } hk
  simp only [Nat.zero_add] at hb
  obtain ⟨j1, j2, j⟩ := t
  have hmem : (j1, j2, j) ∈ triples twojmax := by rw [hsplit]; simp
  simp only [cgsize] at h2
  have hdlt : (p - sizeSum cgsize pre) / (j2 + 1) < j1 + 1 := by
    rw [Nat.div_lt_iff_lt_mul (by omega)]; omega
  have hmlt : (p - sizeSum cgsize pre) % (j2 + 1) < j2 + 1 := Nat.mod_lt _ (by omega)
  refine ⟨j1, j2, j, (p - sizeSum cgsize pre) / (j2 + 1), (p - sizeSum cgsize pre) % (j2 + 1),
    hmem, by omega, by omega, ?_⟩
  simp only [cgpos, idxcg_fill, hsplit]
  have := hb
  simp only [cgkey] at this
  rw [this, Nat.add_assoc, Nat.div_add_mod']
  omega

theorem cg_unique (twojmax : ℕ) (bmem : ℕ → ℕ) (j1 j2 j m1 m2 j1' j2' j' m1' m2' : ℕ)
    (ht : (j1, j2, j) ∈ triples twojmax) (h1 : m1 ≤ j1) (h2 : m2 ≤ j2)
    (ht' : (j1', j2', j') ∈ triples twojmax) (h1' : m1' ≤ j1') (h2' : m2' ≤ j2')
    (he : cgpos twojmax (idxcg_fill twojmax bmem).idxcg_block j1 j2 j m1 m2
        = cgpos twojmax (idxcg_fill twojmax bmem).idxcg_block j1' j2' j' m1' m2') :
    j1 = j1' ∧ j2 = j2' ∧ j = j' ∧ m1 = m1' ∧ m2 = m2' := by
  obtain ⟨pre, post, hsplit⟩ := List.append_of_mem ht
  obtain ⟨pre', post', hsplit'⟩ := List.append_of_mem ht'
  have hb := idxcg_split twojmax pre post (j1, j2, j)
    { idxcg_count := 0, idxcg_block := bmem } (cgkey_not_mem_post twojmax pre post _ hsplit)
  have hb' := idxcg_split twojmax pre' post' (j1', j2', j')
    { idxcg_count := 0, idxcg_block := bmem }
    (cgkey_not_mem_post twojmax pre' post' _ hsplit')
  rw [← hsplit] at hb
  rw [← hsplit'] at hb'
  simp only [Nat.zero_add, cgkey] at hb hb'
  simp only [cgpos, idxcg_fill] at he
  rw [hb, hb'] at he
  have hlt : m1 * (j2 + 1) + m2 < cgsize (j1, j2, j) := by
    have : (m1 + 1) * (j2 + 1) ≤ (j1 + 1) * (j2 + 1) := Nat.mul_le_mul_right _ (by omega)
    have e : (m1 + 1) * (j2 + 1) = m1 * (j2 + 1) + (j2 + 1) := by ring
    simp only [cgsize]; omega
  have hlt' : m1' * (j2' + 1) + m2' < cgsize (j1', j2', j') := by
    have : (m1' + 1) * (j2' + 1) ≤ (j1' + 1) * (j2' + 1) := Nat.mul_le_mul_right _ (by omega)
    have e : (m1' + 1) * (j2' + 1) = m1' * (j2' + 1) + (j2' + 1) := by ring
    simp only [cgsize]; omega
  obtain ⟨e1, e2⟩ := blocks_disjoint cgsize (triples twojmax) pre post pre' post'
    (j1, j2, j) (j1', j2', j') hsplit hsplit' _ _ hlt hlt' (by omega)
  simp only [Prod.mk.injEq] at e1
  obtain ⟨a, b, c⟩ := e1
  subst a b c
  obtain ⟨e3, e4⟩ := digits_eq _ _ _ _ _ (by omega) (by omega) e2
  exact ⟨rfl, rfl, rfl, e3, e4⟩

theorem cg_entry_zero (factorial : ℤ → K) (deltacg : ℕ → ℕ → ℕ → K) (sqrtK : K → K)
    (j1 j2 j m1 m2 : ℕ)
    (h : cg_m j1 j2 j m1 m2 < 0 ∨ cg_m j1 j2 j m1 m2 > (j : ℤ)) :
    cg_entry factorial deltacg sqrtK j1 j2 j m1 m2 = 0 := by
  unfold cg_entry
  simp only [h, if_true]

/-- C9. For every `twojmax`: the fill loop ends with `idxcg_count` equal to the
`idxcg_max` of the index loop; the entry of every admissible `(j1, j2, j)` and
`m1 ≤ j1`, `m2 ≤ j2` is stored at `idxcg_block[j1,j2,j] + m1*(j2+1) + m2`, below
`idxcg_max`, and is exactly 0 when `m = (2*m1 - j1 + 2*m2 - j2 + j)/2` is `< 0` or `> j`;
every index below `idxcg_max` is the index of exactly one `(j1, j2, j, m1, m2)` (the
blocks are pairwise disjoint and cover `[0, idxcg_max)`); and the block of a triple
starts where the blocks of the triples before it end (the blocks are contiguous). -/
theorem cg_fill_layout (factorial : ℤ → K) (deltacg : ℕ → ℕ → ℕ → K) (sqrtK : K → K)
    (twojmax : ℕ) (bmem : ℕ → ℕ) (cmem : ℕ → K) :
    (cg_fill factorial deltacg sqrtK twojmax cmem).idxcg_count
      = (idxcg_fill twojmax bmem).idxcg_count ∧
    (∀ j1 j2 j m1 m2, CGTriple twojmax j1 j2 j → m1 ≤ j1 → m2 ≤ j2 →
      cgpos twojmax (idxcg_fill twojmax bmem).idxcg_block j1 j2 j m1 m2
          < (idxcg_fill twojmax bmem).idxcg_count ∧
      (cg_fill factorial deltacg sqrtK twojmax cmem).cglist
          (cgpos twojmax (idxcg_fill twojmax bmem).idxcg_block j1 j2 j m1 m2)
        = cg_entry factorial deltacg sqrtK j1 j2 j m1 m2 ∧
      ((cg_m j1 j2 j m1 m2 < 0 ∨ cg_m j1 j2 j m1 m2 > (j : ℤ)) →
        (cg_fill factorial deltacg sqrtK twojmax cmem).cglist
          (cgpos twojmax (idxcg_fill twojmax bmem).idxcg_block j1 j2 j m1 m2) = 0)) ∧
    (∀ p, p < (idxcg_fill twojmax bmem).idxcg_count →
      ∃ j1 j2 j m1 m2, CGTriple twojmax j1 j2 j ∧ m1 ≤ j1 ∧ m2 ≤ j2 ∧
        cgpos twojmax (idxcg_fill twojmax bmem).idxcg_block j1 j2 j m1 m2 = p ∧
        ∀ j1' j2' j' m1' m2', CGTriple twojmax j1' j2' j' → m1' ≤ j1' → m2' ≤ j2' →
          cgpos twojmax (idxcg_fill twojmax bmem).idxcg_block j1' j2' j' m1' m2' = p →
          j1' = j1 ∧ j2' = j2 ∧ j' = j ∧ m1' = m1 ∧ m2' = m2) ∧
    (∀ pre t post, triples twojmax = pre ++ t :: post →
      (idxcg_fill twojmax bmem).idxcg_block
          (t.1 + t.2.1 * (twojmax + 1) + (twojmax + 1) * (twojmax + 1) * t.2.2)
        = sizeSum (fun t' => (t'.1 + 1) * (t'.2.1 + 1)) pre) := by
  refine ⟨?_, ?_, ?_, ?_⟩
  · obtain ⟨h1, _⟩ := cg_fill_list factorial deltacg sqrtK (triples twojmax)
      { idxcg_count := 0, cglist := cmem }
    obtain ⟨h2, _⟩ := idxcg_list twojmax (triples twojmax)
      { idxcg_count := 0, idxcg_block := bmem }
    simp only [cg_fill, idxcg_fill]
    rw [h1, h2]
  · intro j1 j2 j m1 m2 ht h1 h2
    obtain ⟨a, b⟩ := cg_at factorial deltacg sqrtK twojmax bmem cmem j1 j2 j m1 m2
      (cgtriple_iff.1 ht) h1 h2
    refine ⟨a, b, ?_⟩
    intro hm
    rw [b, cg_entry_zero factorial deltacg sqrtK j1 j2 j m1 m2 hm]
  · intro p hp
    obtain ⟨j1, j2, j, m1, m2, ht, h1, h2, hpos⟩ := cg_cover twojmax bmem p hp
    refine ⟨j1, j2, j, m1, m2, cgtriple_iff.2 ht, h1, h2, hpos, ?_⟩
    intro j1' j2' j' m1' m2' ht' h1' h2' hpos'
    exact cg_unique twojmax bmem j1' j2' j' m1' m2' j1 j2 j m1 m2 (cgtriple_iff.1 ht') h1' h2'
      ht h1 h2 (hpos'.trans hpos.symm)
  · intro pre t post hsplit
    have hb := idxcg_split twojmax pre post t { idxcg_count := 0, idxcg_block := bmem }
      (cgkey_not_mem_post twojmax pre post _ hsplit)
    rw [← hsplit] at hb
    simp only [Nat.zero_add, cgkey] at hb
    exact hb

end C9

theorem cg_fill_layout_witness :
    CGTriple 2 1 1 0 ∧ (1 : ℕ) ≤ 1 ∧ (1 : ℕ) ≤ 1 ∧
    (cg_m 1 1 0 1 1 < 0 ∨ cg_m 1 1 0 1 1 > ((0 : ℕ) : ℤ)) ∧
    (cg_fill (fun z => ((Nat.factorial z.toNat : ℕ) : ℚ)) (fun _ _ _ => 1) (fun x => x) 2
        (fun _ => 5)).cglist
      (cgpos 2 (idxcg_fill 2 (fun _ => 0)).idxcg_block 1 1 0 1 1) = 0 :=
  ⟨⟨by decide, by decide, ⟨0, rfl⟩, by decide⟩, by decide, by decide, Or.inr (by decide),
    ((cg_fill_layout (fun z => ((Nat.factorial z.toNat : ℕ) : ℚ)) (fun _ _ _ => 1)
      (fun x => x) 2 (fun _ => 0) (fun _ => 5)).2.1 1 1 0 1 1
      ⟨by decide, by decide, ⟨0, rfl⟩, by decide⟩ (by decide) (by decide)).2.2
      (Or.inr (by decide))⟩

theorem tdiv_even (n : ℤ) (h : n % 2 = 0) : Int.tdiv n 2 = n / 2 := by
  have e : n = 2 * (n / 2) := by omega
  conv_lhs => rw [e]
  exact tdiv_two_mul _

theorem mem_zloop (lo hi z : ℤ) : z ∈ zloop lo hi ↔ lo ≤ z ∧ z ≤ hi := by
  unfold zloop
  simp only [List.mem_map, List.mem_range]
  constructor
  · rintro ⟨i, hi', rfl⟩
    have := Int.lt_toNat.1 hi'
    omega
  · rintro ⟨h1, h2⟩
    refine ⟨(z - lo).toNat, ?_, ?_⟩
    · rw [Int.lt_toNat, Int.toNat_of_nonneg (by omega)]
      omega
    · rw [Int.toNat_of_nonneg (by omega)]
      omega

section C10
variable {K : Type} [Field K]

theorem cg_term_args (factorial : ℤ → K) (j1 j2 j m1 m2 : ℕ) (sum : K) (z : ℤ) :
    cg_term factorial j1 j2 j m1 m2 sum z
      = sum + (if Int.tmod z 2 ≠ 0 then (-1 : K) else 1)
          / ((cg_sum_args j1 j2 j m1 m2 z).map factorial).prod := by
  simp only [cg_term, cg_sum_args, List.map_cons, List.map_nil, List.prod_cons,
    List.prod_nil, mul_one, mul_assoc]

theorem cg_entry_args (factorial : ℤ → K) (deltacg : ℕ → ℕ → ℕ → K) (sqrtK : K → K)
    (j1 j2 j m1 m2 : ℕ) (h0 : 0 ≤ cg_m j1 j2 j m1 m2) (hj : cg_m j1 j2 j m1 m2 ≤ (j : ℤ)) :
    cg_entry factorial deltacg sqrtK j1 j2 j m1 m2
      = (zloop (cg_zlo j1 j2 j m1 m2) (cg_zhi j1 j2 j m1 m2)).foldl
          (cg_term factorial j1 j2 j m1 m2) 0 * deltacg j1 j2 j *
        sqrtK (((cg_sfac_args j1 j2 j m1 m2).map factorial).prod * ((j : K) + 1)) := by
  have hm : ¬ (cg_m j1 j2 j m1 m2 < 0 ∨ cg_m j1 j2 j m1 m2 > (j : ℤ)) := by omega
  simp only [cg_entry, hm, if_false, cg_sfac_args, List.map_cons, List.map_nil,
    List.prod_cons, List.prod_nil, mul_one, mul_assoc]

/-- C10. For every admissible `(j1, j2, j)`, every `m1 ≤ j1`, `m2 ≤ j2` with
`0 ≤ m ≤ j` and every `z` of the inner loop: the loop term and the prefactor are the
quotient by, resp. the square root of, the product of `factorial` over the six listed
arguments; each of the six factorial arguments of the term and of the six of `sfaccg` is
non-negative; and every numerator divided by 2 is even, so that the truncating division
is the exact quotient. -/
theorem cg_factorial_args (factorial : ℤ → K) (deltacg : ℕ → ℕ → ℕ → K) (sqrtK : K → K)
    (twojmax j1 j2 j m1 m2 : ℕ) (ht : CGTriple twojmax j1 j2 j) (h1 : m1 ≤ j1)
    (h2 : m2 ≤ j2) (hm0 : 0 ≤ cg_m j1 j2 j m1 m2) (hmj : cg_m j1 j2 j m1 m2 ≤ (j : ℤ))
    (z : ℤ) (hz : z ∈ zloop (cg_zlo j1 j2 j m1 m2) (cg_zhi j1 j2 j m1 m2)) :
    (∀ sum, cg_term factorial j1 j2 j m1 m2 sum z
      = sum + (if Int.tmod z 2 ≠ 0 then (-1 : K) else 1)
          / ((cg_sum_args j1 j2 j m1 m2 z).map factorial).prod) ∧
    cg_entry factorial deltacg sqrtK j1 j2 j m1 m2
      = (zloop (cg_zlo j1 j2 j m1 m2) (cg_zhi j1 j2 j m1 m2)).foldl
          (cg_term factorial j1 j2 j m1 m2) 0 * deltacg j1 j2 j *
        sqrtK (((cg_sfac_args j1 j2 j m1 m2).map factorial).prod * ((j : K) + 1)) ∧
    (∀ x ∈ cg_sum_args j1 j2 j m1 m2 z, 0 ≤ x) ∧
    (∀ x ∈ cg_sfac_args j1 j2 j m1 m2, 0 ≤ x) ∧
    (∀ n ∈ cg_numerators j1 j2 j m1 m2,
      n % 2 = 0 ∧ Int.tdiv n 2 = n / 2 ∧ 2 * Int.tdiv n 2 = n) := by
  obtain ⟨k, hk⟩ := triple_parity (cgtriple_iff.1 ht)
  have hkz : (j1 : ℤ) + j2 = j + 2 * k := by exact_mod_cast hk
  have hb := mem_triples_bounds (cgtriple_iff.1 ht)
  simp only at hb
  have eA : Int.tdiv ((j1 : ℤ) + j2 - j) 2 = k := by
    have : (j1 : ℤ) + j2 - j = 2 * (k : ℤ) := by omega
    rw [this, tdiv_two_mul]
  have eB : Int.tdiv ((j1 : ℤ) - (2 * (m1 : ℤ) - j1)) 2 = (j1 : ℤ) - m1 := by
    have : (j1 : ℤ) - (2 * (m1 : ℤ) - j1) = 2 * ((j1 : ℤ) - m1) := by omega
    rw [this, tdiv_two_mul]
  have eC : Int.tdiv ((j2 : ℤ) + (2 * (m2 : ℤ) - j2)) 2 = m2 := by
    have : (j2 : ℤ) + (2 * (m2 : ℤ) - j2) = 2 * (m2 : ℤ) := by omega
    rw [this, tdiv_two_mul]
  have eD : Int.tdiv ((j : ℤ) - j2 + (2 * (m1 : ℤ) - j1)) 2 = (m1 : ℤ) - k := by
    have : (j : ℤ) - j2 + (2 * (m1 : ℤ) - j1) = 2 * ((m1 : ℤ) - k) := by omega
    rw [this, tdiv_two_mul]
  have eE : Int.tdiv ((j : ℤ) - j1 - (2 * (m2 : ℤ) - j2)) 2 = (j2 : ℤ) - m2 - k := by
    have : (j : ℤ) - j1 - (2 * (m2 : ℤ) - j2) = 2 * ((j2 : ℤ) - m2 - k) := by omega
    rw [this, tdiv_two_mul]
  have eD' : Int.tdiv (-((j : ℤ) - j2 + (2 * (m1 : ℤ) - j1))) 2 = (k : ℤ) - m1 := by
    have : -((j : ℤ) - j2 + (2 * (m1 : ℤ) - j1)) = 2 * ((k : ℤ) - m1) := by omega
    rw [this, tdiv_two_mul]
  have eE' : Int.tdiv (-((j : ℤ) - j1 - (2 * (m2 : ℤ) - j2))) 2 = (m2 : ℤ) + k - j2 := by
    have : -((j : ℤ) - j1 - (2 * (m2 : ℤ) - j2)) = 2 * ((m2 : ℤ) + k - j2) := by omega
    rw [this, tdiv_two_mul]
  have eM : cg_m j1 j2 j m1 m2 = (m1 : ℤ) + m2 - k := by
    unfold cg_m
    have : (2 * (m1 : ℤ) - j1) + (2 * (m2 : ℤ) - j2) + j = 2 * ((m1 : ℤ) + m2 - k) := by omega
    rw [this, tdiv_two_mul]
  have eF : Int.tdiv ((j1 : ℤ) + (2 * (m1 : ℤ) - j1)) 2 = m1 := by
    have : (j1 : ℤ) + (2 * (m1 : ℤ) - j1) = 2 * (m1 : ℤ) := by omega
    rw [this, tdiv_two_mul]
  have eG : Int.tdiv ((j2 : ℤ) - (2 * (m2 : ℤ) - j2)) 2 = (j2 : ℤ) - m2 := by
    have : (j2 : ℤ) - (2 * (m2 : ℤ) - j2) = 2 * ((j2 : ℤ) - m2) := by omega
    rw [this, tdiv_two_mul]
  rw [eM] at hm0 hmj
  have eH : Int.tdiv ((j : ℤ) + (2 * ((m1 : ℤ) + m2 - k) - j)) 2 = (m1 : ℤ) + m2 - k := by
    have : (j : ℤ) + (2 * ((m1 : ℤ) + m2 - k) - j) = 2 * ((m1 : ℤ) + m2 - k) := by omega
    rw [this, tdiv_two_mul]
  have eI : Int.tdiv ((j : ℤ) - (2 * ((m1 : ℤ) + m2 - k) - j)) 2
      = (j : ℤ) - ((m1 : ℤ) + m2 - k) := by
    have : (j : ℤ) - (2 * ((m1 : ℤ) + m2 - k) - j) = 2 * ((j : ℤ) - ((m1 : ℤ) + m2 - k)) := by
      omega
    rw [this, tdiv_two_mul]
  rw [mem_zloop] at hz
  simp only [cg_zlo, cg_zhi, eA, eB, eC, eD', eE'] at hz
  refine ⟨fun sum => cg_term_args factorial j1 j2 j m1 m2 sum z,
    cg_entry_args factorial deltacg sqrtK j1 j2 j m1 m2 (by rw [eM]; exact hm0)
      (by rw [eM]; exact hmj), ?_, ?_, ?_⟩
  · intro x hx
    simp only [cg_sum_args, eA, eB, eC, eD, eE, List.mem_cons, List.mem_singleton,
      List.not_mem_nil, or_false] at hx
    clear eA eB eC eD eE eD' eE' eM eF eG eH eI ht
    rcases hx with h | h | h | h | h | h <;> omega
  · intro x hx
    simp only [cg_sfac_args, eM, eF, eB, eC, eG, eH, eI, List.mem_cons, List.mem_singleton,
      List.not_mem_nil, or_false] at hx
    clear eA eB eC eD eE eD' eE' eM eF eG eH eI ht
    rcases hx with h | h | h | h | h | h <;> omega
  · intro n hn
    have hpar : n % 2 = 0 := by
      simp only [cg_numerators, eM, List.mem_cons, List.mem_singleton, List.not_mem_nil,
        or_false] at hn
      clear eA eB eC eD eE eD' eE' eM eF eG eH eI ht
      rcases hn with h | h | h | h | h | h | h | h | h | h | h | h <;> omega
    have ht := tdiv_even n hpar
    exact ⟨hpar, ht, by rw [ht]; omega⟩

end C10

theorem cg_factorial_args_witness :
    CGTriple 2 2 1 1 ∧ (1 : ℕ) ≤ 2 ∧ (1 : ℕ) ≤ 1 ∧ 0 ≤ cg_m 2 1 1 1 1 ∧
    cg_m 2 1 1 1 1 ≤ ((1 : ℕ) : ℤ) ∧ (1 : ℤ) ∈ zloop (cg_zlo 2 1 1 1 1) (cg_zhi 2 1 1 1 1) ∧
    (∀ x ∈ cg_sum_args 2 1 1 1 1 1, 0 ≤ x) :=
  ⟨⟨by decide, by decide, ⟨0, rfl⟩, by decide⟩, by decide, by decide, by decide, by decide,
    (mem_zloop _ _ _).2 ⟨by decide, by decide⟩,
    (cg_factorial_args (fun z => ((Nat.factorial z.toNat : ℕ) : ℚ)) (fun _ _ _ => 1)
      (fun x => x) 2 2 1 1 1 1 ⟨by decide, by decide, ⟨0, rfl⟩, by decide⟩ (by decide)
      (by decide) (by decide) (by decide) 1
      ((mem_zloop _ _ _).2 ⟨by decide, by decide⟩)).2.2.1⟩

section C11
variable {K : Type} [Field K]

theorem cg_term_swap (factorial : ℤ → K) (J j m1 m2 : ℕ) (h1 : m1 ≤ J) (h2 : m2 ≤ J) :
    cg_term factorial J J j (J - m2) (J - m1) = cg_term factorial J J j m1 m2 := by
  funext sum z
  have e1 : 2 * ((J - m2 : ℕ) : ℤ) - J = -(2 * (m2 : ℤ) - J) := by
    rw [Nat.cast_sub h2]; ring
  have e2 : 2 * ((J - m1 : ℕ) : ℤ) - J = -(2 * (m1 : ℤ) - J) := by
    rw [Nat.cast_sub h1]; ring
  unfold cg_term
  rw [e1, e2]
  have a1 : (J : ℤ) - -(2 * (m2 : ℤ) - J) = (J : ℤ) + (2 * (m2 : ℤ) - J) := by ring
  have a2 : (J : ℤ) + -(2 * (m1 : ℤ) - J) = (J : ℤ) - (2 * (m1 : ℤ) - J) := by ring
  have a3 : (j : ℤ) - J + -(2 * (m2 : ℤ) - J) = (j : ℤ) - J - (2 * (m2 : ℤ) - J) := by ring
  have a4 : (j : ℤ) - J - -(2 * (m1 : ℤ) - J) = (j : ℤ) - J + (2 * (m1 : ℤ) - J) := by ring
  rw [a1, a2, a3, a4]
  ring

theorem cg_zlo_swap (J j m1 m2 : ℕ) (h1 : m1 ≤ J) (h2 : m2 ≤ J) :
    cg_zlo J J j (J - m2) (J - m1) = cg_zlo J J j m1 m2 := by
  have e1 : 2 * ((J - m2 : ℕ) : ℤ) - J = -(2 * (m2 : ℤ) - J) := by
    rw [Nat.cast_sub h2]; ring
  have e2 : 2 * ((J - m1 : ℕ) : ℤ) - J = -(2 * (m1 : ℤ) - J) := by
    rw [Nat.cast_sub h1]; ring
  unfold cg_zlo
  rw [e1, e2]
  have a3 : (j : ℤ) - J + -(2 * (m2 : ℤ) - J) = (j : ℤ) - J - (2 * (m2 : ℤ) - J) := by ring
  have a4 : (j : ℤ) - J - -(2 * (m1 : ℤ) - J) = (j : ℤ) - J + (2 * (m1 : ℤ) - J) := by ring
  rw [a3, a4, max_comm (Int.tdiv _ 2) (Int.tdiv _ 2)]

theorem cg_zhi_swap (J j m1 m2 : ℕ) (h1 : m1 ≤ J) (h2 : m2 ≤ J) :
    cg_zhi J J j (J - m2) (J - m1) = cg_zhi J J j m1 m2 := by
  have e1 : 2 * ((J - m2 : ℕ) : ℤ) - J = -(2 * (m2 : ℤ) - J) := by
    rw [Nat.cast_sub h2]; ring
  have e2 : 2 * ((J - m1 : ℕ) : ℤ) - J = -(2 * (m1 : ℤ) - J) := by
    rw [Nat.cast_sub h1]; ring
  unfold cg_zhi
  rw [e1, e2]
  have a1 : (J : ℤ) - -(2 * (m2 : ℤ) - J) = (J : ℤ) + (2 * (m2 : ℤ) - J) := by ring
  have a2 : (J : ℤ) + -(2 * (m1 : ℤ) - J) = (J : ℤ) - (2 * (m1 : ℤ) - J) := by ring
  rw [a1, a2, min_comm (Int.tdiv ((J : ℤ) + (2 * (m2 : ℤ) - J)) 2)]

theorem cg_m_even (J k m1 m2 : ℕ) :
    cg_m J J (2 * k) m1 m2 = (m1 : ℤ) + m2 - J + k := by
  unfold cg_m
  have : (2 * (m1 : ℤ) - J) + (2 * (m2 : ℤ) - J) + ((2 * k : ℕ) : ℤ)
      = 2 * ((m1 : ℤ) + m2 - J + k) := by push_cast; ring
  rw [this, tdiv_two_mul]

theorem cg_m_swap (J k m1 m2 : ℕ) (h1 : m1 ≤ J) (h2 : m2 ≤ J) :
    cg_m J J (2 * k) (J - m2) (J - m1) = ((2 * k : ℕ) : ℤ) - cg_m J J (2 * k) m1 m2 := by
  rw [cg_m_even, cg_m_even, Nat.cast_sub h1, Nat.cast_sub h2]
  push_cast
  ring

theorem cg_entry_swap (factorial : ℤ → K) (deltacg : ℕ → ℕ → ℕ → K) (sqrtK : K → K)
    (J k m1 m2 : ℕ) (h1 : m1 ≤ J) (h2 : m2 ≤ J) :
    cg_entry factorial deltacg sqrtK J J (2 * k) (J - m2) (J - m1)
      = cg_entry factorial deltacg sqrtK J J (2 * k) m1 m2 := by
  have e1 : 2 * ((J - m2 : ℕ) : ℤ) - J = -(2 * (m2 : ℤ) - J) := by
    rw [Nat.cast_sub h2]; ring
  have e2 : 2 * ((J - m1 : ℕ) : ℤ) - J = -(2 * (m1 : ℤ) - J) := by
    rw [Nat.cast_sub h1]; ring
  have hm := cg_m_swap J k m1 m2 h1 h2
  unfold cg_entry
  simp only [cg_term_swap factorial J (2 * k) m1 m2 h1 h2, cg_zlo_swap J (2 * k) m1 m2 h1 h2,
    cg_zhi_swap J (2 * k) m1 m2 h1 h2, hm, e1, e2]
  by_cases hc : cg_m J J (2 * k) m1 m2 < 0 ∨ cg_m J J (2 * k) m1 m2 > ((2 * k : ℕ) : ℤ)
  · have hc' : ((2 * k : ℕ) : ℤ) - cg_m J J (2 * k) m1 m2 < 0 ∨
        ((2 * k : ℕ) : ℤ) - cg_m J J (2 * k) m1 m2 > ((2 * k : ℕ) : ℤ) := by
      rcases hc with h | h
      · right; omega
      · left; omega
    rw [if_pos hc, if_pos hc']
  · have hc' : ¬ (((2 * k : ℕ) : ℤ) - cg_m J J (2 * k) m1 m2 < 0 ∨
        ((2 * k : ℕ) : ℤ) - cg_m J J (2 * k) m1 m2 > ((2 * k : ℕ) : ℤ)) := by
      intro h
      apply hc
      rcases h with h | h
      · right; omega
      · left; omega
    rw [if_neg hc, if_neg hc']
    have a1 : (J : ℤ) - -(2 * (m2 : ℤ) - J) = (J : ℤ) + (2 * (m2 : ℤ) - J) := by ring
    have a2 : (J : ℤ) + -(2 * (m1 : ℤ) - J) = (J : ℤ) - (2 * (m1 : ℤ) - J) := by ring
    have a3 : (J : ℤ) + -(2 * (m2 : ℤ) - J) = (J : ℤ) - (2 * (m2 : ℤ) - J) := by ring
    have a4 : (J : ℤ) - -(2 * (m1 : ℤ) - J) = (J : ℤ) + (2 * (m1 : ℤ) - J) := by ring
    have a5 : ((2 * k : ℕ) : ℤ) + (2 * (((2 * k : ℕ) : ℤ) - cg_m J J (2 * k) m1 m2) - ((2 * k : ℕ) : ℤ))
        = ((2 * k : ℕ) : ℤ) - (2 * cg_m J J (2 * k) m1 m2 - ((2 * k : ℕ) : ℤ)) := by ring
    have a6 : ((2 * k : ℕ) : ℤ) - (2 * (((2 * k : ℕ) : ℤ) - cg_m J J (2 * k) m1 m2) - ((2 * k : ℕ) : ℤ))
        = ((2 * k : ℕ) : ℤ) + (2 * cg_m J J (2 * k) m1 m2 - ((2 * k : ℕ) : ℤ)) := by ring
    rw [a1, a2, a3, a4, a5, a6]
    congr 1
    congr 1
    ring

theorem cg_entry_prefactor (factorial : ℤ → K) (deltacg : ℕ → ℕ → ℕ → K) (sqrtK : K → K)
    (j1 j2 j m1 m2 : ℕ) :
    cg_entry factorial deltacg sqrtK j1 j2 j m1 m2
      = deltacg j1 j2 j * cg_entry factorial (fun _ _ _ => 1) sqrtK j1 j2 j m1 m2 := by
  unfold cg_entry
  by_cases hc : cg_m j1 j2 j m1 m2 < 0 ∨ cg_m j1 j2 j m1 m2 > (j : ℤ)
  · simp only [if_pos hc, mul_zero]
  · simp only [if_neg hc]
    ring

/-- C11. For the Clebsch-Gordan table built by the fill loop, whatever `factorial`,
`deltacg` and `sqrt` are (the true factorial in exact real arithmetic included): there is
a sign `sgn` with values in `{+1, -1}`, a function of the parity of `(j1+j2-j)/2` only,
such that for every stored block with `j1 = j2 = J` and every `m1, m2 ≤ J` the entry at
`(m1, m2)` is `sgn` times the entry at `(J - m2, J - m1)`; and both entries are
`deltacg(J, J, j)` times the entry of the table built with prefactor 1.  The sign found
is `+1` for either parity. -/
theorem cg_swap_negate (factorial : ℤ → K) (deltacg : ℕ → ℕ → ℕ → K) (sqrtK : K → K)
    (twojmax : ℕ) (bmem : ℕ → ℕ) (cmem : ℕ → K) :
    ∃ sgn : ℕ → K, (∀ p, sgn p = 1 ∨ sgn p = -1) ∧
      ∀ J j m1 m2, CGTriple twojmax J J j → m1 ≤ J → m2 ≤ J →
        (cg_fill factorial deltacg sqrtK twojmax cmem).cglist
            (cgpos twojmax (idxcg_fill twojmax bmem).idxcg_block J J j m1 m2)
          = sgn (((J + J - j) / 2) % 2) *
            (cg_fill factorial deltacg sqrtK twojmax cmem).cglist
              (cgpos twojmax (idxcg_fill twojmax bmem).idxcg_block J J j (J - m2) (J - m1)) ∧
        (cg_fill factorial deltacg sqrtK twojmax cmem).cglist
            (cgpos twojmax (idxcg_fill twojmax bmem).idxcg_block J J j m1 m2)
          = deltacg J J j *
            (cg_fill factorial (fun _ _ _ => 1) sqrtK twojmax cmem).cglist
              (cgpos twojmax (idxcg_fill twojmax bmem).idxcg_block J J j m1 m2) ∧
        (cg_fill factorial deltacg sqrtK twojmax cmem).cglist
            (cgpos twojmax (idxcg_fill twojmax bmem).idxcg_block J J j (J - m2) (J - m1))
          = deltacg J J j *
            (cg_fill factorial (fun _ _ _ => 1) sqrtK twojmax cmem).cglist
              (cgpos twojmax (idxcg_fill twojmax bmem).idxcg_block J J j (J - m2) (J - m1)) := by
  refine ⟨fun _ => 1, fun _ => Or.inl rfl, ?_⟩
  intro J j m1 m2 ht h1 h2
  have hmem := cgtriple_iff.1 ht
  obtain ⟨_, _, ⟨k, hk⟩, _⟩ := ht
  have hj : j = 2 * k := by omega
  have hA := (cg_at factorial deltacg sqrtK twojmax bmem cmem J J j m1 m2 hmem h1 h2).2
  have hB := (cg_at factorial deltacg sqrtK twojmax bmem cmem J J j (J - m2) (J - m1) hmem
    (Nat.sub_le _ _) (Nat.sub_le _ _)).2
  have hA1 := (cg_at factorial (fun _ _ _ => 1) sqrtK twojmax bmem cmem J J j m1 m2 hmem h1 h2).2
  have hB1 := (cg_at factorial (fun _ _ _ => 1) sqrtK twojmax bmem cmem J J j (J - m2) (J - m1)
    hmem (Nat.sub_le _ _) (Nat.sub_le _ _)).2
  refine ⟨?_, ?_, ?_⟩
  · rw [hA, hB, one_mul, hj, cg_entry_swap factorial deltacg sqrtK J k m1 m2 h1 h2]
  · rw [hA, hA1]
    exact cg_entry_prefactor factorial deltacg sqrtK J J j m1 m2
  · rw [hB, hB1]
    exact cg_entry_prefactor factorial deltacg sqrtK J J j (J - m2) (J - m1)

end C11

theorem cg_swap_negate_witness :
    ∃ sgn : ℕ → ℚ, (∀ p, sgn p = 1 ∨ sgn p = -1) ∧
      CGTriple 2 1 1 2 ∧ (0 : ℕ) ≤ 1 ∧ (0 : ℕ) ≤ 1 ∧
      cgpos 2 (idxcg_fill 2 (fun _ => 0)).idxcg_block 1 1 2 0 0
        ≠ cgpos 2 (idxcg_fill 2 (fun _ => 0)).idxcg_block 1 1 2 (1 - 0) (1 - 0) ∧
      (cg_fill (fun z => ((Nat.factorial z.toNat : ℕ) : ℚ)) (fun _ _ _ => 1) (fun x => x) 2
          (fun _ => 5)).cglist (cgpos 2 (idxcg_fill 2 (fun _ => 0)).idxcg_block 1 1 2 0 0) = 6 ∧
      (cg_fill (fun z => ((Nat.factorial z.toNat : ℕ) : ℚ)) (fun _ _ _ => 1) (fun x => x) 2
          (fun _ => 5)).cglist (cgpos 2 (idxcg_fill 2 (fun _ => 0)).idxcg_block 1 1 2 0 0)
        = sgn (((1 + 1 - 2) / 2) % 2) *
          (cg_fill (fun z => ((Nat.factorial z.toNat : ℕ) : ℚ)) (fun _ _ _ => 1) (fun x => x) 2
            (fun _ => 5)).cglist
            (cgpos 2 (idxcg_fill 2 (fun _ => 0)).idxcg_block 1 1 2 (1 - 0) (1 - 0)) := by
  have ht : CGTriple 2 1 1 2 := ⟨by decide, by decide, ⟨1, rfl⟩, by decide⟩
  have hval : cg_entry (fun z => ((Nat.factorial z.toNat : ℕ) : ℚ)) (fun _ _ _ => 1)
      (fun x => x) 1 1 2 0 0 = 6 := by
    have hm : cg_m 1 1 2 0 0 = 0 := by decide
    have hlo : cg_zlo 1 1 2 0 0 = 0 := by decide
    have hhi : cg_zhi 1 1 2 0 0 = 0 := by decide
    have hz : zloop 0 0 = [0] := by decide
    unfold cg_entry
    simp only [hm, hlo, hhi, hz, List.foldl_cons, List.foldl_nil, cg_term]
    norm_num [Int.tdiv, Nat.factorial]
  have hcell := (cg_at (fun z => ((Nat.factorial z.toNat : ℕ) : ℚ)) (fun _ _ _ => 1)
    (fun x => x) 2 (fun _ => 0) (fun _ => 5) 1 1 2 0 0 (cgtriple_iff.1 ht) (by decide)
    (by decide)).2
  obtain ⟨sgn, hs, h⟩ := cg_swap_negate (fun z => ((Nat.factorial z.toNat : ℕ) : ℚ))
    (fun _ _ _ => 1) (fun x => x) 2 (fun _ => 0) (fun _ => 5)
  exact ⟨sgn, hs, ht, by decide, by decide, by decide, hcell.trans hval,
    (h 1 2 0 0 ht (by decide) (by decide)).1⟩

/-! ## Number of coefficient triples -/

theorem foldl_count_if {ι : Type} (p : ι → Prop) [DecidablePred p] (l : List ι) (c : ℕ) :
    l.foldl (fun cnt t => if p t then cnt + 1 else cnt) c
      = c + (l.filter (fun t => decide (p t))).length := by
  induction l generalizing c with
  | nil => rfl
  | cons a l ih =>
    rw [List.foldl_cons, ih]
    by_cases h : p a
    · simp [h]; omega
    · simp [h]

/-- The triples counted by `idxb_max`, as a finite set. -/
theorem idxb_max_card (n : ℕ) :
    idxb_max n = ((Finset.range (n + 1) ×ˢ Finset.range (n + 1) ×ˢ Finset.range (n + 1)).filter
      (fun t : ℕ × ℕ × ℕ => t.2.1 ≤ t.1 ∧ t.1 ≤ t.2.2 ∧ t.2.2 ≤ t.1 + t.2.1 ∧
        (t.1 + t.2.1 + t.2.2) % 2 = 0)).card := by
  unfold idxb_max
  rw [foldl_count_if (fun t : ℕ × ℕ × ℕ => t.2.2 ≥ t.1), Nat.zero_add,
    ← List.toFinset_card_of_nodup (List.Nodup.filter _ (nodup_triples n))]
  congr 1
  ext ⟨j1, j2, j⟩
  simp only [List.mem_toFinset, List.mem_filter, decide_eq_true_eq, Finset.mem_filter,
    Finset.mem_product, Finset.mem_range, mem_triples, mem_jloop]
  omega

theorem two_mul_sum_succ (m : ℕ) : 2 * ∑ i ∈ Finset.range m, (i + 1) = m * (m + 1) := by
  induction m with
  | zero => simp
  | succ m ih => rw [Finset.sum_range_succ, Nat.mul_add, ih]; ring

theorem idxb_max_sum (n : ℕ) :
    idxb_max n = ∑ j ∈ Finset.range (n + 1), ∑ i ∈ Finset.range (j / 2 + 1), (i + 1) := by
  rw [idxb_max_card]
  have hc : ((Finset.range (n + 1)).sigma
      (fun j => (Finset.range (j / 2 + 1)).sigma (fun i => Finset.range (i + 1)))).card
      = ∑ j ∈ Finset.range (n + 1), ∑ i ∈ Finset.range (j / 2 + 1), (i + 1) := by
    simp only [Finset.card_sigma, Finset.card_range]
  rw [← hc]
  symm
  refine Finset.card_bij
    (fun (a : (_ : ℕ) × (_ : ℕ) × ℕ) _ =>
      ((a.1 + 1) / 2 + a.2.1, a.1 / 2 - a.2.1 + 2 * a.2.2, a.1)) ?_ ?_ ?_
  · rintro ⟨j, i, k⟩ h
    simp only [Finset.mem_sigma, Finset.mem_range] at h
    simp only [Finset.mem_filter, Finset.mem_product, Finset.mem_range]
    rcases Nat.even_or_odd' j with ⟨a, rfl | rfl⟩
    · have e1 : (2 * a + 1) / 2 = a := by omega
      have e2 : 2 * a / 2 = a := by omega
      rw [e1, e2] at *
      have e3 : a + i + (a - i + 2 * k) + 2 * a = 2 * (2 * a + k) := by omega
      rw [e3]
      omega
    · have e1 : (2 * a + 1 + 1) / 2 = a + 1 := by omega
      have e2 : (2 * a + 1) / 2 = a := by omega
      rw [e1, e2] at *
      have e3 : a + 1 + i + (a - i + 2 * k) + (2 * a + 1) = 2 * (2 * a + k + 1) := by omega
      rw [e3]
      omega
  · rintro ⟨j, i, k⟩ h ⟨j', i', k'⟩ h' e
    simp only [Finset.mem_sigma, Finset.mem_range] at h h'
    simp only [Prod.mk.injEq] at e
    obtain ⟨e1, e2, e3⟩ := e
    subst e3
    have : i = i' := by omega
    subst this
    have : k = k' := by omega
    subst this
    rfl
  · rintro ⟨j1, j2, j⟩ h
    simp only [Finset.mem_filter, Finset.mem_product, Finset.mem_range] at h
    obtain ⟨⟨h1, h2, h3⟩, h4, h5, h6, h7⟩ := h
    obtain ⟨q, hq⟩ : ∃ q, j1 + j2 + j = 2 * q := ⟨(j1 + j2 + j) / 2, by omega⟩
    refine ⟨⟨j, j1 - (j + 1) / 2, (j2 - (j - j1)) / 2⟩, ?_, ?_⟩
    · simp only [Finset.mem_sigma, Finset.mem_range]
      rcases Nat.even_or_odd' j with ⟨a, rfl | rfl⟩
      · have e1 : (2 * a + 1) / 2 = a := by omega
        have e2 : 2 * a / 2 = a := by omega
        have e3 : (j2 - (2 * a - j1)) / 2 = q - 2 * a := by omega
        rw [e1, e2, e3]
        omega
      · have e1 : (2 * a + 1 + 1) / 2 = a + 1 := by omega
        have e2 : (2 * a + 1) / 2 = a := by omega
        have e3 : (j2 - (2 * a + 1 - j1)) / 2 = q - (2 * a + 1) := by omega
        rw [e1, e2, e3]
        omega
    · simp only [Prod.mk.injEq]
      rcases Nat.even_or_odd' j with ⟨a, rfl | rfl⟩
      · have e1 : (2 * a + 1) / 2 = a := by omega
        have e2 : 2 * a / 2 = a := by omega
        have e3 : (j2 - (2 * a - j1)) / 2 = q - 2 * a := by omega
        rw [e1, e2, e3]
        exact ⟨by omega, by omega, trivial⟩
      · have e1 : (2 * a + 1 + 1) / 2 = a + 1 := by omega
        have e2 : (2 * a + 1) / 2 = a := by omega
        have e3 : (j2 - (2 * a + 1 - j1)) / 2 = q - (2 * a + 1) := by omega
        rw [e1, e2, e3]
        exact ⟨by omega, by omega, trivial⟩

theorem six_mul_idxb_max (J : ℕ) :
    6 * idxb_max (2 * J) = (J + 1) * (J + 2) * (2 * J + 3) := by
  rw [idxb_max_sum]
  induction J with
  | zero => simp
  | succ J ih =>
    have e : 2 * (J + 1) + 1 = (2 * J + 1) + 1 + 1 := by ring
    rw [e, Finset.sum_range_succ, Finset.sum_range_succ, Nat.mul_add, Nat.mul_add, ih]
    have a1 : (2 * J + 1) / 2 + 1 = J + 1 := by omega
    have a2 : (2 * J + 1 + 1) / 2 + 1 = J + 2 := by omega
    rw [a1, a2]
    have t1 := two_mul_sum_succ (J + 1)
    have t2 := two_mul_sum_succ (J + 2)
    have s1 : 6 * ∑ i ∈ Finset.range (J + 1), (i + 1) = 3 * ((J + 1) * (J + 1 + 1)) := by
      rw [← t1]; ring
    have s2 : 6 * ∑ i ∈ Finset.range (J + 2), (i + 1) = 3 * ((J + 2) * (J + 2 + 1)) := by
      rw [← t2]; ring
    rw [s1, s2]
    ring

/-- C12. The count `idxb_max` of the loop is the number of triples with
`0 ≤ j2 ≤ j1 ≤ j ≤ twojmax`, `j ≤ j1 + j2`, `j` at an even distance from `j1 - j2`; for
every even `twojmax = 2J` it equals `(J+1)(J+2)(2J+3)/6`; it is 1, 5, 14, 55 and 204 for
`twojmax` = 0, 2, 4, 8 and 14. -/
theorem idxb_max_closed_form :
    (∀ n, idxb_max n
      = ((Finset.range (n + 1) ×ˢ Finset.range (n + 1) ×ˢ Finset.range (n + 1)).filter
          (fun t : ℕ × ℕ × ℕ => t.2.1 ≤ t.1 ∧ t.1 ≤ t.2.2 ∧ t.2.2 ≤ t.1 + t.2.1 ∧
            (t.1 + t.2.1 + t.2.2) % 2 = 0)).card) ∧
    (∀ J, idxb_max (2 * J) = (J + 1) * (J + 2) * (2 * J + 3) / 6) ∧
    idxb_max 0 = 1 ∧ idxb_max 2 = 5 ∧ idxb_max 4 = 14 ∧ idxb_max 8 = 55 ∧
      idxb_max 14 = 204 := by
  have h : ∀ J, idxb_max (2 * J) = (J + 1) * (J + 2) * (2 * J + 3) / 6 := by
    intro J
    have := six_mul_idxb_max J
    omega
  exact ⟨idxb_max_card, h, h 0, h 1, h 2, h 4, h 7⟩

/-! ## The tables of `twojmax = 0` -/

theorem triples_zero : triples 0 = [(0, 0, 0)] := by decide

section C13
variable {K : Type} [Field K]

/-- C13. For `twojmax = 0`: `idxu_max`, `idxdu_max`, `idxcg_max`, `idxb_max` and
`idxz_max` are 1 (and the fill loops end with their counters at 1); each block-offset
table maps the triple `(0, 0, 0)`, of flat key 0, to offset 0; the single `idxb` record is
`(0, 0, 0)`; the single Z-list record has `j1 = j2 = j = 0` and `na = nb = 1`; the single
parity entry is `+1`. -/
theorem tables_twojmax_zero (umem dumem cgmem : ℕ → ℕ) (parmem : ℕ → ℤ)
    (bmem : ℕ → ℤ) (blmem : ℕ → ℤ × ℤ × ℤ) (beta : ℤ → K) (zmem : ZTables K) :
    (idxu_fill 0 umem).idxu_count = 1 ∧ (idxdu_fill 0 dumem).idxdu_count = 1 ∧
    (idxcg_fill 0 cgmem).idxcg_count = 1 ∧ idxb_max 0 = 1 ∧ idxz_max 0 = 1 ∧
    (idxb_fill 0 blmem).idxb_count = 1 ∧ (idxb_block_fill 0 bmem).idxb_count = 1 ∧
    (zfill 0 (idxb_block_fill 0 bmem).idxb_block beta zmem).idxz_count = 1 ∧
    (idxu_fill 0 umem).idxu_block 0 = 0 ∧ (idxdu_fill 0 dumem).idxdu_block 0 = 0 ∧
    (idxcg_fill 0 cgmem).idxcg_block (0 + 0 * (0 + 1) + (0 + 1) * (0 + 1) * 0) = 0 ∧
    (idxb_block_fill 0 bmem).idxb_block (0 * (0 + 1) * (0 + 1) + 0 * (0 + 1) + 0) = 0 ∧
    (zfill 0 (idxb_block_fill 0 bmem).idxb_block beta zmem).idxz_block
      (0 * (0 + 1) * (0 + 1) + 0 * (0 + 1) + 0) = 0 ∧
    (idxb_fill 0 blmem).idxb 0 = (0, 0, 0) ∧
    (zfill 0 (idxb_block_fill 0 bmem).idxb_block beta zmem).idxz 0 0 = 0 ∧
    (zfill 0 (idxb_block_fill 0 bmem).idxb_block beta zmem).idxz 0 1 = 0 ∧
    (zfill 0 (idxb_block_fill 0 bmem).idxb_block beta zmem).idxz 0 2 = 0 ∧
    (zfill 0 (idxb_block_fill 0 bmem).idxb_block beta zmem).idxz 0 5 = 1 ∧
    (zfill 0 (idxb_block_fill 0 bmem).idxb_block beta zmem).idxz 0 8 = 1 ∧
    ulist_parity_fill 0 parmem 0 = 1 := by
  refine ⟨?_, ?_, ?_, ?_, ?_, ?_, ?_, ?_, ?_, ?_, ?_, ?_, ?_, ?_, ?_, ?_, ?_, ?_, ?_, ?_⟩
  · simp [idxu_fill, idxu_step, maloop, List.range_succ]
  · simp [idxdu_fill, idxdu_step, maloop, mbloop, List.range_succ]
  · simp [idxcg_fill, idxcg_step, triples_zero, maloop, List.range_succ]
  · simp [idxb_max, triples_zero]
  · simp [idxz_max, triples_zero, maloop, mbloop, List.range_succ]
  · simp [idxb_fill, idxb_step, triples_zero]
  · simp [idxb_block_fill, idxb_block_step, triples_zero]
  · simp [zfill, zfill_triple, zfill_entry, triples_zero, maloop, mbloop, List.range_succ]
  · simp [idxu_fill, idxu_step, maloop, List.range_succ]
  · simp [idxdu_fill, idxdu_step, maloop, mbloop, List.range_succ]
  · simp [idxcg_fill, idxcg_step, triples_zero, maloop, List.range_succ]
  · simp [idxb_block_fill, idxb_block_step, triples_zero]
  · simp [zfill, zfill_triple, zfill_entry, triples_zero, maloop, mbloop, List.range_succ]
  · simp [idxb_fill, idxb_step, triples_zero]
  · simp [zfill, zfill_triple, zfill_entry, triples_zero, maloop, mbloop, List.range_succ, set2]
  · simp [zfill, zfill_triple, zfill_entry, triples_zero, maloop, mbloop, List.range_succ, set2]
  · simp [zfill, zfill_triple, zfill_entry, triples_zero, maloop, mbloop, List.range_succ, set2]
  · simp [zfill, zfill_triple, zfill_entry, triples_zero, maloop, mbloop, List.range_succ, set2,
      zmin]
  · simp [zfill, zfill_triple, zfill_entry, triples_zero, maloop, mbloop, List.range_succ, set2,
      zmin]
  · simp [ulist_parity_fill, parity_j, parity_mb, parity_ma, maloop, List.range_succ]

end C13

/-! ## Utot initialisation -/

section C14
variable {K : Type} [Field K]

theorem set_ulisttot_iter_spec (idxu_block : ℕ → ℕ) (u : ℕ → Cplx K) (j n : ℕ) :
    (set_ulisttot_iter idxu_block u j n).jju = idxu_block j + n * (j + 2) ∧
    ∀ x, (set_ulisttot_iter idxu_block u j n).ulisttot x
      = if ∃ k, k < n ∧ x = idxu_block j + k * (j + 2) then { re := wself K, im := 0 }
        else u x := by
  induction n with
  | zero =>
    refine ⟨by simp [set_ulisttot_iter], ?_⟩
    intro x
    simp [set_ulisttot_iter]
  | succ n ih =>
    obtain ⟨h1, h2⟩ := ih
    unfold set_ulisttot_iter at h1 h2 ⊢
    rw [List.range_succ, List.foldl_append, List.foldl_cons, List.foldl_nil]
    generalize (List.range n).foldl (fun s _ => set_ulisttot_body j s)
      ({ ulisttot := u, jju := idxu_block j } : USet K) = sn at h1 h2 ⊢
    refine ⟨?_, ?_⟩
    · simp only [set_ulisttot_body, h1]
      ring
    · intro x
      simp only [set_ulisttot_body, Function.update_apply, h1, h2]
      by_cases hx : x = idxu_block j + n * (j + 2)
      · rw [if_pos hx, if_pos ⟨n, Nat.lt_succ_self n, hx⟩]
      · rw [if_neg hx]
        by_cases hk : ∃ k, k < n ∧ x = idxu_block j + k * (j + 2)
        · obtain ⟨k, hk1, hk2⟩ := hk
          rw [if_pos ⟨k, hk1, hk2⟩, if_pos ⟨k, by omega, hk2⟩]
        · rw [if_neg hk, if_neg]
          rintro ⟨k, hk1, hk2⟩
          by_cases hkn : k = n
          · subst hkn; exact hx hk2
          · exact hk ⟨k, by omega, hk2⟩

theorem set_ulisttot_levels (idxu_block : ℕ → ℕ) (u : ℕ → Cplx K) (n : ℕ) (x : ℕ) :
    ((∃ j k, j < n ∧ k ≤ j ∧ x = idxu_block j + k * (j + 2)) →
      (List.range n).foldl (set_ulisttot_level idxu_block) u x = { re := wself K, im := 0 }) ∧
    ((¬ ∃ j k, j < n ∧ k ≤ j ∧ x = idxu_block j + k * (j + 2)) →
      (List.range n).foldl (set_ulisttot_level idxu_block) u x = u x) := by
  induction n with
  | zero =>
    refine ⟨?_, fun _ => rfl⟩
    rintro ⟨j, k, hj, _⟩
    omega
  | succ n ih =>
    rw [List.range_succ, List.foldl_append, List.foldl_cons, List.foldl_nil]
    generalize (List.range n).foldl (set_ulisttot_level idxu_block) u = un at ih ⊢
    unfold set_ulisttot_level
    rw [(set_ulisttot_iter_spec idxu_block un n (n + 1)).2 x]
    by_cases hx : ∃ k, k < n + 1 ∧ x = idxu_block n + k * (n + 2)
    · rw [if_pos hx]
      refine ⟨fun _ => rfl, ?_⟩
      intro hn
      obtain ⟨k, hk1, hk2⟩ := hx
      exact absurd ⟨n, k, by omega, by omega, hk2⟩ hn
    · rw [if_neg hx]
      refine ⟨?_, ?_⟩
      · rintro ⟨j, k, hj, hk1, hk2⟩
        by_cases hjn : j = n
        · subst hjn; exact absurd ⟨k, by omega, hk2⟩ hx
        · exact ih.1 ⟨j, k, by omega, hk1, hk2⟩
      · intro hn
        apply ih.2
        rintro ⟨j, k, hj, hk1, hk2⟩
        exact hn ⟨j, k, by omega, hk1, hk2⟩

theorem uoff_cell_inj (j j' q q' : ℕ) (hq : q < (j + 1) * (j + 1))
    (hq' : q' < (j' + 1) * (j' + 1)) (h : uoff j + q = uoff j' + q') :
    j = j' ∧ q = q' := by
  rcases Nat.lt_trichotomy j j' with hlt | heq | hgt
  · have := uoff_mono (show j + 1 ≤ j' by omega)
    rw [uoff_succ] at this
    omega
  · subst heq
    exact ⟨rfl, by omega⟩
  · have := uoff_mono (show j' + 1 ≤ j by omega)
    rw [uoff_succ] at this
    omega

theorem cell_lt_sq (j mb ma : ℕ) (hmb : mb ≤ j) (hma : ma ≤ j) :
    mb * (j + 1) + ma < (j + 1) * (j + 1) := by
  have : (mb + 1) * (j + 1) ≤ (j + 1) * (j + 1) := Nat.mul_le_mul_right _ (by omega)
  have e : (mb + 1) * (j + 1) = mb * (j + 1) + (j + 1) := by ring
  omega

/-- Value of Utot after `reset_ulisttot` and `set_ulisttot` at the cell `(j, mb, ma)`. -/
theorem init_ulisttot_cell (twojmax : ℕ) (umem : ℕ → ℕ) (u : ℕ → Cplx K) (j mb ma : ℕ)
    (hj : j ≤ twojmax) (hmb : mb ≤ j) (hma : ma ≤ j) :
    init_ulisttot twojmax umem u (uoff j + mb * (j + 1) + ma)
      = if ma = mb then { re := 1, im := 0 } else { re := 0, im := 0 } := by
  unfold init_ulisttot set_ulisttot
  have hlt := uoff_cell_lt j mb ma hmb hma
  have hmono := uoff_mono (show j + 1 ≤ twojmax + 1 by omega)
  by_cases hd : ma = mb
  · subst hd
    rw [if_pos rfl, (set_ulisttot_levels _ _ _ _).1]
    · rfl
    · refine ⟨j, ma, by omega, hma, ?_⟩
      rw [idxu_fill_block twojmax umem j hj]
      ring
  · rw [if_neg hd, (set_ulisttot_levels _ _ _ _).2]
    · unfold reset_ulisttot
      rw [idxu_fill_count, if_pos (by omega)]
    · rintro ⟨j', k, hj', hk, he⟩
      rw [idxu_fill_block twojmax umem j' (by omega)] at he
      have e1 : uoff j + (mb * (j + 1) + ma) = uoff j' + (k * (j' + 1) + k) := by
        rw [← Nat.add_assoc, he]; ring
      obtain ⟨rfl, e2⟩ := uoff_cell_inj j j' _ _ (cell_lt_sq j mb ma hmb hma)
        (cell_lt_sq j' k k hk hk) e1
      obtain ⟨e3, e4⟩ := digits_eq (j + 1) mb ma k k (by omega) (by omega) e2
      exact hd (e4.trans e3.symm)

/-- C14. After `reset_ulisttot` and `set_ulisttot`, with the index table of `main`: for
every level `j ≤ twojmax` and `mb, ma ≤ j` the Utot cell at
`idxu_block[j] + mb*(j+1) + ma` is `wself + 0i = 1` when `ma = mb` and `0` otherwise; at
iteration `ma ≤ j` of level `j` the cursor `jju` is `idxu_block[j] + ma*(j+2)`, the
diagonal cell `(ma, ma)`, inside the block `[idxu_block[j], idxu_block[j] + (j+1)^2)` of
the level, and these are the only cells the level writes. -/
theorem set_ulisttot_diagonal (twojmax : ℕ) (umem : ℕ → ℕ) (u : ℕ → Cplx K) (j : ℕ)
    (hj : j ≤ twojmax) :
    (∀ mb ma, mb ≤ j → ma ≤ j →
      init_ulisttot twojmax umem u ((idxu_fill twojmax umem).idxu_block j + mb * (j + 1) + ma)
        = if ma = mb then { re := wself K, im := 0 } else { re := 0, im := 0 }) ∧
    (∀ ma, ma ≤ j →
      (set_ulisttot_iter (idxu_fill twojmax umem).idxu_block u j ma).jju
          = (idxu_fill twojmax umem).idxu_block j + ma * (j + 2) ∧
      (set_ulisttot_iter (idxu_fill twojmax umem).idxu_block u j ma).jju
          = (idxu_fill twojmax umem).idxu_block j + ma * (j + 1) + ma ∧
      (idxu_fill twojmax umem).idxu_block j
          ≤ (set_ulisttot_iter (idxu_fill twojmax umem).idxu_block u j ma).jju ∧
      (set_ulisttot_iter (idxu_fill twojmax umem).idxu_block u j ma).jju
          < (idxu_fill twojmax umem).idxu_block j + (j + 1) * (j + 1)) ∧
    (∀ x, (¬ ∃ ma, ma ≤ j ∧ x = (idxu_fill twojmax umem).idxu_block j + ma * (j + 2)) →
      set_ulisttot_level (idxu_fill twojmax umem).idxu_block u j x = u x) := by
  refine ⟨?_, ?_, ?_⟩
  · intro mb ma hmb hma
    rw [idxu_fill_block twojmax umem j hj]
    exact init_ulisttot_cell twojmax umem u j mb ma hj hmb hma
  · intro ma hma
    have h := (set_ulisttot_iter_spec (idxu_fill twojmax umem).idxu_block u j ma).1
    have hc := cell_lt_sq j ma ma hma hma
    have e : ma * (j + 2) = ma * (j + 1) + ma := by ring
    rw [h]
    refine ⟨rfl, by omega, by omega, by omega⟩
  · intro x hx
    unfold set_ulisttot_level
    rw [(set_ulisttot_iter_spec (idxu_fill twojmax umem).idxu_block u j (j + 1)).2 x, if_neg]
    rintro ⟨k, hk1, hk2⟩
    exact hx ⟨k, by omega, hk2⟩

end C14

theorem set_ulisttot_diagonal_witness :
    (2 : ℕ) ≤ 2 ∧
    init_ulisttot 2 (fun _ => 0) (fun _ => ({ re := 7, im := 7 } : Cplx ℚ))
        ((idxu_fill 2 (fun _ => 0)).idxu_block 2 + 1 * (2 + 1) + 1)
      = (if 1 = 1 then { re := wself ℚ, im := 0 } else { re := 0, im := 0 }) :=
  ⟨by decide, (set_ulisttot_diagonal 2 (fun _ => 0) (fun _ => ({ re := 7, im := 7 } : Cplx ℚ)) 2
    (by decide)).1 1 1 (by decide) (by decide)⟩

/-! ## Index ranges of `compute_yi` -/

theorem zn_eq (j1 j2 j m k : ℕ) (hk : j1 + j2 = j + 2 * k) :
    zn j1 j2 j m = min (j1 : ℤ) ((m : ℤ) + k) - zmin j1 j2 j m + 1 := by
  unfold zn
  have : 2 * (m : ℤ) - j + j2 + j1 = 2 * ((m : ℤ) + k) := by
    have : (j1 : ℤ) + j2 = j + 2 * k := by exact_mod_cast hk
    omega
  rw [this, tdiv_two_mul]

/-- Inside the window of a record, `zmin + i` is a column of level `j1` and `zmax - i` a
column of level `j2`. -/
theorem zwindow (j1 j2 j m k : ℕ) (hk : j1 + j2 = j + 2 * k) (i : ℕ)
    (hi : (i : ℤ) < zn j1 j2 j m) :
    0 ≤ zmin j1 j2 j m + i ∧ zmin j1 j2 j m + i ≤ j1 ∧
      0 ≤ zmax j1 j2 j m - i ∧ zmax j1 j2 j m - i ≤ j2 := by
  rw [zn_eq j1 j2 j m k hk] at hi
  rw [zmax_eq j1 j2 j m k hk]
  rw [zmin_eq j1 j2 j m k hk] at hi ⊢
  omega

theorem cell_bounds_int (a b r c : ℤ) (hr0 : 0 ≤ r) (hr : r ≤ a) (hc0 : 0 ≤ c) (hc : c ≤ b) :
    0 ≤ r * (b + 1) + c ∧ r * (b + 1) + c < (a + 1) * (b + 1) := by
  constructor
  · nlinarith
  · nlinarith

section YCursors
variable {K : Type} [Field K]

theorem yi_ztmp_at (cgblock : ℤ → K) (idxu_block : ℤ → ℤ) (ulisttot : ℤ → Cplx K)
    (rec : ℕ → ℤ) :
    yi_ztmp cgblock idxu_block ulisttot rec
      = yi_outer_at cgblock idxu_block ulisttot rec (rec 8).toNat := rfl

theorem yi_outer_at_cursors (cgblock : ℤ → K) (idxu_block : ℤ → ℤ) (ulisttot : ℤ → Cplx K)
    (rec : ℕ → ℤ) (ib : ℕ) :
    (yi_outer_at cgblock idxu_block ulisttot rec ib).jju1
      = idxu_block (rec 0) + (rec 0 + 1) * (rec 6 + ib) ∧
    (yi_outer_at cgblock idxu_block ulisttot rec ib).jju2
      = idxu_block (rec 1) + (rec 1 + 1) * (rec 7 - ib) ∧
    (yi_outer_at cgblock idxu_block ulisttot rec ib).icgb
      = (rec 6 + ib) * (rec 1 + 1) + (rec 7 - ib) := by
  obtain ⟨h1, h2, h3, _, _⟩ := yi_outer_loop cgblock ulisttot (rec 0) (rec 1) (rec 3) (rec 4)
    (rec 5) ib
    { ztmp_r := 0, ztmp_i := 0
      jju1 := idxu_block (rec 0) + (rec 0 + 1) * rec 6
      jju2 := idxu_block (rec 1) + (rec 1 + 1) * rec 7
      icgb := rec 6 * (rec 1 + 1) + rec 7 }
  unfold yi_outer_at
  rw [h1, h2, h3]
  refine ⟨by ring, by ring, by ring⟩

theorem yi_inner_at_cursors (cgblock : ℤ → K) (ulisttot : ℤ → Cplx K) (jju1 jju2 : ℤ)
    (rec : ℕ → ℤ) (ia : ℕ) :
    (yi_inner_at cgblock ulisttot jju1 jju2 rec ia).ma1 = rec 3 + ia ∧
    (yi_inner_at cgblock ulisttot jju1 jju2 rec ia).ma2 = rec 4 - ia ∧
    (yi_inner_at cgblock ulisttot jju1 jju2 rec ia).icga
      = (rec 3 + ia) * (rec 1 + 1) + (rec 4 - ia) := by
  obtain ⟨h1, h2, h3, _, _⟩ := yi_inner_loop cgblock ulisttot jju1 jju2 (rec 1) ia
    { suma1_r := 0, suma1_i := 0, ma1 := rec 3, ma2 := rec 4
      icga := rec 3 * (rec 1 + 1) + rec 4 }
  unfold yi_inner_at
  rw [h1, h2, h3]
  refine ⟨rfl, rfl, by ring⟩

end YCursors

section YIndices
variable {K : Type} [Field K]

/-- Every record below `idxz_max` is the record of a tuple of the nest. -/
theorem zrec_fields (twojmax : ℕ) (idxb_block : ℕ → ℤ) (beta : ℤ → K) (zmem : ZTables K)
    (jjz : ℕ) (hjjz : jjz < idxz_max twojmax) :
    ∃ j1 j2 j mb ma k, (j1, j2, j) ∈ triples twojmax ∧ 2 * mb ≤ j ∧ ma ≤ j ∧
      j1 + j2 = j + 2 * k ∧
      ∀ c, c < 9 → zrec twojmax idxb_block beta zmem jjz c = zfields j1 j2 j mb ma c := by
  obtain ⟨j1, j2, j, mb, ma, ht, hmb, hma, hp⟩ :=
    zfill_cover twojmax idxb_block beta zmem jjz hjjz
  obtain ⟨k, hk⟩ := triple_parity ht
  have h := (zfill_at twojmax idxb_block beta zmem j1 j2 j mb ma ht hmb hma).2.1
  simp only at h
  rw [← hp] at h
  exact ⟨j1, j2, j, mb, ma, k, ht, hmb, hma, hk, h⟩

theorem yi_reads_eq (cgblock : ℤ → K) (idxu_block : ℤ → ℤ) (ulisttot : ℤ → Cplx K)
    (rec : ℕ → ℤ) (ib ia : ℕ) :
    yi_read1 cgblock idxu_block ulisttot rec ib ia
      = idxu_block (rec 0) + (rec 0 + 1) * (rec 6 + ib) + (rec 3 + ia) ∧
    yi_read2 cgblock idxu_block ulisttot rec ib ia
      = idxu_block (rec 1) + (rec 1 + 1) * (rec 7 - ib) + (rec 4 - ia) ∧
    yi_icga cgblock idxu_block ulisttot rec ib ia
      = (rec 3 + ia) * (rec 1 + 1) + (rec 4 - ia) ∧
    yi_icgb cgblock idxu_block ulisttot rec ib
      = (rec 6 + ib) * (rec 1 + 1) + (rec 7 - ib) := by
  obtain ⟨h1, h2, h3⟩ := yi_outer_at_cursors cgblock idxu_block ulisttot rec ib
  obtain ⟨i1, i2, i3⟩ := yi_inner_at_cursors cgblock ulisttot
    (yi_outer_at cgblock idxu_block ulisttot rec ib).jju1
    (yi_outer_at cgblock idxu_block ulisttot rec ib).jju2 rec ia
  unfold yi_read1 yi_read2 yi_icga yi_icgb
  rw [i1, i2, i3, h1, h2, h3]
  exact ⟨rfl, rfl, rfl, rfl⟩

theorem idxu_block_int_eq (twojmax : ℕ) (umem : ℕ → ℕ) (j : ℕ) (hj : j ≤ twojmax) :
    idxu_block_int twojmax umem (j : ℤ) = (uoff j : ℤ) := by
  unfold idxu_block_int
  rw [Int.toNat_natCast, idxu_fill_block twojmax umem j hj]

theorem idxdu_block_int_eq (twojmax : ℕ) (dumem : ℕ → ℕ) (j : ℕ) (hj : j ≤ twojmax) :
    idxdu_block_int twojmax dumem (j : ℤ) = (duoff j : ℤ) := by
  unfold idxdu_block_int
  rw [Int.toNat_natCast, idxdu_fill_block twojmax dumem j hj]

/-- A cell `(row, col)` of level `j ≤ twojmax` lies inside `[0, idxu_max)`. -/
theorem ucell_range (twojmax j : ℕ) (hj : j ≤ twojmax) (row col : ℤ) (hr0 : 0 ≤ row)
    (hr : row ≤ j) (hc0 : 0 ≤ col) (hc : col ≤ j) :
    (uoff j : ℤ) ≤ (uoff j : ℤ) + ((j : ℤ) + 1) * row + col ∧
    (uoff j : ℤ) + ((j : ℤ) + 1) * row + col < (uoff j : ℤ) + ((j : ℤ) + 1) * ((j : ℤ) + 1) ∧
    0 ≤ (uoff j : ℤ) + ((j : ℤ) + 1) * row + col ∧
    (uoff j : ℤ) + ((j : ℤ) + 1) * row + col < (uoff (twojmax + 1) : ℤ) := by
  obtain ⟨b1, b2⟩ := cell_bounds_int j j row col hr0 hr hc0 hc
  have hm : (uoff (j + 1) : ℤ) ≤ (uoff (twojmax + 1) : ℤ) := by
    exact_mod_cast uoff_mono (show j + 1 ≤ twojmax + 1 by omega)
  have hs : (uoff (j + 1) : ℤ) = (uoff j : ℤ) + ((j : ℤ) + 1) * ((j : ℤ) + 1) := by
    rw [uoff_succ]; push_cast; ring
  have h0 : (0 : ℤ) ≤ (uoff j : ℤ) := Int.natCast_nonneg _
  have e : ((j : ℤ) + 1) * row + col = row * ((j : ℤ) + 1) + col := by ring
  refine ⟨by omega, by omega, by omega, by omega⟩

end YIndices

section C15
variable {K : Type} [Field K]

/-- A cell `(r, c)` of the Clebsch-Gordan block of a triple lies inside `[0, idxcg_max)`. -/
theorem cgcell_range (twojmax : ℕ) (cgmem : ℕ → ℕ) (j1 j2 j : ℕ)
    (ht : (j1, j2, j) ∈ triples twojmax) (r c : ℤ) (hr0 : 0 ≤ r) (hr : r ≤ j1)
    (hc0 : 0 ≤ c) (hc : c ≤ j2) :
    0 ≤ idxcg_block_int twojmax cgmem
        ((j1 : ℤ) + ((twojmax : ℤ) + 1) * j2 + ((twojmax : ℤ) + 1) * ((twojmax : ℤ) + 1) * j)
          + (r * ((j2 : ℤ) + 1) + c) ∧
    idxcg_block_int twojmax cgmem
        ((j1 : ℤ) + ((twojmax : ℤ) + 1) * j2 + ((twojmax : ℤ) + 1) * ((twojmax : ℤ) + 1) * j)
          + (r * ((j2 : ℤ) + 1) + c) < ((idxcg_fill twojmax cgmem).idxcg_count : ℤ) := by
  have hkey : (j1 : ℤ) + ((twojmax : ℤ) + 1) * j2 + ((twojmax : ℤ) + 1) * ((twojmax : ℤ) + 1) * j
      = ((j1 + j2 * (twojmax + 1) + (twojmax + 1) * (twojmax + 1) * j : ℕ) : ℤ) := by
    push_cast; ring
  have h := (cg_at (fun _ => (0 : ℚ)) (fun _ _ _ => 0) (fun x => x) twojmax cgmem (fun _ => 0)
    j1 j2 j r.toNat c.toNat ht (by omega) (by omega)).1
  unfold cgpos at h
  unfold idxcg_block_int
  rw [hkey, Int.toNat_natCast]
  have e1 : r = (r.toNat : ℤ) := (Int.toNat_of_nonneg hr0).symm
  have e2 : c = (c.toNat : ℤ) := (Int.toNat_of_nonneg hc0).symm
  rw [e1, e2]
  have h0 : (0 : ℤ) ≤ (((idxcg_fill twojmax cgmem).idxcg_block
      (j1 + j2 * (twojmax + 1) + (twojmax + 1) * (twojmax + 1) * j) : ℕ) : ℤ) :=
    Int.natCast_nonneg _
  constructor
  · positivity
  · have : (((idxcg_fill twojmax cgmem).idxcg_block
        (j1 + j2 * (twojmax + 1) + (twojmax + 1) * (twojmax + 1) * j)
          + r.toNat * (j2 + 1) + c.toNat : ℕ) : ℤ)
        < ((idxcg_fill twojmax cgmem).idxcg_count : ℤ) := by exact_mod_cast h
    push_cast at this
    omega

/-- A cell `(mb, ma)` of the left half of level `j ≤ twojmax` lies inside
`[0, idxdu_max)`. -/
theorem ducell_range (twojmax j mb ma : ℕ) (hj : j ≤ twojmax) (hmb : 2 * mb ≤ j)
    (hma : ma ≤ j) :
    (duoff j : ℤ) ≤ (duoff j : ℤ) + ((j : ℤ) + 1) * mb + ma ∧
    (duoff j : ℤ) + ((j : ℤ) + 1) * mb + ma
      < (duoff j : ℤ) + ((j : ℤ) / 2 + 1) * ((j : ℤ) + 1) ∧
    0 ≤ (duoff j : ℤ) + ((j : ℤ) + 1) * mb + ma ∧
    (duoff j : ℤ) + ((j : ℤ) + 1) * mb + ma < (duoff (twojmax + 1) : ℤ) := by
  have hq := zpos_lt j mb ma hmb hma
  have hm := duoff_mono (show j + 1 ≤ twojmax + 1 by omega)
  rw [duoff_succ] at hm
  have e1 : (duoff j : ℤ) + ((j : ℤ) + 1) * mb + ma
      = ((duoff j + (mb * (j + 1) + ma) : ℕ) : ℤ) := by push_cast; ring
  have e2 : (duoff j : ℤ) + ((j : ℤ) / 2 + 1) * ((j : ℤ) + 1)
      = ((duoff j + (j / 2 + 1) * (j + 1) : ℕ) : ℤ) := by push_cast; ring
  rw [e1, e2]
  refine ⟨?_, ?_, ?_, ?_⟩
  · exact_mod_cast Nat.le_add_right _ _
  · exact_mod_cast (by omega : duoff j + (mb * (j + 1) + ma) < duoff j + (j / 2 + 1) * (j + 1))
  · exact Int.natCast_nonneg _
  · exact_mod_cast (by omega : duoff j + (mb * (j + 1) + ma) < duoff (twojmax + 1))

/-- C15. For every `twojmax`, every record `rec` of the Z-list (`jjz < idxz_max`) and every
iteration `(ib, ia)` of the loops of `compute_yi` (`ib < nb`, `ia < na`), with the tables
of `main`: the levels `j1, j2, j` of the record lie in `[0, twojmax]`; the Utot read index
`jju1 + ma1` is the cell `(row, col)` of level `j1` with `row, col` in `[0, j1]`, inside
`[idxu_block[j1], idxu_block[j1] + (j1+1)^2)`, and likewise `jju2 + ma2` for level `j2`;
the offsets `icga`, `icgb` lie in `[0, (j1+1)*(j2+1))`; the write index `jjdu` lies in
`[idxdu_block[j], idxdu_block[j] + (j/2+1)*(j+1))`; hence the Utot indices are in
`[0, idxu_max)`, the Clebsch-Gordan indices `idxcg_block[..] + icga`, `+ icgb` in
`[0, idxcg_max)` and `jjdu` in `[0, idxdu_max)`. -/
theorem compute_yi_indices (twojmax : ℕ) (idxb_block : ℕ → ℤ) (beta : ℤ → K)
    (zmem : ZTables K) (umem dumem cgmem : ℕ → ℕ) (cgblock : ℤ → K) (ulisttot : ℤ → Cplx K)
    (jjz ib ia : ℕ) (rec : ℕ → ℤ) (hjjz : jjz < idxz_max twojmax)
    (hrec : rec = zrec twojmax idxb_block beta zmem jjz)
    (hib : ib < (rec 8).toNat) (hia : ia < (rec 5).toNat) :
    (0 ≤ rec 0 ∧ rec 0 ≤ twojmax ∧ 0 ≤ rec 1 ∧ rec 1 ≤ twojmax ∧ 0 ≤ rec 2 ∧
      rec 2 ≤ twojmax) ∧
    (∃ row col : ℤ, 0 ≤ row ∧ row ≤ rec 0 ∧ 0 ≤ col ∧ col ≤ rec 0 ∧
      yi_read1 cgblock (idxu_block_int twojmax umem) ulisttot rec ib ia
        = idxu_block_int twojmax umem (rec 0) + (rec 0 + 1) * row + col) ∧
    (idxu_block_int twojmax umem (rec 0)
        ≤ yi_read1 cgblock (idxu_block_int twojmax umem) ulisttot rec ib ia ∧
      yi_read1 cgblock (idxu_block_int twojmax umem) ulisttot rec ib ia
        < idxu_block_int twojmax umem (rec 0) + (rec 0 + 1) * (rec 0 + 1)) ∧
    (∃ row col : ℤ, 0 ≤ row ∧ row ≤ rec 1 ∧ 0 ≤ col ∧ col ≤ rec 1 ∧
      yi_read2 cgblock (idxu_block_int twojmax umem) ulisttot rec ib ia
        = idxu_block_int twojmax umem (rec 1) + (rec 1 + 1) * row + col) ∧
    (idxu_block_int twojmax umem (rec 1)
        ≤ yi_read2 cgblock (idxu_block_int twojmax umem) ulisttot rec ib ia ∧
      yi_read2 cgblock (idxu_block_int twojmax umem) ulisttot rec ib ia
        < idxu_block_int twojmax umem (rec 1) + (rec 1 + 1) * (rec 1 + 1)) ∧
    (0 ≤ yi_icga cgblock (idxu_block_int twojmax umem) ulisttot rec ib ia ∧
      yi_icga cgblock (idxu_block_int twojmax umem) ulisttot rec ib ia
        < (rec 0 + 1) * (rec 1 + 1)) ∧
    (0 ≤ yi_icgb cgblock (idxu_block_int twojmax umem) ulisttot rec ib ∧
      yi_icgb cgblock (idxu_block_int twojmax umem) ulisttot rec ib
        < (rec 0 + 1) * (rec 1 + 1)) ∧
    (idxdu_block_int twojmax dumem (rec 2) ≤ yi_jjdu (idxdu_block_int twojmax dumem) rec ∧
      yi_jjdu (idxdu_block_int twojmax dumem) rec
        < idxdu_block_int twojmax dumem (rec 2) + (rec 2 / 2 + 1) * (rec 2 + 1)) ∧
    (0 ≤ yi_read1 cgblock (idxu_block_int twojmax umem) ulisttot rec ib ia ∧
      yi_read1 cgblock (idxu_block_int twojmax umem) ulisttot rec ib ia
        < ((idxu_fill twojmax umem).idxu_count : ℤ)) ∧
    (0 ≤ yi_read2 cgblock (idxu_block_int twojmax umem) ulisttot rec ib ia ∧
      yi_read2 cgblock (idxu_block_int twojmax umem) ulisttot rec ib ia
        < ((idxu_fill twojmax umem).idxu_count : ℤ)) ∧
    (0 ≤ idxcg_block_int twojmax cgmem
          (rec 0 + ((twojmax : ℤ) + 1) * rec 1 + ((twojmax : ℤ) + 1) * ((twojmax : ℤ) + 1) * rec 2)
          + yi_icga cgblock (idxu_block_int twojmax umem) ulisttot rec ib ia ∧
      idxcg_block_int twojmax cgmem
          (rec 0 + ((twojmax : ℤ) + 1) * rec 1 + ((twojmax : ℤ) + 1) * ((twojmax : ℤ) + 1) * rec 2)
          + yi_icga cgblock (idxu_block_int twojmax umem) ulisttot rec ib ia
        < ((idxcg_fill twojmax cgmem).idxcg_count : ℤ)) ∧
    (0 ≤ idxcg_block_int twojmax cgmem
          (rec 0 + ((twojmax : ℤ) + 1) * rec 1 + ((twojmax : ℤ) + 1) * ((twojmax : ℤ) + 1) * rec 2)
          + yi_icgb cgblock (idxu_block_int twojmax umem) ulisttot rec ib ∧
      idxcg_block_int twojmax cgmem
          (rec 0 + ((twojmax : ℤ) + 1) * rec 1 + ((twojmax : ℤ) + 1) * ((twojmax : ℤ) + 1) * rec 2)
          + yi_icgb cgblock (idxu_block_int twojmax umem) ulisttot rec ib
        < ((idxcg_fill twojmax cgmem).idxcg_count : ℤ)) ∧
    (0 ≤ yi_jjdu (idxdu_block_int twojmax dumem) rec ∧
      yi_jjdu (idxdu_block_int twojmax dumem) rec
        < ((idxdu_fill twojmax dumem).idxdu_count : ℤ)) := by
  obtain ⟨j1, j2, j, mb, ma, k, ht, hmb, hma, hk, hf⟩ :=
    zrec_fields twojmax idxb_block beta zmem jjz hjjz
  rw [← hrec] at hf
  have r0 : rec 0 = j1 := hf 0 (by omega)
  have r1 : rec 1 = j2 := hf 1 (by omega)
  have r2 : rec 2 = j := hf 2 (by omega)
  have r3 : rec 3 = zmin j1 j2 j ma := hf 3 (by omega)
  have r4 : rec 4 = zmax j1 j2 j ma := hf 4 (by omega)
  have r5 : rec 5 = zn j1 j2 j ma := hf 5 (by omega)
  have r6 : rec 6 = zmin j1 j2 j mb := hf 6 (by omega)
  have r7 : rec 7 = zmax j1 j2 j mb := hf 7 (by omega)
  have r8 : rec 8 = zn j1 j2 j mb := hf 8 (by omega)
  have hb := mem_triples_bounds ht
  simp only at hb
  obtain ⟨q1, q2, q3, q4⟩ := yi_reads_eq cgblock (idxu_block_int twojmax umem) ulisttot rec ib ia
  obtain ⟨wb1, wb2, wb3, wb4⟩ := zwindow j1 j2 j mb k hk ib (by
    rw [r8] at hib; exact Int.lt_toNat.1 hib)
  obtain ⟨wa1, wa2, wa3, wa4⟩ := zwindow j1 j2 j ma k hk ia (by
    rw [r5] at hia; exact Int.lt_toNat.1 hia)
  have hj1 : j1 ≤ twojmax := hb.1
  have hj2 : j2 ≤ twojmax := by omega
  have hj : j ≤ twojmax := hb.2.2.1
  obtain ⟨u1, u2, u3, u4⟩ := ucell_range twojmax j1 hj1 _ _ wb1 wb2 wa1 wa2
  obtain ⟨v1, v2, v3, v4⟩ := ucell_range twojmax j2 hj2 _ _ wb3 wb4 wa3 wa4
  obtain ⟨ca1, ca2⟩ := cell_bounds_int j1 j2 _ _ wa1 wa2 wa3 wa4
  obtain ⟨cb1, cb2⟩ := cell_bounds_int j1 j2 _ _ wb1 wb2 wb3 wb4
  obtain ⟨ga1, ga2⟩ := cgcell_range twojmax cgmem j1 j2 j ht _ _ wa1 wa2 wa3 wa4
  obtain ⟨gb1, gb2⟩ := cgcell_range twojmax cgmem j1 j2 j ht _ _ wb1 wb2 wb3 wb4
  obtain ⟨d1, d2, d3, d4⟩ := ducell_range twojmax j mb ma hj hmb hma
  have hjj : yi_jjdu (idxdu_block_int twojmax dumem) rec
      = (duoff j : ℤ) + ((j : ℤ) + 1) * mb + ma := by
    rw [yi_jjdu_congr _ rec (zfields j1 j2 j mb ma) hf, yi_jjdu_zfields _ j1 j2 j mb ma k hk,
      idxdu_block_int_eq twojmax dumem j hj]
  rw [q1, q2, q3, q4, hjj, r0, r1, r2, r3, r4, r6, r7, idxu_block_int_eq twojmax umem j1 hj1,
    idxu_block_int_eq twojmax umem j2 hj2, idxdu_block_int_eq twojmax dumem j hj,
    idxu_fill_count, idxdu_fill_count]
  refine ⟨⟨by omega, by omega, by omega, by omega, by omega, by omega⟩,
    ⟨_, _, wb1, wb2, wa1, wa2, rfl⟩, ⟨u1, u2⟩, ⟨_, _, wb3, wb4, wa3, wa4, rfl⟩, ⟨v1, v2⟩,
    ⟨ca1, ca2⟩, ⟨cb1, cb2⟩, ⟨d1, d2⟩, ⟨u3, u4⟩, ⟨v3, v4⟩, ⟨ga1, ga2⟩, ⟨gb1, gb2⟩, ⟨d3, d4⟩⟩

end C15

theorem compute_yi_indices_witness :
    (5 : ℕ) < idxz_max 2 ∧
    0 ≤ yi_read1 (fun _ => (1 : ℚ)) (idxu_block_int 2 (fun _ => 0)) (fun _ => ⟨1, 0⟩)
        (zrec 2 (idxb_block_fill 2 (fun _ => 0)).idxb_block (fun _ => (1 : ℚ))
          ⟨0, fun _ _ => 0, fun _ => 0, fun _ => 0⟩ 5) 0 0 ∧
    yi_read1 (fun _ => (1 : ℚ)) (idxu_block_int 2 (fun _ => 0)) (fun _ => ⟨1, 0⟩)
        (zrec 2 (idxb_block_fill 2 (fun _ => 0)).idxb_block (fun _ => (1 : ℚ))
          ⟨0, fun _ _ => 0, fun _ => 0, fun _ => 0⟩ 5) 0 0
      < ((idxu_fill 2 (fun _ => 0)).idxu_count : ℤ) :=
  ⟨by decide,
    (compute_yi_indices 2 (idxb_block_fill 2 (fun _ => 0)).idxb_block (fun _ => (1 : ℚ))
      ⟨0, fun _ _ => 0, fun _ => 0, fun _ => 0⟩ (fun _ => 0) (fun _ => 0) (fun _ => 0)
      (fun _ => (1 : ℚ)) (fun _ => ⟨1, 0⟩) 5 0 0 _ (by decide) rfl (by decide)
      (by decide)).2.2.2.2.2.2.2.2.1⟩

/-! ## Accumulation into Utot -/

section UAccum
variable {K : Type} [Field K]

theorem add_ulisttot_iter (sfac : K) (ulist : ℕ → Cplx K) (n : ℕ) (s : UAcc K) :
    ((add_ulisttot_body sfac ulist)^[n] s).jju = s.jju + n ∧
    ∀ x, ((add_ulisttot_body sfac ulist)^[n] s).ulisttot x
      = if s.jju ≤ x ∧ x < s.jju + n then
          Cplx.add (s.ulisttot x) (Cplx.smul sfac (ulist x))
        else s.ulisttot x := by
  induction n with
  | zero =>
    refine ⟨rfl, ?_⟩
    intro x
    rw [if_neg (by omega)]
    rfl
  | succ n ih =>
    obtain ⟨h1, h2⟩ := ih
    rw [Function.iterate_succ_apply']
    generalize (add_ulisttot_body sfac ulist)^[n] s = sn at h1 h2 ⊢
    refine ⟨?_, ?_⟩
    · simp only [add_ulisttot_body, h1]
      omega
    · intro x
      simp only [add_ulisttot_body, Function.update_apply, h1, h2]
      by_cases hx : x = s.jju + n
      · subst hx
        simp only [if_true, Function.update_same]
        rw [if_neg (by omega), if_pos (by omega)]
        rfl
      · simp only [hx, if_false]
        by_cases hr : s.jju ≤ x ∧ x < s.jju + n
        · rw [if_pos hr, if_pos (by omega)]
        · rw [if_neg hr, if_neg (by omega)]

theorem add_ulisttot_level_spec (idxu_block : ℕ → ℕ) (sfac : K) (ulist u : ℕ → Cplx K)
    (j x : ℕ) :
    add_ulisttot_level idxu_block sfac ulist u j x
      = if idxu_block j ≤ x ∧ x < idxu_block j + (j + 1) * (j + 1) then
          Cplx.add (u x) (Cplx.smul sfac (ulist x))
        else u x := by
  unfold add_ulisttot_level
  have e : ∀ s : UAcc K,
      (maloop j).foldl (fun s _ => (maloop j).foldl
        (fun s _ => add_ulisttot_body sfac ulist s) s) s
        = (add_ulisttot_body sfac ulist)^[(j + 1) * (j + 1)] s := by
    intro s
    have inner : (fun (s : UAcc K) (_ : ℕ) => (maloop j).foldl
        (fun s _ => add_ulisttot_body sfac ulist s) s)
        = fun s _ => (add_ulisttot_body sfac ulist)^[j + 1] s := by
      funext s _
      rw [foldl_const_iterate]
      simp [maloop]
    rw [inner, foldl_const_iterate, ← Function.iterate_mul]
    simp [maloop]
  rw [e]
  exact (add_ulisttot_iter sfac ulist _ _).2 x

theorem add_ulisttot_levels (sfac : K) (ulist u : ℕ → Cplx K) (idxu_block : ℕ → ℕ) (n : ℕ)
    (hb : ∀ j, j < n → idxu_block j = uoff j) (x : ℕ) :
    (List.range n).foldl (add_ulisttot_level idxu_block sfac ulist) u x
      = if x < uoff n then Cplx.add (u x) (Cplx.smul sfac (ulist x)) else u x := by
  induction n with
  | zero => simp [uoff]
  | succ n ih =>
    rw [List.range_succ, List.foldl_append, List.foldl_cons, List.foldl_nil]
    have ih' := ih (fun j hj => hb j (by omega))
    generalize (List.range n).foldl (add_ulisttot_level idxu_block sfac ulist) u = un at ih' ⊢
    rw [add_ulisttot_level_spec, hb n (by omega), uoff_succ, ih']
    by_cases h1 : x < uoff n
    · rw [if_neg (by omega), if_pos h1, if_pos (by omega)]
    · by_cases h2 : x < uoff n + (n + 1) * (n + 1)
      · rw [if_pos ⟨by omega, h2⟩, if_neg h1, if_pos h2]
      · rw [if_neg (by omega), if_neg h1, if_neg h2]

/-- One work item adds `sfac * ulist[idx]` to every cell `idx < idxu_max` of Utot and
leaves the other cells alone. -/
theorem add_ulisttot_spec (twojmax : ℕ) (umem : ℕ → ℕ) (sfac : K) (ulist u : ℕ → Cplx K)
    (x : ℕ) :
    add_ulisttot twojmax (idxu_fill twojmax umem).idxu_block sfac ulist u x
      = if x < (idxu_fill twojmax umem).idxu_count then
          Cplx.add (u x) (Cplx.smul sfac (ulist x))
        else u x := by
  unfold add_ulisttot
  rw [add_ulisttot_levels sfac ulist u _ (twojmax + 1)
    (fun j hj => idxu_fill_block twojmax umem j (by omega)), idxu_fill_count]

end UAccum

section UStage
variable {K : Type} [Field K]

/-- Utot after `reset_ulisttot` and `set_ulisttot`, at any index below `idxu_max`. -/
theorem init_ulisttot_apply (twojmax : ℕ) (umem : ℕ → ℕ) (u : ℕ → Cplx K) (idx : ℕ)
    (hidx : idx < (idxu_fill twojmax umem).idxu_count) :
    init_ulisttot twojmax umem u idx
      = { re := udiag K twojmax (idxu_fill twojmax umem).idxu_block idx, im := 0 } := by
  unfold init_ulisttot set_ulisttot udiag
  obtain ⟨h1, h2⟩ := set_ulisttot_levels (idxu_fill twojmax umem).idxu_block
    (reset_ulisttot (idxu_fill twojmax umem).idxu_count u) (twojmax + 1) idx
  by_cases hd : ∃ j, j < twojmax + 1 ∧ ∃ ma, ma < j + 1 ∧
      idx = (idxu_fill twojmax umem).idxu_block j + ma * (j + 1) + ma
  · rw [if_pos hd, h1]
    · rfl
    · obtain ⟨j, hj, ma, hma, he⟩ := hd
      refine ⟨j, ma, hj, by omega, ?_⟩
      rw [he]; ring
  · rw [if_neg hd, h2]
    · unfold reset_ulisttot
      rw [if_pos hidx]
    · rintro ⟨j, k, hj, hk, he⟩
      apply hd
      refine ⟨j, hj, k, by omega, ?_⟩
      rw [he]; ring

theorem update_ulisttot_fold (env : SnapEnv K) (twojmax : ℕ) (umem : ℕ → ℕ) (pmem : ℕ → ℤ)
    (rmem : ℕ → ℕ → K) (rij : ℕ → ℕ → K) (rcutij wj : ℕ → K) (order : List ℕ)
    (hnd : order.Nodup) (s : UiState K) :
    (∀ nbor, (order.foldl (update_ulisttot_item env (ui_tables env twojmax umem pmem rmem)
        rij rcutij wj) s).ulist nbor
      = if nbor ∈ order then
          ui_pair_ulist env (ui_tables env twojmax umem pmem rmem) rij rcutij wj nbor
            (s.ulist nbor)
        else s.ulist nbor) ∧
    ∀ idx, idx < (idxu_fill twojmax umem).idxu_count →
      ((order.foldl (update_ulisttot_item env (ui_tables env twojmax umem pmem rmem)
          rij rcutij wj) s).ulisttot idx).re
        = (s.ulisttot idx).re + (order.map (fun nbor => ui_pair_sfac env rij rcutij wj nbor *
            (ui_pair_ulist env (ui_tables env twojmax umem pmem rmem) rij rcutij wj nbor
              (s.ulist nbor) idx).re)).sum ∧
      ((order.foldl (update_ulisttot_item env (ui_tables env twojmax umem pmem rmem)
          rij rcutij wj) s).ulisttot idx).im
        = (s.ulisttot idx).im + (order.map (fun nbor => ui_pair_sfac env rij rcutij wj nbor *
            (ui_pair_ulist env (ui_tables env twojmax umem pmem rmem) rij rcutij wj nbor
              (s.ulist nbor) idx).im)).sum := by
  induction order generalizing s with
  | nil =>
    refine ⟨fun nbor => by simp, fun idx _ => by simp⟩
  | cons a l ih =>
    obtain ⟨ha, hl⟩ := List.nodup_cons.1 hnd
    obtain ⟨i1, i2⟩ := ih hl
      (update_ulisttot_item env (ui_tables env twojmax umem pmem rmem) rij rcutij wj s a)
    have hother : ∀ nbor, nbor ≠ a →
        (update_ulisttot_item env (ui_tables env twojmax umem pmem rmem) rij rcutij wj s a).ulist
          nbor = s.ulist nbor := by
      intro nbor hne
      simp only [update_ulisttot_item, Function.update_apply, if_neg hne]
    have hself :
        (update_ulisttot_item env (ui_tables env twojmax umem pmem rmem) rij rcutij wj s a).ulist
          a = ui_pair_ulist env (ui_tables env twojmax umem pmem rmem) rij rcutij wj a
            (s.ulist a) := by
      simp only [update_ulisttot_item, Function.update_same]
    rw [List.foldl_cons]
    refine ⟨?_, ?_⟩
    · intro nbor
      rw [i1 nbor]
      by_cases hn : nbor ∈ l
      · have hne : nbor ≠ a := fun h => ha (h ▸ hn)
        rw [if_pos hn, if_pos (List.mem_cons_of_mem _ hn), hother nbor hne]
      · rw [if_neg hn]
        by_cases hne : nbor = a
        · subst hne
          rw [if_pos (List.mem_cons_self _ _), hself]
        · rw [hother nbor hne, if_neg]
          intro h
          rcases List.mem_cons.1 h with h | h
          · exact hne h
          · exact hn h
    · intro idx hidx
      obtain ⟨r1, r2⟩ := i2 idx hidx
      have hmap : ∀ (g : (ℕ → Cplx K) → K),
          l.map (fun nbor => ui_pair_sfac env rij rcutij wj nbor *
            g (ui_pair_ulist env (ui_tables env twojmax umem pmem rmem) rij rcutij wj nbor
              ((update_ulisttot_item env (ui_tables env twojmax umem pmem rmem) rij rcutij wj
                s a).ulist nbor)))
          = l.map (fun nbor => ui_pair_sfac env rij rcutij wj nbor *
            g (ui_pair_ulist env (ui_tables env twojmax umem pmem rmem) rij rcutij wj nbor
              (s.ulist nbor))) := by
        intro g
        apply List.map_congr_left
        intro nbor hn
        have hne : nbor ≠ a := fun h => ha (h ▸ hn)
        rw [hother nbor hne]
      have hm1 := hmap (fun u => (u idx).re)
      have hm2 := hmap (fun u => (u idx).im)
      simp only at hm1 hm2
      rw [r1, r2, hm1, hm2, List.map_cons, List.sum_cons, List.map_cons, List.sum_cons]
      have hstep : (update_ulisttot_item env (ui_tables env twojmax umem pmem rmem) rij rcutij
          wj s a).ulisttot idx
          = Cplx.add (s.ulisttot idx) (Cplx.smul (ui_pair_sfac env rij rcutij wj a)
              (ui_pair_ulist env (ui_tables env twojmax umem pmem rmem) rij rcutij wj a
                (s.ulist a) idx)) := by
        simp only [update_ulisttot_item, ui_tables]
        rw [add_ulisttot_spec, if_pos hidx]
      rw [hstep]
      simp only [Cplx.add, Cplx.smul]
      exact ⟨by ring, by ring⟩

end UStage

theorem sum_map_range {M : Type} [AddCommMonoid M] (f : ℕ → M) (n : ℕ) :
    ((List.range n).map f).sum = ∑ i ∈ Finset.range n, f i := by
  induction n with
  | zero => simp
  | succ n ih =>
    rw [List.range_succ, List.map_append, List.sum_append, ih, Finset.sum_range_succ]
    simp

section C19
variable {K : Type} [Field K]

/-- Utot of one atom after the `compute_ui` stage, for any order of the work items that
is a permutation of the neighbours `0 .. num_nbor - 1`. -/
theorem compute_ui_value (env : SnapEnv K) (twojmax : ℕ) (umem : ℕ → ℕ) (pmem : ℕ → ℤ)
    (rmem : ℕ → ℕ → K) (rij : ℕ → ℕ → K) (rcutij wj : ℕ → K) (num_nbor : ℕ)
    (order : List ℕ) (s : UiState K) (horder : order.Perm (List.range num_nbor)) :
    (∀ nbor, nbor < num_nbor →
      (compute_ui_atom env (ui_tables env twojmax umem pmem rmem)
        (idxu_fill twojmax umem).idxu_count rij rcutij wj order s).ulist nbor
        = ui_pair_ulist env (ui_tables env twojmax umem pmem rmem) rij rcutij wj nbor
            (s.ulist nbor)) ∧
    ∀ idx, idx < (idxu_fill twojmax umem).idxu_count →
      ((compute_ui_atom env (ui_tables env twojmax umem pmem rmem)
        (idxu_fill twojmax umem).idxu_count rij rcutij wj order s).ulisttot idx).re
        = udiag K twojmax (idxu_fill twojmax umem).idxu_block idx
          + ∑ nbor ∈ Finset.range num_nbor, ui_pair_sfac env rij rcutij wj nbor *
              (ui_pair_ulist env (ui_tables env twojmax umem pmem rmem) rij rcutij wj nbor
                (s.ulist nbor) idx).re ∧
      ((compute_ui_atom env (ui_tables env twojmax umem pmem rmem)
        (idxu_fill twojmax umem).idxu_count rij rcutij wj order s).ulisttot idx).im
        = ∑ nbor ∈ Finset.range num_nbor, ui_pair_sfac env rij rcutij wj nbor *
              (ui_pair_ulist env (ui_tables env twojmax umem pmem rmem) rij rcutij wj nbor
                (s.ulist nbor) idx).im := by
  have hnd : order.Nodup := horder.nodup_iff.2 (List.nodup_range _)
  obtain ⟨f1, f2⟩ := update_ulisttot_fold env twojmax umem pmem rmem rij rcutij wj order hnd
    { s with ulisttot := (set_ulisttot twojmax (idxu_fill twojmax umem).idxu_block
        (reset_ulisttot (idxu_fill twojmax umem).idxu_count s.ulisttot)) }
  refine ⟨?_, ?_⟩
  · intro nbor hn
    have hmem : nbor ∈ order := horder.mem_iff.2 (List.mem_range.2 hn)
    have := f1 nbor
    rw [if_pos hmem] at this
    exact this
  · intro idx hidx
    obtain ⟨r1, r2⟩ := f2 idx hidx
    have hinit := init_ulisttot_apply twojmax umem s.ulisttot idx hidx
    unfold init_ulisttot at hinit
    unfold compute_ui_atom
    simp only [ui_tables] at r1 r2 ⊢
    rw [r1, r2, hinit]
    simp only
    rw [List.Perm.sum_eq (horder.map _), List.Perm.sum_eq (horder.map _), sum_map_range,
      sum_map_range, zero_add]
    exact ⟨rfl, rfl⟩

/-- C19. After the `compute_ui` stage of one atom, with the tables of `main` and the work
items of the neighbours executed in any order that is a permutation of
`0 .. num_nbor - 1`: the array `U[nbor]` the stage leaves for every neighbour is the one
its work item computes; for every logical index `idx < idxu_max`,
`Utot[idx] = (1 if idx is a diagonal index, else 0) + SUM over the neighbours of
sfac * wj * U[nbor][idx]` (real and imaginary part), one term per neighbour; and the
Utot cell is the same for any two such orders. -/
theorem compute_ui_sum (env : SnapEnv K) (twojmax : ℕ) (umem : ℕ → ℕ) (pmem : ℕ → ℤ)
    (rmem : ℕ → ℕ → K) (rij : ℕ → ℕ → K) (rcutij wj : ℕ → K) (num_nbor : ℕ)
    (order : List ℕ) (s : UiState K) (idx : ℕ) (horder : order.Perm (List.range num_nbor))
    (hidx : idx < (idxu_fill twojmax umem).idxu_count) :
    (∀ nbor, nbor < num_nbor →
      (compute_ui_atom env (ui_tables env twojmax umem pmem rmem)
        (idxu_fill twojmax umem).idxu_count rij rcutij wj order s).ulist nbor
        = ui_pair_ulist env (ui_tables env twojmax umem pmem rmem) rij rcutij wj nbor
            (s.ulist nbor)) ∧
    ((compute_ui_atom env (ui_tables env twojmax umem pmem rmem)
        (idxu_fill twojmax umem).idxu_count rij rcutij wj order s).ulisttot idx).re
      = udiag K twojmax (idxu_fill twojmax umem).idxu_block idx
        + ∑ nbor ∈ Finset.range num_nbor,
            (env.compute_sfac (env.sqrt (rij nbor 0 * rij nbor 0 + rij nbor 1 * rij nbor 1
              + rij nbor 2 * rij nbor 2)) (rcutij nbor) switch_flag * wj nbor) *
            ((compute_ui_atom env (ui_tables env twojmax umem pmem rmem)
              (idxu_fill twojmax umem).idxu_count rij rcutij wj order s).ulist nbor idx).re ∧
    ((compute_ui_atom env (ui_tables env twojmax umem pmem rmem)
        (idxu_fill twojmax umem).idxu_count rij rcutij wj order s).ulisttot idx).im
      = ∑ nbor ∈ Finset.range num_nbor,
            (env.compute_sfac (env.sqrt (rij nbor 0 * rij nbor 0 + rij nbor 1 * rij nbor 1
              + rij nbor 2 * rij nbor 2)) (rcutij nbor) switch_flag * wj nbor) *
            ((compute_ui_atom env (ui_tables env twojmax umem pmem rmem)
              (idxu_fill twojmax umem).idxu_count rij rcutij wj order s).ulist nbor idx).im ∧
    ∀ order' : List ℕ, order'.Perm (List.range num_nbor) →
      (compute_ui_atom env (ui_tables env twojmax umem pmem rmem)
        (idxu_fill twojmax umem).idxu_count rij rcutij wj order' s).ulisttot idx
      = (compute_ui_atom env (ui_tables env twojmax umem pmem rmem)
        (idxu_fill twojmax umem).idxu_count rij rcutij wj order s).ulisttot idx := by
  obtain ⟨h1, h2⟩ := compute_ui_value env twojmax umem pmem rmem rij rcutij wj num_nbor order s
    horder
  obtain ⟨r1, r2⟩ := h2 idx hidx
  refine ⟨h1, ?_, ?_, ?_⟩
  · rw [r1]
    congr 1
    apply Finset.sum_congr rfl
    intro nbor hn
    rw [h1 nbor (Finset.mem_range.1 hn)]
    rfl
  · rw [r2]
    apply Finset.sum_congr rfl
    intro nbor hn
    rw [h1 nbor (Finset.mem_range.1 hn)]
    rfl
  · intro order' horder'
    obtain ⟨_, h2'⟩ := compute_ui_value env twojmax umem pmem rmem rij rcutij wj num_nbor
      order' s horder'
    obtain ⟨r1', r2'⟩ := h2' idx hidx
    ext
    · rw [r1, r1']
    · rw [r2, r2']

end C19

theorem compute_ui_sum_witness :
    [1, 0].Perm (List.range 2) ∧ 0 < (idxu_fill 2 (fun _ => 0)).idxu_count ∧
    (compute_ui_atom (⟨fun x => x, fun x => x, 0, 1, 3, fun _ _ _ => 1⟩ : SnapEnv ℚ)
        (ui_tables ⟨fun x => x, fun x => x, 0, 1, 3, fun _ _ _ => 1⟩ 2 (fun _ => 0)
          (fun _ => 0) (fun _ _ => 0))
        (idxu_fill 2 (fun _ => 0)).idxu_count (fun nbor k => (nbor : ℚ) + k + 1) (fun _ => 5)
        (fun _ => 1) [0, 1] ⟨fun _ _ => ⟨7, 7⟩, fun _ => ⟨9, 9⟩⟩).ulisttot 0
      = (compute_ui_atom (⟨fun x => x, fun x => x, 0, 1, 3, fun _ _ _ => 1⟩ : SnapEnv ℚ)
        (ui_tables ⟨fun x => x, fun x => x, 0, 1, 3, fun _ _ _ => 1⟩ 2 (fun _ => 0)
          (fun _ => 0) (fun _ _ => 0))
        (idxu_fill 2 (fun _ => 0)).idxu_count (fun nbor k => (nbor : ℚ) + k + 1) (fun _ => 5)
        (fun _ => 1) [1, 0] ⟨fun _ _ => ⟨7, 7⟩, fun _ => ⟨9, 9⟩⟩).ulisttot 0 :=
  ⟨List.Perm.swap 0 1 [], by decide,
    (compute_ui_sum (⟨fun x => x, fun x => x, 0, 1, 3, fun _ _ _ => 1⟩ : SnapEnv ℚ) 2
      (fun _ => 0) (fun _ => 0) (fun _ _ => 0) (fun nbor k => (nbor : ℚ) + k + 1) (fun _ => 5)
      (fun _ => 1) 2 [1, 0] ⟨fun _ _ => ⟨7, 7⟩, fun _ => ⟨9, 9⟩⟩ 0 (List.Perm.swap 0 1 [])
      (by decide)).2.2.2 [0, 1] (List.Perm.refl _)⟩

/-! ## The arrays of a step do not depend on their previous content -/

section UIndep
variable {K : Type} [Field K]

/-- After a level, a cell of the right half is the parity times the conjugate of its
mirror cell of the left half. -/
theorem ui_level_mirror (idxu_block : ℕ → ℕ) (ulist_parity : ℕ → ℤ) (rt : ℕ → ℕ → K)
    (a_r a_i b_r b_i : K) (j : ℕ) (s : UState K) (hblk : idxu_block j = s.jju)
    (mb ma : ℕ) (hmb : 2 * mb < j) (hma : ma ≤ j) :
    (ui_level idxu_block ulist_parity rt a_r a_i b_r b_i s j).ulist
        (s.jju + (j - mb) * (j + 1) + (j - ma))
      = Cplx.smul (ulist_parity (s.jju + mb * (j + 1) + ma) : K)
          (Cplx.conj ((ui_level idxu_block ulist_parity rt a_r a_i b_r b_i s j).ulist
            (s.jju + mb * (j + 1) + ma))) := by
  obtain ⟨g1, g2⟩ := ui_symfill_spec idxu_block ulist_parity j
    (ui_rec_level rt a_r a_i b_r b_i j s).ulist
  have hq := zpos_lt j mb ma (by omega) hma
  have e : (ui_level idxu_block ulist_parity rt a_r a_i b_r b_i s j).ulist
      = ui_symfill idxu_block ulist_parity j (ui_rec_level rt a_r a_i b_r b_i j s).ulist := rfl
  rw [e, ← hblk, g1 mb ma hmb hma, g2 (idxu_block j + mb * (j + 1) + ma) (Or.inl (by omega))]

/-- One level maps arrays that agree below the block of the level, and on the first
column of its left and middle rows, to arrays that agree below the end of the block. -/
theorem ui_level_congr (idxu_block : ℕ → ℕ) (ulist_parity : ℕ → ℤ) (rt : ℕ → ℕ → K)
    (a_r a_i b_r b_i : K) (j : ℕ) (hj : 1 ≤ j) (s s' : UState K)
    (hblk : idxu_block j = s.jju) (hP : s.jjup + j * j = s.jju)
    (hjju : s'.jju = s.jju) (hjjup : s'.jjup = s.jjup)
    (hlow : ∀ x, x < s.jju → s.ulist x = s'.ulist x)
    (hzero : ∀ mb, 2 * mb ≤ j → s.ulist (s.jju + mb * (j + 1)) = s'.ulist (s.jju + mb * (j + 1)))
    (x : ℕ) (hx : x < s.jju + (j + 1) * (j + 1)) :
    (ui_level idxu_block ulist_parity rt a_r a_i b_r b_i s j).ulist x
      = (ui_level idxu_block ulist_parity rt a_r a_i b_r b_i s' j).ulist x := by
  obtain ⟨_, _, a3, a4, a5⟩ := ui_level_spec idxu_block ulist_parity rt a_r a_i b_r b_i j hj s
    hblk hP
  obtain ⟨_, _, a3', a4', a5'⟩ := ui_level_spec idxu_block ulist_parity rt a_r a_i b_r b_i j hj
    s' (by rw [hjju]; exact hblk) (by rw [hjju, hjjup]; exact hP)
  rw [hjju] at a3' a4' a5'
  rw [hjjup] at a3' a4'
  have hjj : j * j = (j - 1) * j + j := by
    obtain ⟨i, rfl⟩ : ∃ i, j = i + 1 := ⟨j - 1, by omega⟩
    simp only [Nat.add_sub_cancel]; ring
  -- cells of the previous level
  have hup : ∀ mb i, mb < j → i < j → s.ulist (s.jjup + mb * j + i)
      = s'.ulist (s.jjup + mb * j + i) := by
    intro mb i hmb hi
    apply hlow
    have : mb * j ≤ (j - 1) * j := Nat.mul_le_mul_right _ (by omega)
    omega
  -- rows of the left half and the middle row
  have hleft : ∀ mb ma, 2 * mb < j → ma ≤ j →
      (ui_level idxu_block ulist_parity rt a_r a_i b_r b_i s j).ulist
          (s.jju + mb * (j + 1) + ma)
        = (ui_level idxu_block ulist_parity rt a_r a_i b_r b_i s' j).ulist
          (s.jju + mb * (j + 1) + ma) := by
    intro mb ma hmb hma
    rw [a3 mb ma hmb hma, a3' mb ma hmb hma]
    by_cases h1 : ma < j
    · rw [if_pos h1, if_pos h1, hup mb ma (by omega) h1]
      by_cases h2 : ma = 0
      · rw [if_pos h2, if_pos h2, hzero mb (by omega)]
      · rw [if_neg h2, if_neg h2, hup mb (ma - 1) (by omega) (by omega)]
    · rw [if_neg h1, if_neg h1, hup mb (j - 1) (by omega) (by omega)]
  have hmid : ∀ r ma, 2 * (r + 1) = j → ma ≤ j →
      (ui_level idxu_block ulist_parity rt a_r a_i b_r b_i s j).ulist
          (s.jju + (r + 1) * (j + 1) + ma)
        = (ui_level idxu_block ulist_parity rt a_r a_i b_r b_i s' j).ulist
          (s.jju + (r + 1) * (j + 1) + ma) := by
    intro r ma hr hma
    rw [a4 r ma hr hma, a4' r ma hr hma]
    by_cases h1 : ma < j
    · rw [if_pos h1, if_pos h1, hup r ma (by omega) h1]
      by_cases h2 : ma = 0
      · rw [if_pos h2, if_pos h2, hzero (r + 1) (by omega)]
      · rw [if_neg h2, if_neg h2, hup r (ma - 1) (by omega) (by omega)]
    · rw [if_neg h1, if_neg h1, hup r (j - 1) (by omega) (by omega)]
  by_cases hxl : x < s.jju
  · rw [a5 x (Or.inl hxl), a5' x (Or.inl hxl)]
    exact hlow x hxl
  · -- a cell `(mb, ma)` of the block
    have hdm := Nat.div_add_mod (x - s.jju) (j + 1)
    have hmlt : (x - s.jju) % (j + 1) < j + 1 := Nat.mod_lt _ (by omega)
    have hdlt : (x - s.jju) / (j + 1) < j + 1 := by
      rw [Nat.div_lt_iff_lt_mul (by omega)]; omega
    obtain ⟨mb, ma, hmb, hma, hxe⟩ : ∃ mb ma, mb ≤ j ∧ ma ≤ j ∧
        x = s.jju + mb * (j + 1) + ma := by
      refine ⟨(x - s.jju) / (j + 1), (x - s.jju) % (j + 1), by omega, by omega, ?_⟩
      have : (j + 1) * ((x - s.jju) / (j + 1)) = (x - s.jju) / (j + 1) * (j + 1) :=
        Nat.mul_comm _ _
      omega
    rcases Nat.lt_trichotomy (2 * mb) j with h | h | h
    · rw [hxe]; exact hleft mb ma h (by omega)
    · obtain ⟨r, hr⟩ : ∃ r, mb = r + 1 := ⟨mb - 1, by omega⟩
      rw [hxe, hr]; exact hmid r ma (by omega) (by omega)
    · have hm1 := ui_level_mirror idxu_block ulist_parity rt a_r a_i b_r b_i j s hblk
        (j - mb) (j - ma) (by omega) (by omega)
      have hm2 := ui_level_mirror idxu_block ulist_parity rt a_r a_i b_r b_i j s'
        (by rw [hjju]; exact hblk) (j - mb) (j - ma) (by omega) (by omega)
      rw [hjju] at hm2
      have e1 : j - (j - mb) = mb := by omega
      have e2 : j - (j - ma) = ma := by omega
      rw [e1, e2] at hm1 hm2
      rw [hxe, hm1, hm2, hleft (j - mb) (j - ma) (by omega) (by omega)]

theorem ui_fold_congr (twojmax : ℕ) (idxu_block : ℕ → ℕ) (ulist_parity : ℕ → ℤ)
    (rt : ℕ → ℕ → K) (a_r a_i b_r b_i : K) (Z Z' : ℕ → Cplx K)
    (hblk : ∀ j, j ≤ twojmax → idxu_block j = uoff j) (h0 : Z 0 = Z' 0)
    (hz : ∀ j mb, 1 ≤ j → j ≤ twojmax → 2 * mb ≤ j →
      Z (uoff j + mb * (j + 1)) = Z' (uoff j + mb * (j + 1)))
    (n : ℕ) (hn : n ≤ twojmax) :
    ((List.range' 1 n).foldl (ui_level idxu_block ulist_parity rt a_r a_i b_r b_i)
        ({ ulist := Z, jju := 1, jjup := 0 } : UState K)).jju = uoff (n + 1) ∧
    ((List.range' 1 n).foldl (ui_level idxu_block ulist_parity rt a_r a_i b_r b_i)
        ({ ulist := Z', jju := 1, jjup := 0 } : UState K)).jju = uoff (n + 1) ∧
    ((List.range' 1 n).foldl (ui_level idxu_block ulist_parity rt a_r a_i b_r b_i)
        ({ ulist := Z, jju := 1, jjup := 0 } : UState K)).jjup = uoff n ∧
    ((List.range' 1 n).foldl (ui_level idxu_block ulist_parity rt a_r a_i b_r b_i)
        ({ ulist := Z', jju := 1, jjup := 0 } : UState K)).jjup = uoff n ∧
    (∀ x, x < uoff (n + 1) →
      ((List.range' 1 n).foldl (ui_level idxu_block ulist_parity rt a_r a_i b_r b_i)
        ({ ulist := Z, jju := 1, jjup := 0 } : UState K)).ulist x
      = ((List.range' 1 n).foldl (ui_level idxu_block ulist_parity rt a_r a_i b_r b_i)
        ({ ulist := Z', jju := 1, jjup := 0 } : UState K)).ulist x) ∧
    (∀ j mb, n < j → j ≤ twojmax → 2 * mb ≤ j →
      ((List.range' 1 n).foldl (ui_level idxu_block ulist_parity rt a_r a_i b_r b_i)
        ({ ulist := Z, jju := 1, jjup := 0 } : UState K)).ulist (uoff j + mb * (j + 1))
      = ((List.range' 1 n).foldl (ui_level idxu_block ulist_parity rt a_r a_i b_r b_i)
        ({ ulist := Z', jju := 1, jjup := 0 } : UState K)).ulist (uoff j + mb * (j + 1))) := by
  induction n with
  | zero =>
    refine ⟨by simp [uoff], by simp [uoff], by simp [uoff], by simp [uoff], ?_, ?_⟩
    · intro x hx
      have : x = 0 := by simp [uoff] at hx; exact hx
      subst this
      exact h0
    · intro j mb h1 h2 h3
      exact hz j mb (by omega) h2 h3
  | succ n ih =>
    obtain ⟨c1, c2, c3, c4, hlow, hzero⟩ := ih (by omega)
    rw [List.range'_concat, List.foldl_append, List.foldl_cons, List.foldl_nil,
      List.foldl_append, List.foldl_cons, List.foldl_nil]
    generalize (List.range' 1 n).foldl (ui_level idxu_block ulist_parity rt a_r a_i b_r b_i)
        ({ ulist := Z, jju := 1, jjup := 0 } : UState K) = sn at c1 c3 hlow hzero ⊢
    generalize (List.range' 1 n).foldl (ui_level idxu_block ulist_parity rt a_r a_i b_r b_i)
        ({ ulist := Z', jju := 1, jjup := 0 } : UState K) = sn' at c2 c4 hlow hzero ⊢
    have e : 1 + 1 * n = n + 1 := by omega
    rw [e]
    have hs1 := uoff_succ n
    have hs2 := uoff_succ (n + 1)
    have hb : idxu_block (n + 1) = sn.jju := by rw [c1]; exact hblk (n + 1) hn
    have hb' : idxu_block (n + 1) = sn'.jju := by rw [c2]; exact hblk (n + 1) hn
    have hP : sn.jjup + (n + 1) * (n + 1) = sn.jju := by rw [c1, c3, hs1]
    have hP' : sn'.jjup + (n + 1) * (n + 1) = sn'.jju := by rw [c2, c4, hs1]
    obtain ⟨a1, a2, _, _, a5⟩ := ui_level_spec idxu_block ulist_parity rt a_r a_i b_r b_i
      (n + 1) (by omega) sn hb hP
    obtain ⟨a1', a2', _, _, a5'⟩ := ui_level_spec idxu_block ulist_parity rt a_r a_i b_r b_i
      (n + 1) (by omega) sn' hb' hP'
    refine ⟨by rw [a1, c1, hs2], by rw [a1', c2, hs2], by rw [a2, c1], by rw [a2', c2], ?_, ?_⟩
    · intro x hx
      refine ui_level_congr idxu_block ulist_parity rt a_r a_i b_r b_i (n + 1) (by omega) sn sn'
        hb hP (by rw [c1, c2]) (by rw [c3, c4]) ?_ ?_ x (by rw [c1]; omega)
      · intro y hy
        rw [c1] at hy
        exact hlow y hy
      · intro mb hmb
        rw [c1]
        exact hzero (n + 1) mb (by omega) hn hmb
    · intro j mb h1 h2 h3
      have hm := uoff_mono (show n + 1 + 1 ≤ j by omega)
      rw [a5 _ (Or.inr (by rw [c1]; omega)), a5' _ (Or.inr (by rw [c2]; omega))]
      exact hzero j mb (by omega) h2 h3

/-- The `ulist` array of a pair does not depend on the previous content of the array, at
any index below `idxu_max`. -/
theorem compute_ulist_indep (twojmax : ℕ) (idxu_block : ℕ → ℕ) (ulist_parity : ℕ → ℤ)
    (rt : ℕ → ℕ → K) (a_r a_i b_r b_i : K) (u0 u0' : ℕ → Cplx K)
    (hblk : ∀ j, j ≤ twojmax → idxu_block j = uoff j) (x : ℕ) (hx : x < uoff (twojmax + 1)) :
    compute_ulist twojmax idxu_block ulist_parity rt a_r a_i b_r b_i u0 x
      = compute_ulist twojmax idxu_block ulist_parity rt a_r a_i b_r b_i u0' x := by
  obtain ⟨_, z2, z3⟩ := ui_zero_phase twojmax (Function.update u0 0 ({ re := 1, im := 0 } : Cplx K))
  obtain ⟨_, z2', z3'⟩ := ui_zero_phase twojmax
    (Function.update u0' 0 ({ re := 1, im := 0 } : Cplx K))
  unfold compute_ulist
  refine (ui_fold_congr twojmax idxu_block ulist_parity rt a_r a_i b_r b_i _ _ hblk ?_ ?_
    twojmax (le_refl _)).2.2.2.2.1 x hx
  · rw [z3, z3', Function.update_same, Function.update_same]
  · intro j mb h1 h2 h3
    rw [z2 j mb h1 h2 h3, z2' j mb h1 h2 h3]

end UIndep

section YIndep
variable {K : Type} [Field K]

/-- Value of a cell of Y after the Y stage. -/
theorem ystage_cell (twojmax : ℕ) (idxb_block : ℕ → ℤ) (beta : ℤ → K)
    (zmem : ZTables K) (dumem : ℕ → ℕ) (idxcg_block idxu_block : ℤ → ℤ) (cglist : ℤ → K)
    (ulisttot : ℤ → Cplx K) (ylist : ℤ → Cplx K)
    (j mb ma : ℕ) (hj : j ≤ twojmax) (hmb : 2 * mb ≤ j) (hma : ma ≤ j) :
    ystage twojmax idxb_block beta zmem dumem idxcg_block idxu_block cglist ulisttot ylist
        ((duoff j : ℤ) + ((j : ℤ) + 1) * mb + ma)
      = { re := yspec_re twojmax idxb_block beta idxcg_block idxu_block cglist ulisttot j mb ma
          im := yspec_im twojmax idxb_block beta idxcg_block idxu_block cglist ulisttot j mb
            ma } := by
  have hblk : (duoff j : ℤ) = ((idxdu_fill twojmax dumem).idxdu_block j : ℤ) := by
    rw [idxdu_fill_block twojmax dumem j hj]
  obtain ⟨a1, a2⟩ := compute_yi_apply twojmax (zfill twojmax idxb_block beta zmem).idxz
    (zfill twojmax idxb_block beta zmem).idxzbeta idxcg_block idxu_block
    (fun z => ((idxdu_fill twojmax dumem).idxdu_block z.toNat : ℤ)) cglist ulisttot
    (reset_ylist (idxdu_fill twojmax dumem).idxdu_count ylist) (idxz_max twojmax)
    (((idxdu_fill twojmax dumem).idxdu_block j : ℤ) + ((j : ℤ) + 1) * mb + ma)
  have hreset : reset_ylist (idxdu_fill twojmax dumem).idxdu_count ylist
      (((idxdu_fill twojmax dumem).idxdu_block j : ℤ) + ((j : ℤ) + 1) * mb + ma)
      = { re := 0, im := 0 } := by
    obtain ⟨_, _, d3, d4⟩ := ducell_range twojmax j mb ma hj hmb hma
    rw [← hblk, reset_ylist, idxdu_fill_count, if_pos ⟨d3, d4⟩]
  have s1 := ystage_sum twojmax idxb_block beta zmem dumem idxcg_block cglist
    (fun rec cg => ysum_re cg idxu_block ulisttot rec)
    (fun cg rec rec' h => (ysum_congr cg idxu_block ulisttot rec rec' h).1) j mb ma hj hmb hma
  have s2 := ystage_sum twojmax idxb_block beta zmem dumem idxcg_block cglist
    (fun rec cg => ysum_im cg idxu_block ulisttot rec)
    (fun cg rec rec' h => (ysum_congr cg idxu_block ulisttot rec rec' h).2) j mb ma hj hmb hma
  rw [hblk]
  unfold ystage yspec_re yspec_im
  ext
  · rw [a1, hreset]
    simp only [zero_add]
    exact s1
  · rw [a2, hreset]
    simp only [zero_add]
    exact s2

/-- The double sum of a record reads Utot only inside `[0, idxu_max)`. -/
theorem ysum_agree (twojmax : ℕ) (umem : ℕ → ℕ) (cg : ℤ → K) (ut ut' : ℤ → Cplx K)
    (hag : ∀ i : ℤ, 0 ≤ i → i < (uoff (twojmax + 1) : ℤ) → ut i = ut' i)
    (j1 j2 j mb ma : ℕ) (ht : (j1, j2, j) ∈ triples twojmax) :
    ysum_re cg (idxu_block_int twojmax umem) ut (zfields j1 j2 j mb ma)
      = ysum_re cg (idxu_block_int twojmax umem) ut' (zfields j1 j2 j mb ma) ∧
    ysum_im cg (idxu_block_int twojmax umem) ut (zfields j1 j2 j mb ma)
      = ysum_im cg (idxu_block_int twojmax umem) ut' (zfields j1 j2 j mb ma) := by
  obtain ⟨k, hk⟩ := triple_parity ht
  have hb := mem_triples_bounds ht
  simp only at hb
  have hj1 : j1 ≤ twojmax := hb.1
  have hj2 : j2 ≤ twojmax := by omega
  have key : ∀ ib ia : ℕ, ib ∈ Finset.range (zn j1 j2 j mb).toNat →
      ia ∈ Finset.range (zn j1 j2 j ma).toNat →
      ut (idxu_block_int twojmax umem (j1 : ℤ) + ((j1 : ℤ) + 1) * (zmin j1 j2 j mb + ib)
          + (zmin j1 j2 j ma + ia))
        = ut' (idxu_block_int twojmax umem (j1 : ℤ) + ((j1 : ℤ) + 1) * (zmin j1 j2 j mb + ib)
          + (zmin j1 j2 j ma + ia)) ∧
      ut (idxu_block_int twojmax umem (j2 : ℤ) + ((j2 : ℤ) + 1) * (zmax j1 j2 j mb - ib)
          + (zmax j1 j2 j ma - ia))
        = ut' (idxu_block_int twojmax umem (j2 : ℤ) + ((j2 : ℤ) + 1) * (zmax j1 j2 j mb - ib)
          + (zmax j1 j2 j ma - ia)) := by
    intro ib ia hib hia
    rw [Finset.mem_range] at hib hia
    obtain ⟨wb1, wb2, wb3, wb4⟩ := zwindow j1 j2 j mb k hk ib (Int.lt_toNat.1 hib)
    obtain ⟨wa1, wa2, wa3, wa4⟩ := zwindow j1 j2 j ma k hk ia (Int.lt_toNat.1 hia)
    obtain ⟨_, _, u3, u4⟩ := ucell_range twojmax j1 hj1 _ _ wb1 wb2 wa1 wa2
    obtain ⟨_, _, v3, v4⟩ := ucell_range twojmax j2 hj2 _ _ wb3 wb4 wa3 wa4
    rw [idxu_block_int_eq twojmax umem j1 hj1, idxu_block_int_eq twojmax umem j2 hj2]
    exact ⟨hag _ u3 u4, hag _ v3 v4⟩
  constructor
  · simp only [ysum_re, zfields]
    apply Finset.sum_congr rfl
    intro ib hib
    congr 1
    apply Finset.sum_congr rfl
    intro ia hia
    obtain ⟨e1, e2⟩ := key ib ia hib hia
    rw [e1, e2]
  · simp only [ysum_im, zfields]
    apply Finset.sum_congr rfl
    intro ib hib
    congr 1
    apply Finset.sum_congr rfl
    intro ia hia
    obtain ⟨e1, e2⟩ := key ib ia hib hia
    rw [e1, e2]

theorem yspec_agree (twojmax : ℕ) (umem : ℕ → ℕ) (idxb_block : ℕ → ℤ) (beta : ℤ → K)
    (idxcg_block : ℤ → ℤ) (cglist : ℤ → K) (ut ut' : ℤ → Cplx K)
    (hag : ∀ i : ℤ, 0 ≤ i → i < (uoff (twojmax + 1) : ℤ) → ut i = ut' i) (j mb ma : ℕ) :
    yspec_re twojmax idxb_block beta idxcg_block (idxu_block_int twojmax umem) cglist ut j mb ma
      = yspec_re twojmax idxb_block beta idxcg_block (idxu_block_int twojmax umem) cglist ut'
          j mb ma ∧
    yspec_im twojmax idxb_block beta idxcg_block (idxu_block_int twojmax umem) cglist ut j mb ma
      = yspec_im twojmax idxb_block beta idxcg_block (idxu_block_int twojmax umem) cglist ut'
          j mb ma := by
  unfold yspec_re yspec_im
  constructor
  · congr 1
    apply List.map_congr_left
    intro t ht
    have htm : (t.1, t.2.1, t.2.2) ∈ triples twojmax := (List.mem_filter.1 ht).1
    rw [(ysum_agree twojmax umem _ ut ut' hag t.1 t.2.1 t.2.2 mb ma htm).1]
  · congr 1
    apply List.map_congr_left
    intro t ht
    have htm : (t.1, t.2.1, t.2.2) ∈ triples twojmax := (List.mem_filter.1 ht).1
    rw [(ysum_agree twojmax umem _ ut ut' hag t.1 t.2.1 t.2.2 mb ma htm).2]

/-- Every index below `idxdu_max` is a cell `(j, mb, ma)` of a left half. -/
theorem duoff_cover (n i : ℕ) (hi : i < duoff n) :
    ∃ j mb ma, j < n ∧ 2 * mb ≤ j ∧ ma ≤ j ∧ i = duoff j + (mb * (j + 1) + ma) := by
  induction n with
  | zero => simp [duoff] at hi
  | succ n ih =>
    by_cases h : i < duoff n
    · obtain ⟨j, mb, ma, h1, h2, h3, h4⟩ := ih h
      exact ⟨j, mb, ma, by omega, h2, h3, h4⟩
    · rw [duoff_succ] at hi
      have hdlt : (i - duoff n) / (n + 1) < n / 2 + 1 := by
        rw [Nat.div_lt_iff_lt_mul (by omega)]; omega
      have hmlt : (i - duoff n) % (n + 1) < n + 1 := Nat.mod_lt _ (by omega)
      have hdm := Nat.div_add_mod (i - duoff n) (n + 1)
      refine ⟨n, (i - duoff n) / (n + 1), (i - duoff n) % (n + 1), by omega, by omega,
        by omega, ?_⟩
      have : (n + 1) * ((i - duoff n) / (n + 1)) = (i - duoff n) / (n + 1) * (n + 1) :=
        Nat.mul_comm _ _
      omega

end YIndep

section C16
variable {K : Type} [Field K]

theorem step_ui_indep (inp : StepIn K) (s s' : Scratch K) (natom : ℕ) :
    (∀ nbor idx, nbor < inp.num_nbor → idx < (idxu_fill inp.twojmax inp.umem).idxu_count →
      (step_ui inp s natom).ulist nbor idx = (step_ui inp s' natom).ulist nbor idx) ∧
    (∀ idx, idx < (idxu_fill inp.twojmax inp.umem).idxu_count →
      (step_ui inp s natom).ulisttot idx = (step_ui inp s' natom).ulisttot idx) := by
  obtain ⟨h1, h2⟩ := compute_ui_value inp.env inp.twojmax inp.umem inp.pmem inp.rmem
    (inp.rij natom) (inp.rcutij natom) (inp.wj natom) inp.num_nbor (List.range inp.num_nbor)
    { ulist := s.ulist natom, ulisttot := s.ulisttot natom } (List.Perm.refl _)
  obtain ⟨h1', h2'⟩ := compute_ui_value inp.env inp.twojmax inp.umem inp.pmem inp.rmem
    (inp.rij natom) (inp.rcutij natom) (inp.wj natom) inp.num_nbor (List.range inp.num_nbor)
    { ulist := s'.ulist natom, ulisttot := s'.ulisttot natom } (List.Perm.refl _)
  have hu : ∀ nbor idx, idx < (idxu_fill inp.twojmax inp.umem).idxu_count →
      ui_pair_ulist inp.env (ui_tables inp.env inp.twojmax inp.umem inp.pmem inp.rmem)
          (inp.rij natom) (inp.rcutij natom) (inp.wj natom) nbor (s.ulist natom nbor) idx
        = ui_pair_ulist inp.env (ui_tables inp.env inp.twojmax inp.umem inp.pmem inp.rmem)
          (inp.rij natom) (inp.rcutij natom) (inp.wj natom) nbor (s'.ulist natom nbor) idx := by
    intro nbor idx hidx
    rw [idxu_fill_count] at hidx
    unfold ui_pair_ulist
    exact compute_ulist_indep inp.twojmax _ _ _ _ _ _ _ _ _
      (fun j hj => idxu_fill_block inp.twojmax inp.umem j hj) idx hidx
  refine ⟨?_, ?_⟩
  · intro nbor idx hn hidx
    unfold step_ui
    rw [h1 nbor hn, h1' nbor hn]
    exact hu nbor idx hidx
  · intro idx hidx
    obtain ⟨r1, r2⟩ := h2 idx hidx
    obtain ⟨r1', r2'⟩ := h2' idx hidx
    unfold step_ui
    ext
    · rw [r1, r1']
      congr 1
      apply Finset.sum_congr rfl
      intro nbor _
      rw [hu nbor idx hidx]
    · rw [r2, r2']
      apply Finset.sum_congr rfl
      intro nbor _
      rw [hu nbor idx hidx]

theorem step_ylist_indep (inp : StepIn K) (ut ut' : ℕ → Cplx K) (y y' : ℤ → Cplx K)
    (hag : ∀ idx, idx < (idxu_fill inp.twojmax inp.umem).idxu_count → ut idx = ut' idx)
    (i : ℤ) (h0 : 0 ≤ i) (hi : i < ((idxdu_fill inp.twojmax inp.dumem).idxdu_count : ℤ)) :
    step_ylist inp ut y i = step_ylist inp ut' y' i := by
  rw [idxdu_fill_count] at hi
  have hin : i.toNat < duoff (inp.twojmax + 1) := by omega
  obtain ⟨j, mb, ma, hj, hmb, hma, he⟩ := duoff_cover (inp.twojmax + 1) i.toNat hin
  have hie : i = (duoff j : ℤ) + ((j : ℤ) + 1) * mb + ma := by
    have : i = ((duoff j + (mb * (j + 1) + ma) : ℕ) : ℤ) := by
      rw [← he]; exact (Int.toNat_of_nonneg h0).symm
    rw [this]; push_cast; ring
  have hagz : ∀ z : ℤ, 0 ≤ z → z < (uoff (inp.twojmax + 1) : ℤ) →
      (fun i : ℤ => ut i.toNat) z = (fun i : ℤ => ut' i.toNat) z := by
    intro z hz0 hz
    apply hag
    rw [idxu_fill_count]
    omega
  obtain ⟨e1, e2⟩ := yspec_agree inp.twojmax inp.umem
    (idxb_block_fill inp.twojmax inp.bmem).idxb_block inp.beta
    (idxcg_block_int inp.twojmax inp.cgmem)
    (fun i => (cg_fill inp.factorial inp.deltacg inp.env.sqrt inp.twojmax inp.cmem).cglist
      i.toNat)
    (fun i => ut i.toNat) (fun i => ut' i.toNat) hagz j mb ma
  unfold step_ylist
  rw [hie, ystage_cell _ _ _ _ _ _ _ _ _ _ j mb ma (by omega) hmb hma,
    ystage_cell _ _ _ _ _ _ _ _ _ _ j mb ma (by omega) hmb hma, e1, e2]

theorem deidrj_indep (twojmax : ℕ) (dumem : ℕ → ℕ) (y y' : ℕ → Cplx K)
    (dulist : ℕ → ℕ → Cplx K) (d d' : ℕ → K)
    (hag : ∀ i, i < (idxdu_fill twojmax dumem).idxdu_count → y i = y' i) (k : ℕ) (hk : k < 3) :
    compute_deidrj twojmax (idxdu_fill twojmax dumem).idxdu_block y dulist d k
      = compute_deidrj twojmax (idxdu_fill twojmax dumem).idxdu_block y' dulist d' k := by
  unfold compute_deidrj
  simp only [hk, if_true]
  rw [deidrj_levels, deidrj_levels]
  simp only [hk, if_true]
  congr 2
  apply Finset.sum_congr rfl
  intro j hj
  apply Finset.sum_congr rfl
  intro mb hmb
  apply Finset.sum_congr rfl
  intro ma hma
  rw [Finset.mem_range] at hj hmb hma
  have hq := zpos_lt j mb ma (by omega) (by omega)
  have hm := duoff_mono (show j + 1 ≤ twojmax + 1 by omega)
  rw [duoff_succ] at hm
  have hy : y ((idxdu_fill twojmax dumem).idxdu_block j + mb * (j + 1) + ma)
      = y' ((idxdu_fill twojmax dumem).idxdu_block j + mb * (j + 1) + ma) := by
    apply hag
    rw [idxdu_fill_count, idxdu_fill_block twojmax dumem j (by omega)]
    omega
  unfold dterm
  rw [hy]

/-- C16. One step run from any two contents `s`, `s'` of the scratch buffers `ulist`,
`ulisttot`, `ylist`, `dedr`, `f`, on the same inputs (geometry, weights, cutoffs,
coefficients, index tables, `dulist` as delivered by `compute_duarray`), in exact
arithmetic with the work items taken in a fixed order, leaves the same `U` at every
logical index below `idxu_max` of every pair, the same `Utot` at every index below
`idxu_max` and the same `Y` at every index of `[0, idxdu_max)` of every atom, the same
three `dedr` cells of every pair and the same `f` for every atom below `ntotal`. -/
theorem step_independent (inp : StepIn K) (s s' : Scratch K) :
    (∀ natom nbor idx, natom < inp.num_atoms → nbor < inp.num_nbor →
      idx < (idxu_fill inp.twojmax inp.umem).idxu_count →
      (step inp s).ulist natom nbor idx = (step inp s').ulist natom nbor idx) ∧
    (∀ natom idx, natom < inp.num_atoms →
      idx < (idxu_fill inp.twojmax inp.umem).idxu_count →
      (step inp s).ulisttot natom idx = (step inp s').ulisttot natom idx) ∧
    (∀ natom (i : ℤ), natom < inp.num_atoms → 0 ≤ i →
      i < ((idxdu_fill inp.twojmax inp.dumem).idxdu_count : ℤ) →
      (step inp s).ylist natom i = (step inp s').ylist natom i) ∧
    (∀ natom nbor k, natom < inp.num_atoms → nbor < inp.num_nbor → k < 3 →
      (step inp s).dedr natom nbor k = (step inp s').dedr natom nbor k) ∧
    (∀ i k, i < inp.ntotal → k < 3 → (step inp s).f i k = (step inp s').f i k) := by
  have hU : ∀ natom nbor idx, natom < inp.num_atoms → nbor < inp.num_nbor →
      idx < (idxu_fill inp.twojmax inp.umem).idxu_count →
      (step inp s).ulist natom nbor idx = (step inp s').ulist natom nbor idx := by
    intro natom nbor idx ha hn hidx
    simp only [step, if_pos ha]
    exact (step_ui_indep inp s s' natom).1 nbor idx hn hidx
  have hT : ∀ natom idx, natom < inp.num_atoms →
      idx < (idxu_fill inp.twojmax inp.umem).idxu_count →
      (step inp s).ulisttot natom idx = (step inp s').ulisttot natom idx := by
    intro natom idx ha hidx
    simp only [step, if_pos ha]
    exact (step_ui_indep inp s s' natom).2 idx hidx
  have hY : ∀ natom (i : ℤ), natom < inp.num_atoms → 0 ≤ i →
      i < ((idxdu_fill inp.twojmax inp.dumem).idxdu_count : ℤ) →
      (step inp s).ylist natom i = (step inp s').ylist natom i := by
    intro natom i ha h0 hi
    have hT' := fun idx hidx => hT natom idx ha hidx
    simp only [step, if_pos ha] at hT' ⊢
    exact step_ylist_indep inp _ _ _ _ hT' i h0 hi
  have hD : ∀ natom nbor k, natom < inp.num_atoms → nbor < inp.num_nbor → k < 3 →
      (step inp s).dedr natom nbor k = (step inp s').dedr natom nbor k := by
    intro natom nbor k ha hn hk
    have hY' : ∀ i : ℕ, i < (idxdu_fill inp.twojmax inp.dumem).idxdu_count →
        (step inp s).ylist natom (i : ℤ) = (step inp s').ylist natom (i : ℤ) := by
      intro i hi
      exact hY natom (i : ℤ) ha (Int.natCast_nonneg _) (by exact_mod_cast hi)
    simp only [step, if_pos ha] at hY'
    simp only [step, if_pos ha, if_pos (And.intro ha hn)]
    exact deidrj_indep inp.twojmax inp.dumem _ _ _ _ _ hY' k hk
  refine ⟨hU, hT, hY, hD, ?_⟩
  intro i k hi hk
  have e : (step inp s).f = compute_forces inp.num_atoms inp.num_nbor (step inp s).dedr
      inp.jlist (force_reset inp.ntotal s.f) := rfl
  have e' : (step inp s').f = compute_forces inp.num_atoms inp.num_nbor (step inp s').dedr
      inp.jlist (force_reset inp.ntotal s'.f) := rfl
  rw [e, e', compute_forces_apply _ _ _ _ _ _ _ hk, compute_forces_apply _ _ _ _ _ _ _ hk,
    force_reset_apply _ _ _ _ hi hk, force_reset_apply _ _ _ _ hi hk]
  have hin : (if i < inp.num_atoms then
        ∑ nbor ∈ Finset.range inp.num_nbor, (step inp s).dedr i nbor k else 0)
      = (if i < inp.num_atoms then
        ∑ nbor ∈ Finset.range inp.num_nbor, (step inp s').dedr i nbor k else 0) := by
    by_cases h : i < inp.num_atoms
    · rw [if_pos h, if_pos h]
      apply Finset.sum_congr rfl
      intro nbor hn
      rw [hD i nbor k h (Finset.mem_range.1 hn) hk]
    · rw [if_neg h, if_neg h]
  have hout : ∑ a ∈ Finset.range inp.num_atoms, ∑ nbor ∈ Finset.range inp.num_nbor,
        (if inp.jlist a nbor = i then (step inp s).dedr a nbor k else 0)
      = ∑ a ∈ Finset.range inp.num_atoms, ∑ nbor ∈ Finset.range inp.num_nbor,
        (if inp.jlist a nbor = i then (step inp s').dedr a nbor k else 0) := by
    apply Finset.sum_congr rfl
    intro a ha
    apply Finset.sum_congr rfl
    intro nbor hn
    rw [hD a nbor k (Finset.mem_range.1 ha) (Finset.mem_range.1 hn) hk]
  rw [hin, hout]

end C16

/-! ## Reads of the coefficient vector before the consistency check -/

section C17
variable {K : Type} [Field K]

/-- The selected coefficient depends on `beta` through the cell `beta[jjb]` only. -/
theorem betaj_reads_jjb (twojmax : ℕ) (idxb_block : ℕ → ℤ) (beta beta' : ℤ → K)
    (j1 j2 j : ℕ)
    (h : beta (betaj_jjb twojmax idxb_block j1 j2 j) = beta' (betaj_jjb twojmax idxb_block j1 j2 j)) :
    betaj twojmax idxb_block beta j1 j2 j = betaj twojmax idxb_block beta' j1 j2 j := by
  unfold betaj betaj_jjb at *
  by_cases h1 : j ≥ j1
  · simp only [h1, if_true] at h ⊢
    rw [h]
  · simp only [h1, if_false] at h ⊢
    by_cases h2 : j ≥ j2
    · simp only [h2, if_true] at h ⊢
      rw [h]
    · simp only [h2, if_false] at h ⊢
      rw [h]

/-- C17 at `twojmax = 2` with a supplied `ncoeff = 1` (and `compute_ncoeff(2) = 5`): when
the check of main.cpp 293 fails, the fill loop has already read `beta[jjb]` for
`jjb = 0, 1, 1, 2, 3, 2, 3, 4`, among them indices `>= ncoeff`, and has stored
`3 * beta[0]` in `idxzbeta[0]`. -/
theorem host_setup_reads_before_check (beta : ℤ → K) (bmem : ℕ → ℤ) (zmem : ZTables K) :
    (host_setup (fun _ => 5) 2 1 beta bmem zmem).check_ok = false ∧
    (host_setup (fun _ => 5) 2 1 beta bmem zmem).beta_reads = [0, 1, 1, 2, 3, 2, 3, 4] ∧
    (∃ jjb, jjb ∈ (host_setup (fun _ => 5) 2 1 beta bmem zmem).beta_reads ∧ (1 : ℤ) ≤ jjb) ∧
    (host_setup (fun _ => 5) 2 1 beta bmem zmem).tables.idxzbeta 0 = 3 * beta 0 := by
  have ht : triples 2 = [(0, 0, 0), (1, 0, 1), (1, 1, 0), (1, 1, 2), (2, 0, 2), (2, 1, 1),
      (2, 2, 0), (2, 2, 2)] := by decide
  have hr : zfill_beta_reads 2 (idxb_block_fill 2 bmem).idxb_block
      = [0, 1, 1, 2, 3, 2, 3, 4] := by
    simp [zfill_beta_reads, betaj_jjb, idxb_block_fill, idxb_block_step, ht,
      Function.update_apply]
  refine ⟨by simp [host_setup], ?_, ?_, ?_⟩
  · simp only [host_setup, hr]
  · exact ⟨4, by simp only [host_setup, hr]; decide, by decide⟩
  · have h := (zfill_at (K := K) 2 (idxb_block_fill 2 bmem).idxb_block beta zmem 0 0 0 0 0
      (by decide) (by decide) (by decide)).2.2
    have hz : (zfill 2 (idxb_block_fill 2 bmem).idxb_block beta zmem).idxz_block
        (zkey 2 (0, 0, 0)) = 0 := by
      simp [zfill, zfill_triple, zfill_entry, ht, zkey, maloop, mbloop, List.range_succ,
        Function.update_apply]
    simp only [hz] at h
    simp only [host_setup]
    rw [h]
    simp [betaj, idxb_block_fill, idxb_block_step, ht, Function.update_apply]

end C17

/-! ## Summation ranges of a record -/

/-- The window `zmin + i`, `zmax - i`, `i < zn` of a record enumerates the pairs
`(m1, m2)` with `0 ≤ m1 ≤ j1`, `0 ≤ m2 ≤ j2`, `2*m1 - j1 + 2*m2 - j2 = 2*m - j`, each
once; it is not empty. -/
theorem zwindow_exact (j1 j2 j m k : ℕ) (hk : j1 + j2 = j + 2 * k) (hm : m ≤ j) :
    1 ≤ zn j1 j2 j m ∧
    (∀ m1 m2 : ℤ,
      (0 ≤ m1 ∧ m1 ≤ j1 ∧ 0 ≤ m2 ∧ m2 ≤ j2 ∧ 2 * m1 - j1 + 2 * m2 - j2 = 2 * m - j) ↔
        ∃ i : ℤ, 0 ≤ i ∧ i < zn j1 j2 j m ∧
          m1 = zmin j1 j2 j m + i ∧ m2 = zmax j1 j2 j m - i) ∧
    (∀ i i' : ℤ, zmin j1 j2 j m + i = zmin j1 j2 j m + i' → i = i') := by
  have hk' : (j1 : ℤ) + j2 = j + 2 * k := by exact_mod_cast hk
  have hm' : (m : ℤ) ≤ j := by exact_mod_cast hm
  rw [zn_eq j1 j2 j m k hk, zmax_eq j1 j2 j m k hk, zmin_eq j1 j2 j m k hk]
  refine ⟨by omega, ?_, by intro i i' h; omega⟩
  intro m1 m2
  constructor
  · rintro ⟨a, b, c, d, e⟩
    exact ⟨m1 - max 0 ((m : ℤ) + k - j2), by omega, by omega, by omega, by omega⟩
  · rintro ⟨i, a, b, rfl, rfl⟩
    omega

section C21
variable {K : Type} [Field K]

/-- C21. For every tuple `(j1, j2, j, mb, ma)` of the Z-list, in the record the fill loop
stores for it: `na = field 5 >= 1` and `nb = field 8 >= 1`; a pair `(ma1, ma2)` satisfies
`0 <= ma1 <= j1`, `0 <= ma2 <= j2`, `2*ma1 - j1 + 2*ma2 - j2 = 2*ma - j` exactly when it is
`(ma1min + ia, ma2max - ia)` for some `0 <= ia < na` (fields 3, 4, 5), and distinct `ia`
give distinct pairs; likewise for `mb` with `(mb1min + ib, mb2max - ib)`, `0 <= ib < nb`
(fields 6, 7, 8). -/
theorem zlist_ranges_exact (twojmax : ℕ) (idxb_block : ℕ → ℤ) (beta : ℤ → K)
    (mem : ZTables K) (j1 j2 j mb ma : ℕ) (ht : ZTuple twojmax j1 j2 j mb ma) :
    let r := (zfill twojmax idxb_block beta mem).idxz
      (zpos twojmax (zfill twojmax idxb_block beta mem) j1 j2 j mb ma)
    1 ≤ r 5 ∧ 1 ≤ r 8 ∧
    (∀ ma1 ma2 : ℤ,
      (0 ≤ ma1 ∧ ma1 ≤ j1 ∧ 0 ≤ ma2 ∧ ma2 ≤ j2 ∧
          2 * ma1 - j1 + 2 * ma2 - j2 = 2 * ma - j) ↔
        ∃ ia : ℤ, 0 ≤ ia ∧ ia < r 5 ∧ ma1 = r 3 + ia ∧ ma2 = r 4 - ia) ∧
    (∀ ia ia' : ℤ, r 3 + ia = r 3 + ia' → ia = ia') ∧
    (∀ mb1 mb2 : ℤ,
      (0 ≤ mb1 ∧ mb1 ≤ j1 ∧ 0 ≤ mb2 ∧ mb2 ≤ j2 ∧
          2 * mb1 - j1 + 2 * mb2 - j2 = 2 * mb - j) ↔
        ∃ ib : ℤ, 0 ≤ ib ∧ ib < r 8 ∧ mb1 = r 6 + ib ∧ mb2 = r 7 - ib) ∧
    (∀ ib ib' : ℤ, r 6 + ib = r 6 + ib' → ib = ib') := by
  have ht' := ztuple_iff.1 ht
  obtain ⟨k, hk⟩ := triple_parity ht'.1
  obtain ⟨_, hf, _⟩ :=
    zfill_at twojmax idxb_block beta mem j1 j2 j mb ma ht'.1 ht'.2.1 ht'.2.2
  obtain ⟨a1, a2, a3⟩ := zwindow_exact j1 j2 j ma k hk ht'.2.2
  obtain ⟨b1, b2, b3⟩ := zwindow_exact j1 j2 j mb k hk (by omega)
  have e3 := hf 3 (by omega)
  have e4 := hf 4 (by omega)
  have e5 := hf 5 (by omega)
  have e6 := hf 6 (by omega)
  have e7 := hf 7 (by omega)
  have e8 := hf 8 (by omega)
  simp only [zfields] at e3 e4 e5 e6 e7 e8
  simp only [zpos, zkey] at e3 e4 e5 e6 e7 e8 ⊢
  rw [e3, e4, e5, e6, e7, e8]
  exact ⟨a1, b1, a2, a3, b2, b3⟩

end C21

theorem zlist_ranges_exact_witness :
    ZTuple 2 2 1 1 0 1 ∧
    1 ≤ (zfill 2 (fun _ => 0) (fun _ => (1 : ℚ)) ⟨0, fun _ _ => 0, fun _ => 0, fun _ => 0⟩).idxz
      (zpos 2 (zfill 2 (fun _ => 0) (fun _ => (1 : ℚ))
        ⟨0, fun _ _ => 0, fun _ => 0, fun _ => 0⟩) 2 1 1 0 1) 5 :=
  ⟨⟨by decide, by decide, ⟨0, rfl⟩, by decide, by decide, by decide⟩,
    (zlist_ranges_exact 2 (fun _ => 0) (fun _ => (1 : ℚ))
      ⟨0, fun _ _ => 0, fun _ => 0, fun _ => 0⟩ 2 1 1 0 1
      ⟨by decide, by decide, ⟨0, rfl⟩, by decide, by decide, by decide⟩).1⟩

/-! ## Decoding of a record -/

theorem yi_jjdu_decode (idxdu_block : ℤ → ℤ) (rec : ℕ → ℤ) :
    yi_jjdu idxdu_block rec = idxdu_block (rec 2) + (rec 2 + 1) * yi_mb rec + yi_ma rec := rfl

section C22
variable {K : Type} [Field K]

/-- The record of a tuple, with its decoded row and column. -/
theorem zrecord_decode (twojmax : ℕ) (idxb_block : ℕ → ℤ) (beta : ℤ → K)
    (mem : ZTables K) (j1 j2 j mb ma : ℕ) (ht : ZTuple twojmax j1 j2 j mb ma) :
    (zfill twojmax idxb_block beta mem).idxz
        (zpos twojmax (zfill twojmax idxb_block beta mem) j1 j2 j mb ma) 0 = j1 ∧
    (zfill twojmax idxb_block beta mem).idxz
        (zpos twojmax (zfill twojmax idxb_block beta mem) j1 j2 j mb ma) 1 = j2 ∧
    (zfill twojmax idxb_block beta mem).idxz
        (zpos twojmax (zfill twojmax idxb_block beta mem) j1 j2 j mb ma) 2 = j ∧
    yi_mb ((zfill twojmax idxb_block beta mem).idxz
        (zpos twojmax (zfill twojmax idxb_block beta mem) j1 j2 j mb ma)) = mb ∧
    yi_ma ((zfill twojmax idxb_block beta mem).idxz
        (zpos twojmax (zfill twojmax idxb_block beta mem) j1 j2 j mb ma)) = ma := by
  have ht' := ztuple_iff.1 ht
  obtain ⟨k, hk⟩ := triple_parity ht'.1
  obtain ⟨_, hf, _⟩ :=
    zfill_at twojmax idxb_block beta mem j1 j2 j mb ma ht'.1 ht'.2.1 ht'.2.2
  have e0 := hf 0 (by omega)
  have e1 := hf 1 (by omega)
  have e2 := hf 2 (by omega)
  have e3 := hf 3 (by omega)
  have e4 := hf 4 (by omega)
  have e6 := hf 6 (by omega)
  have e7 := hf 7 (by omega)
  simp only [zfields] at e0 e1 e2 e3 e4 e6 e7
  simp only [zpos, zkey, yi_mb, yi_ma] at e0 e1 e2 e3 e4 e6 e7 ⊢
  rw [e0, e1, e2, e3, e4, e6, e7]
  exact ⟨rfl, rfl, rfl, zdecode j1 j2 j mb k hk, zdecode j1 j2 j ma k hk⟩

/-- C22. For every tuple `(j1, j2, j, mb, ma)` of the Z-list, the values `compute_yi`
reconstructs from the stored record, `mb' = (2*(mb1min + mb2max) - j1 - j2 + j)/2` and
`ma' = (2*(ma1min + ma2max) - j1 - j2 + j)/2`, are `mb` and `ma`; two records of tuples
with the same `j` address the same Y slot `jjdu` exactly when their `(mb, ma)` agree; and
two tuples whose records decode to the same `(j1, j2, j, mb', ma')` are the same tuple, at
the same position of the list. -/
theorem zlist_decode (twojmax : ℕ) (idxb_block : ℕ → ℤ) (beta : ℤ → K)
    (mem : ZTables K) (idxdu_block : ℤ → ℤ) (j1 j2 j mb ma : ℕ)
    (ht : ZTuple twojmax j1 j2 j mb ma) :
    yi_mb ((zfill twojmax idxb_block beta mem).idxz
        (zpos twojmax (zfill twojmax idxb_block beta mem) j1 j2 j mb ma)) = mb ∧
    yi_ma ((zfill twojmax idxb_block beta mem).idxz
        (zpos twojmax (zfill twojmax idxb_block beta mem) j1 j2 j mb ma)) = ma ∧
    (∀ j1' j2' mb' ma', ZTuple twojmax j1' j2' j mb' ma' →
      (yi_jjdu idxdu_block ((zfill twojmax idxb_block beta mem).idxz
          (zpos twojmax (zfill twojmax idxb_block beta mem) j1' j2' j mb' ma'))
        = yi_jjdu idxdu_block ((zfill twojmax idxb_block beta mem).idxz
          (zpos twojmax (zfill twojmax idxb_block beta mem) j1 j2 j mb ma))
        ↔ mb' = mb ∧ ma' = ma)) ∧
    (∀ j1' j2' j' mb' ma', ZTuple twojmax j1' j2' j' mb' ma' →
      (zfill twojmax idxb_block beta mem).idxz
          (zpos twojmax (zfill twojmax idxb_block beta mem) j1' j2' j' mb' ma') 0
        = (zfill twojmax idxb_block beta mem).idxz
          (zpos twojmax (zfill twojmax idxb_block beta mem) j1 j2 j mb ma) 0 →
      (zfill twojmax idxb_block beta mem).idxz
          (zpos twojmax (zfill twojmax idxb_block beta mem) j1' j2' j' mb' ma') 1
        = (zfill twojmax idxb_block beta mem).idxz
          (zpos twojmax (zfill twojmax idxb_block beta mem) j1 j2 j mb ma) 1 →
      (zfill twojmax idxb_block beta mem).idxz
          (zpos twojmax (zfill twojmax idxb_block beta mem) j1' j2' j' mb' ma') 2
        = (zfill twojmax idxb_block beta mem).idxz
          (zpos twojmax (zfill twojmax idxb_block beta mem) j1 j2 j mb ma) 2 →
      yi_mb ((zfill twojmax idxb_block beta mem).idxz
          (zpos twojmax (zfill twojmax idxb_block beta mem) j1' j2' j' mb' ma'))
        = yi_mb ((zfill twojmax idxb_block beta mem).idxz
          (zpos twojmax (zfill twojmax idxb_block beta mem) j1 j2 j mb ma)) →
      yi_ma ((zfill twojmax idxb_block beta mem).idxz
          (zpos twojmax (zfill twojmax idxb_block beta mem) j1' j2' j' mb' ma'))
        = yi_ma ((zfill twojmax idxb_block beta mem).idxz
          (zpos twojmax (zfill twojmax idxb_block beta mem) j1 j2 j mb ma)) →
      (j1' = j1 ∧ j2' = j2 ∧ j' = j ∧ mb' = mb ∧ ma' = ma) ∧
        zpos twojmax (zfill twojmax idxb_block beta mem) j1' j2' j' mb' ma'
          = zpos twojmax (zfill twojmax idxb_block beta mem) j1 j2 j mb ma) := by
  obtain ⟨a0, a1, a2, a3, a4⟩ := zrecord_decode twojmax idxb_block beta mem j1 j2 j mb ma ht
  refine ⟨a3, a4, ?_, ?_⟩
  · intro j1' j2' mb' ma' ht'
    obtain ⟨b0, b1, b2, b3, b4⟩ :=
      zrecord_decode twojmax idxb_block beta mem j1' j2' j mb' ma' ht'
    rw [yi_jjdu_decode, yi_jjdu_decode, a2, a3, a4, b2, b3, b4]
    have hma : ma ≤ j := ht.2.2.2.2.2
    have hma' : ma' ≤ j := ht'.2.2.2.2.2
    constructor
    · intro h
      have h2 : ((mb' * (j + 1) + ma' : ℕ) : ℤ) = ((mb * (j + 1) + ma : ℕ) : ℤ) := by
        push_cast
        linarith
      have h3 : mb' * (j + 1) + ma' = mb * (j + 1) + ma := by exact_mod_cast h2
      exact digits_eq _ _ _ _ _ (by omega) (by omega) h3
    · rintro ⟨rfl, rfl⟩
      rfl
  · intro j1' j2' j' mb' ma' ht' h0 h1 h2 h3 h4
    obtain ⟨b0, b1, b2, b3, b4⟩ :=
      zrecord_decode twojmax idxb_block beta mem j1' j2' j' mb' ma' ht'
    rw [a0, b0] at h0
    rw [a1, b1] at h1
    rw [a2, b2] at h2
    rw [a3, b3] at h3
    rw [a4, b4] at h4
    have e0 : j1' = j1 := by exact_mod_cast h0
    have e1 : j2' = j2 := by exact_mod_cast h1
    have e2 : j' = j := by exact_mod_cast h2
    have e3 : mb' = mb := by exact_mod_cast h3
    have e4 : ma' = ma := by exact_mod_cast h4
    subst e0 e1 e2 e3 e4
    exact ⟨⟨rfl, rfl, rfl, rfl, rfl⟩, rfl⟩

end C22

theorem zlist_decode_witness :
    ZTuple 2 2 1 1 0 1 ∧
    yi_ma ((zfill 2 (fun _ => 0) (fun _ => (1 : ℚ))
        ⟨0, fun _ _ => 0, fun _ => 0, fun _ => 0⟩).idxz
      (zpos 2 (zfill 2 (fun _ => 0) (fun _ => (1 : ℚ))
        ⟨0, fun _ _ => 0, fun _ => 0, fun _ => 0⟩) 2 1 1 0 1)) = ((1 : ℕ) : ℤ) :=
  ⟨⟨by decide, by decide, ⟨0, rfl⟩, by decide, by decide, by decide⟩,
    (zlist_decode 2 (fun _ => 0) (fun _ => (1 : ℚ))
      ⟨0, fun _ _ => 0, fun _ => 0, fun _ => 0⟩ (fun _ => 0) 2 1 1 0 1
      ⟨by decide, by decide, ⟨0, rfl⟩, by decide, by decide, by decide⟩).2.1⟩

/-! ## The multiplicity table -/

section C23
variable {K : Type} [Field K]

/-- The three branches of the selection of `betaj` as one table. -/
theorem betaj_table (twojmax : ℕ) (idxb_block : ℕ → ℤ) (beta : ℤ → K) (j1 j2 j : ℕ)
    (h21 : j2 ≤ j1) :
    betaj twojmax idxb_block beta j1 j2 j
      = (zmult j1 j2 j : K) * zratio_spec K j1 j
          * beta (betaj_jjb twojmax idxb_block j1 j2 j) := by
  unfold betaj betaj_jjb zratio_spec
  by_cases h1 : j ≥ j1
  · have h1' : ¬ j < j1 := by omega
    simp only [h1, h1', if_true, if_false]
    by_cases h2 : j1 = j
    · by_cases h3 : j2 = j
      · simp [zmult, h2, h3]
      · simp [zmult, h2, h3]
    · have h3 : j2 ≠ j := by omega
      simp [zmult, h2, h3]
  · have h1' : j < j1 := by omega
    have h1n : j1 ≠ j := by omega
    by_cases h2 : j ≥ j2
    · simp only [h1, h2, h1', if_true, if_false]
      by_cases h3 : j2 = j
      · simp only [zmult, h1n, h3, if_true, false_and, if_false, false_or]
        push_cast
        ring
      · simp only [zmult, h1n, h3, if_false, false_and, false_or]
        push_cast
        ring
    · have h3 : j2 ≠ j := by omega
      simp only [zmult, h1, h2, h1', h1n, h3, if_true, if_false, false_and, false_or]
      push_cast
      ring

/-- C23. For every tuple of the Z-list (so `j2 <= j1`), the coefficient stored with its
record is `m * r * beta[jjb]`, `jjb` the index the selection reads, with `m = 3` if
`j1 = j2 = j`, `m = 2` if exactly one of `j1`, `j2` equals `j`, `m = 1` if neither does,
and `r = (j1+1)/(j+1)` if `j < j1`, `r = 1` if `j >= j1`. -/
theorem zlist_beta_table (twojmax : ℕ) (idxb_block : ℕ → ℤ) (beta : ℤ → K)
    (mem : ZTables K) (j1 j2 j mb ma : ℕ) (ht : ZTuple twojmax j1 j2 j mb ma) :
    (zfill twojmax idxb_block beta mem).idxzbeta
        (zpos twojmax (zfill twojmax idxb_block beta mem) j1 j2 j mb ma)
      = ((if j1 = j ∧ j2 = j then 3 else if j1 = j ∨ j2 = j then 2 else 1 : ℕ) : K)
          * zratio_spec K j1 j * beta (betaj_jjb twojmax idxb_block j1 j2 j) := by
  have ht' := ztuple_iff.1 ht
  obtain ⟨_, _, hb⟩ :=
    zfill_at twojmax idxb_block beta mem j1 j2 j mb ma ht'.1 ht'.2.1 ht'.2.2
  exact hb.trans (betaj_table twojmax idxb_block beta j1 j2 j ht.1)

end C23

theorem zlist_beta_table_witness :
    ZTuple 2 2 1 1 0 1 ∧
    (zfill 2 (idxb_block_fill 2 (fun _ => 0)).idxb_block (fun _ => (1 : ℚ))
        ⟨0, fun _ _ => 0, fun _ => 0, fun _ => 0⟩).idxzbeta
        (zpos 2 (zfill 2 (idxb_block_fill 2 (fun _ => 0)).idxb_block (fun _ => (1 : ℚ))
          ⟨0, fun _ _ => 0, fun _ => 0, fun _ => 0⟩) 2 1 1 0 1)
      = ((if 2 = 1 ∧ 1 = 1 then 3 else if 2 = 1 ∨ 1 = 1 then 2 else 1 : ℕ) : ℚ)
          * zratio_spec ℚ 2 1
          * (fun _ => (1 : ℚ)) (betaj_jjb 2 (idxb_block_fill 2 (fun _ => 0)).idxb_block
            2 1 1) :=
  ⟨⟨by decide, by decide, ⟨0, rfl⟩, by decide, by decide, by decide⟩,
    zlist_beta_table 2 (idxb_block_fill 2 (fun _ => 0)).idxb_block (fun _ => (1 : ℚ))
      ⟨0, fun _ _ => 0, fun _ => 0, fun _ => 0⟩ 2 1 1 0 1
      ⟨by decide, by decide, ⟨0, rfl⟩, by decide, by decide, by decide⟩⟩

/-! ## Forward and reverse index lists for beta -/

/-- The triples of the nest with `j >= j1`, in the order of the nest. -/
theorem idxb_max_length (twojmax : ℕ) :
    idxb_max twojmax
      = ((triples twojmax).filter (fun t => decide (t.1 ≤ t.2.2))).length := by
  unfold idxb_max
  rw [foldl_count_if (fun t : ℕ × ℕ × ℕ => t.2.2 ≥ t.1), Nat.zero_add]

theorem idxb_fill_list (l : List (ℕ × ℕ × ℕ)) (s : BList) :
    (l.foldl idxb_step s).idxb_count
      = s.idxb_count + (l.filter (fun t => decide (t.1 ≤ t.2.2))).length ∧
    ∀ x, (l.foldl idxb_step s).idxb x
      = if s.idxb_count ≤ x ∧
          x < s.idxb_count + (l.filter (fun t => decide (t.1 ≤ t.2.2))).length then
          ((((l.filter (fun t => decide (t.1 ≤ t.2.2))).getD (x - s.idxb_count) (0, 0, 0)).1 : ℤ),
            (((l.filter (fun t => decide (t.1 ≤ t.2.2))).getD (x - s.idxb_count)
              (0, 0, 0)).2.1 : ℤ),
            (((l.filter (fun t => decide (t.1 ≤ t.2.2))).getD (x - s.idxb_count)
              (0, 0, 0)).2.2 : ℤ))
        else s.idxb x := by
  induction l generalizing s with
  | nil =>
    refine ⟨rfl, fun x => ?_⟩
    simp only [List.filter_nil, List.length_nil, List.foldl_nil, Nat.add_zero]
    rw [if_neg (by omega)]
  | cons a l ih =>
    rw [List.foldl_cons]
    obtain ⟨i1, i2⟩ := ih (idxb_step s a)
    by_cases hp : a.1 ≤ a.2.2
    · have hf : (a :: l).filter (fun t => decide (t.1 ≤ t.2.2))
          = a :: l.filter (fun t => decide (t.1 ≤ t.2.2)) := by
        simp [List.filter_cons, hp]
      have hs : idxb_step s a
          = { idxb := Function.update s.idxb s.idxb_count
                ((a.1 : ℤ), (a.2.1 : ℤ), (a.2.2 : ℤ))
              idxb_count := s.idxb_count + 1 } := by
        unfold idxb_step
        rw [if_pos hp]
      rw [hf, List.length_cons, hs]
      rw [hs] at i1 i2
      simp only at i1 i2
      refine ⟨by rw [i1]; omega, fun x => ?_⟩
      rw [i2 x]
      by_cases hx : x = s.idxb_count
      · subst hx
        rw [if_neg (by omega), if_pos (by omega), Function.update_same, Nat.sub_self]
        rfl
      · rw [Function.update_noteq hx]
        by_cases hr : s.idxb_count + 1 ≤ x ∧
            x < s.idxb_count + 1 + (l.filter (fun t => decide (t.1 ≤ t.2.2))).length
        · rw [if_pos hr, if_pos (by omega)]
          have e : x - s.idxb_count = (x - (s.idxb_count + 1)) + 1 := by omega
          rw [e, List.getD_cons_succ]
        · rw [if_neg hr, if_neg (by omega)]
    · have hf : (a :: l).filter (fun t => decide (t.1 ≤ t.2.2))
          = l.filter (fun t => decide (t.1 ≤ t.2.2)) := by
        simp [List.filter_cons, hp]
      have hs : idxb_step s a = s := by
        unfold idxb_step
        rw [if_neg hp]
      rw [hf, hs]
      rw [hs] at i1 i2
      exact ⟨i1, i2⟩

theorem idxb_block_list (twojmax : ℕ) (l : List (ℕ × ℕ × ℕ)) (s : BTables)
    (hnd : (l.map (zkey twojmax)).Nodup) :
    (l.foldl (idxb_block_step twojmax) s).idxb_count
      = s.idxb_count + (l.filter (fun t => decide (t.1 ≤ t.2.2))).length ∧
    (∀ i, i < (l.filter (fun t => decide (t.1 ≤ t.2.2))).length →
      (l.foldl (idxb_block_step twojmax) s).idxb_block
          (zkey twojmax ((l.filter (fun t => decide (t.1 ≤ t.2.2))).getD i (0, 0, 0)))
        = ((s.idxb_count + i : ℕ) : ℤ)) ∧
    (∀ x, x ∉ (l.filter (fun t => decide (t.1 ≤ t.2.2))).map (zkey twojmax) →
      (l.foldl (idxb_block_step twojmax) s).idxb_block x = s.idxb_block x) := by
  induction l generalizing s with
  | nil =>
    refine ⟨rfl, fun i hi => ?_, fun x _ => rfl⟩
    simp at hi
  | cons a l ih =>
    rw [List.foldl_cons]
    rw [List.map_cons, List.nodup_cons] at hnd
    obtain ⟨i1, i2, i3⟩ := ih (idxb_block_step twojmax s a) hnd.2
    by_cases hp : a.1 ≤ a.2.2
    · have hf : (a :: l).filter (fun t => decide (t.1 ≤ t.2.2))
          = a :: l.filter (fun t => decide (t.1 ≤ t.2.2)) := by
        simp [List.filter_cons, hp]
      have hs : idxb_block_step twojmax s a
          = { idxb_block := Function.update s.idxb_block (zkey twojmax a) (s.idxb_count : ℤ)
              idxb_count := s.idxb_count + 1 } := by
        unfold idxb_block_step
        rw [if_neg (by omega)]
        rfl
      have hka : zkey twojmax a ∉ (l.filter (fun t => decide (t.1 ≤ t.2.2))).map
          (zkey twojmax) := by
        intro hmem
        obtain ⟨t, ht, hkt⟩ := List.mem_map.1 hmem
        exact hnd.1 (List.mem_map.2 ⟨t, (List.mem_filter.1 ht).1, hkt⟩)
      rw [hf, List.length_cons, hs]
      rw [hs] at i1 i2 i3
      simp only at i1 i2 i3
      refine ⟨by rw [i1]; omega, fun i hi => ?_, fun x hx => ?_⟩
      · cases i with
        | zero =>
          rw [List.getD_cons_zero, i3 _ hka, Function.update_same]
          rfl
        | succ i =>
          rw [List.getD_cons_succ, i2 i (by simpa using hi)]
          push_cast
          ring
      · rw [List.map_cons, List.mem_cons, not_or] at hx
        rw [i3 x hx.2, Function.update_noteq hx.1]
    · have hf : (a :: l).filter (fun t => decide (t.1 ≤ t.2.2))
          = l.filter (fun t => decide (t.1 ≤ t.2.2)) := by
        simp [List.filter_cons, hp]
      have hs : idxb_block_step twojmax s a = s := by
        unfold idxb_block_step
        rw [if_pos (by omega)]
      rw [hf, hs]
      rw [hs] at i1 i2 i3
      exact ⟨i1, i2, i3⟩

/-- A triple of the nest with `j >= j1` has a position `i` in the list of such triples:
the reverse table holds `i` at its key whatever the memory held before, and the forward
list holds the triple at `i`. -/
theorem idxb_cell (twojmax : ℕ) (t : ℕ × ℕ × ℕ) (ht : t ∈ triples twojmax)
    (hp : t.1 ≤ t.2.2) :
    ∃ i, i < idxb_max twojmax ∧
      (∀ bmem, (idxb_block_fill twojmax bmem).idxb_block (zkey twojmax t) = (i : ℤ)) ∧
      (∀ mem, (idxb_fill twojmax mem).idxb i = ((t.1 : ℤ), (t.2.1 : ℤ), (t.2.2 : ℤ))) := by
  have hmem : t ∈ (triples twojmax).filter (fun t => decide (t.1 ≤ t.2.2)) :=
    List.mem_filter.2 ⟨ht, by simpa using hp⟩
  obtain ⟨i, hi, hget⟩ := List.getElem_of_mem hmem
  have hD : ((triples twojmax).filter (fun t => decide (t.1 ≤ t.2.2))).getD i (0, 0, 0) = t := by
    rw [List.getD_eq_getElem _ _ hi, hget]
  refine ⟨i, by rw [idxb_max_length]; exact hi, fun bmem => ?_, fun mem => ?_⟩
  · have h := (idxb_block_list twojmax (triples twojmax)
      { idxb_count := 0, idxb_block := bmem } (nodup_zkeys twojmax)).2.1 i hi
    rw [hD] at h
    simpa [idxb_block_fill] using h
  · have h := (idxb_fill_list (triples twojmax) { idxb_count := 0, idxb := mem }).2 i
    simp only [Nat.zero_le, Nat.zero_add, true_and, if_pos hi, Nat.sub_zero, hD] at h
    exact h

/-- Every position below `idxb_max` is the position of a triple of the nest with
`j >= j1`. -/
theorem idxb_cover (twojmax : ℕ) (i : ℕ) (hi : i < idxb_max twojmax) :
    ∃ t, t ∈ triples twojmax ∧ t.1 ≤ t.2.2 ∧
      (∀ bmem, (idxb_block_fill twojmax bmem).idxb_block (zkey twojmax t) = (i : ℤ)) ∧
      (∀ mem, (idxb_fill twojmax mem).idxb i = ((t.1 : ℤ), (t.2.1 : ℤ), (t.2.2 : ℤ))) := by
  rw [idxb_max_length] at hi
  have hmem := List.getElem_mem hi
  have hD : ((triples twojmax).filter (fun t => decide (t.1 ≤ t.2.2))).getD i (0, 0, 0)
      = ((triples twojmax).filter (fun t => decide (t.1 ≤ t.2.2)))[i] :=
    List.getD_eq_getElem _ _ hi
  obtain ⟨h1, h2⟩ := List.mem_filter.1 hmem
  refine ⟨_, h1, by simpa using h2, fun bmem => ?_, fun mem => ?_⟩
  · have h := (idxb_block_list twojmax (triples twojmax)
      { idxb_count := 0, idxb_block := bmem } (nodup_zkeys twojmax)).2.1 i hi
    rw [hD] at h
    simpa [idxb_block_fill] using h
  · have h := (idxb_fill_list (triples twojmax) { idxb_count := 0, idxb := mem }).2 i
    simp only [Nat.zero_le, Nat.zero_add, true_and, if_pos hi, Nat.sub_zero, hD] at h
    exact h

/-- C27. For every `twojmax`: the counting pass and the fill pass of the forward list, and
the pass of the reverse table, end with the same count `idxb_max`; for every admissible
triple with `j >= j1` the cell `idxb_block[j1,j2,j]` is a position below `idxb_max` whose
record in `idxb` is `(j1, j2, j)`; and for every `i < idxb_max` the record `idxb[i]` is an
admissible triple with `j >= j1` at which `idxb_block` holds `i`. -/
theorem idxb_inverse (twojmax : ℕ) (mem : ℕ → ℤ × ℤ × ℤ) (bmem : ℕ → ℤ) :
    (idxb_fill twojmax mem).idxb_count = idxb_max twojmax ∧
    (idxb_block_fill twojmax bmem).idxb_count = idxb_max twojmax ∧
    (∀ j1 j2 j, CGTriple twojmax j1 j2 j → j1 ≤ j →
      0 ≤ (idxb_block_fill twojmax bmem).idxb_block (zkey twojmax (j1, j2, j)) ∧
      (idxb_block_fill twojmax bmem).idxb_block (zkey twojmax (j1, j2, j))
        < (idxb_max twojmax : ℤ) ∧
      (idxb_fill twojmax mem).idxb
          ((idxb_block_fill twojmax bmem).idxb_block (zkey twojmax (j1, j2, j))).toNat
        = ((j1 : ℤ), (j2 : ℤ), (j : ℤ))) ∧
    (∀ i, i < idxb_max twojmax →
      ∃ j1 j2 j, CGTriple twojmax j1 j2 j ∧ j1 ≤ j ∧
        (idxb_fill twojmax mem).idxb i = ((j1 : ℤ), (j2 : ℤ), (j : ℤ)) ∧
        (idxb_block_fill twojmax bmem).idxb_block (zkey twojmax (j1, j2, j)) = (i : ℤ)) := by
  refine ⟨?_, ?_, ?_, ?_⟩
  · rw [idxb_max_length]
    simpa [idxb_fill] using
      (idxb_fill_list (triples twojmax) { idxb_count := 0, idxb := mem }).1
  · rw [idxb_max_length]
    simpa [idxb_block_fill] using
      (idxb_block_list twojmax (triples twojmax) { idxb_count := 0, idxb_block := bmem }
        (nodup_zkeys twojmax)).1
  · intro j1 j2 j ht hj
    obtain ⟨i, hi, hb, hf⟩ := idxb_cell twojmax (j1, j2, j) (cgtriple_iff.1 ht) hj
    rw [hb bmem, Int.toNat_natCast, hf mem]
    exact ⟨Int.natCast_nonneg i, by exact_mod_cast hi, rfl⟩
  · intro i hi
    obtain ⟨⟨j1, j2, j⟩, ht, hp, hb, hf⟩ := idxb_cover twojmax i hi
    exact ⟨j1, j2, j, cgtriple_iff.2 ht, hp, hf mem, hb bmem⟩

theorem idxb_inverse_witness :
    CGTriple 2 1 1 2 ∧ 1 ≤ 2 ∧
    (idxb_fill 2 (fun _ => (0, 0, 0))).idxb
        ((idxb_block_fill 2 (fun _ => 0)).idxb_block (zkey 2 (1, 1, 2))).toNat
      = (((1 : ℕ) : ℤ), ((1 : ℕ) : ℤ), ((2 : ℕ) : ℤ)) :=
  ⟨⟨by decide, by decide, ⟨1, rfl⟩, by decide⟩, by decide,
    ((idxb_inverse 2 (fun _ => (0, 0, 0)) (fun _ => 0)).2.2.1 1 1 2
      ⟨by decide, by decide, ⟨1, rfl⟩, by decide⟩ (by decide)).2.2⟩

/-! ## The cell of `idxb_block` read for beta -/

/-- C25. For every `twojmax` and every triple `(j1, j2, j)` of the Z-list nest, the cell of
`idxb_block` read to select beta is the cell of the triple `(a, b, c)` re-ordered as
(middle, smallest, largest) (`(j1,j2,j)` if `j >= j1`, `(j,j2,j1)` if `j2 <= j < j1`,
`(j2,j,j1)` if `j < j2`), which is an admissible triple with `c >= a`, hence a cell the
construction loop writes: the index `jjb` read does not depend on the content of the
table's memory before the loop and satisfies `0 <= jjb < idxb_max`. -/
theorem betaj_cell_written (twojmax : ℕ) (bmem : ℕ → ℤ) (j1 j2 j : ℕ)
    (ht : CGTriple twojmax j1 j2 j) :
    ∃ a b c, (a, b, c) = (if j ≥ j1 then (j1, j2, j) else if j ≥ j2 then (j, j2, j1)
        else (j2, j, j1)) ∧
      b ≤ a ∧ a ≤ c ∧ CGTriple twojmax a b c ∧
      betaj_jjb twojmax (idxb_block_fill twojmax bmem).idxb_block j1 j2 j
        = (idxb_block_fill twojmax bmem).idxb_block
            (a * (twojmax + 1) * (twojmax + 1) + b * (twojmax + 1) + c) ∧
      0 ≤ betaj_jjb twojmax (idxb_block_fill twojmax bmem).idxb_block j1 j2 j ∧
      betaj_jjb twojmax (idxb_block_fill twojmax bmem).idxb_block j1 j2 j
        < (idxb_max twojmax : ℤ) ∧
      ∀ bmem', betaj_jjb twojmax (idxb_block_fill twojmax bmem').idxb_block j1 j2 j
        = betaj_jjb twojmax (idxb_block_fill twojmax bmem).idxb_block j1 j2 j := by
  have hb := mem_triples_bounds (cgtriple_iff.1 ht)
  simp only at hb
  have key : ∀ a b c, b ≤ a → a ≤ c → CGTriple twojmax a b c →
      ∀ f : (ℕ → ℤ) → ℤ,
      (∀ m, f m = (idxb_block_fill twojmax m).idxb_block (zkey twojmax (a, b, c))) →
      0 ≤ f bmem ∧ f bmem < (idxb_max twojmax : ℤ) ∧ ∀ bmem', f bmem' = f bmem := by
    intro a b c _ hac habc f hf
    obtain ⟨i, hi, hcell, _⟩ := idxb_cell twojmax (a, b, c) (cgtriple_iff.1 habc) hac
    refine ⟨?_, ?_, fun bmem' => ?_⟩
    · rw [hf, hcell]; exact Int.natCast_nonneg i
    · rw [hf, hcell]; exact_mod_cast hi
    · rw [hf, hf, hcell, hcell]
  by_cases h1 : j ≥ j1
  · have hT : CGTriple twojmax j1 j2 j := ht
    obtain ⟨k1, k2, k3⟩ := key j1 j2 j (by omega) h1 hT
      (fun m => betaj_jjb twojmax (idxb_block_fill twojmax m).idxb_block j1 j2 j)
      (fun m => by simp only [betaj_jjb, zkey, h1, if_true])
    refine ⟨j1, j2, j, by rw [if_pos h1], by omega, h1, hT, ?_, k1, k2, k3⟩
    simp only [betaj_jjb, h1, if_true]
  · by_cases h2 : j ≥ j2
    · have hT : CGTriple twojmax j j2 j1 :=
        cgtriple_iff.2 (by rw [mem_triples, mem_jloop]; omega)
      obtain ⟨k1, k2, k3⟩ := key j j2 j1 h2 (by omega) hT
        (fun m => betaj_jjb twojmax (idxb_block_fill twojmax m).idxb_block j1 j2 j)
        (fun m => by simp only [betaj_jjb, zkey, h1, h2, if_true, if_false])
      refine ⟨j, j2, j1, by rw [if_neg h1, if_pos h2], h2, by omega, hT, ?_, k1, k2, k3⟩
      simp only [betaj_jjb, h1, h2, if_true, if_false]
    · have hT : CGTriple twojmax j2 j j1 :=
        cgtriple_iff.2 (by rw [mem_triples, mem_jloop]; omega)
      obtain ⟨k1, k2, k3⟩ := key j2 j j1 (by omega) (by omega) hT
        (fun m => betaj_jjb twojmax (idxb_block_fill twojmax m).idxb_block j1 j2 j)
        (fun m => by simp only [betaj_jjb, zkey, h1, h2, if_false])
      refine ⟨j2, j, j1, by rw [if_neg h1, if_neg h2], by omega, by omega, hT, ?_, k1, k2, k3⟩
      simp only [betaj_jjb, h1, h2, if_false]

theorem betaj_cell_written_witness :
    CGTriple 2 2 1 1 ∧
    ∃ a b c, (a, b, c) = (if 1 ≥ 2 then (2, 1, 1) else if 1 ≥ 1 then (1, 1, 2)
        else (1, 1, 2)) ∧
      b ≤ a ∧ a ≤ c ∧ CGTriple 2 a b c ∧
      betaj_jjb 2 (idxb_block_fill 2 (fun _ => 0)).idxb_block 2 1 1
        = (idxb_block_fill 2 (fun _ => 0)).idxb_block
            (a * (2 + 1) * (2 + 1) + b * (2 + 1) + c) ∧
      0 ≤ betaj_jjb 2 (idxb_block_fill 2 (fun _ => 0)).idxb_block 2 1 1 ∧
      betaj_jjb 2 (idxb_block_fill 2 (fun _ => 0)).idxb_block 2 1 1
        < (idxb_max 2 : ℤ) ∧
      ∀ bmem', betaj_jjb 2 (idxb_block_fill 2 bmem').idxb_block 2 1 1
        = betaj_jjb 2 (idxb_block_fill 2 (fun _ => 0)).idxb_block 2 1 1 :=
  ⟨⟨by decide, by decide, ⟨0, rfl⟩, by decide⟩,
    betaj_cell_written 2 (fun _ => 0) 2 1 1 ⟨by decide, by decide, ⟨0, rfl⟩, by decide⟩⟩

/-! ## What `compute_deidrj` sums -/

section C26
variable {K : Type} [Field K]

theorem dweight_level_sum (f : ℕ → ℕ → K) (j : ℕ) :
    ∑ mb ∈ Finset.range (j / 2 + 1), ∑ ma ∈ Finset.range (j + 1), dweight K j mb ma * f mb ma
      = (∑ mb ∈ (Finset.range (j + 1)).filter (fun mb => 2 * mb < j),
          ∑ ma ∈ Finset.range (j + 1), f mb ma)
        + (if j % 2 = 0 then
            (∑ ma ∈ Finset.range (j / 2), f (j / 2) ma) + (1 / 2) * f (j / 2) (j / 2)
          else 0) := by
  have hfil : (Finset.range (j + 1)).filter (fun mb => 2 * mb < j)
      = Finset.range ((j + 1) / 2) := by
    ext mb
    simp only [Finset.mem_filter, Finset.mem_range]
    omega
  have hleft : ∀ m, m ≤ (j + 1) / 2 →
      ∑ mb ∈ Finset.range m, ∑ ma ∈ Finset.range (j + 1), dweight K j mb ma * f mb ma
      = ∑ mb ∈ Finset.range m, ∑ ma ∈ Finset.range (j + 1), f mb ma := by
    intro m hm
    refine Finset.sum_congr rfl ?_
    intro mb hmb
    rw [Finset.mem_range] at hmb
    exact dweight_left_sum (f mb) j mb (by omega)
  rw [hfil]
  by_cases hj : j % 2 = 0
  · have e1 : (j + 1) / 2 = j / 2 := by omega
    rw [if_pos hj, Finset.sum_range_succ, hleft (j / 2) (by omega),
      dweight_mid_sum (f (j / 2)) j (j / 2) (by omega), e1]
    ring
  · have e1 : j / 2 + 1 = (j + 1) / 2 := by omega
    rw [if_neg hj, e1, hleft ((j + 1) / 2) (le_refl _), add_zero]

/-- Cursor of `compute_deidrj` at the access that follows `mb` full rows and `ma` further
entries of level `j`. -/
theorem deidrj_cursor (ylist : ℕ → Cplx K) (dulist : ℕ → ℕ → Cplx K) (j mb ma : ℕ)
    (s : DState K) :
    ((List.range ma).foldl (fun s _ => deidrj_full ylist dulist s)
      ((List.range mb).foldl
        (fun s _ => (maloop j).foldl (fun s _ => deidrj_full ylist dulist s) s) s)).jjdu
      = s.jjdu + mb * (j + 1) + ma := by
  rw [(deidrj_row ylist dulist (List.range ma) _).1, (deidrj_rows ylist dulist j mb s).1,
    List.length_range]

/-- C26. For every pair and component `k < 3`, `compute_deidrj` yields
`dedr[k] = 2 * SUM_j [ SUM_{2*mb < j} SUM_{ma = 0..j} T(j,mb,ma) + (only when j is even)
( SUM_{ma = 0..j/2-1} T(j,j/2,ma) + 0.5 * T(j,j/2,j/2) ) ]` with
`T(j,mb,ma) = dU.re*Y.re + dU.im*Y.im` at logical index `idxdu_block[j] + mb*(j+1) + ma`,
so that middle-row entries with `ma > j/2` contribute nothing; and at the access that
follows `mb` full rows and `ma` entries of level `j` the cursor `jjdu` is
`idxdu_block[j] + mb*(j+1) + ma`. -/
theorem compute_deidrj_rows (twojmax : ℕ) (idxdu_block : ℕ → ℕ) (ylist : ℕ → Cplx K)
    (dulist : ℕ → ℕ → Cplx K) (dedr0 : ℕ → K) (k : ℕ) (hk : k < 3) :
    compute_deidrj twojmax idxdu_block ylist dulist dedr0 k
      = dedr_rows_spec twojmax idxdu_block ylist dulist k ∧
    ∀ (j mb ma : ℕ) (s : DState K),
      ((List.range ma).foldl (fun s _ => deidrj_full ylist dulist s)
        ((List.range mb).foldl
          (fun s _ => (maloop j).foldl (fun s _ => deidrj_full ylist dulist s) s)
          ({ s with jjdu := idxdu_block j } : DState K))).jjdu
        = idxdu_block j + mb * (j + 1) + ma := by
  refine ⟨?_, fun j mb ma s => deidrj_cursor ylist dulist j mb ma _⟩
  unfold compute_deidrj dedr_rows_spec
  simp only [hk, if_true]
  rw [deidrj_levels]
  simp only [hk, if_true, zero_add]
  rw [mul_comm]
  congr 1
  refine Finset.sum_congr rfl ?_
  intro j _
  exact dweight_level_sum
    (fun mb ma => dterm ylist dulist (idxdu_block j + mb * (j + 1) + ma) k) j

end C26

theorem compute_deidrj_rows_witness :
    (0 : ℕ) < 3 ∧
    compute_deidrj 2 (idxdu_fill 2 (fun _ => 0)).idxdu_block
        (fun _ => (⟨1, 0⟩ : Cplx ℚ))
        (fun jjdu _ => if jjdu = 6 then (⟨1, 0⟩ : Cplx ℚ) else ⟨0, 0⟩) (fun _ => 0) 0
      = dedr_rows_spec 2 (idxdu_fill 2 (fun _ => 0)).idxdu_block
        (fun _ => (⟨1, 0⟩ : Cplx ℚ))
        (fun jjdu _ => if jjdu = 6 then (⟨1, 0⟩ : Cplx ℚ) else ⟨0, 0⟩) 0 :=
  ⟨by decide, (compute_deidrj_rows 2 (idxdu_fill 2 (fun _ => 0)).idxdu_block
    (fun _ => (⟨1, 0⟩ : Cplx ℚ))
    (fun jjdu _ => if jjdu = 6 then (⟨1, 0⟩ : Cplx ℚ) else ⟨0, 0⟩) (fun _ => 0) 0
    (by decide)).1⟩

/-! ## Lookups of the square-root table -/

theorem iter_row_col (j m : ℕ) (hj : 1 ≤ j) (hm : m < j * ((j + 1) / 2)) :
    m / j < (j + 1) / 2 ∧ m % j < j := by
  refine ⟨?_, Nat.mod_lt _ (by omega)⟩
  rw [Nat.div_lt_iff_lt_mul (by omega), Nat.mul_comm]
  exact hm

section C28
variable {K : Type} [Field K]

/-- C28. For every level `1 <= j <= twojmax` and every iteration `m_iter < m_max` of the
recursion loop, each lookup `rootpqarray[ROOTPQ_INDEX(p, q)]` has `1 <= p <= twojmax` and
`1 <= q <= twojmax`: the cell read is one the init loop has set to `sqrt(p/q)`, whatever
the memory held before, never a cell with `p = 0`, `q = 0` or an index `twojmax + 1`,
which the init loop leaves as it found them. -/
theorem rootpq_lookups_init (twojmax : ℕ) (sqrtK : K → K) (mem : ℕ → ℕ → K) (j m_iter : ℕ)
    (hj1 : 1 ≤ j) (hj : j ≤ twojmax) (hm : m_iter < j * ((j + 1) / 2)) :
    (∀ pq ∈ ui_rootpq_args j m_iter,
      1 ≤ pq.1 ∧ pq.1 ≤ twojmax ∧ 1 ≤ pq.2 ∧ pq.2 ≤ twojmax ∧
      rootpq_init twojmax sqrtK mem pq.1.toNat pq.2.toNat
        = sqrtK (((pq.1.toNat : ℕ) : K) / ((pq.2.toNat : ℕ) : K))) ∧
    (∀ p q, (p = 0 ∨ q = 0 ∨ twojmax < p ∨ twojmax < q) →
      rootpq_init twojmax sqrtK mem p q = mem p q) := by
  obtain ⟨hmb, hma⟩ := iter_row_col j m_iter hj1 hm
  have bounds : ∀ pq ∈ ui_rootpq_args j m_iter,
      1 ≤ pq.1 ∧ pq.1 ≤ twojmax ∧ 1 ≤ pq.2 ∧ pq.2 ≤ twojmax := by
    intro pq hpq
    simp only [ui_rootpq_args, List.mem_append, List.mem_cons, List.mem_singleton,
      List.not_mem_nil, or_false] at hpq
    generalize m_iter / j = mb at hpq hmb
    generalize m_iter % j = ma at hpq hma
    rcases hpq with (rfl | rfl) | h
    · simp only; omega
    · simp only; omega
    · by_cases h2 : 2 * (mb + 1) = j
      · rw [if_pos h2] at h
        simp only [List.mem_cons, List.mem_singleton, List.not_mem_nil, or_false] at h
        rcases h with rfl | rfl
        · simp only; omega
        · simp only; omega
      · rw [if_neg h2] at h
        simp at h
  refine ⟨fun pq hpq => ?_, fun p q h => ?_⟩
  · obtain ⟨b1, b2, b3, b4⟩ := bounds pq hpq
    refine ⟨b1, b2, b3, b4, ?_⟩
    exact rootpq_init_at twojmax sqrtK mem _ _ (by omega) (by omega) (by omega) (by omega)
  · unfold rootpq_init
    rw [rootpq_outer twojmax twojmax (fun p q => sqrtK ((p : K) / (q : K))) mem p q,
      if_neg (by omega)]

end C28

theorem rootpq_lookups_init_witness :
    (1 : ℕ) ≤ 2 ∧ (2 : ℕ) ≤ 2 ∧ (0 : ℕ) < 2 * ((2 + 1) / 2) ∧
    ∀ pq ∈ ui_rootpq_args 2 0,
      1 ≤ pq.1 ∧ pq.1 ≤ ((2 : ℕ) : ℤ) ∧ 1 ≤ pq.2 ∧ pq.2 ≤ ((2 : ℕ) : ℤ) ∧
      rootpq_init 2 (fun x : ℚ => x) (fun _ _ => 0) pq.1.toNat pq.2.toNat
        = (fun x : ℚ => x) (((pq.1.toNat : ℕ) : ℚ) / ((pq.2.toNat : ℕ) : ℚ)) :=
  ⟨by decide, by decide, by decide,
    (rootpq_lookups_init 2 (fun x : ℚ => x) (fun _ _ => 0) 2 0 (by decide) (by decide)
      (by decide)).1⟩

/-! ## Cursors of the U recursion -/

section UCursors
variable {K : Type} [Field K]

theorem succ_div_row (j m : ℕ) (hj : 1 ≤ j) :
    (m + 1) / j = if m % j = j - 1 then m / j + 1 else m / j := by
  have h1 := Nat.div_add_mod m j
  have h2 := Nat.mod_lt m (show 0 < j by omega)
  by_cases h : m % j = j - 1
  · rw [if_pos h]
    have e : m + 1 = j * (m / j + 1) := by
      have e1 : j * (m / j + 1) = j * (m / j) + j := by ring
      omega
    rw [e, Nat.mul_div_cancel_left _ (by omega : 0 < j)]
  · rw [if_neg h]
    have e : m + 1 = (m / j) * j + (m % j + 1) := by
      have e1 : m / j * j = j * (m / j) := Nat.mul_comm _ _
      omega
    rw [e]
    exact (row_index_divmod j (m / j) (m % j + 1) (by omega)).1

/-- Cursors after `m` iterations of the recursion loop of level `j`. -/
theorem ui_rec_cursors (rt : ℕ → ℕ → K) (a_r a_i b_r b_i : K) (j : ℕ) (hj : 1 ≤ j)
    (s : UState K) (m : ℕ) :
    ((List.range m).foldl (ui_rec_body rt a_r a_i b_r b_i j) s).jju = s.jju + m + m / j ∧
    ((List.range m).foldl (ui_rec_body rt a_r a_i b_r b_i j) s).jjup = s.jjup + m := by
  induction m with
  | zero => simp
  | succ m ih =>
    obtain ⟨h1, h2⟩ := ih
    rw [List.range_succ, List.foldl_append, List.foldl_cons, List.foldl_nil]
    obtain ⟨c1, c2⟩ := ui_rec_body_cursors rt a_r a_i b_r b_i j
      ((List.range m).foldl (ui_rec_body rt a_r a_i b_r b_i j) s) m
    rw [c1, c2, h1, h2, succ_div_row j m hj]
    refine ⟨?_, by omega⟩
    by_cases h : m % j = j - 1
    · rw [if_pos h, if_pos h]; omega
    · rw [if_neg h, if_neg h]; omega

/-- Cursors after one level of the `j` loop. -/
theorem ui_level_cursors (idxu_block : ℕ → ℕ) (ulist_parity : ℕ → ℤ) (rt : ℕ → ℕ → K)
    (a_r a_i b_r b_i : K) (j : ℕ) (hj : 1 ≤ j) (s : UState K) :
    (ui_level idxu_block ulist_parity rt a_r a_i b_r b_i s j).jju
      = s.jju + (j + 1) * (j + 1) ∧
    (ui_level idxu_block ulist_parity rt a_r a_i b_r b_i s j).jjup = s.jjup + j * j := by
  obtain ⟨h1, h2⟩ := ui_rec_cursors rt a_r a_i b_r b_i j hj s (j * ((j + 1) / 2))
  rw [Nat.mul_div_cancel_left _ (by omega : 0 < j)] at h1
  have e1 : j * ((j + 1) / 2) + (j + 1) / 2 = (j + 1) / 2 * (j + 1) := by ring
  have e2 := level_skip j
  have e3 := half_sum_mul j
  have e4 : j * ((j + 1) / 2) = (j + 1) / 2 * j := Nat.mul_comm _ _
  unfold ui_level ui_rec_level
  simp only [h1, h2]
  refine ⟨?_, by omega⟩
  by_cases hp : j % 2 = 0
  · rw [if_pos hp] at e2 ⊢
    omega
  · rw [if_neg hp] at e2 ⊢
    omega

/-- Cursors when the levels `1 .. n` are done. -/
theorem ui_after_cursors (idxu_block : ℕ → ℕ) (ulist_parity : ℕ → ℤ) (rt : ℕ → ℕ → K)
    (a_r a_i b_r b_i : K) (Z : ℕ → Cplx K) (n : ℕ) :
    (ui_after idxu_block ulist_parity rt a_r a_i b_r b_i Z n).jju = uoff (n + 1) ∧
    (ui_after idxu_block ulist_parity rt a_r a_i b_r b_i Z n).jjup = uoff n := by
  induction n with
  | zero => exact ⟨by simp [ui_after, uoff], by simp [ui_after, uoff]⟩
  | succ n ih =>
    obtain ⟨h1, h2⟩ := ih
    unfold ui_after at h1 h2 ⊢
    rw [List.range'_concat, List.foldl_append, List.foldl_cons, List.foldl_nil]
    have e : 1 + 1 * n = n + 1 := by omega
    rw [e]
    obtain ⟨c1, c2⟩ := ui_level_cursors idxu_block ulist_parity rt a_r a_i b_r b_i (n + 1)
      (by omega) ((List.range' 1 n).foldl
        (ui_level idxu_block ulist_parity rt a_r a_i b_r b_i)
        ({ ulist := Z, jju := 1, jjup := 0 } : UState K))
    rw [c1, c2, h1, h2, uoff_succ (n + 1), uoff_succ n]
    exact ⟨rfl, rfl⟩

/-- Cursors at iteration `(mb, ma)` of the recursion loop of level `j`. -/
theorem ui_at_cursors (idxu_block : ℕ → ℕ) (ulist_parity : ℕ → ℤ) (rt : ℕ → ℕ → K)
    (a_r a_i b_r b_i : K) (Z : ℕ → Cplx K) (j mb ma : ℕ) (hj : 1 ≤ j) (hma : ma < j) :
    (ui_at idxu_block ulist_parity rt a_r a_i b_r b_i Z j (mb * j + ma)).jju
      = uoff j + mb * (j + 1) + ma ∧
    (ui_at idxu_block ulist_parity rt a_r a_i b_r b_i Z j (mb * j + ma)).jjup
      = uoff (j - 1) + mb * j + ma := by
  obtain ⟨h1, h2⟩ := ui_rec_cursors rt a_r a_i b_r b_i j hj
    (ui_after idxu_block ulist_parity rt a_r a_i b_r b_i Z (j - 1)) (mb * j + ma)
  obtain ⟨a1, a2⟩ := ui_after_cursors idxu_block ulist_parity rt a_r a_i b_r b_i Z (j - 1)
  have e : j - 1 + 1 = j := by omega
  rw [e] at a1
  unfold ui_at
  rw [h1, h2, a1, a2, (row_index_divmod j mb ma hma).1]
  refine ⟨?_, by omega⟩
  have : mb * (j + 1) = mb * j + mb := by ring
  omega

/-- Cursors at iteration `(mb, ma)` of the symmetry copy of level `j`. -/
theorem ui_sym_at_cursors (idxu_block : ℕ → ℕ) (ulist_parity : ℕ → ℤ) (u : ℕ → Cplx K)
    (j mb ma : ℕ) :
    (ui_sym_at idxu_block ulist_parity u j mb ma).jjui
      = idxu_block j + (mb * (j + 1) + ma) ∧
    (ui_sym_at idxu_block ulist_parity u j mb ma).jjuip
      = idxu_block j + (j + 1) * (j + 1) - 1 - (mb * (j + 1) + ma) := by
  have it : ∀ n (s : USym K), ((ui_sym_body ulist_parity)^[n] s).jjui = s.jjui + n ∧
      ((ui_sym_body ulist_parity)^[n] s).jjuip = s.jjuip - n := by
    intro n s
    induction n with
    | zero => exact ⟨rfl, rfl⟩
    | succ n ih =>
      obtain ⟨h1, h2⟩ := ih
      rw [Function.iterate_succ_apply']
      generalize (ui_sym_body ulist_parity)^[n] s = sn at h1 h2 ⊢
      simp only [ui_sym_body, h1, h2]
      exact ⟨by omega, by omega⟩
  have inner : (fun (s : USym K) (_ : ℕ) => (maloop j).foldl
      (fun s _ => ui_sym_body ulist_parity s) s)
      = fun s _ => (ui_sym_body ulist_parity)^[j + 1] s := by
    funext s _
    rw [foldl_const_iterate]
    simp [maloop]
  unfold ui_sym_at
  rw [inner, foldl_const_iterate, foldl_const_iterate, ← Function.iterate_mul,
    ← Function.iterate_add_apply, List.length_range, List.length_range]
  obtain ⟨h1, h2⟩ := it (ma + (j + 1) * mb)
    ({ ulist := u, jjui := idxu_block j
       jjuip := idxu_block j + (j + 1) * (j + 1) - 1 } : USym K)
  rw [h1, h2]
  have : (j + 1) * mb = mb * (j + 1) := Nat.mul_comm _ _
  simp only
  omega

/-- Cells the zero-initialisation loop leaves alone. -/
theorem ui_zero_rows_other (d m : ℕ) (hd : 0 < d) (s : UZero K) (x : ℕ)
    (hx : ∀ r, r < m → x ≠ s.jju + r * d) :
    ((List.range m).foldl
        (fun s _ => ({ ulist := Function.update s.ulist s.jju { re := 0, im := 0 }
                       jju := s.jju + d } : UZero K)) s).ulist x = s.ulist x := by
  induction m with
  | zero => rfl
  | succ m ih =>
    rw [List.range_succ, List.foldl_append, List.foldl_cons, List.foldl_nil]
    have h1 := (ui_zero_rows (K := K) d m hd s).1
    have h2 := ih (fun r hr => hx r (by omega))
    generalize (List.range m).foldl
        (fun s _ => ({ ulist := Function.update s.ulist s.jju { re := 0, im := 0 }
                       jju := s.jju + d } : UZero K)) s = sm at h1 h2 ⊢
    show Function.update sm.ulist sm.jju _ x = _
    rw [h1, Function.update_noteq (hx m (by omega)), h2]

theorem ui_zero_level_other (s : UZero K) (j x : ℕ)
    (hx : ∀ mb, 2 * mb ≤ j → x ≠ s.jju + mb * (j + 1)) :
    (ui_zero_level s j).ulist x = s.ulist x := by
  unfold ui_zero_level
  simp only [mbloop]
  exact ui_zero_rows_other (j + 1) (j / 2 + 1) (by omega) s x
    (fun r hr => hx r (by omega))

theorem ui_zero_after_spec (n : ℕ) (u : ℕ → Cplx K) :
    (ui_zero_after n u).jju = uoff (n + 1) ∧
    (∀ j mb, 1 ≤ j → j ≤ n → 2 * mb ≤ j →
      (ui_zero_after n u).ulist (uoff j + mb * (j + 1)) = { re := 0, im := 0 }) ∧
    (∀ x, (∀ j mb, 1 ≤ j → j ≤ n → 2 * mb ≤ j → x ≠ uoff j + mb * (j + 1)) →
      (ui_zero_after n u).ulist x = u x) := by
  refine ⟨(ui_zero_phase n u).1, (ui_zero_phase n u).2.1, ?_⟩
  induction n with
  | zero => intro x _; rfl
  | succ n ih =>
    intro x hx
    have h1 := (ui_zero_phase n u).1
    have h2 := ih x (fun j mb a b c => hx j mb a (by omega) c)
    unfold ui_zero_after at h2 ⊢
    rw [List.range'_concat, List.foldl_append, List.foldl_cons, List.foldl_nil]
    have e : 1 + 1 * n = n + 1 := by omega
    rw [e, ui_zero_level_other _ _ _ (fun mb hmb => by
      rw [h1]; exact hx (n + 1) mb (by omega) (le_refl _) hmb), h2]

end UCursors

section C24
variable {K : Type} [Field K]

/-- C24. With the tables of `main`, at a level `1 <= j <= twojmax` of the U recursion: the
array `compute_ulist` returns is that of the `j` loop run on the zero-initialised array;
at the iteration of row `mb < (j+1)/2` and column `ma < j` (`m_iter = mb*j + ma`) the
cursors are `jju = idxu_block[j] + mb*(j+1) + ma` and `jjup = idxu_block[j-1] + mb*j + ma`;
after the end-of-level skips `jju = idxu_block[j] + (j+1)^2` and
`jjup = idxu_block[j-1] + j^2`; the zero-initialisation loop sets the cells
`idxu_block[j'] + mb*(j'+1)`, `1 <= j' <= twojmax`, `2*mb <= j'`, and no other cell; the
symmetry copy has `jjui = idxu_block[j] + mb*(j+1) + ma` and
`jjuip = idxu_block[j] + (j+1)^2 - 1 - (mb*(j+1) + ma)`; and every index touched (`jjup`,
`jju`, `jju+1`, `jju+deljju`, `jju+deljju+1`, the zeroed cells, `jjui`, `jjuip`) is below
`idxu_max`, as is every index of the accumulation into Utot. -/
theorem ulist_cursors (twojmax : ℕ) (umem : ℕ → ℕ) (ulist_parity : ℕ → ℤ)
    (rt : ℕ → ℕ → K) (a_r a_i b_r b_i : K) (ulist0 Z u : ℕ → Cplx K) (j : ℕ)
    (hj1 : 1 ≤ j) (hj : j ≤ twojmax) :
    compute_ulist twojmax (idxu_fill twojmax umem).idxu_block ulist_parity rt a_r a_i b_r b_i
        ulist0
      = (ui_after (idxu_fill twojmax umem).idxu_block ulist_parity rt a_r a_i b_r b_i
          (ui_zero_after twojmax (Function.update ulist0 0 { re := 1, im := 0 })).ulist
          twojmax).ulist ∧
    (∀ mb ma, mb < (j + 1) / 2 → ma < j →
      mb * j + ma < j * ((j + 1) / 2) ∧ (mb * j + ma) / j = mb ∧ (mb * j + ma) % j = ma ∧
      (ui_at (idxu_fill twojmax umem).idxu_block ulist_parity rt a_r a_i b_r b_i Z j
          (mb * j + ma)).jju
        = (idxu_fill twojmax umem).idxu_block j + mb * (j + 1) + ma ∧
      (ui_at (idxu_fill twojmax umem).idxu_block ulist_parity rt a_r a_i b_r b_i Z j
          (mb * j + ma)).jjup
        = (idxu_fill twojmax umem).idxu_block (j - 1) + mb * j + ma) ∧
    ((ui_after (idxu_fill twojmax umem).idxu_block ulist_parity rt a_r a_i b_r b_i Z j).jju
        = (idxu_fill twojmax umem).idxu_block j + (j + 1) * (j + 1) ∧
      (ui_after (idxu_fill twojmax umem).idxu_block ulist_parity rt a_r a_i b_r b_i Z j).jjup
        = (idxu_fill twojmax umem).idxu_block (j - 1) + j * j) ∧
    ((∀ j' mb, 1 ≤ j' → j' ≤ twojmax → 2 * mb ≤ j' →
        (ui_zero_after twojmax u).ulist
            ((idxu_fill twojmax umem).idxu_block j' + mb * (j' + 1))
          = { re := 0, im := 0 } ∧
        (idxu_fill twojmax umem).idxu_block j' + mb * (j' + 1)
          < (idxu_fill twojmax umem).idxu_count) ∧
      (∀ x, (∀ j' mb, 1 ≤ j' → j' ≤ twojmax → 2 * mb ≤ j' →
          x ≠ (idxu_fill twojmax umem).idxu_block j' + mb * (j' + 1)) →
        (ui_zero_after twojmax u).ulist x = u x)) ∧
    (∀ m, m < j * ((j + 1) / 2) →
      ∀ x ∈ ui_rec_indices j
          (ui_at (idxu_fill twojmax umem).idxu_block ulist_parity rt a_r a_i b_r b_i Z j m).jju
          (ui_at (idxu_fill twojmax umem).idxu_block ulist_parity rt a_r a_i b_r b_i Z j
            m).jjup m,
        x < (idxu_fill twojmax umem).idxu_count) ∧
    (∀ mb ma, 2 * mb < j → ma ≤ j →
      (ui_sym_at (idxu_fill twojmax umem).idxu_block ulist_parity u j mb ma).jjui
        = (idxu_fill twojmax umem).idxu_block j + mb * (j + 1) + ma ∧
      (ui_sym_at (idxu_fill twojmax umem).idxu_block ulist_parity u j mb ma).jjuip
        = (idxu_fill twojmax umem).idxu_block j + (j + 1) * (j + 1) - 1
            - (mb * (j + 1) + ma) ∧
      (ui_sym_at (idxu_fill twojmax umem).idxu_block ulist_parity u j mb ma).jjui
        < (idxu_fill twojmax umem).idxu_count ∧
      (idxu_fill twojmax umem).idxu_block j
        ≤ (ui_sym_at (idxu_fill twojmax umem).idxu_block ulist_parity u j mb ma).jjuip ∧
      (ui_sym_at (idxu_fill twojmax umem).idxu_block ulist_parity u j mb ma).jjuip
        < (idxu_fill twojmax umem).idxu_count) ∧
    (∀ (sfac : K) (x : ℕ),
      add_ulisttot twojmax (idxu_fill twojmax umem).idxu_block sfac Z u x
        = if x < (idxu_fill twojmax umem).idxu_count then
            Cplx.add (u x) (Cplx.smul sfac (Z x))
          else u x) := by
  have hb : (idxu_fill twojmax umem).idxu_block j = uoff j := idxu_fill_block twojmax umem j hj
  have hb' : (idxu_fill twojmax umem).idxu_block (j - 1) = uoff (j - 1) :=
    idxu_fill_block twojmax umem (j - 1) (by omega)
  have hc : (idxu_fill twojmax umem).idxu_count = uoff (twojmax + 1) :=
    idxu_fill_count twojmax umem
  have hmono : uoff (j + 1) ≤ uoff (twojmax + 1) := uoff_mono (by omega)
  have hprev : uoff j = uoff (j - 1) + j * j := by
    have := uoff_succ (j - 1)
    have e1 : j - 1 + 1 = j := by omega
    rw [e1] at this
    exact this
  have hjj : uoff (j + 1) = uoff j + (j + 1) * (j + 1) := uoff_succ j
  refine ⟨rfl, ?_, ?_, ⟨?_, ?_⟩, ?_, ?_,
    fun sfac x => add_ulisttot_spec twojmax umem sfac Z u x⟩
  · intro mb ma hmb hma
    obtain ⟨c1, c2⟩ := ui_at_cursors (idxu_fill twojmax umem).idxu_block ulist_parity rt a_r
      a_i b_r b_i Z j mb ma hj1 hma
    obtain ⟨d1, d2⟩ := row_index_divmod j mb ma hma
    refine ⟨?_, d1, d2, by rw [c1, hb], by rw [c2, hb']⟩
    have h1 : (mb + 1) * j ≤ (j + 1) / 2 * j := Nat.mul_le_mul_right _ (by omega)
    have h2 : (mb + 1) * j = mb * j + j := by ring
    have h3 : j * ((j + 1) / 2) = (j + 1) / 2 * j := Nat.mul_comm _ _
    omega
  · obtain ⟨c1, c2⟩ := ui_after_cursors (idxu_fill twojmax umem).idxu_block ulist_parity rt
      a_r a_i b_r b_i Z j
    rw [c1, c2, hb, hb']
    exact ⟨hjj, hprev⟩
  · intro j' mb h1 h2 h3
    rw [idxu_fill_block twojmax umem j' h2, hc]
    refine ⟨(ui_zero_after_spec twojmax u).2.1 j' mb h1 h2 h3, ?_⟩
    have a := uoff_cell_lt j' mb 0 (by omega) (by omega)
    have b := uoff_mono (show j' + 1 ≤ twojmax + 1 by omega)
    omega
  · intro x hx
    refine (ui_zero_after_spec twojmax u).2.2 x (fun j' mb h1 h2 h3 => ?_)
    have := hx j' mb h1 h2 h3
    rw [idxu_fill_block twojmax umem j' h2] at this
    exact this
  · intro m hm x hx
    obtain ⟨hmb, hma⟩ := iter_row_col j m hj1 hm
    have hdm : m = m / j * j + m % j := by
      have := Nat.div_add_mod m j
      have e : m / j * j = j * (m / j) := Nat.mul_comm _ _
      omega
    obtain ⟨c1, c2⟩ := ui_at_cursors (idxu_fill twojmax umem).idxu_block ulist_parity rt a_r
      a_i b_r b_i Z j (m / j) (m % j) hj1 hma
    rw [← hdm] at c1 c2
    rw [c1, c2] at hx
    simp only [ui_rec_indices, List.mem_append, List.mem_cons, List.mem_singleton,
      List.not_mem_nil, or_false] at hx
    generalize m / j = mb at hx hmb
    generalize m % j = ma at hx hma
    have p1 := prev_cell_lt j mb ma hj1 (by omega) hma
    have p2 := uoff_cell_lt j mb (ma + 1) (by omega) (by omega)
    have p3 := uoff_cell_lt j (mb + 1) (ma + 1) (by omega) (by omega)
    have e3 : (mb + 1) * (j + 1) = mb * (j + 1) + (j + 1) := by ring
    rw [hc]
    rcases hx with (rfl | rfl | rfl) | h
    · omega
    · omega
    · omega
    · by_cases h2 : 2 * (mb + 1) = j
      · rw [if_pos h2] at h
        simp only [List.mem_cons, List.mem_singleton, List.not_mem_nil, or_false] at h
        rcases h with rfl | rfl
        · omega
        · omega
      · rw [if_neg h2] at h
        simp at h
  · intro mb ma hmb hma
    obtain ⟨c1, c2⟩ :=
      ui_sym_at_cursors (idxu_fill twojmax umem).idxu_block ulist_parity u j mb ma
    have q := cell_lt_sq j mb ma (by omega) hma
    rw [c1, c2, hb, hc]
    refine ⟨by omega, rfl, by omega, by omega, by omega⟩

end C24

theorem ulist_cursors_witness :
    (1 : ℕ) ≤ 2 ∧ (2 : ℕ) ≤ 2 ∧
    ((ui_after (idxu_fill 2 (fun _ => 0)).idxu_block (fun _ => 1) (fun _ _ => (1 : ℚ)) 1 0 0 0
        (fun _ => ⟨0, 0⟩) 2).jju
        = (idxu_fill 2 (fun _ => 0)).idxu_block 2 + (2 + 1) * (2 + 1) ∧
      (ui_after (idxu_fill 2 (fun _ => 0)).idxu_block (fun _ => 1) (fun _ _ => (1 : ℚ)) 1 0 0 0
        (fun _ => ⟨0, 0⟩) 2).jjup
        = (idxu_fill 2 (fun _ => 0)).idxu_block (2 - 1) + 2 * 2) :=
  ⟨by decide, by decide,
    (ulist_cursors 2 (fun _ => 0) (fun _ => 1) (fun _ _ => (1 : ℚ)) 1 0 0 0 (fun _ => ⟨0, 0⟩)
      (fun _ => ⟨0, 0⟩) (fun _ => ⟨0, 0⟩) 2 (by decide) (by decide)).2.2.1⟩

end TestSNAP

namespace Jaccard

/-! ## Binary search -/

/-- On a window where the column indices are strictly increasing, the binary search
returns the position of `ref_col` when it occurs in the window, and `-1` when it does
not. -/
theorem bsearch_spec (csrInd : ℕ → ℕ) (ref_col : ℕ) (n : ℕ) :
    ∀ left right : ℤ, (right + 1 - left).toNat ≤ n → 0 ≤ left →
      (∀ i i' : ℤ, left ≤ i → i < i' → i' ≤ right → csrInd i.toNat < csrInd i'.toNat) →
      (∀ i : ℤ, left ≤ i → i ≤ right → csrInd i.toNat = ref_col →
        bsearch csrInd ref_col left right = i) ∧
      ((∀ i : ℤ, left ≤ i → i ≤ right → csrInd i.toNat ≠ ref_col) →
        bsearch csrInd ref_col left right = -1) := by
  induction n with
  | zero =>
    intro left right hn h0 _
    have hlr : ¬ left ≤ right := by omega
    refine ⟨?_, ?_⟩
    · intro i h1 h2; omega
    · intro _
      rw [bsearch, if_neg hlr]
  | succ n ih =>
    intro left right hn h0 hs
    by_cases hlr : left ≤ right
    · have hm1 : left ≤ (left + right) / 2 := by omega
      have hm2 : (left + right) / 2 ≤ right := by omega
      rw [bsearch, if_pos hlr]
      simp only
      by_cases hgt : csrInd ((left + right) / 2).toNat > ref_col
      · rw [if_pos hgt]
        obtain ⟨a1, a2⟩ := ih left ((left + right) / 2 - 1) (by omega) h0
          (fun i i' h1 h2 h3 => hs i i' h1 h2 (by omega))
        refine ⟨?_, ?_⟩
        · intro i h1 h2 h3
          apply a1 i h1 ?_ h3
          by_contra hc
          have hle : (left + right) / 2 ≤ i := by omega
          rcases eq_or_lt_of_le hle with he | hl
          · rw [← he] at h3; omega
          · have := hs _ _ hm1 hl h2; omega
        · intro hno
          exact a2 (fun i h1 h2 => hno i h1 (by omega))
      · rw [if_neg hgt]
        by_cases hlt : csrInd ((left + right) / 2).toNat < ref_col
        · rw [if_pos hlt]
          obtain ⟨a1, a2⟩ := ih ((left + right) / 2 + 1) right (by omega) (by omega)
            (fun i i' h1 h2 h3 => hs i i' (by omega) h2 h3)
          refine ⟨?_, ?_⟩
          · intro i h1 h2 h3
            apply a1 i ?_ h2 h3
            by_contra hc
            have hle : i ≤ (left + right) / 2 := by omega
            rcases eq_or_lt_of_le hle with he | hl
            · rw [he] at h3; omega
            · have := hs _ _ h1 hl hm2; omega
          · intro hno
            exact a2 (fun i h1 h2 => hno i (by omega) h2)
        · rw [if_neg hlt]
          have heq : csrInd ((left + right) / 2).toNat = ref_col := by omega
          refine ⟨?_, ?_⟩
          · intro i h1 h2 h3
            rcases lt_trichotomy i ((left + right) / 2) with hl | he | hg
            · have := hs _ _ h1 hl hm2; omega
            · exact he.symm
            · have := hs _ _ hm1 hg h2; omega
          · intro hno
            exact absurd heq (hno _ hm1 hm2)
    · refine ⟨?_, ?_⟩
      · intro i h1 h2; omega
      · intro _
        rw [bsearch, if_neg hlr]

/-- In a row of a CSR matrix the binary search finds `ref_col` exactly when it is a
column of the row. -/
theorem bsearch_found_iff (csrPtr csrInd : ℕ → ℕ) (cur ref_col : ℕ)
    (hs : ∀ i i', csrPtr cur ≤ i → i < i' → i' < csrPtr (cur + 1) → csrInd i < csrInd i') :
    bsearch csrInd ref_col (csrPtr cur) ((csrPtr (cur + 1) : ℤ) - 1) ≠ -1
      ↔ ref_col ∈ cols csrPtr csrInd cur := by
  obtain ⟨a1, a2⟩ := bsearch_spec csrInd ref_col
    (((csrPtr (cur + 1) : ℤ) - 1 + 1 - (csrPtr cur : ℤ)).toNat) (csrPtr cur)
    ((csrPtr (cur + 1) : ℤ) - 1) (le_refl _) (Int.natCast_nonneg _) (by
      intro i i' h1 h2 h3
      exact hs i.toNat i'.toNat (by omega) (by omega) (by omega))
  unfold cols
  rw [Finset.mem_image]
  constructor
  · intro hne
    by_contra hc
    apply hne
    apply a2
    intro i h1 h2 h3
    exact hc ⟨i.toNat, Finset.mem_Ico.2 ⟨by omega, by omega⟩, h3⟩
  · rintro ⟨p, hp, he⟩
    rw [Finset.mem_Ico] at hp
    rw [a1 (p : ℤ) (by omega) (by omega) (by simpa using he)]
    omega

/-! ## The kernel `jaccard_is` -/

theorem sum_map_range' {M : Type} [AddCommMonoid M] (f : ℕ → M) (a len : ℕ) :
    ((List.range' a len).map f).sum = ∑ i ∈ Finset.Ico a (a + len), f i := by
  induction len with
  | zero => simp
  | succ len ih =>
    rw [List.range'_concat, List.map_append, List.sum_append, ih, ← Nat.add_assoc,
      Finset.sum_Ico_succ_top (by omega)]
    simp

section IS
variable {K : Type} [Field K]

/-- The loop over the reference row adds to `weight_i[j]` one `ref_val` per element found
in row `cur`, and touches no other cell. -/
theorem is_search_fold (weighted : Bool) (csrPtr csrInd : ℕ → ℕ) (v : ℕ → K) (cur j : ℕ)
    (L : List ℕ) (wi : ℕ → K) (x : ℕ) :
    L.foldl (is_search weighted csrPtr csrInd v cur j) wi x
      = if x = j then
          wi j + (L.map (fun i =>
            if bsearch csrInd (csrInd i) (csrPtr cur) ((csrPtr (cur + 1) : ℤ) - 1) ≠ -1
            then (if weighted then v (csrInd i) else 1) else 0)).sum
        else wi x := by
  induction L generalizing wi with
  | nil => by_cases h : x = j <;> simp [h]
  | cons a L ih =>
    rw [List.foldl_cons, ih, List.map_cons, List.sum_cons]
    have hstep : is_search weighted csrPtr csrInd v cur j wi a
        = if bsearch csrInd (csrInd a) (csrPtr cur) ((csrPtr (cur + 1) : ℤ) - 1) ≠ -1
          then Function.update wi j (wi j + (if weighted then v (csrInd a) else 1))
          else wi := rfl
    rw [hstep]
    by_cases hm : bsearch csrInd (csrInd a) (csrPtr cur) ((csrPtr (cur + 1) : ℤ) - 1) ≠ -1
    · rw [if_pos hm, if_pos hm]
      by_cases hx : x = j
      · rw [if_pos hx, if_pos hx, Function.update_same]
        ring
      · rw [if_neg hx, if_neg hx, Function.update_noteq hx]
    · rw [if_neg hm, if_neg hm, zero_add]

/-- The sum over the elements of row `ref` found in row `cur` is the sum over the columns
present in both rows. -/
theorem sum_found_eq_inter (csrPtr csrInd : ℕ → ℕ) (g : ℕ → K) (ref cur : ℕ)
    (hle : csrPtr ref ≤ csrPtr (ref + 1))
    (hsr : ∀ i i', csrPtr ref ≤ i → i < i' → i' < csrPtr (ref + 1) → csrInd i < csrInd i')
    (hsc : ∀ i i', csrPtr cur ≤ i → i < i' → i' < csrPtr (cur + 1) → csrInd i < csrInd i') :
    ((List.range' (csrPtr ref) (csrPtr (ref + 1) - csrPtr ref)).map (fun i =>
        if bsearch csrInd (csrInd i) (csrPtr cur) ((csrPtr (cur + 1) : ℤ) - 1) ≠ -1
        then g (csrInd i) else 0)).sum
      = ∑ c ∈ cols csrPtr csrInd ref ∩ cols csrPtr csrInd cur, g c := by
  rw [sum_map_range', Nat.add_sub_cancel' hle]
  have hinj : Set.InjOn csrInd (Finset.Ico (csrPtr ref) (csrPtr (ref + 1)) : Set ℕ) := by
    intro a ha b hb hab
    rw [Finset.coe_Ico, Set.mem_Ico] at ha hb
    rcases Nat.lt_trichotomy a b with h | h | h
    · have := hsr a b ha.1 h hb.2; omega
    · exact h
    · have := hsr b a hb.1 h ha.2; omega
  have e1 : ∀ i ∈ Finset.Ico (csrPtr ref) (csrPtr (ref + 1)),
      (if bsearch csrInd (csrInd i) (csrPtr cur) ((csrPtr (cur + 1) : ℤ) - 1) ≠ -1
        then g (csrInd i) else 0)
      = (fun c => if c ∈ cols csrPtr csrInd cur then g c else 0) (csrInd i) := by
    intro i _
    by_cases h : csrInd i ∈ cols csrPtr csrInd cur
    · simp only [h, if_true]
      rw [if_pos ((bsearch_found_iff csrPtr csrInd cur (csrInd i) hsc).2 h)]
    · simp only [h, if_false]
      rw [if_neg (fun hc => h ((bsearch_found_iff csrPtr csrInd cur (csrInd i) hsc).1 hc))]
  rw [Finset.sum_congr rfl e1, ← Finset.sum_image (f := fun c =>
    if c ∈ cols csrPtr csrInd cur then g c else 0) hinj]
  have : Finset.image csrInd (Finset.Ico (csrPtr ref) (csrPtr (ref + 1)))
      = cols csrPtr csrInd ref := rfl
  rw [this, ← Finset.sum_filter, Finset.filter_mem_eq_inter]

end IS

section ISRows
variable {K : Type} [Field K]

theorem csr_ptr_mono {n e : ℕ} {csrPtr csrInd : ℕ → ℕ} (H : CSR n e csrPtr csrInd)
    {a b : ℕ} (hab : a ≤ b) (hb : b ≤ n) : csrPtr a ≤ csrPtr b := by
  induction b with
  | zero =>
    have : a = 0 := by omega
    rw [this]
  | succ b ih =>
    by_cases h : a = b + 1
    · rw [h]
    · have h1 := ih (by omega) (by omega)
      have h2 := H.2.2.1 b (by omega)
      omega

/-- An entry below `e` of a CSR matrix lies in exactly one row. -/
theorem csr_entry_lt {n e : ℕ} {csrPtr csrInd : ℕ → ℕ} (H : CSR n e csrPtr csrInd)
    {row j : ℕ} (hrow : row < n) (hj : j < csrPtr (row + 1)) : j < e := by
  have := csr_ptr_mono H (show row + 1 ≤ n by omega) (le_refl n)
  rw [H.2.1] at this
  omega

/-- One entry: `weight_s[j] = work[row] + work[col]`, and `weight_i[j]` receives the sum
of the weights of the columns present in both rows; no other cell changes. -/
theorem is_entry_spec (weighted : Bool) (n e : ℕ) (csrPtr csrInd : ℕ → ℕ) (v work : ℕ → K)
    (H : CSR n e csrPtr csrInd) (row j : ℕ) (hrow : row < n)
    (hj2 : j < csrPtr (row + 1)) (s : IsState K) (x : ℕ) :
    (is_entry weighted csrPtr csrInd v work row s j).weight_s x
      = (if x = j then work row + work (csrInd j) else s.weight_s x) ∧
    (is_entry weighted csrPtr csrInd v work row s j).weight_i x
      = (if x = j then
          s.weight_i j + ∑ c ∈ cols csrPtr csrInd row ∩ cols csrPtr csrInd (csrInd j),
            (if weighted then v c else 1)
        else s.weight_i x) := by
  obtain ⟨_, _, hmono, hsort, hcol⟩ := H
  have hje : j < e := csr_entry_lt ⟨‹_›, ‹_›, hmono, hsort, hcol⟩ hrow hj2
  have hc : csrInd j < n := hcol j hje
  refine ⟨?_, ?_⟩
  · simp only [is_entry, Function.update_apply]
  · simp only [is_entry]
    rw [is_search_fold]
    by_cases hx : x = j
    · rw [if_pos hx, if_pos hx]
      congr 1
      by_cases hN : (csrPtr (row + 1) : ℤ) - csrPtr row
          < (csrPtr (csrInd j + 1) : ℤ) - csrPtr (csrInd j)
      · simp only [hN, if_true]
        exact sum_found_eq_inter csrPtr csrInd (fun c => if weighted then v c else 1) row
          (csrInd j) (hmono row hrow) (hsort row hrow) (hsort (csrInd j) hc)
      · simp only [hN, if_false]
        rw [Finset.inter_comm]
        exact sum_found_eq_inter csrPtr csrInd (fun c => if weighted then v c else 1)
          (csrInd j) row (hmono (csrInd j) hc) (hsort (csrInd j) hc) (hsort row hrow)
    · rw [if_neg hx, if_neg hx]

/-- The entries `csrPtr[row] .. csrPtr[row] + m - 1` of a row. -/
theorem is_row_fold (weighted : Bool) (n e : ℕ) (csrPtr csrInd : ℕ → ℕ) (v work : ℕ → K)
    (H : CSR n e csrPtr csrInd) (row : ℕ) (hrow : row < n) (m : ℕ)
    (hm : csrPtr row + m ≤ csrPtr (row + 1)) (s : IsState K) :
    ∀ x,
    ((List.range' (csrPtr row) m).foldl (is_entry weighted csrPtr csrInd v work row) s).weight_s
        x
      = (if csrPtr row ≤ x ∧ x < csrPtr row + m then work row + work (csrInd x)
          else s.weight_s x) ∧
    ((List.range' (csrPtr row) m).foldl (is_entry weighted csrPtr csrInd v work row) s).weight_i
        x
      = (if csrPtr row ≤ x ∧ x < csrPtr row + m then
          s.weight_i x + ∑ c ∈ cols csrPtr csrInd row ∩ cols csrPtr csrInd (csrInd x),
            (if weighted then v c else 1)
        else s.weight_i x) := by
  induction m with
  | zero =>
    intro x
    simp only [List.range'_zero, List.foldl_nil]
    rw [if_neg (by omega), if_neg (by omega)]
    exact ⟨rfl, rfl⟩
  | succ m ih =>
    have ih' := ih (by omega)
    intro x
    rw [List.range'_concat, List.foldl_append, List.foldl_cons, List.foldl_nil]
    generalize (List.range' (csrPtr row) m).foldl
      (is_entry weighted csrPtr csrInd v work row) s = sm at ih' ⊢
    have hone : csrPtr row + 1 * m = csrPtr row + m := by omega
    rw [hone]
    obtain ⟨e1, e2⟩ := is_entry_spec weighted n e csrPtr csrInd v work H row
      (csrPtr row + m) hrow (by omega) sm x
    rw [e1, e2]
    by_cases hx : x = csrPtr row + m
    · subst hx
      rw [if_pos rfl, if_pos rfl, if_pos ⟨by omega, by omega⟩, if_pos ⟨by omega, by omega⟩,
        (ih' (csrPtr row + m)).2, if_neg (by omega)]
      exact ⟨rfl, rfl⟩
    · rw [if_neg hx, if_neg hx, (ih' x).1, (ih' x).2]
      by_cases hr : csrPtr row ≤ x ∧ x < csrPtr row + m
      · rw [if_pos hr, if_pos hr, if_pos ⟨hr.1, by omega⟩, if_pos ⟨hr.1, by omega⟩]
        exact ⟨rfl, rfl⟩
      · rw [if_neg hr, if_neg hr, if_neg (by omega), if_neg (by omega)]
        exact ⟨rfl, rfl⟩

/-- The kernel `jaccard_is` on a CSR matrix: every entry `j` of a row `row < n` ends with
`weight_s[j] = work[row] + work[col]` and with `weight_i[j]` increased by the sum of the
weights of the columns present in both rows. -/
theorem jaccard_is_spec (weighted : Bool) (n e : ℕ) (csrPtr csrInd : ℕ → ℕ) (v work : ℕ → K)
    (H : CSR n e csrPtr csrInd) (s : IsState K) (m : ℕ) (hm : m ≤ n) :
    (∀ row x, row < m → csrPtr row ≤ x → x < csrPtr (row + 1) →
      ((List.range m).foldl
        (fun s row => (List.range' (csrPtr row) (csrPtr (row + 1) - csrPtr row)).foldl
          (is_entry weighted csrPtr csrInd v work row) s) s).weight_s x
        = work row + work (csrInd x) ∧
      ((List.range m).foldl
        (fun s row => (List.range' (csrPtr row) (csrPtr (row + 1) - csrPtr row)).foldl
          (is_entry weighted csrPtr csrInd v work row) s) s).weight_i x
        = s.weight_i x + ∑ c ∈ cols csrPtr csrInd row ∩ cols csrPtr csrInd (csrInd x),
            (if weighted then v c else 1)) ∧
    (∀ x, csrPtr m ≤ x →
      ((List.range m).foldl
        (fun s row => (List.range' (csrPtr row) (csrPtr (row + 1) - csrPtr row)).foldl
          (is_entry weighted csrPtr csrInd v work row) s) s).weight_s x = s.weight_s x ∧
      ((List.range m).foldl
        (fun s row => (List.range' (csrPtr row) (csrPtr (row + 1) - csrPtr row)).foldl
          (is_entry weighted csrPtr csrInd v work row) s) s).weight_i x = s.weight_i x) := by
  induction m with
  | zero =>
    refine ⟨fun row x h => by omega, fun x _ => ⟨rfl, rfl⟩⟩
  | succ m ih =>
    obtain ⟨i1, i2⟩ := ih (by omega)
    rw [List.range_succ, List.foldl_append, List.foldl_cons, List.foldl_nil]
    generalize (List.range m).foldl
        (fun s row => (List.range' (csrPtr row) (csrPtr (row + 1) - csrPtr row)).foldl
          (is_entry weighted csrPtr csrInd v work row) s) s = sm at i1 i2 ⊢
    have hmono := H.2.2.1 m (by omega)
    have hrow := is_row_fold weighted n e csrPtr csrInd v work H m (by omega)
      (csrPtr (m + 1) - csrPtr m) (by omega) sm
    have eadd : csrPtr m + (csrPtr (m + 1) - csrPtr m) = csrPtr (m + 1) := by omega
    rw [eadd] at hrow
    refine ⟨?_, ?_⟩
    · intro row x hr h1 h2
      obtain ⟨r1, r2⟩ := hrow x
      rw [r1, r2]
      by_cases hrm : row = m
      · subst hrm
        rw [if_pos ⟨h1, h2⟩, if_pos ⟨h1, h2⟩, (i2 x h1).2]
        exact ⟨rfl, rfl⟩
      · have hle := csr_ptr_mono H (show row + 1 ≤ m by omega) (by omega)
        rw [if_neg (by omega), if_neg (by omega)]
        exact i1 row x (by omega) h1 h2
    · intro x hx
      obtain ⟨r1, r2⟩ := hrow x
      rw [r1, r2, if_neg (by omega), if_neg (by omega)]
      exact i2 x (by omega)

end ISRows

/-! ## The prefix sum of a sub-group -/

theorem scan_offsets_eq : scan_offsets = [1, 2, 4, 8] := by decide

section Lanes
variable {K : Type} [Field K]

theorem pps_mn_eq (n : ℤ) (h : 0 ≤ n) :
    pps_mn n = 16 * (((n + 15) / 16).toNat : ℤ) := by
  unfold pps_mn blockDim_x
  have e : Int.tdiv (n + ((16 : ℕ) : ℤ) - 1) ((16 : ℕ) : ℤ) = (n + 15) / 16 := by
    rw [Int.tdiv_eq_ediv (by push_cast; omega) (by positivity)]
    congr 1
    push_cast
    ring
  rw [e, Int.toNat_of_nonneg (by omega)]
  push_cast
  ring

end Lanes

section Lanes2
variable {K : Type} [Field K]

theorem pps_scan_step_apply (sg : SubGroupOps K) (hs : SyclGroupFunctions sg) (n : ℕ → ℤ)
    (t j l l' : ℕ) (hact : (pps_i l t : ℤ) < pps_mn (n l)) (hl' : l' + j = l)
    (hj : j ≤ l % blockDim_x) (hl : l < sub_group_size) (sum : ℕ → K) :
    pps_scan_step sg n t sum j l = sum l + sum l' := by
  unfold pps_scan_step
  rw [if_pos ⟨hact, hj⟩, hs.2 sum j l (by omega) hl]
  congr 2
  omega

theorem pps_scan_idle (sg : SubGroupOps K) (n : ℕ → ℤ) (t l : ℕ)
    (hact : ¬ (pps_i l t : ℤ) < pps_mn (n l)) (offs : List ℕ) (sum : ℕ → K) :
    offs.foldl (pps_scan_step sg n t) sum l = sum l := by
  induction offs generalizing sum with
  | nil => rfl
  | cons j offs ih =>
    rw [List.foldl_cons, ih]
    unfold pps_scan_step
    rw [if_neg (fun h => hact h.1)]

/-- The scan of main.cpp 68-71 leaves in lane 15 the sum of the values of lanes 0 to
15. -/
theorem pps_scan_last (sg : SubGroupOps K) (hs : SyclGroupFunctions sg) (n : ℕ → ℤ) (t : ℕ)
    (hact : ∀ l, l < 16 → (pps_i l t : ℤ) < pps_mn (n l)) (sum : ℕ → K) :
    scan_offsets.foldl (pps_scan_step sg n t) sum 15 = ∑ x ∈ Finset.range 16, sum x := by
  have e : ∀ (j l l' : ℕ), l' + j = l → l < 16 → j ≤ l → ∀ s : ℕ → K,
      pps_scan_step sg n t s j l = s l + s l' := by
    intro j l l' h1 h2 h3 s
    refine pps_scan_step_apply sg hs n t j l l' (hact l h2) h1 ?_ ?_ s
    · rw [blockDim_x, Nat.mod_eq_of_lt h2]; exact h3
    · rw [sub_group_size]; omega
  rw [scan_offsets_eq]
  simp only [List.foldl_cons, List.foldl_nil]
  rw [e 8 15 7 rfl (by decide) (by decide),
    e 4 15 11 rfl (by decide) (by decide), e 4 7 3 rfl (by decide) (by decide),
    e 2 15 13 rfl (by decide) (by decide), e 2 11 9 rfl (by decide) (by decide),
    e 2 7 5 rfl (by decide) (by decide), e 2 3 1 rfl (by decide) (by decide),
    e 1 15 14 rfl (by decide) (by decide), e 1 13 12 rfl (by decide) (by decide),
    e 1 11 10 rfl (by decide) (by decide), e 1 9 8 rfl (by decide) (by decide),
    e 1 7 6 rfl (by decide) (by decide), e 1 5 4 rfl (by decide) (by decide),
    e 1 3 2 rfl (by decide) (by decide), e 1 1 0 rfl (by decide) (by decide)]
  simp only [Finset.sum_range_succ, Finset.sum_range_zero]
  ring

/-- The value lane 15 holds after `t` rounds, when lanes 0 to 15 are called with the same
length `n0 ≥ 0` and the same index array `ind0`: the sum of the first
`16 * min t (rounds of n0)` terms `valid ? w[ind0[i]] : 0`. -/
theorem pps_rounds_last (sg : SubGroupOps K) (hs : SyclGroupFunctions sg) (n : ℕ → ℤ)
    (ind : ℕ → ℕ → ℕ) (w : ℕ → K) (n0 : ℤ) (ind0 : ℕ → ℕ) (h0 : 0 ≤ n0)
    (hrow : ∀ l, l < 16 → n l = n0 ∧ ind l = ind0) (t : ℕ) :
    (List.range t).foldl (pps_round sg n ind w) (fun _ => 0) 15
      = ∑ i ∈ Finset.range (16 * min t ((n0 + 15) / 16).toNat),
          (if (i : ℤ) < n0 then w (ind0 i) else 0) := by
  induction t with
  | zero => simp
  | succ t ih =>
    rw [List.range_succ, List.foldl_append, List.foldl_cons, List.foldl_nil]
    generalize (List.range t).foldl (pps_round sg n ind w) (fun _ => 0) = S at ih ⊢
    have hmn : ∀ l, l < 16 → pps_mn (n l) = 16 * (((n0 + 15) / 16).toNat : ℤ) := by
      intro l hl
      rw [(hrow l hl).1, pps_mn_eq n0 h0]
    have hi : ∀ l, l < 16 → pps_i l t = l + t * 16 := by
      intro l hl
      rw [pps_i, blockDim_x, Nat.mod_eq_of_lt hl]
    by_cases ht : t < ((n0 + 15) / 16).toNat
    · have hact : ∀ l, l < 16 → (pps_i l t : ℤ) < pps_mn (n l) := by
        intro l hl
        rw [hmn l hl, hi l hl]
        push_cast
        omega
      have hlast : sg.select_from_group S (blockDim_x - 1) 15 = S 15 :=
        hs.1 S 15 15 (by decide) (by decide)
      unfold pps_round
      rw [if_pos (hact 15 (by decide)), pps_scan_last sg hs n t hact, hlast, ih,
        Nat.min_eq_left (Nat.le_of_lt ht), Nat.min_eq_left (Nat.succ_le_of_lt ht),
        show 16 * (t + 1) = 16 * t + 16 by ring, Finset.sum_range_add, add_comm]
      congr 1
      refine Finset.sum_congr rfl ?_
      intro x hx
      rw [Finset.mem_range] at hx
      rw [if_pos (hact x hx), hi x hx, (hrow x hx).1, (hrow x hx).2,
        show x + t * 16 = 16 * t + x by ring]
    · have hidle : ¬ (pps_i 15 t : ℤ) < pps_mn (n 15) := by
        rw [hmn 15 (by decide), hi 15 (by decide)]
        push_cast
        omega
      unfold pps_round
      rw [if_neg hidle, pps_scan_idle sg n t 15 hidle, if_neg hidle, ih,
        Nat.min_eq_right (by omega), Nat.min_eq_right (by omega)]

theorem sum_range_valid (f : ℕ → K) (m N : ℕ) (h : m ≤ N) :
    ∑ i ∈ Finset.range N, (if i < m then f i else 0) = ∑ i ∈ Finset.range m, f i := by
  obtain ⟨d, rfl⟩ := Nat.exists_eq_add_of_le h
  rw [Finset.sum_range_add]
  have a : ∑ x ∈ Finset.range m, (if x < m then f x else 0) = ∑ x ∈ Finset.range m, f x := by
    refine Finset.sum_congr rfl ?_
    intro x hx
    rw [Finset.mem_range] at hx
    rw [if_pos hx]
  have b : ∑ x ∈ Finset.range d, (if m + x < m then f (m + x) else 0) = 0 := by
    refine Finset.sum_eq_zero ?_
    intro x _
    rw [if_neg (by omega)]
  rw [a, b, add_zero]

/-- With the group functions of SYCL, when lanes 0 to 15 of the sub-group are called with
the same length `n0 ≥ 0` and index array `ind0`, `parallel_prefix_sum` returns to every
lane of the sub-group the total `SUM_{i < n0} w[ind0[i]]` of lanes 0 to 15. -/
theorem parallel_prefix_sum_value (sg : SubGroupOps K) (hs : SyclGroupFunctions sg)
    (n : ℕ → ℤ) (ind : ℕ → ℕ → ℕ) (w : ℕ → K) (n0 : ℤ) (ind0 : ℕ → ℕ) (h0 : 0 ≤ n0)
    (hrow : ∀ l, l < 16 → n l = n0 ∧ ind l = ind0) (l : ℕ) (hl : l < 32) :
    parallel_prefix_sum sg n ind w l = ∑ i ∈ Finset.range n0.toNat, w (ind0 i) := by
  unfold parallel_prefix_sum
  rw [hs.1 _ (blockDim_x - 1) l (by decide) hl]
  show (List.range (pps_rounds n)).foldl (pps_round sg n ind w) (fun _ => 0) 15 = _
  rw [pps_rounds_last sg hs n ind w n0 ind0 h0 hrow]
  have hR : ((n0 + 15) / 16).toNat ≤ pps_rounds n := by
    have h := Finset.le_sup (f := fun l => (pps_mn (n l) / blockDim_x).toNat)
      (Finset.mem_range.2 (show 0 < sub_group_size by decide))
    have e : (pps_mn (n 0) / (blockDim_x : ℤ)).toNat = ((n0 + 15) / 16).toNat := by
      rw [(hrow 0 (by decide)).1, pps_mn_eq n0 h0, blockDim_x]
      push_cast
      rw [Int.mul_ediv_cancel_left _ (by norm_num)]
      exact Int.toNat_ofNat _
    unfold pps_rounds
    rw [← e]
    exact h
  rw [Nat.min_eq_right hR, ← sum_range_valid (fun i => w (ind0 i)) n0.toNat
    (16 * ((n0 + 15) / 16).toNat) (by omega)]
  refine Finset.sum_congr rfl ?_
  intro i _
  by_cases hi : i < n0.toNat
  · rw [if_pos hi, if_pos (by omega)]
  · rw [if_neg hi, if_neg (by omega)]

end Lanes2

/-! ## The pipeline -/

section Pipeline
variable {K : Type} [Field K]

/-- One iteration of the loop of `jaccard_weight` on a CSR matrix: the weight of an entry
`j` of row `row`, in terms of the vertex weights `w` and of the row sums `work` of the
iteration; cells from `e` on keep their content. -/
theorem jaccard_iter_value (weighted : Bool) (sg : SubGroupOps K) (n e : ℕ)
    (csrPtr csrInd : ℕ → ℕ) (csrVal : ℕ → K) (H : CSR n e csrPtr csrInd) (s : JState K) :
    (∀ row j, row < n → csrPtr row ≤ j → j < csrPtr (row + 1) →
      (jaccard_iter weighted sg n e csrPtr csrInd csrVal s).weight_j j
        = gamma K * csrVal j *
          ((∑ c ∈ cols csrPtr csrInd row ∩ cols csrPtr csrInd (csrInd j),
              (if weighted then fill_weights weighted e 1 s.weight_j c else 1)) /
            (jaccard_row_sum weighted sg n csrPtr csrInd
                (fill_weights weighted e 1 s.weight_j) s.work row
              + jaccard_row_sum weighted sg n csrPtr csrInd
                (fill_weights weighted e 1 s.weight_j) s.work (csrInd j)
              - ∑ c ∈ cols csrPtr csrInd row ∩ cols csrPtr csrInd (csrInd j),
                  (if weighted then fill_weights weighted e 1 s.weight_j c else 1)))) ∧
    (∀ c, e ≤ c →
      (jaccard_iter weighted sg n e csrPtr csrInd csrVal s).weight_j c = s.weight_j c) := by
  refine ⟨?_, ?_⟩
  · intro row j hrow h1 h2
    have hje : j < e := csr_entry_lt H hrow h2
    obtain ⟨a1, a2⟩ := (jaccard_is_spec weighted n e csrPtr csrInd
      (fill_weights weighted e 1 s.weight_j)
      (jaccard_row_sum weighted sg n csrPtr csrInd (fill_weights weighted e 1 s.weight_j)
        s.work) H
      { weight_i := fill_weights false e 0 s.weight_i, weight_s := s.weight_s } n
      (le_refl n)).1 row j hrow h1 h2
    have hz : fill_weights false e (0 : K) s.weight_i j = 0 := by
      simp [fill_weights, hje]
    simp only [hz, zero_add] at a2
    simp only [jaccard_iter, jaccard_jw, if_pos hje]
    unfold jaccard_is
    rw [a1, a2]
  · intro c hc
    simp only [jaccard_iter, jaccard_jw, fill_weights, if_neg (show ¬ c < e by omega)]

theorem fill_weights_congr (weighted : Bool) (e : ℕ) (value : K) (w w' : ℕ → K)
    (h : ∀ c, e ≤ c → w c = w' c) :
    fill_weights weighted e value w = fill_weights weighted e value w' := by
  funext c
  by_cases hc : c < e
  · simp [fill_weights, hc]
  · simp only [fill_weights, if_neg hc]
    exact h c (by omega)

theorem jaccard_row_sum_congr (weighted : Bool) (sg : SubGroupOps K) (n : ℕ)
    (csrPtr csrInd : ℕ → ℕ) (w work work' : ℕ → K) (r : ℕ) (hr : r < n) :
    jaccard_row_sum weighted sg n csrPtr csrInd w work r
      = jaccard_row_sum weighted sg n csrPtr csrInd w work' r := by
  simp only [jaccard_row_sum, if_pos hr]

/-- The weights after `iteration >= 1` iterations are those of one iteration on the
initial buffers. -/
theorem jaccard_weight_value (weighted : Bool) (sg : SubGroupOps K)
    (iteration n e : ℕ) (csrPtr csrInd : ℕ → ℕ) (csrVal : ℕ → K)
    (H : CSR n e csrPtr csrInd) (hit : 1 ≤ iteration) (s : JState K)
    (row j : ℕ) (hrow : row < n) (h1 : csrPtr row ≤ j) (h2 : j < csrPtr (row + 1)) :
    jaccard_weight weighted sg iteration n e csrPtr csrInd csrVal s j
      = gamma K * csrVal j *
          ((∑ c ∈ cols csrPtr csrInd row ∩ cols csrPtr csrInd (csrInd j),
              (if weighted then fill_weights weighted e 1 s.weight_j c else 1)) /
            (jaccard_row_sum weighted sg n csrPtr csrInd
                (fill_weights weighted e 1 s.weight_j) s.work row
              + jaccard_row_sum weighted sg n csrPtr csrInd
                (fill_weights weighted e 1 s.weight_j) s.work (csrInd j)
              - ∑ c ∈ cols csrPtr csrInd row ∩ cols csrPtr csrInd (csrInd j),
                  (if weighted then fill_weights weighted e 1 s.weight_j c else 1))) := by
  have hkeep : ∀ k c, e ≤ c →
      ((jaccard_iter weighted sg n e csrPtr csrInd csrVal)^[k] s).weight_j c
        = s.weight_j c := by
    intro k
    induction k with
    | zero => intro c _; rfl
    | succ k ih =>
      intro c hc
      rw [Function.iterate_succ_apply',
        (jaccard_iter_value weighted sg n e csrPtr csrInd csrVal H _).2 c hc]
      exact ih c hc
  obtain ⟨k, rfl⟩ : ∃ k, iteration = k + 1 := ⟨iteration - 1, by omega⟩
  have hje : j < e := csr_entry_lt H hrow h2
  have hcol : csrInd j < n := H.2.2.2.2 j hje
  unfold jaccard_weight
  rw [Function.iterate_succ_apply',
    (jaccard_iter_value weighted sg n e csrPtr csrInd csrVal H _).1 row j hrow h1 h2,
    fill_weights_congr weighted e 1 _ s.weight_j (hkeep k),
    jaccard_row_sum_congr weighted sg n csrPtr csrInd _ _ s.work row hrow,
    jaccard_row_sum_congr weighted sg n csrPtr csrInd _ _ s.work (csrInd j) hcol]

end Pipeline

/-! ## Row sums and the formula of the specification -/

section Formula
variable {K : Type} [Field K]

theorem csr_ind_injOn {n e : ℕ} {csrPtr csrInd : ℕ → ℕ} (H : CSR n e csrPtr csrInd)
    {r : ℕ} (hr : r < n) :
    Set.InjOn csrInd (Finset.Ico (csrPtr r) (csrPtr (r + 1)) : Set ℕ) := by
  intro a ha b hb hab
  simp only [Finset.coe_Ico, Set.mem_Ico] at ha hb
  rcases Nat.lt_trichotomy a b with h | h | h
  · have := H.2.2.2.1 r hr a b ha.1 h hb.2
    omega
  · exact h
  · have := H.2.2.2.1 r hr b a hb.1 h ha.2
    omega

/-- The length of a row is the number of its columns. -/
theorem row_length_eq {n e : ℕ} {csrPtr csrInd : ℕ → ℕ} (H : CSR n e csrPtr csrInd)
    {r : ℕ} (hr : r < n) :
    (((csrPtr (r + 1) : ℤ) - (csrPtr r : ℤ) : ℤ) : K) = ∑ _c ∈ cols csrPtr csrInd r, (1 : K) := by
  have hle := H.2.2.1 r hr
  rw [Finset.sum_const, cols, Finset.card_image_of_injOn (csr_ind_injOn H hr), Nat.card_Ico,
    nsmul_eq_mul, mul_one, Nat.cast_sub hle]
  push_cast
  ring

/-- The terms `w[ind[i]]`, `i < length`, of a row add up to the sum of `w` over the columns
of the row. -/
theorem row_total_eq {n e : ℕ} {csrPtr csrInd : ℕ → ℕ} (H : CSR n e csrPtr csrInd)
    {r : ℕ} (hr : r < n) (w : ℕ → K) :
    ∑ i ∈ Finset.range ((csrPtr (r + 1) : ℤ) - (csrPtr r : ℤ)).toNat,
        w (csrInd (csrPtr r + i))
      = ∑ c ∈ cols csrPtr csrInd r, w c := by
  have hle := H.2.2.1 r hr
  have hlen : ((csrPtr (r + 1) : ℤ) - (csrPtr r : ℤ)).toNat = csrPtr (r + 1) - csrPtr r := by
    omega
  rw [hlen, cols, Finset.sum_image (csr_ind_injOn H hr), Finset.sum_Ico_eq_sum_range]

/-- In the weighted run the columns below `e` carry the weight of the specification. -/
theorem weighted_sum_eq (e : ℕ) (w0 : ℕ → K) (S : Finset ℕ) (hS : ∀ c ∈ S, c < e) :
    (∑ c ∈ S, fill_weights true e 1 w0 c) = ∑ c ∈ S, wspec K true e c := by
  refine Finset.sum_congr rfl ?_
  intro c hc
  simp [fill_weights, wspec, hS c hc]

theorem cols_lt {n e : ℕ} {csrPtr csrInd : ℕ → ℕ} (H : CSR n e csrPtr csrInd)
    (hcol : ∀ i, i < e → csrInd i < e) {r : ℕ} (hr : r < n) :
    ∀ c ∈ cols csrPtr csrInd r, c < e := by
  intro c hc
  simp only [cols, Finset.mem_image, Finset.mem_Ico] at hc
  obtain ⟨i, hi, rfl⟩ := hc
  exact hcol i (csr_entry_lt H hr hi.2)

end Formula

section Formula2
variable {K : Type} [Field K]

/-- Unweighted run: the formula of the specification. -/
theorem jaccard_unweighted_formula (sg : SubGroupOps K)
    (iteration n e : ℕ) (csrPtr csrInd : ℕ → ℕ) (csrVal : ℕ → K)
    (H : CSR n e csrPtr csrInd) (hit : 1 ≤ iteration) (s : JState K)
    (row j : ℕ) (hrow : row < n) (h1 : csrPtr row ≤ j) (h2 : j < csrPtr (row + 1)) :
    jaccard_weight false sg iteration n e csrPtr csrInd csrVal s j
      = gamma K * csrVal j * Wi_spec csrPtr csrInd (wspec K false e) row (csrInd j) /
          (Ws_spec csrPtr csrInd (wspec K false e) row (csrInd j)
            - Wi_spec csrPtr csrInd (wspec K false e) row (csrInd j)) := by
  have hcol : csrInd j < n := H.2.2.2.2 j (csr_entry_lt H hrow h2)
  rw [jaccard_weight_value false sg iteration n e csrPtr csrInd csrVal H hit s row j hrow
    h1 h2, mul_div_assoc]
  simp only [jaccard_row_sum, if_pos hrow, if_pos hcol, Bool.false_eq_true, if_false,
    Wi_spec, Ws_spec, wspec, row_length_eq H hrow, row_length_eq H hcol]

/-- Weighted run, all column indices below `e`: the formula with the row sums `work` of
the kernel `jaccard_row_sum`. -/
theorem jaccard_weighted_formula (sg : SubGroupOps K)
    (iteration n e : ℕ) (csrPtr csrInd : ℕ → ℕ) (csrVal : ℕ → K)
    (H : CSR n e csrPtr csrInd) (hit : 1 ≤ iteration) (s : JState K)
    (row j : ℕ) (hrow : row < n) (h1 : csrPtr row ≤ j) (h2 : j < csrPtr (row + 1))
    (hcole : ∀ i, i < e → csrInd i < e) :
    jaccard_weight true sg iteration n e csrPtr csrInd csrVal s j
      = gamma K * csrVal j * Wi_spec csrPtr csrInd (wspec K true e) row (csrInd j) /
          (jaccard_row_sum true sg n csrPtr csrInd (fill_weights true e 1 s.weight_j)
              s.work row
            + jaccard_row_sum true sg n csrPtr csrInd (fill_weights true e 1 s.weight_j)
              s.work (csrInd j)
            - Wi_spec csrPtr csrInd (wspec K true e) row (csrInd j)) := by
  have hwi : (∑ c ∈ cols csrPtr csrInd row ∩ cols csrPtr csrInd (csrInd j),
      fill_weights true e 1 s.weight_j c)
      = Wi_spec csrPtr csrInd (wspec K true e) row (csrInd j) :=
    weighted_sum_eq e s.weight_j _
      (fun c hc => cols_lt H hcole hrow c (Finset.mem_inter.1 hc).1)
  rw [jaccard_weight_value true sg iteration n e csrPtr csrInd csrVal H hit s row j hrow
    h1 h2, mul_div_assoc]
  simp only [if_true, hwi]

/-- Weighted run, with the group functions of SYCL: the kernel stores in `work[r]` the sum
of `w` over the columns of the row `r - r % 2`, the row of lanes 0 to 15 of the sub-group
that holds `r`. -/
theorem jaccard_row_sum_weighted (sg : SubGroupOps K) (hs : SyclGroupFunctions sg) (n e : ℕ)
    (csrPtr csrInd : ℕ → ℕ) (H : CSR n e csrPtr csrInd)
    (hcole : ∀ i, i < e → csrInd i < e) (w0 work : ℕ → K) (r : ℕ) (hr : r < n) :
    jaccard_row_sum true sg n csrPtr csrInd (fill_weights true e 1 w0) work r
      = ∑ c ∈ cols csrPtr csrInd (r - r % 2), wspec K true e c := by
  have hf : r - r % 2 < n := by omega
  have hle := H.2.2.1 _ hf
  have hlane : r % 2 * blockDim_x < 32 := by
    rw [blockDim_x]
    omega
  simp only [jaccard_row_sum, if_pos hr, if_true]
  rw [parallel_prefix_sum_value sg hs _ _ _
    ((csrPtr (r - r % 2 + 1) : ℤ) - (csrPtr (r - r % 2) : ℤ))
    (fun i => csrInd (csrPtr (r - r % 2) + i)) (by omega) ?_ _ hlane,
    row_total_eq H hf, weighted_sum_eq e w0 _ (cols_lt H hcole hf)]
  intro l hl
  have hl0 : l / blockDim_x = 0 := by
    rw [blockDim_x]
    omega
  simp only [hl0, add_zero, if_pos hf]
  exact ⟨trivial, trivial⟩

/-- Weighted run, all column indices below `e`, with the group functions of SYCL: the
formula with the row sums the kernel stores, those of the rows `row - row % 2` and
`col - col % 2`. -/
theorem jaccard_weighted_code_formula (sg : SubGroupOps K) (hs : SyclGroupFunctions sg)
    (iteration n e : ℕ) (csrPtr csrInd : ℕ → ℕ) (csrVal : ℕ → K)
    (H : CSR n e csrPtr csrInd) (hit : 1 ≤ iteration) (s : JState K)
    (row j : ℕ) (hrow : row < n) (h1 : csrPtr row ≤ j) (h2 : j < csrPtr (row + 1))
    (hcole : ∀ i, i < e → csrInd i < e) :
    jaccard_weight true sg iteration n e csrPtr csrInd csrVal s j
      = gamma K * csrVal j * Wi_spec csrPtr csrInd (wspec K true e) row (csrInd j) /
          ((∑ c ∈ cols csrPtr csrInd (row - row % 2), wspec K true e c)
            + (∑ c ∈ cols csrPtr csrInd (csrInd j - csrInd j % 2), wspec K true e c)
            - Wi_spec csrPtr csrInd (wspec K true e) row (csrInd j)) := by
  have hcol : csrInd j < n := H.2.2.2.2 j (csr_entry_lt H hrow h2)
  rw [jaccard_weighted_formula sg iteration n e csrPtr csrInd csrVal H hit s row j hrow h1
    h2 hcole, jaccard_row_sum_weighted sg hs n e csrPtr csrInd H hcole s.weight_j s.work row
    hrow, jaccard_row_sum_weighted sg hs n e csrPtr csrInd H hcole s.weight_j s.work
    (csrInd j) hcol]

end Formula2

/-! ## The `DEBUG` matrix -/

theorem debug_csr : dense_to_csr debug_matrix
    = { csr_val := [1, 5, 8, 3, 6, 1], csr_ptr := [0, 1, 3, 4, 6],
        csr_ind := [3, 0, 1, 2, 1, 3], nnz := 6 } := by
  simp [dense_to_csr, csr_row, csr_push, debug_matrix, List.range_succ]

theorem debug_is_csr :
    CSR 4 6 (fun i => [0, 1, 3, 4, 6].getD i 0) (fun i => [3, 0, 1, 2, 1, 3].getD i 0) := by
  refine ⟨rfl, rfl, ?_, ?_, ?_⟩
  · intro r hr
    interval_cases r <;> simp
  · intro r hr i i' a b c
    have hi : i' < 6 := by
      interval_cases r <;> simp at c <;> omega
    interval_cases i' <;> interval_cases i <;> interval_cases r <;> simp at a b c ⊢
  · intro j hj
    interval_cases j <;> simp

theorem debug_main (weighted : Bool) (sg : SubGroupOps ℚ) (iteration : ℕ)
    (s : JState ℚ) :
    jaccard_main weighted sg iteration debug_matrix s
      = jaccard_weight weighted sg iteration 4 6 (fun i => [0, 1, 3, 4, 6].getD i 0)
          (fun i => [3, 0, 1, 2, 1, 3].getD i 0) (fun i => [1, 5, 8, 3, 6, 1].getD i 0) s := by
  simp only [jaccard_main, debug_csr]
  rfl

theorem debug_cols :
    cols (fun i => [0, 1, 3, 4, 6].getD i 0) (fun i => [3, 0, 1, 2, 1, 3].getD i 0) 0 = {3} ∧
    cols (fun i => [0, 1, 3, 4, 6].getD i 0) (fun i => [3, 0, 1, 2, 1, 3].getD i 0) 1
      = {0, 1} ∧
    cols (fun i => [0, 1, 3, 4, 6].getD i 0) (fun i => [3, 0, 1, 2, 1, 3].getD i 0) 2 = {2} ∧
    cols (fun i => [0, 1, 3, 4, 6].getD i 0) (fun i => [3, 0, 1, 2, 1, 3].getD i 0) 3
      = {1, 3} := by
  refine ⟨by decide, by decide, by decide, by decide⟩

theorem debug_cols_lt : ∀ i, i < 6 → (fun i => [3, 0, 1, 2, 1, 3].getD i 0) i < 6 := by
  intro i hi
  interval_cases i <;> simp

/-- Unweighted run on the `DEBUG` matrix. -/
theorem debug_unweighted (sg : SubGroupOps ℚ) (iteration : ℕ)
    (hit : 1 ≤ iteration) (s : JState ℚ) (j : ℕ) (hj : j < 6) :
    jaccard_main false sg iteration debug_matrix s j
      = [23 / 100, 0, 368 / 100, 138 / 100, 92 / 100, 46 / 100].getD j 0 := by
  obtain ⟨c0, c1, c2, c3⟩ := debug_cols
  rw [debug_main]
  interval_cases j
  · rw [jaccard_unweighted_formula sg iteration 4 6 _ _ _ debug_is_csr hit s 0 0
      (by norm_num) (by simp) (by simp)]
    simp only [Wi_spec, Ws_spec]
    rw [show ([3, 0, 1, 2, 1, 3] : List ℕ).getD 0 0 = 3 from rfl]
    simp only [c0, c1, c2, c3]
    rw [show (({3} : Finset ℕ) ∩ {1, 3}) = {3} from by decide]
    simp [wspec, gamma]
    try norm_num
  · rw [jaccard_unweighted_formula sg iteration 4 6 _ _ _ debug_is_csr hit s 1 1
      (by norm_num) (by simp) (by simp)]
    simp only [Wi_spec, Ws_spec]
    rw [show ([3, 0, 1, 2, 1, 3] : List ℕ).getD 1 0 = 0 from rfl]
    simp only [c0, c1, c2, c3]
    rw [show (({0, 1} : Finset ℕ) ∩ {3}) = ∅ from by decide]
    simp [wspec, gamma]
    try norm_num
  · rw [jaccard_unweighted_formula sg iteration 4 6 _ _ _ debug_is_csr hit s 1 2
      (by norm_num) (by simp) (by simp)]
    simp only [Wi_spec, Ws_spec]
    rw [show ([3, 0, 1, 2, 1, 3] : List ℕ).getD 2 0 = 1 from rfl]
    simp only [c0, c1, c2, c3]
    rw [show (({0, 1} : Finset ℕ) ∩ {0, 1}) = {0, 1} from by decide]
    simp [wspec, gamma]
    try norm_num
  · rw [jaccard_unweighted_formula sg iteration 4 6 _ _ _ debug_is_csr hit s 2 3
      (by norm_num) (by simp) (by simp)]
    simp only [Wi_spec, Ws_spec]
    rw [show ([3, 0, 1, 2, 1, 3] : List ℕ).getD 3 0 = 2 from rfl]
    simp only [c0, c1, c2, c3]
    rw [show (({2} : Finset ℕ) ∩ {2}) = {2} from by decide]
    simp [wspec, gamma]
    try norm_num
  · rw [jaccard_unweighted_formula sg iteration 4 6 _ _ _ debug_is_csr hit s 3 4
      (by norm_num) (by simp) (by simp)]
    simp only [Wi_spec, Ws_spec]
    rw [show ([3, 0, 1, 2, 1, 3] : List ℕ).getD 4 0 = 1 from rfl]
    simp only [c0, c1, c2, c3]
    rw [show (({1, 3} : Finset ℕ) ∩ {0, 1}) = {1} from by decide]
    simp [wspec, gamma]
    try norm_num
  · rw [jaccard_unweighted_formula sg iteration 4 6 _ _ _ debug_is_csr hit s 3 5
      (by norm_num) (by simp) (by simp)]
    simp only [Wi_spec, Ws_spec]
    rw [show ([3, 0, 1, 2, 1, 3] : List ℕ).getD 5 0 = 3 from rfl]
    simp only [c0, c1, c2, c3]
    rw [show (({1, 3} : Finset ℕ) ∩ {1, 3}) = {1, 3} from by decide]
    simp [wspec, gamma]
    try norm_num

theorem debug_error_unweighted (sg : SubGroupOps ℚ) (iteration : ℕ)
    (hit : 1 ≤ iteration) (s : JState ℚ) :
    debug_error false (jaccard_main false sg iteration debug_matrix s) = 0 := by
  have h := debug_unweighted sg iteration hit s
  simp only [debug_error, Bool.false_eq_true, if_false, h 0 (by norm_num), h 1 (by norm_num),
    h 2 (by norm_num), h 3 (by norm_num), h 4 (by norm_num), h 5 (by norm_num)]
  norm_num

/-- Weighted run on the `DEBUG` matrix with the group functions of SYCL: the row sums the
kernel `jaccard_row_sum` stores in `work`. -/
theorem debug_row_sum_weighted (sg : SubGroupOps ℚ) (hs : SyclGroupFunctions sg)
    (w0 work : ℕ → ℚ) (r : ℕ) (hr : r < 4) :
    jaccard_row_sum true sg 4 (fun i => [0, 1, 3, 4, 6].getD i 0)
        (fun i => [3, 0, 1, 2, 1, 3].getD i 0) (fill_weights true 6 1 w0) work r
      = [2 / 3, 2 / 3, 1 / 2, 1 / 2].getD r 0 := by
  obtain ⟨c0, c1, c2, c3⟩ := debug_cols
  rw [jaccard_row_sum_weighted sg hs 4 6 _ _ debug_is_csr debug_cols_lt w0 work r hr]
  interval_cases r
  · rw [show 0 - 0 % 2 = 0 from rfl, c0]
    simp [wspec]
    norm_num
  · rw [show 1 - 1 % 2 = 0 from rfl, c0]
    simp [wspec]
    norm_num
  · rw [show 2 - 2 % 2 = 2 from rfl, c2]
    simp [wspec]
    norm_num
  · rw [show 3 - 3 % 2 = 2 from rfl, c2]
    simp [wspec]
    norm_num

/-- The sums of `w[c] = (c+1)/6` over the columns of the rows of the `DEBUG` matrix. -/
theorem debug_row_totals (r : ℕ) (hr : r < 4) :
    ∑ c ∈ cols (fun i => [0, 1, 3, 4, 6].getD i 0) (fun i => [3, 0, 1, 2, 1, 3].getD i 0) r,
        wspec ℚ true 6 c
      = [2 / 3, 1 / 2, 1 / 2, 1].getD r 0 := by
  obtain ⟨c0, c1, c2, c3⟩ := debug_cols
  interval_cases r
  · rw [c0]
    simp [wspec]
    norm_num
  · rw [c1]
    simp [wspec]
    norm_num
  · rw [c2]
    simp [wspec]
    norm_num
  · rw [c3]
    simp [wspec]
    norm_num

/-- Weighted run on the `DEBUG` matrix with the group functions of SYCL: the entries 0 to
4 of `weight_j`. -/
theorem debug_weighted (sg : SubGroupOps ℚ) (hs : SyclGroupFunctions sg) (iteration : ℕ)
    (hit : 1 ≤ iteration) (s : JState ℚ) (j : ℕ) (hj : j < 5) :
    jaccard_main true sg iteration debug_matrix s j
      = [46 / 75, 0, 276 / 125, 138 / 100, 138 / 125].getD j 0 := by
  obtain ⟨c0, c1, c2, c3⟩ := debug_cols
  rw [debug_main]
  interval_cases j
  · rw [jaccard_weighted_code_formula sg hs iteration 4 6 _ _ _ debug_is_csr hit s 0 0
      (by norm_num) (by simp) (by simp) debug_cols_lt]
    simp only [Wi_spec]
    rw [show ([3, 0, 1, 2, 1, 3] : List ℕ).getD 0 0 = 3 from rfl, show 3 - 3 % 2 = 2 from rfl]
    simp only [show 0 - 0 % 2 = 0 from rfl, show 1 - 1 % 2 = 0 from rfl,
      show 2 - 2 % 2 = 2 from rfl, show 3 - 3 % 2 = 2 from rfl, c0, c1, c2, c3]
    rw [show (({3} : Finset ℕ) ∩ {1, 3}) = {3} from by decide]
    simp [wspec, gamma]
    try norm_num
  · rw [jaccard_weighted_code_formula sg hs iteration 4 6 _ _ _ debug_is_csr hit s 1 1
      (by norm_num) (by simp) (by simp) debug_cols_lt]
    simp only [Wi_spec]
    rw [show ([3, 0, 1, 2, 1, 3] : List ℕ).getD 1 0 = 0 from rfl, show 0 - 0 % 2 = 0 from rfl]
    simp only [show 0 - 0 % 2 = 0 from rfl, show 1 - 1 % 2 = 0 from rfl,
      show 2 - 2 % 2 = 2 from rfl, show 3 - 3 % 2 = 2 from rfl, c0, c1, c2, c3]
    rw [show (({0, 1} : Finset ℕ) ∩ {3}) = ∅ from by decide]
    simp [wspec, gamma]
    try norm_num
  · rw [jaccard_weighted_code_formula sg hs iteration 4 6 _ _ _ debug_is_csr hit s 1 2
      (by norm_num) (by simp) (by simp) debug_cols_lt]
    simp only [Wi_spec]
    rw [show ([3, 0, 1, 2, 1, 3] : List ℕ).getD 2 0 = 1 from rfl]
    simp only [show 0 - 0 % 2 = 0 from rfl, show 1 - 1 % 2 = 0 from rfl,
      show 2 - 2 % 2 = 2 from rfl, show 3 - 3 % 2 = 2 from rfl, c0, c1, c2, c3]
    rw [show (({0, 1} : Finset ℕ) ∩ {0, 1}) = {0, 1} from by decide]
    simp [wspec, gamma]
    try norm_num
  · rw [jaccard_weighted_code_formula sg hs iteration 4 6 _ _ _ debug_is_csr hit s 2 3
      (by norm_num) (by simp) (by simp) debug_cols_lt]
    simp only [Wi_spec]
    rw [show ([3, 0, 1, 2, 1, 3] : List ℕ).getD 3 0 = 2 from rfl]
    simp only [show 0 - 0 % 2 = 0 from rfl, show 1 - 1 % 2 = 0 from rfl,
      show 2 - 2 % 2 = 2 from rfl, show 3 - 3 % 2 = 2 from rfl, c0, c1, c2, c3]
    rw [show (({2} : Finset ℕ) ∩ {2}) = {2} from by decide]
    simp [wspec, gamma]
    try norm_num
  · rw [jaccard_weighted_code_formula sg hs iteration 4 6 _ _ _ debug_is_csr hit s 3 4
      (by norm_num) (by simp) (by simp) debug_cols_lt]
    simp only [Wi_spec]
    rw [show ([3, 0, 1, 2, 1, 3] : List ℕ).getD 4 0 = 1 from rfl, show 1 - 1 % 2 = 0 from rfl]
    simp only [show 0 - 0 % 2 = 0 from rfl, show 1 - 1 % 2 = 0 from rfl,
      show 2 - 2 % 2 = 2 from rfl, show 3 - 3 % 2 = 2 from rfl, c0, c1, c2, c3]
    rw [show (({1, 3} : Finset ℕ) ∩ {0, 1}) = {1} from by decide]
    simp [wspec, gamma]
    try norm_num

/-- The formula of the specification on the `DEBUG` matrix, weighted: the values the check
of main.cpp 315-321 expects, up to rounding. -/
theorem debug_spec_weighted (j : ℕ) (hj : j < 6) :
    gamma ℚ * ([1, 5, 8, 3, 6, 1] : List ℚ).getD j 0 *
        Wi_spec (fun i => [0, 1, 3, 4, 6].getD i 0) (fun i => [3, 0, 1, 2, 1, 3].getD i 0)
          (wspec ℚ true 6) ([0, 1, 1, 2, 3, 3].getD j 0) ([3, 0, 1, 2, 1, 3].getD j 0) /
        (Ws_spec (fun i => [0, 1, 3, 4, 6].getD i 0) (fun i => [3, 0, 1, 2, 1, 3].getD i 0)
            (wspec ℚ true 6) ([0, 1, 1, 2, 3, 3].getD j 0) ([3, 0, 1, 2, 1, 3].getD j 0)
          - Wi_spec (fun i => [0, 1, 3, 4, 6].getD i 0)
            (fun i => [3, 0, 1, 2, 1, 3].getD i 0) (wspec ℚ true 6)
            ([0, 1, 1, 2, 3, 3].getD j 0) ([3, 0, 1, 2, 1, 3].getD j 0))
      = [23 / 75, 0, 368 / 100, 138 / 100, 138 / 175, 46 / 100].getD j 0 := by
  obtain ⟨c0, c1, c2, c3⟩ := debug_cols
  interval_cases j
  · simp only [Wi_spec, Ws_spec]
    rw [show ([3, 0, 1, 2, 1, 3] : List ℕ).getD 0 0 = 3 from rfl,
      show ([0, 1, 1, 2, 3, 3] : List ℕ).getD 0 0 = 0 from rfl]
    simp only [c0, c1, c2, c3]
    rw [show (({3} : Finset ℕ) ∩ {1, 3}) = {3} from by decide]
    simp [wspec, gamma]
    try norm_num
  · simp only [Wi_spec, Ws_spec]
    rw [show ([3, 0, 1, 2, 1, 3] : List ℕ).getD 1 0 = 0 from rfl,
      show ([0, 1, 1, 2, 3, 3] : List ℕ).getD 1 0 = 1 from rfl]
    simp only [c0, c1, c2, c3]
    rw [show (({0, 1} : Finset ℕ) ∩ {3}) = ∅ from by decide]
    simp [wspec, gamma]
    try norm_num
  · simp only [Wi_spec, Ws_spec]
    rw [show ([3, 0, 1, 2, 1, 3] : List ℕ).getD 2 0 = 1 from rfl,
      show ([0, 1, 1, 2, 3, 3] : List ℕ).getD 2 0 = 1 from rfl]
    simp only [c0, c1, c2, c3]
    rw [show (({0, 1} : Finset ℕ) ∩ {0, 1}) = {0, 1} from by decide]
    simp [wspec, gamma]
    try norm_num
  · simp only [Wi_spec, Ws_spec]
    rw [show ([3, 0, 1, 2, 1, 3] : List ℕ).getD 3 0 = 2 from rfl,
      show ([0, 1, 1, 2, 3, 3] : List ℕ).getD 3 0 = 2 from rfl]
    simp only [c0, c1, c2, c3]
    rw [show (({2} : Finset ℕ) ∩ {2}) = {2} from by decide]
    simp [wspec, gamma]
    try norm_num
  · simp only [Wi_spec, Ws_spec]
    rw [show ([3, 0, 1, 2, 1, 3] : List ℕ).getD 4 0 = 1 from rfl,
      show ([0, 1, 1, 2, 3, 3] : List ℕ).getD 4 0 = 3 from rfl]
    simp only [c0, c1, c2, c3]
    rw [show (({1, 3} : Finset ℕ) ∩ {0, 1}) = {1} from by decide]
    simp [wspec, gamma]
    try norm_num
  · simp only [Wi_spec, Ws_spec]
    rw [show ([3, 0, 1, 2, 1, 3] : List ℕ).getD 5 0 = 3 from rfl,
      show ([0, 1, 1, 2, 3, 3] : List ℕ).getD 5 0 = 3 from rfl]
    simp only [c0, c1, c2, c3]
    rw [show (({1, 3} : Finset ℕ) ∩ {1, 3}) = {1, 3} from by decide]
    simp [wspec, gamma]
    try norm_num

/-- Weighted run on the `DEBUG` matrix with the group functions of SYCL: the value
`error` of the check exceeds `1e-5`. -/
theorem debug_error_weighted (sg : SubGroupOps ℚ) (hs : SyclGroupFunctions sg)
    (iteration : ℕ) (hit : 1 ≤ iteration) (s : JState ℚ) :
    1 / 100000 < debug_error true (jaccard_main true sg iteration debug_matrix s) := by
  have h := debug_weighted sg hs iteration hit s
  have h5 := abs_nonneg (jaccard_main true sg iteration debug_matrix s 5 - 46 / 100)
  simp only [debug_error, if_true, h 0 (by norm_num), h 1 (by norm_num),
    h 2 (by norm_num), h 3 (by norm_num), h 4 (by norm_num)]
  have e0 : |(([46 / 75, 0, 276 / 125, 138 / 100, 138 / 125] : List ℚ).getD 0 0)
      - 306667 / 1000000| = 46 / 75 - 306667 / 1000000 := by
    rw [abs_of_nonneg] <;> norm_num
  have e1 := abs_nonneg ((([46 / 75, 0, 276 / 125, 138 / 100, 138 / 125] : List ℚ).getD 1 0) - 0)
  have e2 := abs_nonneg
    ((([46 / 75, 0, 276 / 125, 138 / 100, 138 / 125] : List ℚ).getD 2 0) - 368 / 100)
  have e3 := abs_nonneg
    ((([46 / 75, 0, 276 / 125, 138 / 100, 138 / 125] : List ℚ).getD 3 0) - 138 / 100)
  have e4 := abs_nonneg
    ((([46 / 75, 0, 276 / 125, 138 / 100, 138 / 125] : List ℚ).getD 4 0) - 788571 / 1000000)
  rw [e0]
  linarith

/-- C18. Unweighted run: for a CSR matrix with column indices strictly increasing within
each row and smaller than the number of rows, after `iteration >= 1` runs of the pipeline
every stored entry `j` of a row `row`, of column `col = csrInd[j]`, has
`weight_j[j] = gamma * csrVal[j] * Wi / (Ws - Wi)` with the `Wi` and `Ws` of the
specification for `w[c] = 1`; on the `DEBUG` matrix this is exactly
`(0.23, 0, 3.68, 1.38, 0.92, 0.46)` and the `error` of the check is `0`.  Weighted run,
with the group functions of SYCL, every column index below `e` and the two rows of every
sub-group running the same number of rounds of `parallel_prefix_sum`: `Wi` is the sum of
`(c+1)/e` over the common columns, as specified, but `jaccard_row_sum` stores in `work[r]`
the row sum of the row `r - r % 2`, so that `Ws = S(row - row % 2) + S(col - col % 2)`
where the specification has `S(row) + S(col)`.  On the `DEBUG` matrix `work` is
`(2/3, 2/3, 1/2, 1/2)` while the row sums are `(2/3, 1/2, 1/2, 1)`, the entries 0 to 4 of
`weight_j` are `(46/75, 0, 276/125, 1.38, 138/125)` while the formula of the
specification gives `(23/75, 0, 3.68, 1.38, 138/175, 0.46)`, and the `error` of the check
exceeds `1e-5`. -/
theorem jaccard_weight_formula :
    (∀ (K : Type) [Field K] (sg : SubGroupOps K) (iteration n e : ℕ)
        (csrPtr csrInd : ℕ → ℕ) (csrVal : ℕ → K) (s : JState K) (row j : ℕ),
        CSR n e csrPtr csrInd → 1 ≤ iteration → row < n → csrPtr row ≤ j →
        j < csrPtr (row + 1) →
        jaccard_weight false sg iteration n e csrPtr csrInd csrVal s j
            = gamma K * csrVal j * Wi_spec csrPtr csrInd (wspec K false e) row (csrInd j) /
                (Ws_spec csrPtr csrInd (wspec K false e) row (csrInd j)
                  - Wi_spec csrPtr csrInd (wspec K false e) row (csrInd j)) ∧
          (SyclGroupFunctions sg → (∀ i, i < e → csrInd i < e) →
            (∀ r, r < n → r % 2 = 0 → r + 1 < n ∧
              pps_mn ((csrPtr (r + 1) : ℤ) - (csrPtr r : ℤ))
                = pps_mn ((csrPtr (r + 2) : ℤ) - (csrPtr (r + 1) : ℤ))) →
            jaccard_weight true sg iteration n e csrPtr csrInd csrVal s j
              = gamma K * csrVal j * Wi_spec csrPtr csrInd (wspec K true e) row (csrInd j) /
                  ((∑ c ∈ cols csrPtr csrInd (row - row % 2), wspec K true e c)
                    + (∑ c ∈ cols csrPtr csrInd (csrInd j - csrInd j % 2), wspec K true e c)
                    - Wi_spec csrPtr csrInd (wspec K true e) row (csrInd j)))) ∧
    (∀ (sg : SubGroupOps ℚ) (iteration : ℕ) (s : JState ℚ), 1 ≤ iteration →
        (∀ j, j < 6 → jaccard_main false sg iteration debug_matrix s j
          = [23 / 100, 0, 368 / 100, 138 / 100, 92 / 100, 46 / 100].getD j 0) ∧
        debug_error false (jaccard_main false sg iteration debug_matrix s) = 0 ∧
        (SyclGroupFunctions sg →
          (∀ r, r < 4 →
            jaccard_row_sum true sg 4 (fun i => [0, 1, 3, 4, 6].getD i 0)
                (fun i => [3, 0, 1, 2, 1, 3].getD i 0) (fill_weights true 6 1 s.weight_j)
                s.work r
              = [2 / 3, 2 / 3, 1 / 2, 1 / 2].getD r 0) ∧
          (∀ r, r < 4 →
            ∑ c ∈ cols (fun i => [0, 1, 3, 4, 6].getD i 0)
                (fun i => [3, 0, 1, 2, 1, 3].getD i 0) r, wspec ℚ true 6 c
              = [2 / 3, 1 / 2, 1 / 2, 1].getD r 0) ∧
          (∀ j, j < 5 → jaccard_main true sg iteration debug_matrix s j
            = [46 / 75, 0, 276 / 125, 138 / 100, 138 / 125].getD j 0) ∧
          (∀ j, j < 6 →
            gamma ℚ * ([1, 5, 8, 3, 6, 1] : List ℚ).getD j 0 *
                Wi_spec (fun i => [0, 1, 3, 4, 6].getD i 0)
                  (fun i => [3, 0, 1, 2, 1, 3].getD i 0) (wspec ℚ true 6)
                  ([0, 1, 1, 2, 3, 3].getD j 0) ([3, 0, 1, 2, 1, 3].getD j 0) /
                (Ws_spec (fun i => [0, 1, 3, 4, 6].getD i 0)
                    (fun i => [3, 0, 1, 2, 1, 3].getD i 0) (wspec ℚ true 6)
                    ([0, 1, 1, 2, 3, 3].getD j 0) ([3, 0, 1, 2, 1, 3].getD j 0)
                  - Wi_spec (fun i => [0, 1, 3, 4, 6].getD i 0)
                    (fun i => [3, 0, 1, 2, 1, 3].getD i 0) (wspec ℚ true 6)
                    ([0, 1, 1, 2, 3, 3].getD j 0) ([3, 0, 1, 2, 1, 3].getD j 0))
              = [23 / 75, 0, 368 / 100, 138 / 100, 138 / 175, 46 / 100].getD j 0) ∧
          1 / 100000 < debug_error true (jaccard_main true sg iteration debug_matrix s))) := by
  refine ⟨?_, ?_⟩
  · intro K _ sg iteration n e csrPtr csrInd csrVal s row j H hit hrow h1 h2
    exact ⟨jaccard_unweighted_formula sg iteration n e csrPtr csrInd csrVal H hit s row j
      hrow h1 h2, fun hs hcole _ => jaccard_weighted_code_formula sg hs iteration n e csrPtr
      csrInd csrVal H hit s row j hrow h1 h2 hcole⟩
  · intro sg iteration s hit
    exact ⟨debug_unweighted sg iteration hit s, debug_error_unweighted sg iteration hit s,
      fun hs => ⟨debug_row_sum_weighted sg hs s.weight_j s.work, debug_row_totals,
        debug_weighted sg hs iteration hit s, debug_spec_weighted,
        debug_error_weighted sg hs iteration hit s⟩⟩

/-- The statement on the `DEBUG` matrix, 10 iterations, buffers holding zeros at the
start, the group functions returning the value of the lane they name: entry 4 (row 3,
column 1) of the weighted run, entry 0 of both runs. -/
theorem jaccard_weight_formula_witness :
    CSR 4 6 (fun i => [0, 1, 3, 4, 6].getD i 0) (fun i => [3, 0, 1, 2, 1, 3].getD i 0) ∧
    (1 : ℕ) ≤ 10 ∧
    SyclGroupFunctions (⟨fun x id _ => x id, fun x d l => x (l - d)⟩ : SubGroupOps ℚ) ∧
    (∀ r, r < 4 → r % 2 = 0 → r + 1 < 4 ∧
      pps_mn ((([0, 1, 3, 4, 6].getD (r + 1) 0 : ℕ) : ℤ)
          - (([0, 1, 3, 4, 6].getD r 0 : ℕ) : ℤ))
        = pps_mn ((([0, 1, 3, 4, 6].getD (r + 2) 0 : ℕ) : ℤ)
          - (([0, 1, 3, 4, 6].getD (r + 1) 0 : ℕ) : ℤ))) ∧
    jaccard_weight true (⟨fun x id _ => x id, fun x d l => x (l - d)⟩ : SubGroupOps ℚ) 10 4 6
        (fun i => [0, 1, 3, 4, 6].getD i 0) (fun i => [3, 0, 1, 2, 1, 3].getD i 0)
        (fun i => ([1, 5, 8, 3, 6, 1] : List ℚ).getD i 0)
        { weight_j := fun _ => 0, weight_i := fun _ => 0, weight_s := fun _ => 0,
          work := fun _ => 0 } 4
      = gamma ℚ * ([1, 5, 8, 3, 6, 1] : List ℚ).getD 4 0 *
          Wi_spec (fun i => [0, 1, 3, 4, 6].getD i 0) (fun i => [3, 0, 1, 2, 1, 3].getD i 0)
            (wspec ℚ true 6) 3 ([3, 0, 1, 2, 1, 3].getD 4 0) /
          ((∑ c ∈ cols (fun i => [0, 1, 3, 4, 6].getD i 0)
                (fun i => [3, 0, 1, 2, 1, 3].getD i 0) (3 - 3 % 2), wspec ℚ true 6 c)
            + (∑ c ∈ cols (fun i => [0, 1, 3, 4, 6].getD i 0)
                (fun i => [3, 0, 1, 2, 1, 3].getD i 0)
                ([3, 0, 1, 2, 1, 3].getD 4 0 - [3, 0, 1, 2, 1, 3].getD 4 0 % 2),
                wspec ℚ true 6 c)
            - Wi_spec (fun i => [0, 1, 3, 4, 6].getD i 0)
              (fun i => [3, 0, 1, 2, 1, 3].getD i 0) (wspec ℚ true 6) 3
              ([3, 0, 1, 2, 1, 3].getD 4 0)) ∧
    jaccard_main false (⟨fun x id _ => x id, fun x d l => x (l - d)⟩ : SubGroupOps ℚ) 10
        debug_matrix
        { weight_j := fun _ => 0, weight_i := fun _ => 0, weight_s := fun _ => 0,
          work := fun _ => 0 } 0 = 23 / 100 ∧
    jaccard_main true (⟨fun x id _ => x id, fun x d l => x (l - d)⟩ : SubGroupOps ℚ) 10
        debug_matrix
        { weight_j := fun _ => 0, weight_i := fun _ => 0, weight_s := fun _ => 0,
          work := fun _ => 0 } 0 = 46 / 75 := by
  have hs : SyclGroupFunctions
      (⟨fun x id _ => x id, fun x d l => x (l - d)⟩ : SubGroupOps ℚ) :=
    ⟨fun _ _ _ _ _ => rfl, fun _ _ _ _ _ => rfl⟩
  have hconv : ∀ r, r < 4 → r % 2 = 0 → r + 1 < 4 ∧
      pps_mn ((([0, 1, 3, 4, 6].getD (r + 1) 0 : ℕ) : ℤ)
          - (([0, 1, 3, 4, 6].getD r 0 : ℕ) : ℤ))
        = pps_mn ((([0, 1, 3, 4, 6].getD (r + 2) 0 : ℕ) : ℤ)
          - (([0, 1, 3, 4, 6].getD (r + 1) 0 : ℕ) : ℤ)) := by
    intro r hr hev
    interval_cases r
    · exact ⟨by decide, by decide⟩
    · omega
    · exact ⟨by decide, by decide⟩
    · omega
  exact ⟨debug_is_csr, by norm_num, hs, hconv,
    (jaccard_weight_formula.1 ℚ _ 10 4 6 _ _ _ _ 3 4 debug_is_csr
      (by norm_num) (by norm_num) (by simp) (by simp)).2 hs debug_cols_lt hconv,
    (jaccard_weight_formula.2 _ 10 _ (by norm_num)).1 0 (by norm_num),
    ((jaccard_weight_formula.2 _ 10 _ (by norm_num)).2.2 hs).2.2.1 0 (by norm_num)⟩

/-! ## The binary search in a row -/

section C29
variable {K : Type} [Field K]

/-- C29. In a row `cur` whose column indices are strictly increasing, the binary search
of `jaccard_is` (a total function: the loop ends on every input) returns a position in
`[csrPtr[cur], csrPtr[cur+1])` holding `ref_col` if `ref_col` is a column of row `cur`,
and `-1` otherwise; hence, the reference row being strictly increasing too, the loop over
the reference row adds to `weight_i[j]` the value `ref_val` once for each column present
in both rows, and changes no other cell. -/
theorem bsearch_row (weighted : Bool) (csrPtr csrInd : ℕ → ℕ) (v : ℕ → K)
    (ref cur j : ℕ) (wi : ℕ → K)
    (hsc : ∀ i i', csrPtr cur ≤ i → i < i' → i' < csrPtr (cur + 1) → csrInd i < csrInd i')
    (hle : csrPtr ref ≤ csrPtr (ref + 1))
    (hsr : ∀ i i', csrPtr ref ≤ i → i < i' → i' < csrPtr (ref + 1) →
      csrInd i < csrInd i') :
    (∀ ref_col, ref_col ∈ cols csrPtr csrInd cur →
      (csrPtr cur : ℤ) ≤ bsearch csrInd ref_col (csrPtr cur) ((csrPtr (cur + 1) : ℤ) - 1) ∧
      bsearch csrInd ref_col (csrPtr cur) ((csrPtr (cur + 1) : ℤ) - 1)
        < (csrPtr (cur + 1) : ℤ) ∧
      csrInd (bsearch csrInd ref_col (csrPtr cur) ((csrPtr (cur + 1) : ℤ) - 1)).toNat
        = ref_col) ∧
    (∀ ref_col, ref_col ∉ cols csrPtr csrInd cur →
      bsearch csrInd ref_col (csrPtr cur) ((csrPtr (cur + 1) : ℤ) - 1) = -1) ∧
    (∀ x, (List.range' (csrPtr ref) (csrPtr (ref + 1) - csrPtr ref)).foldl
        (is_search weighted csrPtr csrInd v cur j) wi x
      = if x = j then
          wi j + ∑ c ∈ cols csrPtr csrInd ref ∩ cols csrPtr csrInd cur,
            (if weighted then v c else 1)
        else wi x) := by
  refine ⟨?_, ?_, ?_⟩
  · intro ref_col hmem
    obtain ⟨a1, _⟩ := bsearch_spec csrInd ref_col
      (((csrPtr (cur + 1) : ℤ) - 1 + 1 - (csrPtr cur : ℤ)).toNat) (csrPtr cur)
      ((csrPtr (cur + 1) : ℤ) - 1) (le_refl _) (Int.natCast_nonneg _) (by
        intro i i' h1 h2 h3
        exact hsc i.toNat i'.toNat (by omega) (by omega) (by omega))
    simp only [cols, Finset.mem_image, Finset.mem_Ico] at hmem
    obtain ⟨p, hp, he⟩ := hmem
    rw [a1 (p : ℤ) (by omega) (by omega) (by simpa using he)]
    refine ⟨by omega, by omega, by simpa using he⟩
  · intro ref_col hmem
    by_contra hne
    exact hmem ((bsearch_found_iff csrPtr csrInd cur ref_col hsc).1 hne)
  · intro x
    rw [is_search_fold, sum_found_eq_inter csrPtr csrInd
      (fun c => if weighted then v c else 1) ref cur hle hsr hsc]

end C29

theorem bsearch_row_witness :
    (∀ i i', (fun i => [0, 1, 3, 4, 6].getD i 0) 1 ≤ i → i < i' →
      i' < (fun i => [0, 1, 3, 4, 6].getD i 0) (1 + 1) →
      (fun i => [3, 0, 1, 2, 1, 3].getD i 0) i < (fun i => [3, 0, 1, 2, 1, 3].getD i 0) i') ∧
    bsearch (fun i => [3, 0, 1, 2, 1, 3].getD i 0) 5
        ((fun i => [0, 1, 3, 4, 6].getD i 0) 1 : ℕ)
        ((((fun i => [0, 1, 3, 4, 6].getD i 0) (1 + 1) : ℕ) : ℤ) - 1) = -1 :=
  ⟨debug_is_csr.2.2.2.1 1 (by decide),
    (bsearch_row false (fun i => [0, 1, 3, 4, 6].getD i 0)
      (fun i => [3, 0, 1, 2, 1, 3].getD i 0) (fun _ => (1 : ℚ)) 3 1 4 (fun _ => 0)
      (debug_is_csr.2.2.2.1 1 (by decide)) (by decide)
      (debug_is_csr.2.2.2.1 3 (by decide))).2.1 5 (by decide)⟩

/-! ## Column indices used as row indices -/

theorem mem_range'_row (a len j : ℕ) : j ∈ List.range' a len ↔ a ≤ j ∧ j < a + len := by
  rw [List.mem_range'_1]

theorem is_entry_ptr_reads_mem (csrPtr csrInd : ℕ → ℕ) (row j x : ℕ)
    (hx : x ∈ is_entry_ptr_reads csrPtr csrInd row j) :
    x = row ∨ x = row + 1 ∨ x = csrInd j ∨ x = csrInd j + 1 := by
  simp only [is_entry_ptr_reads, List.mem_append, List.mem_cons, List.mem_singleton,
    List.not_mem_nil, or_false, List.mem_flatMap] at hx
  by_cases h : (csrPtr (row + 1) : ℤ) - csrPtr row
      < (csrPtr (csrInd j + 1) : ℤ) - csrPtr (csrInd j)
  · simp only [h, if_true] at hx
    rcases hx with (h1 | h1 | h1 | h1 | h1 | h1) | ⟨_, _, h1 | h1⟩ <;> omega
  · simp only [h, if_false] at hx
    rcases hx with (h1 | h1 | h1 | h1 | h1 | h1) | ⟨_, _, h1 | h1⟩ <;> omega

/-- C30. `jaccard_is` reads `csrPtr[col]`, `csrPtr[col+1]` and `work[col]` for the column
index `col = csrInd[j]` of every stored entry `j`.  For a matrix with `n` rows: if every
stored column index is smaller than `n`, every index of `csrPtr` read is in `[0, n]` and
every index of `work` read is in `[0, n-1]`; and for a stored entry whose column index is
`>= n` the kernel reads `csrPtr[col+1]` with `col + 1 > n` and `work[col]` with
`col >= n`, outside the `n + 1` and `n` elements of the arrays. -/
theorem jaccard_is_col_reads (n : ℕ) (csrPtr csrInd : ℕ → ℕ) :
    (∀ row j, row < n → csrPtr row ≤ j → j < csrPtr (row + 1) →
      csrInd j ∈ jaccard_is_ptr_reads n csrPtr csrInd ∧
      csrInd j + 1 ∈ jaccard_is_ptr_reads n csrPtr csrInd ∧
      csrInd j ∈ jaccard_is_work_reads n csrPtr csrInd) ∧
    ((∀ row j, row < n → csrPtr row ≤ j → j < csrPtr (row + 1) → csrInd j < n) →
      (∀ x ∈ jaccard_is_ptr_reads n csrPtr csrInd, x ≤ n) ∧
      (∀ x ∈ jaccard_is_work_reads n csrPtr csrInd, x < n)) ∧
    (∀ row j, row < n → csrPtr row ≤ j → j < csrPtr (row + 1) → n ≤ csrInd j →
      ∃ x ∈ jaccard_is_ptr_reads n csrPtr csrInd, ∃ y ∈ jaccard_is_work_reads n csrPtr csrInd,
        x = csrInd j + 1 ∧ n < x ∧ y = csrInd j ∧ n ≤ y) := by
  have hmem : ∀ row j, row < n → csrPtr row ≤ j → j < csrPtr (row + 1) →
      csrInd j ∈ jaccard_is_ptr_reads n csrPtr csrInd ∧
      csrInd j + 1 ∈ jaccard_is_ptr_reads n csrPtr csrInd ∧
      csrInd j ∈ jaccard_is_work_reads n csrPtr csrInd := by
    intro row j hrow h1 h2
    have hj : j ∈ List.range' (csrPtr row) (csrPtr (row + 1) - csrPtr row) :=
      (mem_range'_row _ _ _).2 ⟨h1, by omega⟩
    refine ⟨?_, ?_, ?_⟩
    · refine List.mem_flatMap.2 ⟨row, List.mem_range.2 hrow, List.mem_append.2 (Or.inr
        (List.mem_flatMap.2 ⟨j, hj, ?_⟩))⟩
      simp [is_entry_ptr_reads]
    · refine List.mem_flatMap.2 ⟨row, List.mem_range.2 hrow, List.mem_append.2 (Or.inr
        (List.mem_flatMap.2 ⟨j, hj, ?_⟩))⟩
      simp [is_entry_ptr_reads]
    · refine List.mem_flatMap.2 ⟨row, List.mem_range.2 hrow, List.mem_flatMap.2 ⟨j, hj, ?_⟩⟩
      simp [is_entry_work_reads]
  refine ⟨hmem, ?_, ?_⟩
  · intro hcol
    refine ⟨?_, ?_⟩
    · intro x hx
      obtain ⟨row, hrow, hx⟩ := List.mem_flatMap.1 hx
      rw [List.mem_range] at hrow
      rcases List.mem_append.1 hx with h | h
      · simp only [List.mem_cons, List.mem_singleton, List.not_mem_nil, or_false] at h
        omega
      · obtain ⟨j, hj, hx⟩ := List.mem_flatMap.1 h
        rw [mem_range'_row] at hj
        have hc := hcol row j hrow hj.1 (by omega)
        have := is_entry_ptr_reads_mem csrPtr csrInd row j x hx
        omega
    · intro x hx
      obtain ⟨row, hrow, hx⟩ := List.mem_flatMap.1 hx
      rw [List.mem_range] at hrow
      obtain ⟨j, hj, hx⟩ := List.mem_flatMap.1 hx
      rw [mem_range'_row] at hj
      have hc := hcol row j hrow hj.1 (by omega)
      simp only [is_entry_work_reads, List.mem_cons, List.mem_singleton, List.not_mem_nil,
        or_false] at hx
      omega
  · intro row j hrow h1 h2 hn
    obtain ⟨_, a2, a3⟩ := hmem row j hrow h1 h2
    exact ⟨csrInd j + 1, a2, csrInd j, a3, rfl, by omega, rfl, hn⟩

/-- A matrix with one row and two columns, non-zero in column 1: the kernel reads
`csrPtr[2]` and `work[1]`. -/
theorem jaccard_is_col_reads_witness :
    (dense_to_csr ([[0, 1]] : List (List ℚ))).csr_ptr = [0, 1] ∧
    (dense_to_csr ([[0, 1]] : List (List ℚ))).csr_ind = [1] ∧
    (0 : ℕ) < 1 ∧ (fun i => [0, 1].getD i 0) 0 ≤ 0 ∧ 0 < (fun i => [0, 1].getD i 0) (0 + 1) ∧
    1 ≤ (fun i => [1].getD i 0) 0 ∧
    ∃ x ∈ jaccard_is_ptr_reads 1 (fun i => [0, 1].getD i 0) (fun i => [1].getD i 0),
      ∃ y ∈ jaccard_is_work_reads 1 (fun i => [0, 1].getD i 0) (fun i => [1].getD i 0),
        x = (fun i => [1].getD i 0) 0 + 1 ∧ 1 < x ∧ y = (fun i => [1].getD i 0) 0 ∧ 1 ≤ y :=
  ⟨by simp [dense_to_csr, csr_row, csr_push, List.range_succ],
    by simp [dense_to_csr, csr_row, csr_push, List.range_succ],
    by decide, by decide, by decide, by decide,
    (jaccard_is_col_reads 1 (fun i => [0, 1].getD i 0) (fun i => [1].getD i 0)).2.2 0 0
      (by decide) (by decide) (by decide) (by decide)⟩

/-! ## Conversion of a dense matrix to CSR -/

section C31
variable {K : Type} [Field K] [DecidableEq K]

theorem csr_push_fold (Mi : List K) (L : List ℕ) (st : CsrVec K) :
    L.foldl (csr_push Mi) st
      = { csr_val := st.csr_val ++
            (L.filter (fun j => decide (Mi.getD j 0 ≠ 0))).map (fun j => Mi.getD j 0)
          csr_ptr := st.csr_ptr
          csr_ind := st.csr_ind ++ L.filter (fun j => decide (Mi.getD j 0 ≠ 0))
          nnz := st.nnz + (L.filter (fun j => decide (Mi.getD j 0 ≠ 0))).length } := by
  induction L generalizing st with
  | nil => simp
  | cons a L ih =>
    rw [List.foldl_cons, ih]
    by_cases h : Mi.getD a 0 ≠ 0
    · have hs : csr_push Mi st a
          = { st with
              csr_val := st.csr_val ++ [Mi.getD a 0]
              csr_ind := st.csr_ind ++ [a]
              nnz := st.nnz + 1 } := by
        unfold csr_push
        rw [if_pos h]
      have hf : (a :: L).filter (fun j => decide (Mi.getD j 0 ≠ 0))
          = a :: L.filter (fun j => decide (Mi.getD j 0 ≠ 0)) :=
        List.filter_cons_of_pos (by simpa using h)
      rw [hs, hf]
      simp only [List.map_cons, List.length_cons, List.append_assoc, List.singleton_append]
      rw [Nat.add_assoc, Nat.add_comm 1]
    · have hs : csr_push Mi st a = st := by
        unfold csr_push
        rw [if_neg h]
      have hf : (a :: L).filter (fun j => decide (Mi.getD j 0 ≠ 0))
          = L.filter (fun j => decide (Mi.getD j 0 ≠ 0)) :=
        List.filter_cons_of_neg (by simpa using h)
      rw [hs, hf]

theorem csr_row_eq (col : ℕ) (st : CsrVec K) (Mi : List K) :
    csr_row col st Mi
      = { csr_val := st.csr_val ++ (nonzero_cols col Mi).map (fun j => Mi.getD j 0)
          csr_ptr := st.csr_ptr ++ [st.nnz + (nonzero_cols col Mi).length]
          csr_ind := st.csr_ind ++ nonzero_cols col Mi
          nnz := st.nnz + (nonzero_cols col Mi).length } := by
  unfold csr_row
  rw [csr_push_fold]
  rfl

/-- State of the conversion after the rows `R`. -/
theorem csr_rows_inv (col : ℕ) (R : List (List K)) :
    (R.foldl (csr_row col)
        { csr_val := [], csr_ptr := [0], csr_ind := [], nnz := 0 }).csr_ptr.length
      = R.length + 1 ∧
    (R.foldl (csr_row col)
        { csr_val := [], csr_ptr := [0], csr_ind := [], nnz := 0 }).csr_ptr.getD 0 0 = 0 ∧
    (R.foldl (csr_row col)
        { csr_val := [], csr_ptr := [0], csr_ind := [], nnz := 0 }).csr_ptr.getD R.length 0
      = (R.foldl (csr_row col)
        { csr_val := [], csr_ptr := [0], csr_ind := [], nnz := 0 }).nnz ∧
    (R.foldl (csr_row col)
        { csr_val := [], csr_ptr := [0], csr_ind := [], nnz := 0 }).nnz
      = (R.foldl (csr_row col)
        { csr_val := [], csr_ptr := [0], csr_ind := [], nnz := 0 }).csr_ind.length ∧
    (R.foldl (csr_row col)
        { csr_val := [], csr_ptr := [0], csr_ind := [], nnz := 0 }).nnz
      = (R.foldl (csr_row col)
        { csr_val := [], csr_ptr := [0], csr_ind := [], nnz := 0 }).csr_val.length ∧
    ∀ i, i < R.length →
      (R.foldl (csr_row col)
          { csr_val := [], csr_ptr := [0], csr_ind := [], nnz := 0 }).csr_ptr.getD i 0
        ≤ (R.foldl (csr_row col)
          { csr_val := [], csr_ptr := [0], csr_ind := [], nnz := 0 }).csr_ptr.getD (i + 1) 0 ∧
      (R.foldl (csr_row col)
          { csr_val := [], csr_ptr := [0], csr_ind := [], nnz := 0 }).csr_ptr.getD (i + 1) 0
        ≤ (R.foldl (csr_row col)
          { csr_val := [], csr_ptr := [0], csr_ind := [], nnz := 0 }).nnz ∧
      ((R.foldl (csr_row col)
          { csr_val := [], csr_ptr := [0], csr_ind := [], nnz := 0 }).csr_ind.drop
          ((R.foldl (csr_row col)
            { csr_val := [], csr_ptr := [0], csr_ind := [], nnz := 0 }).csr_ptr.getD i 0)).take
          ((R.foldl (csr_row col)
            { csr_val := [], csr_ptr := [0], csr_ind := [], nnz := 0 }).csr_ptr.getD (i + 1) 0
            - (R.foldl (csr_row col)
              { csr_val := [], csr_ptr := [0], csr_ind := [], nnz := 0 }).csr_ptr.getD i 0)
        = nonzero_cols col (R.getD i []) ∧
      ((R.foldl (csr_row col)
          { csr_val := [], csr_ptr := [0], csr_ind := [], nnz := 0 }).csr_val.drop
          ((R.foldl (csr_row col)
            { csr_val := [], csr_ptr := [0], csr_ind := [], nnz := 0 }).csr_ptr.getD i 0)).take
          ((R.foldl (csr_row col)
            { csr_val := [], csr_ptr := [0], csr_ind := [], nnz := 0 }).csr_ptr.getD (i + 1) 0
            - (R.foldl (csr_row col)
              { csr_val := [], csr_ptr := [0], csr_ind := [], nnz := 0 }).csr_ptr.getD i 0)
        = (nonzero_cols col (R.getD i [])).map (fun j => (R.getD i []).getD j 0) := by
  induction R using List.reverseRecOn with
  | nil =>
    refine ⟨rfl, rfl, rfl, rfl, rfl, ?_⟩
    intro i hi
    simp at hi
  | append_singleton R Mi ih =>
    rw [List.foldl_append, List.foldl_cons, List.foldl_nil, csr_row_eq]
    generalize R.foldl (csr_row col)
      { csr_val := [], csr_ptr := [0], csr_ind := [], nnz := 0 } = c at ih ⊢
    obtain ⟨h1, h2, h3, h4, h5, h6⟩ := ih
    simp only [List.length_append, List.length_singleton, List.length_map]
    have g0 : (c.csr_ptr ++ [c.nnz + (nonzero_cols col Mi).length]).getD 0 0 = 0 := by
      rw [List.getD_append _ _ _ _ (by omega)]
      exact h2
    have glast : (c.csr_ptr ++ [c.nnz + (nonzero_cols col Mi).length]).getD (R.length + 1) 0
        = c.nnz + (nonzero_cols col Mi).length := by
      rw [List.getD_append_right _ _ _ _ (by omega), h1, Nat.sub_self]
      rfl
    have gold : ∀ i, i ≤ R.length →
        (c.csr_ptr ++ [c.nnz + (nonzero_cols col Mi).length]).getD i 0
          = c.csr_ptr.getD i 0 := by
      intro i hi
      rw [List.getD_append _ _ _ _ (by omega)]
    refine ⟨by omega, g0, glast, by omega, by omega, ?_⟩
    intro i hi
    by_cases hlt : i < R.length
    · obtain ⟨a1, a2, a3, a4⟩ := h6 i hlt
      rw [gold i (by omega), gold (i + 1) (by omega)]
      have hR : (R ++ [Mi]).getD i [] = R.getD i [] := by
        rw [List.getD_append _ _ _ _ hlt]
      rw [hR]
      refine ⟨a1, by omega, ?_, ?_⟩
      · rw [List.drop_append_of_le_length (by omega),
          List.take_append_of_le_length (by rw [List.length_drop]; omega)]
        exact a3
      · rw [List.drop_append_of_le_length (by omega),
          List.take_append_of_le_length (by rw [List.length_drop]; omega)]
        exact a4
    · have hi' : i = R.length := by omega
      subst hi'
      rw [gold _ (le_refl _), glast, h3]
      have hR : (R ++ [Mi]).getD R.length [] = Mi := by
        rw [List.getD_append_right _ _ _ _ (le_refl _), Nat.sub_self]
        rfl
      rw [hR]
      refine ⟨by omega, le_refl _, ?_, ?_⟩
      · rw [h4, List.drop_left, Nat.add_sub_cancel_left, List.take_length]
      · rw [h5, List.drop_left, Nat.add_sub_cancel_left]
        have : (nonzero_cols col Mi).length
            = ((nonzero_cols col Mi).map (fun j => Mi.getD j 0)).length := by
          rw [List.length_map]
        rw [this, List.take_length]

theorem nonzero_cols_sorted (col : ℕ) (Mi : List K) :
    (nonzero_cols col Mi).Pairwise (· < ·) :=
  List.Pairwise.filter _ (List.pairwise_lt_range col)

theorem mem_nonzero_cols (col : ℕ) (Mi : List K) (j : ℕ) :
    j ∈ nonzero_cols col Mi ↔ j < col ∧ Mi.getD j 0 ≠ 0 := by
  simp [nonzero_cols]

end C31

section C31b
variable {K : Type} [Field K] [DecidableEq K]

/-- C31. For every dense matrix `M` with `row = M.size()` rows, read on the columns
`j < col = M[0].size()`, the conversion of `main` yields: `csr_ptr` of length `row + 1`
with `csr_ptr[0] = 0`, non-decreasing, and `csr_ptr[row] = nnz`, which is the length of
`csr_ind` and of `csr_val`; for each row `i` the slice `csr_ind[csr_ptr[i] ..
csr_ptr[i+1])` is strictly increasing and lists exactly the columns `j` with
`M[i][j] != 0`, and the same slice of `csr_val` holds the values `M[i][j]` in that
order. -/
theorem dense_to_csr_spec (M : List (List K)) :
    (dense_to_csr M).csr_ptr.length = M.length + 1 ∧
    (dense_to_csr M).csr_ptr.getD 0 0 = 0 ∧
    (∀ i, i < M.length →
      (dense_to_csr M).csr_ptr.getD i 0 ≤ (dense_to_csr M).csr_ptr.getD (i + 1) 0) ∧
    (dense_to_csr M).csr_ptr.getD M.length 0 = (dense_to_csr M).nnz ∧
    (dense_to_csr M).nnz = (dense_to_csr M).csr_ind.length ∧
    (dense_to_csr M).nnz = (dense_to_csr M).csr_val.length ∧
    ∀ i, i < M.length →
      (((dense_to_csr M).csr_ind.drop ((dense_to_csr M).csr_ptr.getD i 0)).take
          ((dense_to_csr M).csr_ptr.getD (i + 1) 0
            - (dense_to_csr M).csr_ptr.getD i 0)).Pairwise (· < ·) ∧
      (∀ j, j ∈ ((dense_to_csr M).csr_ind.drop ((dense_to_csr M).csr_ptr.getD i 0)).take
            ((dense_to_csr M).csr_ptr.getD (i + 1) 0 - (dense_to_csr M).csr_ptr.getD i 0)
          ↔ j < (M.headD []).length ∧ (M.getD i []).getD j 0 ≠ 0) ∧
      ((dense_to_csr M).csr_val.drop ((dense_to_csr M).csr_ptr.getD i 0)).take
          ((dense_to_csr M).csr_ptr.getD (i + 1) 0 - (dense_to_csr M).csr_ptr.getD i 0)
        = (((dense_to_csr M).csr_ind.drop ((dense_to_csr M).csr_ptr.getD i 0)).take
            ((dense_to_csr M).csr_ptr.getD (i + 1) 0
              - (dense_to_csr M).csr_ptr.getD i 0)).map
            (fun j => (M.getD i []).getD j 0) := by
  obtain ⟨h1, h2, h3, h4, h5, h6⟩ := csr_rows_inv (M.headD []).length M
  unfold dense_to_csr
  refine ⟨h1, h2, fun i hi => (h6 i hi).1, h3, h4, h5, fun i hi => ?_⟩
  obtain ⟨_, _, a3, a4⟩ := h6 i hi
  rw [a3, a4]
  exact ⟨nonzero_cols_sorted _ _, mem_nonzero_cols _ _, rfl⟩

end C31b

/-- The `DEBUG` matrix, row 1: the slice of `csr_ind` is `[0, 1]`, that of `csr_val` is
`[5, 8]`. -/
theorem dense_to_csr_spec_witness :
    (1 : ℕ) < debug_matrix.length ∧
    (((dense_to_csr debug_matrix).csr_ind.drop
        ((dense_to_csr debug_matrix).csr_ptr.getD 1 0)).take
        ((dense_to_csr debug_matrix).csr_ptr.getD (1 + 1) 0
          - (dense_to_csr debug_matrix).csr_ptr.getD 1 0)).Pairwise (· < ·) :=
  ⟨by decide, ((dense_to_csr_spec debug_matrix).2.2.2.2.2.2 1 (by decide)).1⟩

/-! ## The denominator of the unweighted run -/

section C32a
variable {K : Type} [Field K]

theorem cols_card {n e : ℕ} {csrPtr csrInd : ℕ → ℕ} (H : CSR n e csrPtr csrInd)
    {r : ℕ} (hr : r < n) :
    (cols csrPtr csrInd r).card = csrPtr (r + 1) - csrPtr r := by
  rw [cols, Finset.card_image_of_injOn (csr_ind_injOn H hr), Nat.card_Ico]

/-- The arrays `weight_s` and `weight_i` that `jaccard_jw` reads in an iteration of the
unweighted run, at a stored entry. -/
theorem jaccard_iter_unweighted (sg : SubGroupOps K) (n e : ℕ)
    (csrPtr csrInd : ℕ → ℕ) (csrVal : ℕ → K) (H : CSR n e csrPtr csrInd) (s : JState K)
    (row j : ℕ) (hrow : row < n) (h1 : csrPtr row ≤ j) (h2 : j < csrPtr (row + 1)) :
    (jaccard_iter false sg n e csrPtr csrInd csrVal s).weight_s j
      = ((csrPtr (row + 1) - csrPtr row : ℕ) : K)
        + ((csrPtr (csrInd j + 1) - csrPtr (csrInd j) : ℕ) : K) ∧
    (jaccard_iter false sg n e csrPtr csrInd csrVal s).weight_i j
      = (((cols csrPtr csrInd row ∩ cols csrPtr csrInd (csrInd j)).card : ℕ) : K) := by
  have hje : j < e := csr_entry_lt H hrow h2
  have hcol : csrInd j < n := H.2.2.2.2 j hje
  obtain ⟨a1, a2⟩ := (jaccard_is_spec false n e csrPtr csrInd
    (fill_weights false e 1 s.weight_j)
    (jaccard_row_sum false sg n csrPtr csrInd (fill_weights false e 1 s.weight_j)
      s.work) H
    { weight_i := fill_weights false e 0 s.weight_i, weight_s := s.weight_s } n
    (le_refl n)).1 row j hrow h1 h2
  have hz : fill_weights false e (0 : K) s.weight_i j = 0 := by
    simp [fill_weights, hje]
  simp only [hz, zero_add] at a2
  have e1 := row_length_eq (K := K) H hrow
  have e2 := row_length_eq (K := K) H hcol
  rw [Finset.sum_const, nsmul_eq_mul, mul_one, cols_card H hrow] at e1
  rw [Finset.sum_const, nsmul_eq_mul, mul_one, cols_card H hcol] at e2
  simp only [jaccard_row_sum, if_pos hrow, if_pos hcol, Bool.false_eq_true, if_false] at a1
  rw [e1, e2] at a1
  simp only [Bool.false_eq_true, if_false, Finset.sum_const, nsmul_eq_mul, mul_one] at a2
  simp only [jaccard_iter]
  unfold jaccard_is
  exact ⟨a1, a2⟩

end C32a

section C32
variable {K : Type} [LinearOrderedField K]

/-- C32. In every iteration of the unweighted run on a CSR matrix with strictly increasing
column indices per row, all below the row count, for every stored entry `j` of a row `row`
with `col = csrInd[j]`: `Ws = weight_s[j] = Ni + Nj`, the two row lengths,
`Wi = weight_i[j]` is the number of columns present in both rows, at most `min(Ni, Nj)`,
`Ni >= 1`, and `Ws - Wi >= 1`, so the denominator of `jaccard_jw` is not zero. -/
theorem jaccard_jw_denominator (sg : SubGroupOps K) (n e : ℕ)
    (csrPtr csrInd : ℕ → ℕ) (csrVal : ℕ → K) (H : CSR n e csrPtr csrInd) (s : JState K)
    (row j : ℕ) (hrow : row < n) (h1 : csrPtr row ≤ j) (h2 : j < csrPtr (row + 1)) :
    (jaccard_iter false sg n e csrPtr csrInd csrVal s).weight_s j
      = ((csrPtr (row + 1) - csrPtr row : ℕ) : K)
        + ((csrPtr (csrInd j + 1) - csrPtr (csrInd j) : ℕ) : K) ∧
    (jaccard_iter false sg n e csrPtr csrInd csrVal s).weight_i j
      = (((cols csrPtr csrInd row ∩ cols csrPtr csrInd (csrInd j)).card : ℕ) : K) ∧
    (cols csrPtr csrInd row ∩ cols csrPtr csrInd (csrInd j)).card
      ≤ min (csrPtr (row + 1) - csrPtr row) (csrPtr (csrInd j + 1) - csrPtr (csrInd j)) ∧
    1 ≤ csrPtr (row + 1) - csrPtr row ∧
    1 ≤ (jaccard_iter false sg n e csrPtr csrInd csrVal s).weight_s j
        - (jaccard_iter false sg n e csrPtr csrInd csrVal s).weight_i j ∧
    (jaccard_iter false sg n e csrPtr csrInd csrVal s).weight_s j
        - (jaccard_iter false sg n e csrPtr csrInd csrVal s).weight_i j ≠ 0 := by
  have hje : j < e := csr_entry_lt H hrow h2
  have hcol : csrInd j < n := H.2.2.2.2 j hje
  obtain ⟨a1, a2⟩ := jaccard_iter_unweighted sg n e csrPtr csrInd csrVal H s row j hrow h1 h2
  have c1 := cols_card H hrow
  have c2 := cols_card H hcol
  have hi1 : (cols csrPtr csrInd row ∩ cols csrPtr csrInd (csrInd j)).card
      ≤ (cols csrPtr csrInd row).card := Finset.card_le_card Finset.inter_subset_left
  have hi2 : (cols csrPtr csrInd row ∩ cols csrPtr csrInd (csrInd j)).card
      ≤ (cols csrPtr csrInd (csrInd j)).card := Finset.card_le_card Finset.inter_subset_right
  have hge : (1 : K) ≤ (jaccard_iter false sg n e csrPtr csrInd csrVal s).weight_s j
      - (jaccard_iter false sg n e csrPtr csrInd csrVal s).weight_i j := by
    rw [a1, a2]
    have hnat : 1 + (cols csrPtr csrInd row ∩ cols csrPtr csrInd (csrInd j)).card
        ≤ (csrPtr (row + 1) - csrPtr row)
          + (csrPtr (csrInd j + 1) - csrPtr (csrInd j)) := by omega
    have hK : ((1 + (cols csrPtr csrInd row ∩ cols csrPtr csrInd (csrInd j)).card : ℕ) : K)
        ≤ (((csrPtr (row + 1) - csrPtr row)
          + (csrPtr (csrInd j + 1) - csrPtr (csrInd j)) : ℕ) : K) := Nat.cast_le.2 hnat
    push_cast at hK
    linarith
  refine ⟨a1, a2, le_min (by omega) (by omega), by omega, hge, ?_⟩
  intro h0
  rw [h0] at hge
  exact absurd hge (by norm_num)

end C32

theorem jaccard_jw_denominator_witness :
    CSR 4 6 (fun i => [0, 1, 3, 4, 6].getD i 0) (fun i => [3, 0, 1, 2, 1, 3].getD i 0) ∧
    (jaccard_iter false (⟨fun x id _ => x id, fun x d l => x (l - d)⟩ : SubGroupOps ℚ) 4 6
        (fun i => [0, 1, 3, 4, 6].getD i 0)
        (fun i => [3, 0, 1, 2, 1, 3].getD i 0) (fun i => ([1, 5, 8, 3, 6, 1] : List ℚ).getD i 0)
        { weight_j := fun _ => 0, weight_i := fun _ => 0, weight_s := fun _ => 0,
          work := fun _ => 0 }).weight_s 4
      - (jaccard_iter false (⟨fun x id _ => x id, fun x d l => x (l - d)⟩ : SubGroupOps ℚ) 4 6
        (fun i => [0, 1, 3, 4, 6].getD i 0)
        (fun i => [3, 0, 1, 2, 1, 3].getD i 0) (fun i => ([1, 5, 8, 3, 6, 1] : List ℚ).getD i 0)
        { weight_j := fun _ => 0, weight_i := fun _ => 0, weight_s := fun _ => 0,
          work := fun _ => 0 }).weight_i 4 ≠ 0 :=
  ⟨debug_is_csr,
    (jaccard_jw_denominator (⟨fun x id _ => x id, fun x d l => x (l - d)⟩ : SubGroupOps ℚ) 4 6
      _ _ _ debug_is_csr _ 3 4 (by norm_num)
      (by simp) (by simp)).2.2.2.2.2⟩

end Jaccard

namespace Cbsfil

/-! ## The largest power of two dividing `n` -/

theorem land_cast (m d : ℕ) : Int.land (m : ℤ) (d : ℤ) = ((m &&& d : ℕ) : ℤ) := rfl

theorem land_two_pow_eq_zero (m k : ℕ) : m &&& 2 ^ k = 0 ↔ m / 2 ^ k % 2 = 0 := by
  rw [Nat.land_comm, Nat.two_pow_and, Nat.testBit_to_div_mod]
  have hp : 0 < 2 ^ k := by positivity
  by_cases h : m / 2 ^ k % 2 = 1
  · simp [h]
  · simp [h]
    omega

/-- Bit `k` of a multiple of `2^k`: clear exactly when `2^(k+1)` divides it. -/
theorem bit_clear_iff (m k : ℕ) (hd : 2 ^ k ∣ m) :
    m / 2 ^ k % 2 = 0 ↔ 2 ^ (k + 1) ∣ m := by
  obtain ⟨q, rfl⟩ := hd
  have hp : 0 < 2 ^ k := by positivity
  rw [Nat.mul_div_cancel_left _ hp, pow_succ]
  constructor
  · intro h
    obtain ⟨r, hr⟩ : 2 ∣ q := Nat.dvd_of_mod_eq_zero h
    exact ⟨r, by rw [hr]; ring⟩
  · rintro ⟨r, hr⟩
    have : q = 2 * r := by
      have h2 : 2 ^ k * q = 2 ^ k * (2 * r) := by rw [hr]; ring
      exact Nat.eq_of_mul_eq_mul_left hp h2
    omega

/-- The loop started at `divider = 2^k`, a divisor of `m`, with enough fuel. -/
theorem loop_spec (fuel k m : ℕ) (hm : 0 < m) (hlt : m < 2 ^ 31) (hd : 2 ^ k ∣ m)
    (hf : 31 ≤ fuel + k) :
    ∃ k', k ≤ k' ∧ PowTwoDivider_loop fuel (m : ℤ) ((2 ^ k : ℕ) : ℤ)
        = Outcome.ret ((2 ^ k' : ℕ) : ℤ) ∧
      2 ^ k' ∣ m ∧ ¬ 2 ^ (k' + 1) ∣ m := by
  induction fuel generalizing k with
  | zero =>
    exfalso
    have h1 : 2 ^ k ≤ m := Nat.le_of_dvd hm hd
    have h2 : 2 ^ 31 ≤ 2 ^ k := Nat.pow_le_pow_right (by decide) (by omega)
    omega
  | succ fuel ih =>
    rw [PowTwoDivider_loop, land_cast]
    by_cases hb : m &&& 2 ^ k = 0
    · have hd' : 2 ^ (k + 1) ∣ m :=
        (bit_clear_iff m k hd).1 ((land_two_pow_eq_zero m k).1 hb)
      have hle : 2 ^ (k + 1) ≤ m := Nat.le_of_dvd hm hd'
      have e2 : (2 : ℤ) * ((2 ^ k : ℕ) : ℤ) = ((2 ^ (k + 1) : ℕ) : ℤ) := by
        push_cast
        ring
      have hr : -(2 ^ 31) ≤ (2 : ℤ) * ((2 ^ k : ℕ) : ℤ) ∧
          (2 : ℤ) * ((2 ^ k : ℕ) : ℤ) < 2 ^ 31 := by
        rw [e2]
        constructor
        · have : (0 : ℤ) ≤ ((2 ^ (k + 1) : ℕ) : ℤ) := Int.natCast_nonneg _
          omega
        · have : ((2 ^ (k + 1) : ℕ) : ℤ) < ((2 ^ 31 : ℕ) : ℤ) := by
            exact_mod_cast (show 2 ^ (k + 1) < 2 ^ 31 by omega)
          simpa using this
      rw [hb, if_pos (by simp), if_pos hr, e2]
      obtain ⟨k', h1, h2, h3, h4⟩ := ih (k + 1) hd' (by omega)
      exact ⟨k', by omega, h2, h3, h4⟩
    · have hne : ((m &&& 2 ^ k : ℕ) : ℤ) ≠ 0 := by exact_mod_cast hb
      rw [if_neg hne]
      refine ⟨k, le_refl _, rfl, hd, ?_⟩
      intro hd'
      exact hb ((land_two_pow_eq_zero m k).2 ((bit_clear_iff m k hd).2 hd'))

/-- `PowTwoDivider` on `0 < n < 2^31`, with the naturals of the proof. -/
theorem PowTwoDivider_nat (fuel m : ℕ) (hm : 0 < m) (hlt : m < 2 ^ 31) (hf : 31 ≤ fuel) :
    ∃ k, PowTwoDivider fuel (m : ℤ) = Outcome.ret ((2 ^ k : ℕ) : ℤ) ∧
      2 ^ k ∣ m ∧ m / 2 ^ k % 2 = 1 ∧ ∀ k', 2 ^ k' ∣ m → k' ≤ k := by
  obtain ⟨k, _, h2, h3, h4⟩ := loop_spec fuel 0 m hm hlt (by simp) (by omega)
  refine ⟨k, ?_, h3, ?_, ?_⟩
  · unfold PowTwoDivider
    rw [if_neg (by exact_mod_cast (show m ≠ 0 by omega))]
    simpa using h2
  · have := (bit_clear_iff m k h3).not.2 h4
    omega
  · intro k' hk'
    by_contra hc
    exact h4 (Dvd.dvd.trans (Nat.pow_dvd_pow 2 (show k + 1 ≤ k' by omega)) hk')

/-- C33. `PowTwoDivider(0) = 0`; for every `0 < n < 2^31` the loop ends (31 evaluations of
its condition are enough) without `divider <<= 1` leaving the range of `int`, and returns
`d = 2^k` with `d` dividing `n` and `n / d` odd, the largest power of two dividing `n`;
and for every `0 < h < 2^31` the thread count `min(PowTwoDivider(h), 64)` is a power of
two, at most 64, that divides `h`. -/
theorem PowTwoDivider_spec :
    (∀ fuel, PowTwoDivider fuel 0 = Outcome.ret 0) ∧
    (∀ (fuel : ℕ) (n : ℤ), 0 < n → n < 2 ^ 31 → 31 ≤ fuel →
      ∃ k : ℕ, PowTwoDivider fuel n = Outcome.ret (2 ^ k) ∧
        (2 : ℤ) ^ k ∣ n ∧ n / 2 ^ k % 2 = 1 ∧ ∀ k' : ℕ, (2 : ℤ) ^ k' ∣ n → k' ≤ k) ∧
    (∀ (fuel : ℕ) (h : ℤ), 0 < h → h < 2 ^ 31 → 31 ≤ fuel →
      ∃ k : ℕ, k ≤ 6 ∧ numThreads fuel h = Outcome.ret (2 ^ k) ∧ (2 : ℤ) ^ k ∣ h) := by
  have main : ∀ (fuel : ℕ) (n : ℤ), 0 < n → n < 2 ^ 31 → 31 ≤ fuel →
      ∃ k : ℕ, PowTwoDivider fuel n = Outcome.ret (2 ^ k) ∧
        (2 : ℤ) ^ k ∣ n ∧ n / 2 ^ k % 2 = 1 ∧ ∀ k' : ℕ, (2 : ℤ) ^ k' ∣ n → k' ≤ k := by
    intro fuel n h0 h1 hf
    obtain ⟨m, rfl⟩ : ∃ m : ℕ, n = (m : ℤ) := ⟨n.toNat, by omega⟩
    have hm : 0 < m := by exact_mod_cast h0
    have hlt : m < 2 ^ 31 := by exact_mod_cast h1
    obtain ⟨k, a1, a2, a3, a4⟩ := PowTwoDivider_nat fuel m hm hlt hf
    refine ⟨k, by simpa using a1, by exact_mod_cast a2, by exact_mod_cast a3, ?_⟩
    intro k' hk'
    exact a4 k' (by exact_mod_cast hk')
  refine ⟨fun fuel => by simp [PowTwoDivider], main, ?_⟩
  intro fuel h h0 h1 hf
  obtain ⟨k, a1, a2, _, _⟩ := main fuel h h0 h1 hf
  unfold numThreads
  rw [a1]
  by_cases hk : k ≤ 6
  · refine ⟨k, hk, ?_, a2⟩
    have : (2 : ℤ) ^ k ≤ 2 ^ 6 := pow_le_pow_right₀ (by norm_num) hk
    simp only
    rw [min_eq_left (by norm_num at this ⊢; exact this)]
  · refine ⟨6, le_refl _, ?_, Dvd.dvd.trans (pow_dvd_pow 2 (by omega)) a2⟩
    have : (2 : ℤ) ^ 6 ≤ 2 ^ k := pow_le_pow_right₀ (by norm_num) (by omega)
    simp only
    rw [min_eq_right (by norm_num at this ⊢; exact this)]
    norm_num

theorem PowTwoDivider_spec_witness :
    (0 : ℤ) < 12 ∧ (12 : ℤ) < 2 ^ 31 ∧ 31 ≤ 31 ∧
    (∃ k : ℕ, PowTwoDivider 31 12 = Outcome.ret (2 ^ k) ∧
      (2 : ℤ) ^ k ∣ 12 ∧ (12 : ℤ) / 2 ^ k % 2 = 1 ∧ ∀ k' : ℕ, (2 : ℤ) ^ k' ∣ 12 → k' ≤ k) ∧
    PowTwoDivider 31 12 = Outcome.ret 4 ∧ numThreads 31 192 = Outcome.ret 64 :=
  ⟨by norm_num, by norm_num, le_refl _,
    PowTwoDivider_spec.2.1 31 12 (by norm_num) (by norm_num) (le_refl _),
    by decide, by decide⟩

end Cbsfil
